import Mathlib

/-!
# libquantum: sparse quantum register and gate kernels

A shallow embedding of `qcomplex.h`, `qureg.c` and `gates.c`.

Conventions of the embedding.

* `COMPLEX_FLOAT` is `Cplx R`, a pair of reals over an arbitrary linearly
  ordered field `R` (exact arithmetic); `R = ℚ` makes every definition
  executable.
* `MAX_UNSIGNED` (64-bit unsigned) values are natural numbers; operations
  that can leave the 64-bit range are reduced modulo `2^64` explicitly.
* C `int` sizes, positions and loop counters are natural numbers (signed
  overflow is undefined in C); where the source converts a 64-bit value to
  `int` the conversion is modelled explicitly (`toInt32`).
* A C array together with its element count is a list plus the `size` field;
  reads outside the list give `0`, writes outside the list are dropped.
  Theorems are stated for registers whose arrays hold `size` elements.
* Code that can fail or spin (hash insertion into a full table, probing a full
  table) returns `Option`.
* The collaborators outside the three source files (QEC, object-code recorder,
  decoherence, `libm`) are the fields of `Env`.
-/

namespace Libquantum

/-! ## Complex arithmetic surface (`qcomplex.h`) -/

/-- A complex number with real and imaginary part in `R` (`COMPLEX_FLOAT`). -/
structure Cplx (R : Type) where
  re : R
  im : R
deriving DecidableEq

namespace Cplx

variable {R : Type} [LinearOrderedField R]

instance instZero : Zero (Cplx R) := ⟨⟨0, 0⟩⟩
instance instOne : One (Cplx R) := ⟨⟨1, 0⟩⟩
instance instAdd : Add (Cplx R) := ⟨fun a b => ⟨a.re + b.re, a.im + b.im⟩⟩
instance instNeg : Neg (Cplx R) := ⟨fun a => ⟨-a.re, -a.im⟩⟩
instance instSub : Sub (Cplx R) := ⟨fun a b => ⟨a.re - b.re, a.im - b.im⟩⟩
instance instMul : Mul (Cplx R) :=
  ⟨fun a b => ⟨a.re * b.re - a.im * b.im, a.re * b.im + a.im * b.re⟩⟩

/-- The imaginary unit (`IMAGINARY`). -/
def I : Cplx R := ⟨0, 1⟩

/-- A real number as a complex number (the implicit conversion of C). -/
def ofReal (r : R) : Cplx R := ⟨r, 0⟩

/-- Complex conjugate (`quantum_conj`). -/
def conj (a : Cplx R) : Cplx R := ⟨a.re, -a.im⟩

/-- The squared modulus of a complex number (`quantum_prob_inline`). -/
def prob (a : Cplx R) : R := a.re * a.re + a.im * a.im

/-- Complex division by a real number, as C computes `z / r`. -/
def divReal (a : Cplx R) (r : R) : Cplx R := ⟨a.re / r, a.im / r⟩

instance instInv : Inv (Cplx R) :=
  ⟨fun a => ⟨a.re / prob a, -a.im / prob a⟩⟩
instance instDiv : Div (Cplx R) := ⟨fun a b => a * b⁻¹⟩

end Cplx

/-! ## Registers (`qureg.h`, `qureg.c`) -/

/-- The register `quantum_reg`: `state` is the label array (`none` is the null
pointer of a dense register), `hash` the table of 1-based positions. -/
structure quantum_reg (R : Type) where
  width : Nat
  size : Nat
  hashw : Nat
  amplitude : List (Cplx R)
  state : Option (List Nat)
  hash : List Nat

/-- A 2x2 or 4x4 gate matrix or a column vector (`quantum_matrix`), row-major
in `t`. -/
structure quantum_matrix (R : Type) where
  rows : Nat
  cols : Nat
  t : List (Cplx R)

/-- The opcodes of the object-code recorder. -/
inductive Opcode where
  | INIT | CNOT | TOFFOLI | SIGMA_X | SIGMA_Y | SIGMA_Z | HADAMARD
  | ROT_X | ROT_Y | ROT_Z | PHASE_KICK | PHASE_SCALE | COND_PHASE
  | SWAPLEADS
deriving DecidableEq

/-- One call of `quantum_objcode_put`: the opcode with its integer and real
arguments. -/
structure ObjRecord (R : Type) where
  opcode : Opcode
  iargs : List Nat
  fargs : List R

/-- A register together with the log of the object-code recorder. -/
structure World (R : Type) where
  reg : quantum_reg R
  objcode : List (ObjRecord R)

/-- The collaborators and constants that live outside the three source files. -/
structure Env (R : Type) where
  /-- Result of `quantum_qec_get_status`: is error correction switched on. -/
  qec : Bool
  /-- Result of `quantum_objcode_put`: does the recorder handle the call. -/
  handled : Bool
  /-- The hook `quantum_decohere`, called at the end of a gate. -/
  decohere : quantum_reg R → quantum_reg R
  /-- The fault-tolerant gate `quantum_cnot_ft`. -/
  cnot_ft : Nat → Nat → World R → World R
  /-- The fault-tolerant gate `quantum_toffoli_ft`. -/
  toffoli_ft : Nat → Nat → Nat → World R → World R
  /-- The fault-tolerant gate `quantum_sigma_x_ft`. -/
  sigma_x_ft : Nat → World R → World R
  /-- The constant `epsilon` of `defs.h`. -/
  epsilon : R
  /-- The function `sqrt` of `libm`. -/
  sqrt : R → R
  /-- The conversion `(float)` of a `double` to single precision. -/
  toFloat : R → R
  /-- The seed of the hash index: the slot at which probing for a label
  starts, before reduction modulo the table length. -/
  seed : Nat → Nat

variable {R : Type} [LinearOrderedField R]

/-- A counted loop `for (i = 0; i < n; i++) s = body i s`. -/
def forLoop {σ : Type} (n : Nat) (body : Nat → σ → σ) (s : σ) : σ :=
  match n with
  | 0 => s
  | k + 1 => body k (forLoop k body s)

/-- A counted loop whose body can fail. -/
def forLoopM {σ : Type} (n : Nat) (body : Nat → σ → Option σ) (s : σ) : Option σ :=
  match n with
  | 0 => some s
  | k + 1 => (forLoopM k body s).bind (body k)

/-- The 64-bit value `(MAX_UNSIGNED) 1 << k`. -/
def shl1 (k : Nat) : Nat := (1 <<< k) % 2 ^ 64

/-- Conversion of a value to C `int`: reduction modulo `2^32` into the range
`-2^31 .. 2^31 - 1` (the identity on values in range). -/
def toInt32 (x : Int) : Int := (x + 2 ^ 31) % 2 ^ 32 - 2 ^ 31

/-- Conversion of a C `int` to `MAX_UNSIGNED`: reduction modulo `2^64`. -/
def toU64 (x : Int) : Nat := (x % 2 ^ 64).toNat

/-- The `int` expression `1 << k` used as a number of cells: `2^k` for
`k <= 30`; beyond, the shift does not fit an `int`, the value is taken through
the conversion to `int` and a negative number gives no cells. -/
@[irreducible]
def shlInt (k : Nat) : Nat := (toInt32 ((1 <<< k : Nat) : Int)).toNat

namespace quantum_reg

/-- The label `reg->state[i]`. -/
def label (reg : quantum_reg R) (i : Nat) : Nat :=
  (reg.state.getD []).getD i 0

/-- The amplitude `reg->amplitude[i]`. -/
def amp (reg : quantum_reg R) (i : Nat) : Cplx R :=
  reg.amplitude.getD i 0

/-- The assignment `reg->state[i] = x`. -/
def setLabel (reg : quantum_reg R) (i : Nat) (x : Nat) : quantum_reg R :=
  { reg with state := reg.state.map (fun st => st.set i x) }

/-- The assignment `reg->amplitude[i] = z`. -/
def setAmp (reg : quantum_reg R) (i : Nat) (z : Cplx R) : quantum_reg R :=
  { reg with amplitude := reg.amplitude.set i z }

/-- The test `reg->state[i] & ((MAX_UNSIGNED) 1 << k)` of the gates. -/
def bitSet (reg : quantum_reg R) (i k : Nat) : Bool :=
  decide (reg.label i &&& shl1 k ≠ 0)

/-- The variable `int iset` of `quantum_gate1`: the 64-bit value
`reg->state[i] & ((MAX_UNSIGNED) 1 << k)` converted to `int`, tested for being
non-zero. -/
def isetInt (reg : quantum_reg R) (i k : Nat) : Bool :=
  decide (toInt32 ((reg.label i &&& shl1 k : Nat) : Int) ≠ 0)

end quantum_reg

/-- Modelled from the spec: quantum_objcode_put of the recorder (objcode.c is
not among the sources) logs the gate call and answers whether it handled
it. -/
def quantum_objcode_put (env : Env R) (op : Opcode) (iargs : List Nat)
    (fargs : List R) (w : World R) : Bool × World R :=
  (env.handled, { w with objcode := w.objcode ++ [⟨op, iargs, fargs⟩] })

/-- Create a new quantum register from scratch (`quantum_new_qureg`). -/
def quantum_new_qureg (env : Env R) (initval : Nat) (width : Nat)
    (log : List (ObjRecord R)) : World R :=
  let reg : quantum_reg R :=
    { width := width
      size := 1
      hashw := width + 2
      amplitude := (List.replicate 1 0).set 0 1
      state := some ((List.replicate 1 0).set 0 initval)
      hash := List.replicate (shlInt (width + 2)) 0 }
  (quantum_objcode_put env Opcode.INIT [initval] [] ⟨reg, log⟩).2

/-! ## Label-permuting gates (`gates.c`) -/

/-- Apply a controlled-not gate (`quantum_cnot`). -/
def quantum_cnot (env : Env R) (control target : Nat) (w : World R) : World R :=
  if env.qec then env.cnot_ft control target w
  else
    let p := quantum_objcode_put env Opcode.CNOT [control, target] [] w
    if p.1 then p.2
    else
      { p.2 with reg := env.decohere (forLoop p.2.reg.size (fun i r =>
          if r.bitSet i control then r.setLabel i (r.label i ^^^ shl1 target)
          else r) p.2.reg) }

/-- Apply a toffoli gate (`quantum_toffoli`). -/
def quantum_toffoli (env : Env R) (control1 control2 target : Nat) (w : World R) :
    World R :=
  if env.qec then env.toffoli_ft control1 control2 target w
  else
    let p := quantum_objcode_put env Opcode.TOFFOLI [control1, control2, target] [] w
    if p.1 then p.2
    else
      { p.2 with reg := env.decohere (forLoop p.2.reg.size (fun i r =>
          if r.bitSet i control1 then
            if r.bitSet i control2 then r.setLabel i (r.label i ^^^ shl1 target)
            else r
          else r) p.2.reg) }

/-- The inner loop of `quantum_unbounded_toffoli`: the first index `j` at which
`j < controlling && (x & 1 << controls[j])` fails. -/
def controlScan (controls : List Nat) (x : Nat) : Nat :=
  match controls with
  | [] => 0
  | c :: cs => if x &&& shl1 c ≠ 0 then 1 + controlScan cs x else 0

/-- Apply an unbounded toffoli gate (`quantum_unbounded_toffoli`); the variadic
arguments are the list of controls followed by the target. -/
def quantum_unbounded_toffoli (env : Env R) (controls : List Nat) (target : Nat)
    (w : World R) : World R :=
  { w with reg := env.decohere (forLoop w.reg.size (fun i r =>
      if controlScan controls (r.label i) = controls.length then
        r.setLabel i (r.label i ^^^ shl1 target)
      else r) w.reg) }

/-- Apply a sigma_x (or not) gate (`quantum_sigma_x`). -/
def quantum_sigma_x (env : Env R) (target : Nat) (w : World R) : World R :=
  if env.qec then env.sigma_x_ft target w
  else
    let p := quantum_objcode_put env Opcode.SIGMA_X [target] [] w
    if p.1 then p.2
    else
      { p.2 with reg := env.decohere (forLoop p.2.reg.size (fun i r =>
          r.setLabel i (r.label i ^^^ shl1 target)) p.2.reg) }

/-- Apply a sigma_y gate (`quantum_sigma_y`). -/
def quantum_sigma_y (env : Env R) (target : Nat) (w : World R) : World R :=
  let p := quantum_objcode_put env Opcode.SIGMA_Y [target] [] w
  if p.1 then p.2
  else
    { p.2 with reg := env.decohere (forLoop p.2.reg.size (fun i r =>
        let r1 := r.setLabel i (r.label i ^^^ shl1 target)
        if r1.bitSet i target then r1.setAmp i (r1.amp i * Cplx.I)
        else r1.setAmp i (r1.amp i * -Cplx.I)) p.2.reg) }

/-- Apply a sigma_z gate (`quantum_sigma_z`). -/
def quantum_sigma_z (env : Env R) (target : Nat) (w : World R) : World R :=
  let p := quantum_objcode_put env Opcode.SIGMA_Z [target] [] w
  if p.1 then p.2
  else
    { p.2 with reg := env.decohere (forLoop p.2.reg.size (fun i r =>
        if r.bitSet i target then r.setAmp i (r.amp i * -1)
        else r) p.2.reg) }

/-- The new label that `quantum_swaptheleads` computes for the label `x`; the
variables `pat1` and `pat2` of the source are of type `int`, `l` is 64-bit
unsigned. -/
def swapLabel (width : Nat) (x : Nat) : Nat :=
  let pat1 : Int := toInt32 ((x % shl1 width : Nat) : Int)
  let pat2 : Int := forLoop width (fun j (pat2 : Int) =>
    toInt32 (((toU64 pat2 + (x &&& shl1 (width + j))) % 2 ^ 64 : Nat) : Int)) 0
  let l : Nat := (x + 2 ^ 64 - toU64 (toInt32 (pat1 + pat2))) % 2 ^ 64
  let l : Nat := (l + toU64 (toInt32 (pat1 * 2 ^ width))) % 2 ^ 64
  let l : Nat := (l + toU64 (pat2 / 2 ^ width)) % 2 ^ 64
  l

/-- Swap the first `width` bits of the quantum register with the next `width`
bits (`quantum_swaptheleads`). The second component of the loop state records
that the function has returned from inside the loop. -/
def quantum_swaptheleads (env : Env R) (width : Nat) (w : World R) : World R :=
  if env.qec then
    forLoop width (fun i w =>
      quantum_cnot env i (width + i)
        (quantum_cnot env (width + i) i (quantum_cnot env i (width + i) w))) w
  else
    (forLoop w.reg.size (fun i (s : World R × Bool) =>
      if s.2 then s
      else
        let p := quantum_objcode_put env Opcode.SWAPLEADS [width] [] s.1
        if p.1 then (p.2, true)
        else
          ({ p.2 with reg := p.2.reg.setLabel i (swapLabel width (p.2.reg.label i)) },
            false)) (w, false)).1

/-! ## Register algebra (`qureg.c`) -/

/-- Modelled from the spec: quantum_new_matrix of matrix.c, which is not among
the sources; a zero-filled matrix with the given numbers of columns and
rows. -/
def quantum_new_matrix (cols rows : Nat) : quantum_matrix R :=
  { rows := rows, cols := cols, t := List.replicate (cols * rows) 0 }

/-- Compute the Kronecker product of two quantum registers
(`quantum_kronecker`). -/
def quantum_kronecker (reg1 reg2 : quantum_reg R) : quantum_reg R :=
  let width := reg1.width + reg2.width
  let size := reg1.size * reg2.size
  let reg : quantum_reg R :=
    { width := width
      size := size
      hashw := width + 2
      amplitude := List.replicate size 0
      state := some (List.replicate size 0)
      hash := List.replicate (shlInt (width + 2)) 0 }
  forLoop reg1.size (fun i r =>
    forLoop reg2.size (fun j r =>
      (r.setLabel (i * reg2.size + j)
        (((reg1.label i <<< reg2.width) % 2 ^ 64) ||| reg2.label j)).setAmp
        (i * reg2.size + j) (reg1.amp i * reg2.amp j)) r) reg

/-- The test of `quantum_state_collapse` that entry `i` survives the
measurement of bit `pos` with result `value`. -/
def collapseKeep (pos : Nat) (value : Int) (x : Nat) : Bool :=
  decide ((x &&& shl1 pos ≠ 0 ∧ value ≠ 0) ∨ (¬ (x &&& shl1 pos ≠ 0) ∧ ¬ (value ≠ 0)))

/-- The mask `rpat` of `quantum_state_collapse` before it is applied: the sum
of `1 << k` for `k < pos`. -/
def collapseRmask (pos : Nat) : Nat :=
  forLoop pos (fun k rpat => (rpat + shl1 k) % 2 ^ 64) 0

/-- The mask `lpat` of `quantum_state_collapse` before it is applied: the sum
of `1 << k` for `k` from 63 down to `pos + 1`. -/
def collapseLmask (pos : Nat) : Nat :=
  forLoop (63 - pos) (fun n lpat => (lpat + shl1 (63 - n)) % 2 ^ 64) 0

/-- Reduce the state vector after measurement or partial trace
(`quantum_state_collapse`). -/
def quantum_state_collapse (env : Env R) (pos : Nat) (value : Int)
    (reg : quantum_reg R) : quantum_reg R :=
  let ds : R × Nat := forLoop reg.size (fun i (ds : R × Nat) =>
    if collapseKeep pos value (reg.label i) then (ds.1 + (reg.amp i).prob, ds.2 + 1)
    else ds) (0, 0)
  let d := ds.1
  let size := ds.2
  let out : quantum_reg R :=
    { width := reg.width - 1
      size := size
      amplitude := List.replicate size 0
      state := some (List.replicate size 0)
      hashw := reg.hashw
      hash := reg.hash }
  (forLoop reg.size (fun i (oj : quantum_reg R × Nat) =>
    if collapseKeep pos value (reg.label i) then
      let rpat := collapseRmask pos &&& reg.label i
      let lpat := collapseLmask pos &&& reg.label i
      ((oj.1.setLabel oj.2 ((lpat >>> 1) ||| rpat)).setAmp oj.2
        ((reg.amp i * 1).divReal (env.toFloat (env.sqrt d))), oj.2 + 1)
    else oj) (out, 0)).1

/-! ## Hash index (`qureg.h`) -/

/-- The next slot of a linear probe in a table of `n` slots, with
wrap-around. -/
def nextSlot (n i : Nat) : Nat := if i + 1 = n then 0 else i + 1

/-- Linear probing for the first empty slot, starting at slot `i`; `none` when
no empty slot is met within `fuel` steps. -/
def hashProbeEmpty (hash : List Nat) (n : Nat) : Nat → Nat → Option Nat
  | 0, _ => none
  | fuel + 1, i =>
    if hash.getD i 0 = 0 then some i
    else hashProbeEmpty hash n fuel (nextSlot n i)

/-- Linear probing for the label `a`, starting at slot `i`: `-1` at the first
empty slot, the stored position minus one at the first slot whose position
references `a`; `none` when neither is met within `fuel` steps. -/
def hashProbeGet (hash state : List Nat) (a n : Nat) : Nat → Nat → Option Int
  | 0, _ => none
  | fuel + 1, i =>
    if hash.getD i 0 = 0 then some (-1)
    else if state.getD (hash.getD i 0 - 1) 0 = a then some ((hash.getD i 0 - 1 : Nat) : Int)
    else hashProbeGet hash state a n fuel (nextSlot n i)

/-- Modelled from the spec: quantum_add_hash of qureg.h, which is not among the
sources; insert position `pos` for the label `a`: start at slot
`seed a mod 2^h`, probe forward to the first empty slot and store `pos + 1`
there. A full table gives `none`. -/
def quantum_add_hash (seed : Nat → Nat) (a pos : Nat) (reg : quantum_reg R) :
    Option (quantum_reg R) :=
  (hashProbeEmpty reg.hash (2 ^ reg.hashw) (2 ^ reg.hashw) (seed a % 2 ^ reg.hashw)).map
    (fun i => { reg with hash := reg.hash.set i (pos + 1) })

/-- Modelled from the spec: quantum_get_state of qureg.h, which is not among
the sources; the position of the label `a`, or `-1` if the probe finds an empty
slot. A probe that never stops gives `none`. -/
def quantum_get_state (seed : Nat → Nat) (a : Nat) (reg : quantum_reg R) : Option Int :=
  hashProbeGet reg.hash (reg.state.getD []) a (2 ^ reg.hashw) (2 ^ reg.hashw)
    (seed a % 2 ^ reg.hashw)

/-- Modelled from the spec: quantum_reconstruct_hash of qureg.h, which is not
among the sources; zero the table and add every entry again, in order. -/
def quantum_reconstruct_hash (seed : Nat → Nat) (reg : quantum_reg R) :
    Option (quantum_reg R) :=
  forLoopM reg.size (fun i r => quantum_add_hash seed (r.label i) i r)
    { reg with hash := List.replicate (2 ^ reg.hashw) 0 }

/-- The hash table construction at the head of `quantum_gate2`: every slot is
set to zero, then every entry is added. -/
def gate2_build_hash (seed : Nat → Nat) (reg : quantum_reg R) : Option (quantum_reg R) :=
  forLoopM reg.size (fun i r => quantum_add_hash seed (r.label i) i r)
    (forLoop (2 ^ reg.hashw) (fun i r => { r with hash := r.hash.set i 0 }) reg)

/-! ## The general one-qubit gate (`gates.c`) -/

/-- The effect of `realloc` to `n` elements on an array: the old contents up to
`n` are kept, cells beyond the old contents hold 0. -/
def realloc {α : Type} [Zero α] (l : List α) (n : Nat) : List α :=
  l.take n ++ List.replicate (n - l.length) 0

/-- The variables of the multiplication loop of `quantum_gate1`: the register,
the array `done`, the cursor `k`, and whether the loop was left by `break`. -/
structure Gate1State (R : Type) where
  reg : quantum_reg R
  done : List Bool
  k : Nat
  brk : Bool

/-- The number of basis states to be added, as `quantum_gate1` counts it: the
entries whose partner label is not found. -/
def gate1_addsize (seed : Nat → Nat) (target : Nat) (reg : quantum_reg R) : Option Nat :=
  forLoopM reg.size (fun i addsize =>
    (quantum_get_state seed (reg.label i ^^^ shl1 target) reg).map (fun j =>
      if j = -1 then addsize + 1 else addsize)) 0

/-- The head of `quantum_gate1` in sparse mode: the hash is reconstructed, the
missing partners are counted and both arrays are enlarged by that count, the
new cells set to zero. -/
def gate1_grow (seed : Nat → Nat) (target : Nat) (reg : quantum_reg R) :
    Option (quantum_reg R × Nat) :=
  (quantum_reconstruct_hash seed reg).bind (fun r =>
    (gate1_addsize seed target r).map (fun addsize =>
      (forLoop addsize (fun i r => (r.setLabel (i + r.size) 0).setAmp (i + r.size) 0)
        { r with
          state := r.state.map (fun st => realloc st (r.size + addsize))
          amplitude := realloc r.amplitude (r.size + addsize) }, addsize)))

/-- One iteration of the multiplication loop of `quantum_gate1`. -/
def gate1_step (seed : Nat → Nat) (target : Nat) (m : quantum_matrix R) (i : Nat)
    (s : Gate1State R) : Option (Gate1State R) :=
  if s.brk then some s
  else if s.done.getD i false then some s
  else
    let iset := s.reg.isetInt i target
    (quantum_get_state seed (s.reg.label i ^^^ shl1 target) s.reg).map (fun j =>
      let tnot : Cplx R := if 0 ≤ j then s.reg.amp j.toNat else 0
      let t := s.reg.amp i
      let r1 :=
        if iset then s.reg.setAmp i (m.t.getD 2 0 * tnot + m.t.getD 3 0 * t)
        else s.reg.setAmp i (m.t.getD 0 0 * t + m.t.getD 1 0 * tnot)
      if 0 ≤ j then
        let r2 :=
          if iset then r1.setAmp j.toNat (m.t.getD 0 0 * tnot + m.t.getD 1 0 * t)
          else r1.setAmp j.toNat (m.t.getD 2 0 * t + m.t.getD 3 0 * tnot)
        { s with reg := r2, done := s.done.set j.toNat true }
      else if m.t.getD 1 0 = 0 ∧ iset = true then { s with reg := r1, brk := true }
      else if m.t.getD 2 0 = 0 ∧ ¬ (iset = true) then { s with reg := r1, brk := true }
      else
        let r2 := r1.setLabel s.k (r1.label i ^^^ shl1 target)
        let r3 :=
          if iset then r2.setAmp s.k (m.t.getD 1 0 * t)
          else r2.setAmp s.k (m.t.getD 2 0 * t)
        { s with reg := r3, k := s.k + 1 })

/-- The register after the multiplication pass of `quantum_gate1`, with the
size already increased by `addsize`. -/
def gate1_pass (seed : Nat → Nat) (target : Nat) (m : quantum_matrix R)
    (reg : quantum_reg R) : Option (quantum_reg R) :=
  (if reg.hashw ≠ 0 then gate1_grow seed target reg else some (reg, 0)).bind (fun ra =>
    (forLoopM ra.1.size (gate1_step seed target m)
      { reg := ra.1
        done := List.replicate (ra.1.size + ra.2) false
        k := ra.1.size
        brk := false }).map (fun s => { s.reg with size := s.reg.size + ra.2 }))

/-- The threshold `limit` of `quantum_gate1`. -/
def gate1_limit (epsilon : R) (width : Nat) : R := (1 / (2 ^ width : R)) * epsilon

/-- The loop of `quantum_gate1` that removes the basis states with small
amplitude: the register, the shift `j` and the count `decsize`. -/
def gate1_compact_loop (limit : R) (reg : quantum_reg R) : quantum_reg R × Nat × Nat :=
  forLoop reg.size (fun i (s : quantum_reg R × Nat × Nat) =>
    if (s.1.amp i).prob < limit then (s.1, s.2.1 + 1, s.2.2 + 1)
    else if s.2.1 ≠ 0 then
      ((s.1.setLabel (i - s.2.1) (s.1.label i)).setAmp (i - s.2.1) (s.1.amp i), s.2.1, s.2.2)
    else s) (reg, 0, 0)

/-- The removal of the basis states with small amplitude at the end of
`quantum_gate1`. -/
def gate1_compact (limit : R) (reg : quantum_reg R) : quantum_reg R :=
  let s := gate1_compact_loop limit reg
  if s.2.2 ≠ 0 then
    { s.1 with
      size := s.1.size - s.2.2
      amplitude := realloc s.1.amplitude (s.1.size - s.2.2)
      state := s.1.state.map (fun st => realloc st (s.1.size - s.2.2)) }
  else s.1

/-- Apply the 2x2 matrix `m` to the target bit (`quantum_gate1`); `none` when
the gate does not return normally (wrong matrix size, full hash table, a probe
that never stops). -/
def quantum_gate1 (env : Env R) (target : Nat) (m : quantum_matrix R)
    (reg : quantum_reg R) : Option (quantum_reg R) :=
  if m.cols ≠ 2 ∨ m.rows ≠ 2 then none
  else
    (gate1_pass env.seed target m reg).map (fun r =>
      env.decohere
        (if reg.hashw ≠ 0 then gate1_compact (gate1_limit env.epsilon reg.width) r else r))

/-- The matrix that `quantum_hadamard` builds. -/
def hadamard_matrix (env : Env R) : quantum_matrix R :=
  let m : quantum_matrix R := quantum_new_matrix 2 2
  { m with
    t := (((m.t.set 0 (Cplx.ofReal (env.sqrt (1 / 2)))).set 1
        (Cplx.ofReal (env.sqrt (1 / 2)))).set 2
        (Cplx.ofReal (env.sqrt (1 / 2)))).set 3
        (Cplx.ofReal (-env.sqrt (1 / 2))) }

/-- Apply a hadamard gate (`quantum_hadamard`). -/
def quantum_hadamard (env : Env R) (target : Nat) (w : World R) : Option (World R) :=
  let p := quantum_objcode_put env Opcode.HADAMARD [target] [] w
  if p.1 then some p.2
  else (quantum_gate1 env target (hadamard_matrix env) p.2.reg).map (fun r =>
    { p.2 with reg := r })

/-! ## Phase gates (`gates.c`) -/

/-- The functions `cos` and `sin` of `libm` and the constant `pi` of
`defs.h`. -/
structure Trig (R : Type) where
  /-- The function `cos` of `libm`. -/
  cos : R → R
  /-- The function `sin` of `libm`. -/
  sin : R → R
  /-- The constant `pi`. -/
  pi : R

/-- Modelled from the spec: quantum_cexp is declared in qcomplex.h and defined
in complex.c, which is not among the sources; `cexp(phi) = cos phi + i sin phi`
(spec 4.1). -/
def quantum_cexp (tr : Trig R) (phi : R) : Cplx R := ⟨tr.cos phi, tr.sin phi⟩

/-- Apply a rotation about the z-axis by the angle `gamma` (`quantum_r_z`). -/
def quantum_r_z (env : Env R) (tr : Trig R) (target : Nat) (gamma : R) (w : World R) :
    World R :=
  let p := quantum_objcode_put env Opcode.ROT_Z [target] [gamma] w
  if p.1 then p.2
  else
    let z := quantum_cexp tr (gamma / 2)
    { p.2 with reg := env.decohere (forLoop p.2.reg.size (fun i r =>
        if r.bitSet i target then r.setAmp i (r.amp i * z)
        else r.setAmp i (r.amp i / z)) p.2.reg) }

/-- Scale the phase of qubit (`quantum_phase_scale`). -/
def quantum_phase_scale (env : Env R) (tr : Trig R) (target : Nat) (gamma : R)
    (w : World R) : World R :=
  let p := quantum_objcode_put env Opcode.PHASE_SCALE [target] [gamma] w
  if p.1 then p.2
  else
    let z := quantum_cexp tr gamma
    { p.2 with reg := env.decohere (forLoop p.2.reg.size (fun i r =>
        r.setAmp i (r.amp i * z)) p.2.reg) }

/-- Apply a phase kick by the angle `gamma` (`quantum_phase_kick`). -/
def quantum_phase_kick (env : Env R) (tr : Trig R) (target : Nat) (gamma : R)
    (w : World R) : World R :=
  let p := quantum_objcode_put env Opcode.PHASE_KICK [target] [gamma] w
  if p.1 then p.2
  else
    let z := quantum_cexp tr gamma
    { p.2 with reg := env.decohere (forLoop p.2.reg.size (fun i r =>
        if r.bitSet i target then r.setAmp i (r.amp i * z) else r) p.2.reg) }

/-- Apply a conditional phase shift by `pi / 2^(control - target)`
(`quantum_cond_phase`). The shift count `control - target` is an `int` in the
source and must not be negative there; the divisor is the 64-bit value
`1 << (control - target)` converted to a real. -/
def quantum_cond_phase (env : Env R) (tr : Trig R) (control target : Nat) (w : World R) :
    World R :=
  let p := quantum_objcode_put env Opcode.COND_PHASE [control, target] [] w
  if p.1 then p.2
  else
    let z := quantum_cexp tr (tr.pi / ((shl1 (control - target) : Nat) : R))
    { p.2 with reg := env.decohere (forLoop p.2.reg.size (fun i r =>
        if r.bitSet i control then
          if r.bitSet i target then r.setAmp i (r.amp i * z) else r
        else r) p.2.reg) }

/-- Apply a conditional phase kick by the angle `gamma`
(`quantum_cond_phase_kick`). -/
def quantum_cond_phase_kick (env : Env R) (tr : Trig R) (control target : Nat) (gamma : R)
    (w : World R) : World R :=
  let p := quantum_objcode_put env Opcode.COND_PHASE [control, target] [gamma] w
  if p.1 then p.2
  else
    let z := quantum_cexp tr gamma
    { p.2 with reg := env.decohere (forLoop p.2.reg.size (fun i r =>
        if r.bitSet i control then
          if r.bitSet i target then r.setAmp i (r.amp i * z) else r
        else r) p.2.reg) }

/-- Apply a conditional phase shift by the angle `gamma`
(`quantum_cond_phase_shift`). -/
def quantum_cond_phase_shift (env : Env R) (tr : Trig R) (control target : Nat) (gamma : R)
    (w : World R) : World R :=
  let p := quantum_objcode_put env Opcode.COND_PHASE [control, target] [gamma] w
  if p.1 then p.2
  else
    let z := quantum_cexp tr (gamma / 2)
    { p.2 with reg := env.decohere (forLoop p.2.reg.size (fun i r =>
        if r.bitSet i control then
          if r.bitSet i target then r.setAmp i (r.amp i * z)
          else r.setAmp i (r.amp i / z)
        else r) p.2.reg) }

/-- Apply a walsh-hadamard transform (`quantum_walsh`). -/
def quantum_walsh (env : Env R) (width : Nat) (w : World R) : Option (World R) :=
  forLoopM width (fun i w => quantum_hadamard env i w) w

/-! ## Vector sum and dot product (`qureg.c`) -/

/-- Returns an empty sparse quantum register of size `n`
(`quantum_new_qureg_sparse`). -/
def quantum_new_qureg_sparse (n width : Nat) : quantum_reg R :=
  { width := width
    size := n
    hashw := 0
    hash := []
    amplitude := List.replicate n 0
    state := some (List.replicate n 0) }

/-- Copy the contents of a register (`quantum_copy_qureg`): fresh arrays with
the first `size` amplitudes and labels, and a fresh zeroed hash table if the
register has one. -/
def quantum_copy_qureg (src : quantum_reg R) : quantum_reg R :=
  { src with
    amplitude := realloc src.amplitude src.size
    state := src.state.map (fun st => realloc st src.size)
    hash := if src.hashw ≠ 0 then List.replicate (2 ^ src.hashw) 0 else src.hash }

/-- The number of additional basis states, as `quantum_vectoradd` and
`quantum_vectoradd_inplace` count it: the entries of `reg2` whose label is not
found in `reg1`. -/
def vectoradd_addsize (seed : Nat → Nat) (reg1 reg2 : quantum_reg R) : Option Nat :=
  forLoopM reg2.size (fun i addsize =>
    (quantum_get_state seed (reg2.label i) reg1).map (fun j =>
      if j = -1 then addsize + 1 else addsize)) 0

/-- Vector addition of two quantum registers (`quantum_vectoradd`). The result
is the pair of `reg1` after the call (its hash may have been reconstructed) and
the register returned. -/
def quantum_vectoradd (seed : Nat → Nat) (reg1 reg2 : quantum_reg R) :
    Option (quantum_reg R × quantum_reg R) :=
  (if reg1.hashw ≠ 0 ∨ reg2.hashw ≠ 0 then
    (quantum_reconstruct_hash seed reg1).bind (fun r1 =>
      (vectoradd_addsize seed r1 reg2).map (fun addsize =>
        (r1, quantum_copy_qureg r1, addsize)))
   else some (reg1, quantum_copy_qureg reg1, 0)).bind (fun s =>
    let reg1 := s.1
    let addsize := s.2.2
    let reg : quantum_reg R :=
      if addsize ≠ 0 then
        { s.2.1 with
          size := s.2.1.size + addsize
          amplitude := realloc s.2.1.amplitude (s.2.1.size + addsize)
          state := s.2.1.state.map (fun st => realloc st (s.2.1.size + addsize)) }
      else s.2.1
    if reg2.state.isNone then
      some (reg1, forLoop reg2.size (fun i r => r.setAmp i (r.amp i + reg2.amp i)) reg)
    else
      (forLoopM reg2.size (fun i (rk : quantum_reg R × Nat) =>
        (quantum_get_state seed (reg2.label i) reg1).map (fun j =>
          if 0 ≤ j then (rk.1.setAmp j.toNat (rk.1.amp j.toNat + reg2.amp i), rk.2)
          else
            ((rk.1.setLabel rk.2 (reg2.label i)).setAmp rk.2 (reg2.amp i), rk.2 + 1)))
        (reg, reg1.size)).map (fun rk => (reg1, rk.1)))

/-- Vector addition with the result stored in the first register
(`quantum_vectoradd_inplace`); the result is `reg1` after the call. -/
def quantum_vectoradd_inplace (seed : Nat → Nat) (reg1 reg2 : quantum_reg R) :
    Option (quantum_reg R) :=
  (if reg1.hashw ≠ 0 ∨ reg2.hashw ≠ 0 then
    (quantum_reconstruct_hash seed reg1).bind (fun r1 =>
      (vectoradd_addsize seed r1 reg2).map (fun addsize => (r1, addsize)))
   else some (reg1, 0)).bind (fun s =>
    let addsize := s.2
    let reg1 : quantum_reg R :=
      if addsize ≠ 0 then
        { s.1 with
          amplitude := realloc s.1.amplitude (s.1.size + addsize)
          state := s.1.state.map (fun st => realloc st (s.1.size + addsize)) }
      else s.1
    if reg2.state.isNone then
      some (forLoop reg2.size (fun i r => r.setAmp i (r.amp i + reg2.amp i)) reg1)
    else
      (forLoopM reg2.size (fun i (rk : quantum_reg R × Nat) =>
        (quantum_get_state seed (reg2.label i) rk.1).map (fun j =>
          if 0 ≤ j then (rk.1.setAmp j.toNat (rk.1.amp j.toNat + reg2.amp i), rk.2)
          else
            ((rk.1.setLabel rk.2 (reg2.label i)).setAmp rk.2 (reg2.amp i), rk.2 + 1)))
        (reg1, reg1.size)).map (fun rk => { rk.1 with size := rk.1.size + addsize }))

/-- Compute the dot product of two quantum registers
(`quantum_dot_product`). -/
def quantum_dot_product (seed : Nat → Nat) (reg1 reg2 : quantum_reg R) :
    Option (Cplx R) :=
  (if reg2.hashw ≠ 0 then quantum_reconstruct_hash seed reg2 else some reg2).bind
    (fun reg2 =>
      if reg1.state.isSome then
        forLoopM reg1.size (fun i f =>
          (quantum_get_state seed (reg1.label i) reg2).map (fun j =>
            if -1 < j then f + (reg1.amp i).conj * reg2.amp j.toNat else f)) 0
      else
        forLoopM reg1.size (fun i f =>
          (quantum_get_state seed i reg2).map (fun j =>
            if -1 < j then f + (reg1.amp i).conj * reg2.amp j.toNat else f)) 0)

/-! ## Rotations, the gate counter and the dense conversion -/

/-- Apply a rotation about the x-axis by the angle `gamma` (`quantum_r_x`). -/
def quantum_r_x (env : Env R) (tr : Trig R) (target : Nat) (gamma : R) (w : World R) :
    Option (World R) :=
  let p := quantum_objcode_put env Opcode.ROT_X [target] [gamma] w
  if p.1 then some p.2
  else
    let m : quantum_matrix R := quantum_new_matrix 2 2
    (quantum_gate1 env target
      { m with
        t := (((m.t.set 0 (Cplx.ofReal (tr.cos (gamma / 2)))).set 1
            (-Cplx.I * Cplx.ofReal (tr.sin (gamma / 2)))).set 2
            (-Cplx.I * Cplx.ofReal (tr.sin (gamma / 2)))).set 3
            (Cplx.ofReal (tr.cos (gamma / 2))) } p.2.reg).map (fun r =>
      { p.2 with reg := r })

/-- Apply a rotation about the y-axis by the angle `gamma` (`quantum_r_y`). -/
def quantum_r_y (env : Env R) (tr : Trig R) (target : Nat) (gamma : R) (w : World R) :
    Option (World R) :=
  let p := quantum_objcode_put env Opcode.ROT_Y [target] [gamma] w
  if p.1 then some p.2
  else
    let m : quantum_matrix R := quantum_new_matrix 2 2
    (quantum_gate1 env target
      { m with
        t := (((m.t.set 0 (Cplx.ofReal (tr.cos (gamma / 2)))).set 1
            (Cplx.ofReal (-tr.sin (gamma / 2)))).set 2
            (Cplx.ofReal (tr.sin (gamma / 2)))).set 3
            (Cplx.ofReal (tr.cos (gamma / 2))) } p.2.reg).map (fun r =>
      { p.2 with reg := r })

/-- Increase the gate counter by `inc` steps or reset it if `inc < 0`
(`quantum_gate_counter`). The static variable `counter` is the second argument;
the result is the new value of the variable and the value returned. The sum is
converted to `int`. -/
def quantum_gate_counter (inc : Int) (counter : Int) : Int × Int :=
  let counter := if inc > 0 then toInt32 (counter + inc) else if inc < 0 then 0 else counter
  (counter, counter)

/-- The gate counter after a sequence of calls, starting from the initial
value 0 of the static variable. -/
def gateCounterRun (incs : List Int) : Int :=
  incs.foldl (fun counter inc => (quantum_gate_counter inc counter).1) 0

/-- Convert a vector to a quantum register (`quantum_matrix2qureg`); `none`
is the error raised for a matrix with more than one column. -/
def quantum_matrix2qureg (m : quantum_matrix R) (width : Nat) : Option (quantum_reg R) :=
  if m.cols ≠ 1 then none
  else
    let size := forLoop m.rows (fun i (size : Nat) =>
      if m.t.getD i 0 ≠ 0 then size + 1 else size) 0
    let reg : quantum_reg R :=
      { width := width
        size := size
        hashw := width + 2
        amplitude := List.replicate size 0
        state := some (List.replicate size 0)
        hash := List.replicate (shlInt (width + 2)) 0 }
    some (forLoop m.rows (fun i (rj : quantum_reg R × Nat) =>
      if m.t.getD i 0 ≠ 0 then
        ((rj.1.setLabel rj.2 i).setAmp rj.2 (m.t.getD i 0), rj.2 + 1)
      else rj) (reg, 0)).1

/-! ## The general two-qubit gate (`gates.c`) -/

/-- Modelled from the spec: quantum_bitmask of qureg.h, which is not among the
sources; the integer whose `i`-th bit equals bit `bits[i]` of `a`
(spec 4.8). -/
def quantum_bitmask (a : Nat) (bits : List Nat) : Nat :=
  forLoop bits.length (fun i mask =>
    if a &&& shl1 (bits.getD i 0) ≠ 0 then mask + 2 ^ i else mask) 0

/-- Modelled from the spec: the macro `M(m, x, y)` of matrix.h, which is not
among the sources; the element in column `x` and row `y` of a matrix stored
row by row. -/
def matM (m : quantum_matrix R) (x y : Nat) : Cplx R := m.t.getD (x + y * m.cols) 0

/-- The variables of the multiplication loop of `quantum_gate2`: the register,
the array `done` and the cursor `l`. -/
structure Gate2State (R : Type) where
  reg : quantum_reg R
  done : List Bool
  l : Nat

/-- The number of basis states to be added, as `quantum_gate2` counts it: for
every entry, the partners in `target1` and in `target2` that are not found. -/
def gate2_addsize (seed : Nat → Nat) (target1 target2 : Nat) (reg : quantum_reg R) :
    Option Nat :=
  forLoopM reg.size (fun i addsize =>
    (quantum_get_state seed (reg.label i ^^^ shl1 target1) reg).bind (fun j1 =>
      (quantum_get_state seed (reg.label i ^^^ shl1 target2) reg).map (fun j2 =>
        (if j1 = -1 then addsize + 1 else addsize) + (if j2 = -1 then 1 else 0)))) 0

/-- One iteration of the multiplication loop of `quantum_gate2`. The local
arrays `base` and `psi_sub` are lists of four elements. -/
def gate2_step (seed : Nat → Nat) (target1 target2 : Nat) (m : quantum_matrix R) (i : Nat)
    (s : Gate2State R) : Option (Gate2State R) :=
  if s.done.getD i false then some s
  else
    let j := quantum_bitmask (s.reg.label i) [target1, target2]
    (quantum_get_state seed (s.reg.label i ^^^ shl1 target2) s.reg).bind (fun b1 =>
      (quantum_get_state seed (s.reg.label i ^^^ shl1 target1) s.reg).bind (fun b2 =>
        (quantum_get_state seed (s.reg.label i ^^^ shl1 target1 ^^^ shl1 target2)
          s.reg).map (fun b3 =>
          let base : List Int :=
            ((((List.replicate 4 0).set j (i : Int)).set (j ^^^ 1) b1).set (j ^^^ 2) b2).set
              (j ^^^ 3) b3
          let s1 := forLoop 4 (fun jj (bl : List Int × Nat × List (Cplx R)) =>
            let base := if bl.1.getD jj 0 = -1 then bl.1.set jj (bl.2.1 : Int) else bl.1
            let l := if bl.1.getD jj 0 = -1 then bl.2.1 + 1 else bl.2.1
            (base, l, bl.2.2.set jj (s.reg.amp (base.getD jj 0).toNat)))
            (base, s.l, List.replicate 4 0)
          let s2 := forLoop 4 (fun jj (rd : quantum_reg R × List Bool) =>
            let pos := (s1.1.getD jj 0).toNat
            (forLoop 4 (fun k r =>
                r.setAmp pos (r.amp pos + matM m k jj * s1.2.2.getD k 0))
              (rd.1.setAmp pos 0), rd.2.set pos true)) (s.reg, s.done)
          { reg := s2.1, done := s2.2, l := s1.2.1 })))

/-- The threshold `limit` of `quantum_gate2`. -/
def gate2_limit (width : Nat) : R := (1 / (2 ^ width : R)) / 1000000

/-- Apply the 4x4 matrix `m` to the bits `target1` and `target2`
(`quantum_gate2`); `none` when the gate does not return normally. The loop
that removes the basis states with small amplitude is the one of
`quantum_gate1`. -/
def quantum_gate2 (env : Env R) (target1 target2 : Nat) (m : quantum_matrix R)
    (reg : quantum_reg R) : Option (quantum_reg R) :=
  if m.cols ≠ 4 ∨ m.rows ≠ 4 then none
  else
    (gate2_build_hash env.seed reg).bind (fun r =>
      (gate2_addsize env.seed target1 target2 r).bind (fun addsize =>
        (forLoopM r.size (gate2_step env.seed target1 target2 m)
          { reg := forLoop addsize (fun i r =>
              (r.setLabel (i + r.size) 0).setAmp (i + r.size) 0)
              { r with
                state := r.state.map (fun st => realloc st (r.size + addsize))
                amplitude := realloc r.amplitude (r.size + addsize) }
            done := List.replicate (r.size + addsize) false
            l := r.size }).map (fun s =>
          env.decohere (gate1_compact (gate2_limit reg.width)
            { s.reg with size := s.reg.size + addsize }))))

/-! ## Descriptions used in the statements -/

/-- One iteration of an entry loop that rewrites entry `i` only: the label
becomes `fl` of the old label, the amplitude `fa` of the old label and the old
amplitude. -/
def quantum_reg.pointwise (fl : Nat → Nat) (fa : Nat → Cplx R → Cplx R) (i : Nat)
    (r : quantum_reg R) : quantum_reg R :=
  (r.setLabel i (fl (r.label i))).setAmp i (fa (r.label i) (r.amp i))

/-- The entries of a register are stored: the label array is `st` and both
arrays hold `size` elements. -/
def quantum_reg.Stored (reg : quantum_reg R) (st : List Nat) : Prop :=
  reg.state = some st ∧ st.length = reg.size ∧ reg.amplitude.length = reg.size

/-- The environment in which the claims about gates are made: error
correction off, the recorder not handling the call, no decoherence. -/
def Env.Plain (env : Env R) : Prop :=
  env.qec = false ∧ env.handled = false ∧ ∀ r, env.decohere r = r

/-- The entries (label, amplitude) of a register whose bit `pos` agrees with
the measured `value` (any non-zero value meaning 1), in their order. -/
def keptEntries (pos : Nat) (value : Int) (st : List Nat) (amps : List (Cplx R)) :
    List (Nat × Cplx R) :=
  (List.zip st amps).filter (fun e => decide (e.1.testBit pos = true ↔ value ≠ 0))

/-- The label permutation of swap_leads in the words of the specification: the
label splits into the low `w` bits `p1` and the middle `w` bits `p2` (in
place), and the new label is `(x - p1 - p2) + (p1 << w) + (p2 >> w)`. -/
def swapLabelSpec (w x : Nat) : Nat :=
  let p1 := x % 2 ^ w
  let p2 := x % 2 ^ (2 * w) - p1
  (x - p1 - p2) + (p1 <<< w) + (p2 >>> w)

/-- The state of the hash table `T` of `n` slots after the first `m` labels of
`S` have been added: stored positions are below `m`; every added position `p`
sits on the probe path of its label with no empty slot before it; at least
`n - m` slots are empty. -/
def HashInv (seed : Nat → Nat) (n : Nat) (S T : List Nat) (m : Nat) : Prop :=
  T.length = n ∧
  (∀ s, s < n → T.getD s 0 ≠ 0 → T.getD s 0 - 1 < m) ∧
  (∀ p, p < m → ∃ k, k < n ∧ T.getD ((seed (S.getD p 0) + k) % n) 0 = p + 1 ∧
    ∀ k', k' < k → T.getD ((seed (S.getD p 0) + k') % n) 0 ≠ 0) ∧
  n ≤ T.count 0 + m

/-- The shape of the register during `quantum_gate1`: width, size, hash width
and hash table are fixed and both arrays hold `len` elements. -/
def quantum_reg.Shaped (r : quantum_reg R) (width size hashw : Nat) (T : List Nat)
    (len : Nat) : Prop :=
  r.width = width ∧ r.size = size ∧ r.hashw = hashw ∧ r.hash = T ∧
  (∃ S, r.state = some S ∧ S.length = len) ∧ r.amplitude.length = len

/-- The amplitude of the basis state `x` in a register: the amplitude of the
first entry with label `x`, zero if there is none. -/
def quantum_reg.ampAt (reg : quantum_reg R) (x : Nat) : Cplx R :=
  match (List.zip (reg.state.getD []) reg.amplitude).find? (fun e => decide (e.1 = x)) with
  | some e => e.2
  | none => 0

/-- The action of the 2x2 matrix `m` on bit `t` of an amplitude vector `ψ`:
the component at `x` of the image. -/
def gateImage (m : quantum_matrix R) (t : Nat) (ψ : Nat → Cplx R) (x : Nat) : Cplx R :=
  if x.testBit t = true then m.t.getD 2 0 * ψ (x ^^^ 2 ^ t) + m.t.getD 3 0 * ψ x
  else m.t.getD 0 0 * ψ x + m.t.getD 1 0 * ψ (x ^^^ 2 ^ t)

/-- An amplitude after compaction: zero if its squared modulus is below the
limit. -/
def truncAmp (limit : R) (z : Cplx R) : Cplx R := if z.prob < limit then 0 else z

/-- The entries (label, amplitude) that the compaction of `quantum_gate1`
keeps: those whose squared modulus is not below the limit. -/
def compactEntries (limit : R) (st : List Nat) (amps : List (Cplx R)) :
    List (Nat × Cplx R) :=
  (List.zip st amps).filter (fun e => decide (¬ e.2.prob < limit))

/-- The position in `st` of the partner `label p XOR b` of entry `p`; the
length of `st` if the partner is absent. -/
def partnerIdx (st : List Nat) (b p : Nat) : Nat := st.indexOf (st.getD p 0 ^^^ b)

/-- The entries below position `c` whose partner is absent, in order. -/
def absentIdx (st : List Nat) (b c : Nat) : List Nat :=
  (List.range c).filter (fun q => decide (st.length ≤ partnerIdx st b q))

/-- The amplitude that the multiplication pass gives entry `p`: the row of the
matrix selected by bit `b` of the label, applied to the old amplitudes of the
entry and of its partner (zero if absent). -/
def newAmp (m : quantum_matrix R) (st : List Nat) (amps : List (Cplx R)) (b p : Nat) :
    Cplx R :=
  if st.getD p 0 &&& b ≠ 0 then
    m.t.getD 2 0 * amps.getD (partnerIdx st b p) 0 + m.t.getD 3 0 * amps.getD p 0
  else m.t.getD 0 0 * amps.getD p 0 + m.t.getD 1 0 * amps.getD (partnerIdx st b p) 0

/-- The amplitude of the partner that the multiplication pass appends for the
entry `q`. -/
def appAmp (m : quantum_matrix R) (st : List Nat) (amps : List (Cplx R)) (b q : Nat) :
    Cplx R :=
  if st.getD q 0 &&& b ≠ 0 then m.t.getD 1 0 * amps.getD q 0
  else m.t.getD 2 0 * amps.getD q 0

/-- The label array during the multiplication pass when the partners of the
entries below `c` have been appended; `a` cells were added. -/
def passLabels (st : List Nat) (b a c : Nat) : List Nat :=
  st ++ (absentIdx st b c).map (fun q => st.getD q 0 ^^^ b) ++
    List.replicate (a - (absentIdx st b c).length) 0

/-- The amplitude array during the multiplication pass after `i` iterations
without `break`. -/
def passAmps (m : quantum_matrix R) (st : List Nat) (amps : List (Cplx R)) (b a i : Nat) :
    List (Cplx R) :=
  (List.range st.length).map (fun p =>
      if p < i ∨ partnerIdx st b p < i then newAmp m st amps b p else amps.getD p 0) ++
    (absentIdx st b i).map (appAmp m st amps b) ++
    List.replicate (a - (absentIdx st b i).length) 0

/-- The array `done` during the multiplication pass after `i` iterations
without `break`. -/
def passDone (st : List Nat) (b a i : Nat) : List Bool :=
  (List.range st.length).map (fun p =>
      decide (partnerIdx st b p < i ∧ partnerIdx st b p < p)) ++
    List.replicate a false

/-- The state of the multiplication loop of `quantum_gate1` after `i`
iterations on the register `reg` (labels `st`, rebuilt table `T`, `a` cells
added), for a target below 32, where the `int` variable `iset` holds the target
bit: either no `break` was taken and all arrays are as described, or a
`break` was taken at some entry `c`, the label array is as it was then and the
cells that were added and not yet filled hold the amplitude zero. -/
def Gate1Inv (m : quantum_matrix R) (reg : quantum_reg R) (st : List Nat) (T : List Nat)
    (b a i : Nat) (s : Gate1State R) : Prop :=
  (s.brk = false ∧ s.k = st.length + (absentIdx st b i).length ∧
    s.done = passDone st b a i ∧
    s.reg = { reg with
      hash := T
      state := some (passLabels st b a i)
      amplitude := passAmps m st reg.amplitude b a i }) ∨
  (s.brk = true ∧ (m.t.getD 1 0 = 0 ∨ m.t.getD 2 0 = 0) ∧
    ∃ c, c < st.length ∧ s.reg.state = some (passLabels st b a c) ∧
      ∀ p, st.length + (absentIdx st b c).length ≤ p → s.reg.amplitude.getD p 0 = 0)

/-- The labels during the multiplication loop of `quantum_gate1` after `i`
iterations, whatever the target: the label array is that of the entry `c` at
which the loop stopped appending (`c = i` as long as no `break` was taken), the
cells that were added and not filled hold the amplitude zero, and while no
`break` was taken the cursor and the array `done` are as described. -/
def Gate1Lab (reg : quantum_reg R) (st T : List Nat) (b a i : Nat) (s : Gate1State R) :
    Prop :=
  ∃ (c : Nat) (A : List (Cplx R)), c ≤ i ∧
    s.reg = { reg with hash := T, state := some (passLabels st b a c), amplitude := A } ∧
    A.length = st.length + a ∧
    (∀ p, st.length + (absentIdx st b c).length ≤ p → A.getD p 0 = 0) ∧
    (s.brk = false → c = i ∧ s.k = st.length + (absentIdx st b i).length ∧
      s.done = passDone st b a i)

/-- The amplitude of the label `x` in a list of entries: the amplitude of the
first entry with label `x`, zero if there is none. -/
def lookupAmp (es : List (Nat × Cplx R)) (x : Nat) : Cplx R :=
  match es.find? (fun e => decide (e.1 = x)) with
  | some e => e.2
  | none => 0

/-- The entries of `es` whose label does not occur in `st`, in their order. -/
def absentEntries (st : List Nat) (es : List (Nat × Cplx R)) : List (Nat × Cplx R) :=
  es.filter (fun e => decide (e.1 ∉ st))

/-- The label array during the addition loop of `quantum_vectoradd` after `i`
entries of the second register have been added; `a` cells were added to the
arrays. -/
def sumLabels (st1 : List Nat) (es2 : List (Nat × Cplx R)) (a i : Nat) : List Nat :=
  st1 ++ (absentEntries st1 (es2.take i)).map Prod.fst ++
    List.replicate (a - (absentEntries st1 (es2.take i)).length) 0

/-- The amplitude array during the addition loop of `quantum_vectoradd` after
`i` entries of the second register have been added. -/
def sumAmps (st1 : List Nat) (a1 : List (Cplx R)) (es2 : List (Nat × Cplx R)) (a i : Nat) :
    List (Cplx R) :=
  (List.range st1.length).map (fun p =>
      a1.getD p 0 + lookupAmp (es2.take i) (st1.getD p 0)) ++
    (absentEntries st1 (es2.take i)).map Prod.snd ++
    List.replicate (a - (absentEntries st1 (es2.take i)).length) 0

/-- A plain environment over any field: collaborators switched off, the given
`epsilon` and `sqrt`, a conversion to `float` that does not round, the identity
as seed. -/
def Env.plainOf (epsilon : R) (sqrt : R → R) : Env R :=
  { qec := false
    handled := false
    decohere := fun r => r
    cnot_ft := fun _ _ w => w
    toffoli_ft := fun _ _ _ w => w
    sigma_x_ft := fun _ w => w
    epsilon := epsilon
    sqrt := sqrt
    toFloat := fun x => x
    seed := fun x => x }

/-- The complex exponential has modulus one at every angle:
`cos^2 + sin^2 = 1`. -/
def Trig.Unit (tr : Trig R) : Prop := ∀ phi, (quantum_cexp tr phi).prob = 1

/-- The squared norm of a register: the sum of the squared moduli of its
amplitudes. -/
def quantum_reg.normSq (reg : quantum_reg R) : R := (reg.amplitude.map Cplx.prob).sum

/-- The register `r2` has, entry by entry, the squared moduli of `r1`, and
hence the same squared norm. -/
def quantum_reg.SameModuli (r1 r2 : quantum_reg R) : Prop :=
  r2.amplitude.map Cplx.prob = r1.amplitude.map Cplx.prob ∧ r2.normSq = r1.normSq

/-- A register of width 2 with the hash of a fresh register and the single
entry `|00>` of amplitude `a`. -/
def regOne (a : R) : quantum_reg R :=
  { width := 2
    size := 1
    hashw := 4
    amplitude := [⟨a, 0⟩]
    state := some [0]
    hash := List.replicate 16 0 }

/-- A concrete plain environment over the rationals: collaborators switched
off, `epsilon = 1e-6`, a conversion to `float` that does not round, the
identity as seed. -/
def Env.plainQ : Env ℚ :=
  { qec := false
    handled := false
    decohere := fun r => r
    cnot_ft := fun _ _ w => w
    toffoli_ft := fun _ _ _ w => w
    sigma_x_ft := fun _ w => w
    epsilon := 1 / 1000000
    sqrt := fun x => x
    toFloat := fun x => x
    seed := fun x => x }

/-- A concrete register over the rationals: width 2, the two entries
`|00>` with amplitude 3/5 and `|11>` with amplitude 4/5. -/
def regQ : quantum_reg ℚ :=
  { width := 2
    size := 2
    hashw := 4
    amplitude := [⟨3 / 5, 0⟩, ⟨4 / 5, 0⟩]
    state := some [0, 3]
    hash := List.replicate 16 0 }

/-- A concrete register of width 2 with the three entries `|00>: 1/2`,
`|01>: 1/3` and `|10>: 1/5`; the basis state `|11>` is missing. -/
def regThree : quantum_reg ℚ :=
  { width := 2
    size := 3
    hashw := 4
    amplitude := [⟨1 / 2, 0⟩, ⟨1 / 3, 0⟩, ⟨1 / 5, 0⟩]
    state := some [0, 1, 2]
    hash := List.replicate 16 0 }

/-- A concrete register of width 2 with the four entries `|00>: 1/2`,
`|01>: 1/3`, `|10>: 1/5` and `|11>: 1/7`, in this order. -/
def regFour : quantum_reg ℚ :=
  { width := 2
    size := 4
    hashw := 4
    amplitude := [⟨1 / 2, 0⟩, ⟨1 / 3, 0⟩, ⟨1 / 5, 0⟩, ⟨1 / 7, 0⟩]
    state := some [0, 1, 2, 3]
    hash := List.replicate 16 0 }

/-- The register `regFour` with its first two entries stored in the other
order: the same amplitude vector. -/
def regFourSwapped : quantum_reg ℚ :=
  { width := 2
    size := 4
    hashw := 4
    amplitude := [⟨1 / 3, 0⟩, ⟨1 / 2, 0⟩, ⟨1 / 5, 0⟩, ⟨1 / 7, 0⟩]
    state := some [1, 0, 2, 3]
    hash := List.replicate 16 0 }

/-- The 4x4 permutation matrix that exchanges the components 0 and 3. -/
def matSwap03 : quantum_matrix ℚ :=
  { rows := 4, cols := 4, t := [0, 0, 0, 1, 0, 1, 0, 0, 0, 0, 1, 0, 1, 0, 0, 0] }

/-- The 4x4 permutation matrix that exchanges the components 0 and 1. -/
def matSwap01 : quantum_matrix ℚ :=
  { rows := 4, cols := 4, t := [0, 1, 0, 0, 1, 0, 0, 0, 0, 0, 1, 0, 0, 0, 0, 1] }

/-- A concrete 2x2 matrix over the rationals with no zero entry:
rows `1 1` and `1 -1`. -/
def matQ : quantum_matrix ℚ := { rows := 2, cols := 2, t := [1, 1, 1, -1] }

/-- The Pauli matrix sigma_z over the rationals: rows `1 0` and `0 -1`; both
off-diagonal entries are zero. -/
def matZ : quantum_matrix ℚ := { rows := 2, cols := 2, t := [1, 0, 0, -1] }

/-- The invariant on the labels of a register: the register is in sparse mode
with `size` entries whose labels are pairwise distinct and each below
`2^width`. -/
def quantum_reg.LabelsOk (reg : quantum_reg R) : Prop :=
  ∃ st : List Nat, reg.Stored st ∧ st.Nodup ∧ ∀ x ∈ st, x < 2 ^ reg.width

/-- The total squared modulus `d` of the entries that `quantum_state_collapse`
keeps. -/
def keptProb (pos : Nat) (value : Int) (st : List Nat) (amps : List (Cplx R)) : R :=
  ((keptEntries pos value st amps).map (fun e => e.2.prob)).sum

/-- A plain environment over the rationals in which `sqrt` and the conversion
to `float` take their IEEE 754 values at the arguments used in the examples:
`sqrt(1/4) = 1/2`, exact in both precisions; `sqrt(1/2)` is
`6369051672525773 / 2^53` in double precision and converts to
`11863283 / 2^24` in single precision. Elsewhere the two functions are left as
the identity. -/
def Env.ieeeQ : Env ℚ :=
  { Env.plainQ with
    sqrt := fun x =>
      if x = 1 / 2 then 6369051672525773 / 9007199254740992
      else if x = 1 / 4 then 1 / 2 else x
    toFloat := fun x =>
      if x = 6369051672525773 / 9007199254740992 then 11863283 / 16777216 else x }

/-- A concrete register of width 2 with the four entries `|00>`, `|01>`,
`|10>`, `|11>`, each of amplitude `1/2`. -/
def regHalf : quantum_reg ℚ :=
  { width := 2
    size := 4
    hashw := 4
    amplitude := [⟨1 / 2, 0⟩, ⟨1 / 2, 0⟩, ⟨1 / 2, 0⟩, ⟨1 / 2, 0⟩]
    state := some [0, 1, 2, 3]
    hash := List.replicate 16 0 }

end Libquantum

set_option linter.unusedSectionVars false
set_option linter.unusedVariables false

namespace Libquantum

variable {R : Type} [LinearOrderedField R]

/-! ## Complex numbers form a commutative ring -/

namespace Cplx

@[ext] theorem ext {a b : Cplx R} (h1 : a.re = b.re) (h2 : a.im = b.im) : a = b := by
  cases a; cases b; simp_all

@[simp] theorem zero_re : (0 : Cplx R).re = 0 := rfl
@[simp] theorem zero_im : (0 : Cplx R).im = 0 := rfl
@[simp] theorem one_re : (1 : Cplx R).re = 1 := rfl
@[simp] theorem one_im : (1 : Cplx R).im = 0 := rfl
@[simp] theorem add_re (a b : Cplx R) : (a + b).re = a.re + b.re := rfl
@[simp] theorem add_im (a b : Cplx R) : (a + b).im = a.im + b.im := rfl
@[simp] theorem neg_re (a : Cplx R) : (-a).re = -a.re := rfl
@[simp] theorem neg_im (a : Cplx R) : (-a).im = -a.im := rfl
@[simp] theorem sub_re (a b : Cplx R) : (a - b).re = a.re - b.re := rfl
@[simp] theorem sub_im (a b : Cplx R) : (a - b).im = a.im - b.im := rfl
@[simp] theorem mul_re (a b : Cplx R) : (a * b).re = a.re * b.re - a.im * b.im := rfl
@[simp] theorem mul_im (a b : Cplx R) : (a * b).im = a.re * b.im + a.im * b.re := rfl
@[simp] theorem I_re : (I : Cplx R).re = 0 := rfl
@[simp] theorem I_im : (I : Cplx R).im = 1 := rfl

instance instCommRing : CommRing (Cplx R) where
  add := (· + ·)
  zero := 0
  neg := Neg.neg
  sub := Sub.sub
  mul := (· * ·)
  one := 1
  nsmul := nsmulRec
  zsmul := zsmulRec
  add_assoc := by intros; ext <;> simp [add_assoc]
  zero_add := by intros; ext <;> simp
  add_zero := by intros; ext <;> simp
  add_comm := by intros; ext <;> simp [add_comm]
  neg_add_cancel := by intros; ext <;> simp
  sub_eq_add_neg := by intros; ext <;> simp [sub_eq_add_neg]
  left_distrib := by intros; ext <;> simp <;> ring
  right_distrib := by intros; ext <;> simp <;> ring
  zero_mul := by intros; ext <;> simp
  mul_zero := by intros; ext <;> simp
  mul_assoc := by intros; ext <;> simp <;> ring
  one_mul := by intros; ext <;> simp
  mul_one := by intros; ext <;> simp
  mul_comm := by intros; ext <;> simp <;> ring

end Cplx

/-! ## Lists as arrays -/

theorem getD_of_lt {α : Type} (l : List α) (i : Nat) (d : α) (h : i < l.length) :
    l.getD i d = l[i] := by
  rw [List.getD_eq_getElem?_getD, List.getElem?_eq_getElem h, Option.getD_some]

theorem set_take_drop {α : Type} (l A : List α) (k : Nat) (hk : k < l.length)
    (hA : A.length = k) (v : α) :
    (A ++ l.drop k).set k v = A ++ v :: l.drop (k + 1) := by
  rw [List.set_append, if_neg (by omega), hA, Nat.sub_self, List.drop_eq_getElem_cons hk]
  rfl

theorem getD_take_drop {α : Type} (l A : List α) (k : Nat) (hk : k < l.length)
    (hA : A.length = k) (d : α) :
    (A ++ l.drop k).getD k d = l.getD k d := by
  rw [List.getD_append_right _ _ _ _ (by omega), hA, Nat.sub_self,
    List.drop_eq_getElem_cons hk, getD_of_lt _ _ _ hk]
  rfl

theorem set_getD_self {α : Type} (l : List α) (i : Nat) (d : α) :
    l.set i (l.getD i d) = l := by
  by_cases h : i < l.length
  · apply List.ext_getElem?
    intro j
    rw [List.getElem?_set, getD_of_lt _ _ _ h]
    by_cases hij : i = j
    · subst hij; rw [if_pos rfl, if_pos h, List.getElem?_eq_getElem h]
    · rw [if_neg hij]
  · exact List.set_eq_of_length_le (by omega)

theorem take_succ_snoc {α : Type} (l : List α) (k : Nat) (hk : k < l.length) (d : α) :
    l.take (k + 1) = l.take k ++ [l.getD k d] := by
  rw [List.take_succ, List.getElem?_eq_getElem hk, getD_of_lt _ _ _ hk]
  rfl

theorem zipWith_snd_eq {α β : Type} (l : List α) (m : List β) (h : l.length = m.length) :
    List.zipWith (fun _ z => z) l m = m := by
  induction l generalizing m with
  | nil => cases m with
    | nil => rfl
    | cons b m => simp at h
  | cons a l ih => cases m with
    | nil => simp at h
    | cons b m =>
      simp only [List.length_cons, Nat.add_right_cancel_iff] at h
      simp [ih m h]

/-! ## Bit tests -/

theorem shl1_eq {k : Nat} (hk : k < 64) : shl1 k = 2 ^ k := by
  unfold shl1
  rw [Nat.one_shiftLeft]
  exact Nat.mod_eq_of_lt (Nat.pow_lt_pow_right (by decide) hk)

theorem and_two_pow_ne_zero (x k : Nat) : (x &&& 2 ^ k ≠ 0) ↔ x.testBit k = true := by
  constructor
  · intro h
    by_contra hb
    apply h
    apply Nat.eq_of_testBit_eq
    intro i
    rw [Nat.testBit_and, Nat.testBit_two_pow, Nat.zero_testBit]
    by_cases hki : k = i
    · subst hki; simp [hb]
    · simp [hki]
  · intro hb h
    have := congrArg (fun y => y.testBit k) h
    simp [Nat.testBit_and, Nat.testBit_two_pow_self, hb] at this

/-! ## Entry loops -/

namespace quantum_reg

theorem pointwise_loop (fl : Nat → Nat) (fa : Nat → Cplx R → Cplx R)
    (body : Nat → quantum_reg R → quantum_reg R)
    (hbody : ∀ i r l, r.state = some l → i < l.length → i < r.amplitude.length →
      body i r = pointwise fl fa i r)
    (reg : quantum_reg R) (st : List Nat) (hst : reg.state = some st)
    (k : Nat) (hk1 : k ≤ st.length) (hk2 : k ≤ reg.amplitude.length) :
    forLoop k body reg =
      { reg with
        state := some ((st.take k).map fl ++ st.drop k)
        amplitude := List.zipWith fa (st.take k) (reg.amplitude.take k)
          ++ reg.amplitude.drop k } := by
  induction k with
  | zero =>
    cases reg
    simp only [forLoop] at *
    simp [hst]
  | succ k ih =>
    have ih := ih (by omega) (by omega)
    simp only [forLoop]
    rw [ih]
    have hA : ((st.take k).map fl).length = k := by
      rw [List.length_map, List.length_take]; omega
    have hB : (List.zipWith fa (st.take k) (reg.amplitude.take k)).length = k := by
      rw [List.length_zipWith, List.length_take, List.length_take]; omega
    rw [hbody k _ ((st.take k).map fl ++ st.drop k) rfl
      (by rw [List.length_append, hA, List.length_drop]; omega)
      (by
        show k < (List.zipWith fa (st.take k) (reg.amplitude.take k)
          ++ reg.amplitude.drop k).length
        rw [List.length_append, hB, List.length_drop]; omega)]
    simp only [pointwise, setLabel, setAmp, label, amp, Option.getD_some, Option.map_some']
    rw [getD_take_drop st _ k (by omega) hA, getD_take_drop reg.amplitude _ k (by omega) hB,
      set_take_drop st _ k (by omega) hA, set_take_drop reg.amplitude _ k (by omega) hB,
      take_succ_snoc st k (by omega) 0, take_succ_snoc reg.amplitude k (by omega) 0,
      List.map_append, List.zipWith_append _ _ _ _ _ (by
        rw [List.length_take, List.length_take]; omega)]
    simp

theorem pointwise_all (fl : Nat → Nat) (fa : Nat → Cplx R → Cplx R)
    (body : Nat → quantum_reg R → quantum_reg R)
    (hbody : ∀ i r l, r.state = some l → i < l.length → i < r.amplitude.length →
      body i r = pointwise fl fa i r)
    (reg : quantum_reg R) (st : List Nat) (h : reg.Stored st) :
    forLoop reg.size body reg =
      { reg with
        state := some (st.map fl)
        amplitude := List.zipWith fa st reg.amplitude } := by
  obtain ⟨hst, h1, h2⟩ := h
  rw [pointwise_loop fl fa body hbody reg st hst reg.size (by omega) (by omega)]
  rw [← h1, List.take_length, List.drop_length, List.append_nil]
  rw [h1, ← h2, List.take_length, List.drop_length, List.append_nil]

theorem setLabel_self (r : quantum_reg R) (i : Nat) : r.setLabel i (r.label i) = r := by
  cases r with
  | mk w s h a st hs =>
    cases st with
    | none => rfl
    | some l => simp only [setLabel, label, Option.getD_some, Option.map_some', set_getD_self]

theorem setAmp_self (r : quantum_reg R) (i : Nat) : r.setAmp i (r.amp i) = r := by
  cases r with
  | mk w s h a st hs => simp only [setAmp, amp, set_getD_self]

end quantum_reg

end Libquantum

namespace Libquantum

variable {R : Type} [LinearOrderedField R]

namespace quantum_reg

theorem setLabel_setAmp_self (r : quantum_reg R) (i x : Nat) :
    (r.setLabel i x).setAmp i (r.amp i) = r.setLabel i x :=
  setAmp_self (r.setLabel i x) i

theorem labelOnly_all (fl : Nat → Nat) (body : Nat → quantum_reg R → quantum_reg R)
    (hbody : ∀ i r, body i r = pointwise fl (fun _ z => z) i r)
    (reg : quantum_reg R) (st : List Nat) (h : reg.Stored st) :
    forLoop reg.size body reg = { reg with state := some (st.map fl) } := by
  rw [pointwise_all fl _ body (fun i r _ _ _ _ => hbody i r) reg st h,
    zipWith_snd_eq st reg.amplitude (by rw [h.2.1, h.2.2])]

end quantum_reg

theorem controlScan_eq_length (controls : List Nat) (x : Nat) :
    controlScan controls x = controls.length ↔ ∀ c ∈ controls, x &&& shl1 c ≠ 0 := by
  have hle : ∀ cs : List Nat, controlScan cs x ≤ cs.length := by
    intro cs
    induction cs with
    | nil => simp [controlScan]
    | cons c cs ih => unfold controlScan; split <;> simp <;> omega
  induction controls with
  | nil => simp [controlScan]
  | cons c cs ih =>
    unfold controlScan
    by_cases hc : x &&& shl1 c ≠ 0
    · rw [if_pos hc]
      simp only [List.length_cons, List.mem_cons, forall_eq_or_imp]
      constructor
      · intro h; exact ⟨hc, ih.1 (by omega)⟩
      · intro h; have := ih.2 h.2; omega
    · rw [if_neg hc]
      simp only [List.length_cons, List.mem_cons, forall_eq_or_imp]
      constructor
      · intro h; omega
      · intro h; exact absurd h.1 hc

theorem sigma_x_reg (env : Env R) (hp : env.Plain) (t : Nat) (w : World R)
    (st : List Nat) (h : w.reg.Stored st) :
    (quantum_sigma_x env t w).reg =
      { w.reg with state := some (st.map (fun x => x ^^^ shl1 t)) } := by
  obtain ⟨hq, hh, hd⟩ := hp
  have hb : ∀ (i : Nat) (r : quantum_reg R), (fun (i : Nat) (r : quantum_reg R) => r.setLabel i (r.label i ^^^ shl1 t)) i r
      = quantum_reg.pointwise (fun x => x ^^^ shl1 t) (fun _ z => z) i r := by
    intro i r
    simp only [quantum_reg.pointwise, quantum_reg.setLabel_setAmp_self]
  simp only [quantum_sigma_x, quantum_objcode_put, hq, hh, hd, Bool.false_eq_true, if_false]
  exact quantum_reg.labelOnly_all _ _ hb _ st h

theorem cnot_reg (env : Env R) (hp : env.Plain) (c t : Nat) (w : World R)
    (st : List Nat) (h : w.reg.Stored st) :
    (quantum_cnot env c t w).reg =
      { w.reg with state := some (st.map (fun x =>
          if x &&& shl1 c ≠ 0 then x ^^^ shl1 t else x)) } := by
  obtain ⟨hq, hh, hd⟩ := hp
  have hb : ∀ (i : Nat) (r : quantum_reg R), (fun (i : Nat) (r : quantum_reg R) =>
      if r.bitSet i c then r.setLabel i (r.label i ^^^ shl1 t) else r) i r
      = quantum_reg.pointwise (fun x => if x &&& shl1 c ≠ 0 then x ^^^ shl1 t else x)
          (fun _ z => z) i r := by
    intro i r
    simp only [quantum_reg.pointwise, quantum_reg.setLabel_setAmp_self, quantum_reg.bitSet,
      decide_eq_true_eq]
    split
    · rfl
    · rw [quantum_reg.setLabel_self]
  simp only [quantum_cnot, quantum_objcode_put, hq, hh, hd, Bool.false_eq_true, if_false]
  exact quantum_reg.labelOnly_all _ _ hb _ st h

theorem toffoli_reg (env : Env R) (hp : env.Plain) (c1 c2 t : Nat) (w : World R)
    (st : List Nat) (h : w.reg.Stored st) :
    (quantum_toffoli env c1 c2 t w).reg =
      { w.reg with state := some (st.map (fun x =>
          if x &&& shl1 c1 ≠ 0 ∧ x &&& shl1 c2 ≠ 0 then x ^^^ shl1 t else x)) } := by
  obtain ⟨hq, hh, hd⟩ := hp
  have hb : ∀ (i : Nat) (r : quantum_reg R), (fun (i : Nat) (r : quantum_reg R) =>
      if r.bitSet i c1 then
        if r.bitSet i c2 then r.setLabel i (r.label i ^^^ shl1 t) else r
      else r) i r
      = quantum_reg.pointwise
          (fun x => if x &&& shl1 c1 ≠ 0 ∧ x &&& shl1 c2 ≠ 0 then x ^^^ shl1 t else x)
          (fun _ z => z) i r := by
    intro i r
    simp only [quantum_reg.pointwise, quantum_reg.setLabel_setAmp_self, quantum_reg.bitSet,
      decide_eq_true_eq]
    by_cases h1 : r.label i &&& shl1 c1 ≠ 0
    · by_cases h2 : r.label i &&& shl1 c2 ≠ 0
      · rw [if_pos h1, if_pos h2, if_pos ⟨h1, h2⟩]
      · rw [if_pos h1, if_neg h2, if_neg (fun h => h2 h.2), quantum_reg.setLabel_self]
    · rw [if_neg h1, if_neg (fun h => h1 h.1), quantum_reg.setLabel_self]
  simp only [quantum_toffoli, quantum_objcode_put, hq, hh, hd, Bool.false_eq_true, if_false]
  exact quantum_reg.labelOnly_all _ _ hb _ st h

theorem unbounded_toffoli_reg (env : Env R) (hp : env.Plain) (controls : List Nat) (t : Nat)
    (w : World R) (st : List Nat) (h : w.reg.Stored st) :
    (quantum_unbounded_toffoli env controls t w).reg =
      { w.reg with state := some (st.map (fun x =>
          if ∀ c ∈ controls, x &&& shl1 c ≠ 0 then x ^^^ shl1 t else x)) } := by
  obtain ⟨hq, hh, hd⟩ := hp
  have hb : ∀ (i : Nat) (r : quantum_reg R), (fun (i : Nat) (r : quantum_reg R) =>
      if controlScan controls (r.label i) = controls.length then
        r.setLabel i (r.label i ^^^ shl1 t)
      else r) i r
      = quantum_reg.pointwise
          (fun x => if ∀ c ∈ controls, x &&& shl1 c ≠ 0 then x ^^^ shl1 t else x)
          (fun _ z => z) i r := by
    intro i r
    simp only [quantum_reg.pointwise, quantum_reg.setLabel_setAmp_self]
    by_cases h1 : controlScan controls (r.label i) = controls.length
    · rw [if_pos h1, if_pos ((controlScan_eq_length _ _).1 h1)]
    · rw [if_neg h1, if_neg (fun h => h1 ((controlScan_eq_length _ _).2 h)),
        quantum_reg.setLabel_self]
  simp only [quantum_unbounded_toffoli, hd]
  exact quantum_reg.labelOnly_all _ _ hb _ st h

end Libquantum

namespace Libquantum

variable {R : Type} [LinearOrderedField R]

theorem new_qureg_stored (env : Env R) (v wd : Nat) (log : List (ObjRecord R)) :
    (quantum_new_qureg env v wd log).reg.Stored [v] := by
  refine ⟨rfl, rfl, rfl⟩

theorem plainQ_plain : (Env.plainQ).Plain := ⟨rfl, rfl, fun _ => rfl⟩

/-- C2: with QEC off and the recorder not handling the call, sigma_x, cnot,
toffoli and the unbounded toffoli (bit indices below 64) replace the label `x` of
an entry by `x XOR 2^t` exactly when every control bit of the gate is set in
`x`, and change nothing else of the register (amplitudes, order, size, width,
hash); `new(3,2); sigma_x(0)` is the single entry with label 2 and amplitude 1. -/
theorem claim_C2_label_gates (env : Env R) (hp : env.Plain) (w : World R) (st : List Nat)
    (h : w.reg.Stored st) (t c c1 c2 : Nat) (controls : List Nat)
    (ht : t < 64) (hc : c < 64) (hc1 : c1 < 64) (hc2 : c2 < 64)
    (hcs : ∀ k ∈ controls, k < 64) :
    (quantum_sigma_x env t w).reg =
        { w.reg with state := some (st.map (fun x => x ^^^ 2 ^ t)) } ∧
    (quantum_cnot env c t w).reg =
        { w.reg with state := some (st.map (fun x =>
            if x.testBit c = true then x ^^^ 2 ^ t else x)) } ∧
    (quantum_toffoli env c1 c2 t w).reg =
        { w.reg with state := some (st.map (fun x =>
            if x.testBit c1 = true ∧ x.testBit c2 = true then x ^^^ 2 ^ t else x)) } ∧
    (quantum_unbounded_toffoli env controls t w).reg =
        { w.reg with state := some (st.map (fun x =>
            if ∀ k ∈ controls, x.testBit k = true then x ^^^ 2 ^ t else x)) } ∧
    (∀ log, (quantum_sigma_x env 0 (quantum_new_qureg env 3 2 log)).reg.state = some [2] ∧
      (quantum_sigma_x env 0 (quantum_new_qureg env 3 2 log)).reg.amplitude = [1] ∧
      (quantum_sigma_x env 0 (quantum_new_qureg env 3 2 log)).reg.size = 1) := by
  refine ⟨?_, ?_, ?_, ?_, ?_⟩
  · rw [sigma_x_reg env hp t w st h, shl1_eq ht]
  · rw [cnot_reg env hp c t w st h, shl1_eq ht, shl1_eq hc]
    simp only [and_two_pow_ne_zero]
  · rw [toffoli_reg env hp c1 c2 t w st h, shl1_eq ht, shl1_eq hc1, shl1_eq hc2]
    simp only [and_two_pow_ne_zero]
  · rw [unbounded_toffoli_reg env hp controls t w st h, shl1_eq ht]
    have hiff : ∀ x : Nat, (∀ c ∈ controls, x &&& shl1 c ≠ 0) ↔
        ∀ k ∈ controls, x.testBit k = true := by
      intro x
      constructor
      · intro h k hk
        have := h k hk
        rwa [shl1_eq (hcs k hk), and_two_pow_ne_zero] at this
      · intro h k hk
        rw [shl1_eq (hcs k hk), and_two_pow_ne_zero]
        exact h k hk
    simp only [hiff]
  · intro log
    rw [sigma_x_reg env hp 0 _ [3] (new_qureg_stored env 3 2 log)]
    exact ⟨rfl, rfl, rfl⟩

/-- Witness of C2: the gates on `new(3,2)` over the rationals. -/
theorem claim_C2_witness :
    (Env.plainQ).Plain ∧ (quantum_new_qureg Env.plainQ 3 2 []).reg.Stored [3] ∧
    (quantum_cnot Env.plainQ 0 1 (quantum_new_qureg Env.plainQ 3 2 [])).reg.state
      = some [1] :=
  ⟨plainQ_plain, new_qureg_stored _ 3 2 [], by
    rw [(claim_C2_label_gates Env.plainQ plainQ_plain (quantum_new_qureg Env.plainQ 3 2 []) [3]
      (new_qureg_stored _ 3 2 []) 1 0 0 1 [0, 1] (by decide) (by decide) (by decide)
      (by decide) (by decide)).2.1]
    rfl⟩

end Libquantum

namespace Libquantum

variable {R : Type} [LinearOrderedField R]

/-! ## Involutions -/

theorem sigma_y_reg (env : Env R) (hp : env.Plain) (t : Nat) (w : World R)
    (st : List Nat) (h : w.reg.Stored st) :
    (quantum_sigma_y env t w).reg =
      { w.reg with
        state := some (st.map (fun x => x ^^^ shl1 t))
        amplitude := List.zipWith (fun x z =>
          if (x ^^^ shl1 t) &&& shl1 t ≠ 0 then z * Cplx.I else z * -Cplx.I)
          st w.reg.amplitude } := by
  obtain ⟨hq, hh, hd⟩ := hp
  simp only [quantum_sigma_y, quantum_objcode_put, hh, hd, Bool.false_eq_true, if_false]
  refine quantum_reg.pointwise_all _ _ _ ?_ _ st h
  intro i r l hl hi _
  have h1 : (r.setLabel i (r.label i ^^^ shl1 t)).label i = r.label i ^^^ shl1 t := by
    simp only [quantum_reg.setLabel, quantum_reg.label, hl, Option.map_some',
      Option.getD_some]
    rw [getD_of_lt _ _ _ (by rw [List.length_set]; exact hi)]
    exact List.getElem_set_self _
  simp only [quantum_reg.pointwise, quantum_reg.bitSet, h1, decide_eq_true_eq]
  split <;> rfl

theorem sigma_z_reg (env : Env R) (hp : env.Plain) (t : Nat) (w : World R)
    (st : List Nat) (h : w.reg.Stored st) :
    (quantum_sigma_z env t w).reg =
      { w.reg with
        amplitude := List.zipWith (fun x z => if x &&& shl1 t ≠ 0 then z * -1 else z)
          st w.reg.amplitude } := by
  obtain ⟨hq, hh, hd⟩ := hp
  simp only [quantum_sigma_z, quantum_objcode_put, hh, hd, Bool.false_eq_true, if_false]
  rw [quantum_reg.pointwise_all (fun x => x) (fun x z => if x &&& shl1 t ≠ 0 then z * -1 else z)
    _ ?_ _ st h]
  · rw [List.map_id']
    cases hw : w.reg with
    | mk a b c d e f =>
      have := h.1
      rw [hw] at this
      simp only at this
      simp [this]
  · intro i r l hl hi _
    simp only [quantum_reg.pointwise, quantum_reg.bitSet, decide_eq_true_eq,
      quantum_reg.setLabel_self]
    split
    · rfl
    · rw [quantum_reg.setAmp_self]

theorem xor_xor_cancel (x b : Nat) : (x ^^^ b) ^^^ b = x := by
  rw [Nat.xor_assoc, Nat.xor_self, Nat.xor_zero]

theorem testBit_xor_two_pow_ne (x : Nat) {t c : Nat} (hct : c ≠ t) :
    (x ^^^ 2 ^ t).testBit c = x.testBit c := by
  rw [Nat.testBit_xor, Nat.testBit_two_pow_of_ne (Ne.symm hct)]
  simp

theorem testBit_xor_two_pow_self (x t : Nat) :
    (x ^^^ 2 ^ t).testBit t = !x.testBit t := by
  rw [Nat.testBit_xor, Nat.testBit_two_pow_self]
  simp

theorem zipWith_map_twice {α β : Type} (fl : α → α) (fa : α → β → β)
    (hfa : ∀ x z, fa (fl x) (fa x z) = z) (st : List α) (m : List β)
    (h : st.length = m.length) :
    List.zipWith fa (st.map fl) (List.zipWith fa st m) = m := by
  induction st generalizing m with
  | nil => cases m with
    | nil => rfl
    | cons b m => simp at h
  | cons a l ih => cases m with
    | nil => simp at h
    | cons b m =>
      simp only [List.length_cons, Nat.add_right_cancel_iff] at h
      simp [ih m h, hfa]

theorem map_twice {α : Type} (fl : α → α) (hfl : ∀ x, fl (fl x) = x) (st : List α) :
    (st.map fl).map fl = st := by
  rw [List.map_map]
  conv_rhs => rw [← List.map_id st]
  apply List.map_congr_left
  intro x _
  exact hfl x

theorem reg_eta_state (r : quantum_reg R) (st : List Nat) (h : r.state = some st) :
    ({ r with state := some st } : quantum_reg R) = r := by
  cases r; simp_all

end Libquantum

namespace Libquantum

variable {R : Type} [LinearOrderedField R]

theorem stored_map (r : quantum_reg R) (st : List Nat) (h : r.Stored st) (fl : Nat → Nat) :
    ({ r with state := some (st.map fl) } : quantum_reg R).Stored (st.map fl) :=
  ⟨rfl, by rw [List.length_map]; exact h.2.1, h.2.2⟩

theorem labelGate_twice (G : World R → World R) (fl : Nat → Nat)
    (hG : ∀ (w : World R) (st : List Nat), w.reg.Stored st →
      (G w).reg = { w.reg with state := some (st.map fl) })
    (hfl : ∀ x, fl (fl x) = x) (w : World R) (st : List Nat) (h : w.reg.Stored st) :
    (G (G w)).reg = w.reg := by
  have h1 := hG w st h
  have hS : (G w).reg.Stored (st.map fl) := by rw [h1]; exact stored_map _ st h fl
  rw [hG (G w) _ hS, h1, map_twice fl hfl]
  exact reg_eta_state _ st h.1

/-- C8: sigma_x, sigma_y, sigma_z, cnot with control different from the target
and toffoli with both controls different from the target (bit indices below
64, QEC off, recorder not handling) are involutions: applied twice they give
back the register, every label and every amplitude, exactly. -/
theorem claim_C8_involutions (env : Env R) (hp : env.Plain) (w : World R) (st : List Nat)
    (h : w.reg.Stored st) (t c c1 c2 : Nat)
    (ht : t < 64) (hc : c < 64) (hc1 : c1 < 64) (hc2 : c2 < 64)
    (hct : c ≠ t) (hc1t : c1 ≠ t) (hc2t : c2 ≠ t) :
    (quantum_sigma_x env t (quantum_sigma_x env t w)).reg = w.reg ∧
    (quantum_sigma_y env t (quantum_sigma_y env t w)).reg = w.reg ∧
    (quantum_sigma_z env t (quantum_sigma_z env t w)).reg = w.reg ∧
    (quantum_cnot env c t (quantum_cnot env c t w)).reg = w.reg ∧
    (quantum_toffoli env c1 c2 t (quantum_toffoli env c1 c2 t w)).reg = w.reg := by
  have hbit : ∀ x : Nat, ((x ^^^ 2 ^ t) &&& 2 ^ t ≠ 0) ↔ ¬ (x &&& 2 ^ t ≠ 0) := by
    intro x
    rw [and_two_pow_ne_zero, and_two_pow_ne_zero, testBit_xor_two_pow_self]
    cases x.testBit t <;> simp
  refine ⟨?_, ?_, ?_, ?_, ?_⟩
  · exact labelGate_twice _ _ (fun w st h => sigma_x_reg env hp t w st h)
      (fun x => xor_xor_cancel x _) w st h
  · have h1 := sigma_y_reg env hp t w st h
    have hS : (quantum_sigma_y env t w).reg.Stored (st.map (fun x => x ^^^ shl1 t)) := by
      rw [h1]
      exact ⟨rfl, by rw [List.length_map]; exact h.2.1, by
        show (List.zipWith _ st w.reg.amplitude).length = w.reg.size
        rw [List.length_zipWith, h.2.1, h.2.2, Nat.min_self]⟩
    rw [sigma_y_reg env hp t _ _ hS, h1]
    simp only
    rw [map_twice _ (fun x => xor_xor_cancel x _), zipWith_map_twice _ _ ?_ st _
      (by rw [h.2.1, h.2.2])]
    · cases hw : w.reg with
      | mk a b c d e f =>
        have := h.1
        rw [hw] at this
        simp only at this
        simp [this]
    · intro x z
      rw [xor_xor_cancel, shl1_eq ht]
      by_cases hx : x &&& 2 ^ t ≠ 0
      · rw [if_pos hx, if_neg ((hbit x).not_left.2 hx)]
        ext <;> simp
      · rw [if_neg hx, if_pos ((hbit x).2 hx)]
        ext <;> simp
  · have h1 := sigma_z_reg env hp t w st h
    have hS : (quantum_sigma_z env t w).reg.Stored st := by
      rw [h1]
      exact ⟨h.1, h.2.1, by
        show (List.zipWith _ st w.reg.amplitude).length = w.reg.size
        rw [List.length_zipWith, h.2.1, h.2.2, Nat.min_self]⟩
    rw [sigma_z_reg env hp t _ _ hS, h1]
    simp only
    have := zipWith_map_twice (fun x : Nat => x)
      (fun x (z : Cplx R) => if x &&& shl1 t ≠ 0 then z * -1 else z) ?_ st w.reg.amplitude
      (by rw [h.2.1, h.2.2])
    · rw [List.map_id'] at this
      rw [this]
    · intro x z
      simp only
      split
      · ring
      · rfl
  · refine labelGate_twice _ _ (fun w st h => cnot_reg env hp c t w st h) ?_ w st h
    intro x
    simp only [shl1_eq ht, shl1_eq hc, and_two_pow_ne_zero]
    by_cases hx : x.testBit c = true
    · rw [if_pos hx, if_pos (by rw [testBit_xor_two_pow_ne x hct]; exact hx), xor_xor_cancel]
    · rw [if_neg hx, if_neg hx]
  · refine labelGate_twice _ _ (fun w st h => toffoli_reg env hp c1 c2 t w st h) ?_ w st h
    intro x
    simp only [shl1_eq ht, shl1_eq hc1, shl1_eq hc2, and_two_pow_ne_zero]
    by_cases hx : x.testBit c1 = true ∧ x.testBit c2 = true
    · rw [if_pos hx, if_pos (by
        rw [testBit_xor_two_pow_ne x hc1t, testBit_xor_two_pow_ne x hc2t]; exact hx),
        xor_xor_cancel]
    · rw [if_neg hx, if_neg hx]

/-- Witness of C8: the five gates applied twice to `new(3,2)` over the
rationals. -/
theorem claim_C8_witness :
    (Env.plainQ).Plain ∧ (quantum_new_qureg Env.plainQ 3 2 []).reg.Stored [3] ∧
    (quantum_sigma_y Env.plainQ 0 (quantum_sigma_y Env.plainQ 0
      (quantum_new_qureg Env.plainQ 3 2 []))).reg = (quantum_new_qureg Env.plainQ 3 2 []).reg :=
  ⟨plainQ_plain, new_qureg_stored _ 3 2 [],
    (claim_C8_involutions Env.plainQ plainQ_plain (quantum_new_qureg Env.plainQ 3 2 []) [3]
      (new_qureg_stored _ 3 2 []) 0 1 1 1 (by decide) (by decide) (by decide) (by decide)
      (by decide) (by decide) (by decide)).2.1⟩

end Libquantum

namespace Libquantum

variable {R : Type} [LinearOrderedField R]

/-! ## Array-filling loops -/

theorem forLoop_succ {σ : Type} (n : Nat) (body : Nat → σ → σ) (s : σ) :
    forLoop (n + 1) body s = body n (forLoop n body s) := rfl

theorem length_fill {α : Type} (m : Nat) (a : Nat → Nat) (g : Nat → α) (l : List α) :
    (forLoop m (fun j l => l.set (a j) (g j)) l).length = l.length := by
  induction m with
  | zero => rfl
  | succ m ih => rw [forLoop_succ, List.length_set, ih]

theorem length_fill2 {α : Type} (n n2 : Nat) (f : Nat → Nat → α) (l : List α) :
    (forLoop n (fun i l => forLoop n2 (fun j l => l.set (i * n2 + j) (f i j)) l) l).length
      = l.length := by
  induction n with
  | zero => rfl
  | succ n ih => rw [forLoop_succ, length_fill, ih]

namespace quantum_reg

/-- A loop that assigns values not depending on the register acts on the two
arrays separately. -/
theorem assign_loop (n : Nat) (a : Nat → Nat) (x : Nat → Nat) (z : Nat → Cplx R)
    (r : quantum_reg R) :
    forLoop n (fun k r => (r.setLabel (a k) (x k)).setAmp (a k) (z k)) r =
      { r with
        state := r.state.map (fun l => forLoop n (fun k l => l.set (a k) (x k)) l)
        amplitude := forLoop n (fun k l => l.set (a k) (z k)) r.amplitude } := by
  induction n with
  | zero =>
    cases r with
    | mk w s h am st hs => cases st <;> rfl
  | succ n ih =>
    rw [forLoop_succ, ih]
    cases r with
    | mk w s h am st hs => cases st <;> rfl

theorem component_loop (n : Nat) (F : Nat → List Nat → List Nat)
    (G : Nat → List (Cplx R) → List (Cplx R)) (r : quantum_reg R) :
    forLoop n (fun i r => ({ r with
        state := r.state.map (F i), amplitude := G i r.amplitude } : quantum_reg R)) r =
      { r with
        state := r.state.map (fun l => forLoop n F l)
        amplitude := forLoop n G r.amplitude } := by
  induction n with
  | zero =>
    cases r with
    | mk w s h am st hs => cases st <;> rfl
  | succ n ih =>
    rw [forLoop_succ, ih]
    cases r with
    | mk w s h am st hs => cases st <;> rfl

end quantum_reg

end Libquantum

namespace Libquantum

variable {R : Type} [LinearOrderedField R]

/-! ## Kronecker product and dense vectors -/

/-- The label that `quantum_kronecker` stores for the pair of entries `i`, `j`. -/
theorem kronecker_eq (r1 r2 : quantum_reg R) :
    quantum_kronecker r1 r2 =
      { width := r1.width + r2.width
        size := r1.size * r2.size
        hashw := r1.width + r2.width + 2
        amplitude := forLoop r1.size (fun i l => forLoop r2.size (fun j l =>
          l.set (i * r2.size + j) (r1.amp i * r2.amp j)) l)
          (List.replicate (r1.size * r2.size) 0)
        state := some (forLoop r1.size (fun i l => forLoop r2.size (fun j l =>
          l.set (i * r2.size + j)
            (((r1.label i <<< r2.width) % 2 ^ 64) ||| r2.label j)) l)
          (List.replicate (r1.size * r2.size) 0))
        hash := List.replicate (shlInt (r1.width + r2.width + 2)) 0 } := by
  unfold quantum_kronecker
  have hin : (fun (i : Nat) (r : quantum_reg R) =>
      forLoop r2.size (fun j r =>
        (r.setLabel (i * r2.size + j)
          (((r1.label i <<< r2.width) % 2 ^ 64) ||| r2.label j)).setAmp
          (i * r2.size + j) (r1.amp i * r2.amp j)) r) =
      (fun (i : Nat) (r : quantum_reg R) => ({ r with
        state := r.state.map (fun l => forLoop r2.size (fun j l => l.set (i * r2.size + j)
          (((r1.label i <<< r2.width) % 2 ^ 64) ||| r2.label j)) l)
        amplitude := forLoop r2.size (fun j l => l.set (i * r2.size + j)
          (r1.amp i * r2.amp j)) r.amplitude } : quantum_reg R)) := by
    funext i r
    exact quantum_reg.assign_loop r2.size (fun j => i * r2.size + j) _ _ r
  simp only [hin]
  rw [quantum_reg.component_loop]
  simp only [Option.map_some']

end Libquantum

namespace Libquantum

variable {R : Type} [LinearOrderedField R]

theorem kronecker_width_size (r1 r2 : quantum_reg R) :
    (quantum_kronecker r1 r2).width = r1.width + r2.width ∧
    (quantum_kronecker r1 r2).size = r1.size * r2.size ∧
    (quantum_kronecker r1 r2).hashw = r1.width + r2.width + 2 := by
  rw [kronecker_eq]
  exact ⟨rfl, rfl, rfl⟩

end Libquantum

namespace Libquantum

end Libquantum

namespace Libquantum

variable {R : Type} [LinearOrderedField R]

/-! ## Collapse -/

theorem collapseRmask_loop (k : Nat) (hk : k ≤ 64) :
    forLoop k (fun k rpat => (rpat + shl1 k) % 2 ^ 64) 0 = 2 ^ k - 1 := by
  induction k with
  | zero => rfl
  | succ k ih =>
    rw [forLoop_succ, ih (by omega), shl1_eq (by omega)]
    have h1 : 0 < 2 ^ k := Nat.pos_pow_of_pos _ (by decide)
    have h2 : 2 ^ (k + 1) = 2 * 2 ^ k := by rw [Nat.pow_succ, Nat.mul_comm]
    have h3 : 2 ^ (k + 1) ≤ 2 ^ 64 := Nat.pow_le_pow_right (by decide) hk
    rw [Nat.mod_eq_of_lt (by omega)]
    omega

theorem collapseRmask_eq (pos : Nat) (hp : pos ≤ 64) : collapseRmask pos = 2 ^ pos - 1 :=
  collapseRmask_loop pos hp

theorem collapseLmask_loop (m : Nat) (hm : m ≤ 64) :
    forLoop m (fun n lpat => (lpat + shl1 (63 - n)) % 2 ^ 64) 0 = 2 ^ 64 - 2 ^ (64 - m) := by
  induction m with
  | zero => rfl
  | succ m ih =>
    rw [forLoop_succ, ih (by omega), shl1_eq (by omega)]
    have h1 : 0 < 2 ^ (63 - m) := Nat.pos_pow_of_pos _ (by decide)
    have h2 : 2 ^ (64 - m) = 2 * 2 ^ (63 - m) := by
      have : 64 - m = (63 - m) + 1 := by omega
      rw [this, Nat.pow_succ, Nat.mul_comm]
    have h3 : 2 ^ (64 - m) ≤ 2 ^ 64 := Nat.pow_le_pow_right (by decide) (by omega)
    have h4 : 64 - (m + 1) = 63 - m := by omega
    rw [h4, Nat.mod_eq_of_lt (by omega)]
    omega

theorem collapseLmask_eq (pos : Nat) (hp : pos < 64) :
    collapseLmask pos = 2 ^ (pos + 1) * (2 ^ (63 - pos) - 1) := by
  unfold collapseLmask
  rw [collapseLmask_loop (63 - pos) (by omega)]
  have h4 : 64 - (63 - pos) = pos + 1 := by omega
  have h5 : 2 ^ 64 = 2 ^ (pos + 1) * 2 ^ (63 - pos) := by
    rw [← Nat.pow_add]; congr 1; omega
  rw [h4, Nat.mul_sub, ← h5, Nat.mul_one]

theorem testBit_of_lt_two_pow {x n i : Nat} (hx : x < 2 ^ n) (hi : n ≤ i) :
    x.testBit i = false :=
  Nat.testBit_lt_two_pow (Nat.lt_of_lt_of_le hx (Nat.pow_le_pow_right (by decide) hi))

theorem lmask_and (pos x : Nat) (hp : pos < 64) (hx : x < 2 ^ 64) :
    collapseLmask pos &&& x = 2 ^ (pos + 1) * (x / 2 ^ (pos + 1)) := by
  rw [collapseLmask_eq pos hp]
  apply Nat.eq_of_testBit_eq
  intro i
  rw [Nat.testBit_and, Nat.testBit_mul_pow_two, Nat.testBit_mul_pow_two,
    Nat.testBit_two_pow_sub_one, ← Nat.shiftRight_eq_div_pow, Nat.testBit_shiftRight]
  by_cases h1 : pos + 1 ≤ i
  · have e : pos + 1 + (i - (pos + 1)) = i := by omega
    rw [e]
    by_cases h2 : i < 64
    · simp [h1, show i - (pos + 1) < 63 - pos by omega]
    · simp [h1, testBit_of_lt_two_pow hx (by omega : 64 ≤ i)]
  · simp [h1]

theorem relabel_eq (pos x : Nat) (hp : pos < 64) (hx : x < 2 ^ 64) :
    ((collapseLmask pos &&& x) >>> 1) ||| (collapseRmask pos &&& x) =
      x % 2 ^ pos + 2 ^ pos * (x / 2 ^ (pos + 1)) := by
  rw [lmask_and pos x hp hx, collapseRmask_eq pos (by omega), Nat.and_comm,
    Nat.and_pow_two_sub_one_eq_mod, Nat.shiftRight_eq_div_pow, Nat.pow_one]
  have h : 2 ^ (pos + 1) * (x / 2 ^ (pos + 1)) / 2 = 2 ^ pos * (x / 2 ^ (pos + 1)) := by
    rw [Nat.pow_succ, Nat.mul_comm (2 ^ pos) 2, Nat.mul_assoc,
      Nat.mul_div_cancel_left _ (by decide : 0 < 2)]
  rw [h, ← Nat.mul_add_lt_is_or (Nat.mod_lt _ (Nat.pos_pow_of_pos _ (by decide)))]
  omega

theorem collapseKeep_iff (pos : Nat) (value : Int) (x : Nat) (hp : pos < 64) :
    collapseKeep pos value x = decide (x.testBit pos = true ↔ value ≠ 0) := by
  unfold collapseKeep
  rw [shl1_eq hp]
  simp only [and_two_pow_ne_zero]
  by_cases h1 : x.testBit pos = true <;> by_cases h2 : value = 0 <;> simp [h1, h2]

end Libquantum

namespace Libquantum

variable {R : Type} [LinearOrderedField R]

theorem range_map_getD {α : Type} (l : List α) (d : α) :
    (List.range l.length).map (fun i => l.getD i d) = l := by
  apply List.ext_getElem
  · simp
  · intro i h1 h2
    simp only [List.getElem_map, List.getElem_range]
    exact getD_of_lt l i d h2

theorem range_filter_map {α β : Type} (l : List α) (d : α) (p : α → Bool) (g : α → β) :
    ((List.range l.length).filter (fun i => p (l.getD i d))).map (fun i => g (l.getD i d))
      = (l.filter p).map g := by
  conv_rhs => rw [← range_map_getD l d]
  rw [List.filter_map, List.map_map]
  rfl

theorem filter_range_succ (P : Nat → Bool) (k : Nat) :
    (List.range (k + 1)).filter P =
      (List.range k).filter P ++ (if P k then [k] else []) := by
  rw [List.range_succ, List.filter_append]
  congr 1
  by_cases h : P k = true
  · simp [h]
  · simp [h]

theorem sum_loop (P : Nat → Bool) (f : Nat → R) (k : Nat) :
    forLoop k (fun i (ds : R × Nat) => if P i then (ds.1 + f i, ds.2 + 1) else ds) (0, 0)
      = ((((List.range k).filter P).map f).sum, ((List.range k).filter P).length) := by
  induction k with
  | zero => rfl
  | succ k ih =>
    rw [forLoop_succ, ih, filter_range_succ]
    by_cases h : P k = true
    · simp [h]
    · simp [h]

theorem set_append_replicate {α : Type} (A : List α) (n : Nat) (d v : α) (hn : 0 < n) :
    (A ++ List.replicate n d).set A.length v = (A ++ [v]) ++ List.replicate (n - 1) d := by
  rw [List.set_append_right _ _ (le_refl _), Nat.sub_self]
  obtain ⟨m, rfl⟩ : ∃ m, n = m + 1 := ⟨n - 1, by omega⟩
  simp [List.replicate_succ]

theorem collect_loop (out : quantum_reg R) (N : Nat)
    (hst : out.state = some (List.replicate N 0)) (hamp : out.amplitude = List.replicate N 0)
    (P : Nat → Bool) (x : Nat → Nat) (z : Nat → Cplx R) (k : Nat)
    (hk : ((List.range k).filter P).length ≤ N) :
    forLoop k (fun i (oj : quantum_reg R × Nat) =>
        if P i then ((oj.1.setLabel oj.2 (x i)).setAmp oj.2 (z i), oj.2 + 1) else oj) (out, 0)
      = (({ out with
            state := some (((List.range k).filter P).map x ++
              List.replicate (N - ((List.range k).filter P).length) 0)
            amplitude := ((List.range k).filter P).map z ++
              List.replicate (N - ((List.range k).filter P).length) 0 } : quantum_reg R),
          ((List.range k).filter P).length) := by
  induction k with
  | zero =>
    cases out
    simp only at hst hamp
    simp [forLoop, hst, hamp]
  | succ k ih =>
    have hk' : ((List.range k).filter P).length ≤ N := by
      rw [filter_range_succ, List.length_append] at hk
      omega
    rw [forLoop_succ, ih hk', filter_range_succ]
    by_cases h : P k = true
    · rw [filter_range_succ, List.length_append] at hk
      simp only [h, if_true, List.length_singleton] at hk ⊢
      simp only [quantum_reg.setLabel, quantum_reg.setAmp, Option.map_some']
      have e1 := set_append_replicate (((List.range k).filter P).map x)
        (N - ((List.range k).filter P).length) 0 (x k) (by omega)
      have e2 := set_append_replicate (((List.range k).filter P).map z)
        (N - ((List.range k).filter P).length) 0 (z k) (by omega)
      rw [List.length_map] at e1 e2
      rw [e1, e2]
      simp only [List.map_append, List.map_singleton, List.length_append,
        List.length_singleton]
      have e3 : N - ((List.range k).filter P).length - 1
          = N - (((List.range k).filter P).length + 1) := by omega
      rw [e3]
    · simp [h]

end Libquantum

namespace Libquantum

variable {R : Type} [LinearOrderedField R]

theorem getD_zip {α β : Type} (l : List α) (m : List β) (hlen : l.length = m.length)
    (i : Nat) (a : α) (b : β) :
    (List.zip l m).getD i (a, b) = (l.getD i a, m.getD i b) := by
  by_cases hi : i < l.length
  · rw [getD_of_lt _ _ _ (by rw [List.length_zip]; omega), getD_of_lt _ _ _ hi,
      getD_of_lt _ _ _ (by omega), List.getElem_zip]
  · rw [List.getD_eq_default _ _ (by rw [List.length_zip]; omega),
      List.getD_eq_default _ _ (by omega), List.getD_eq_default _ _ (by omega)]

/-- The register that `quantum_state_collapse` returns, in closed form. -/
theorem state_collapse_eq (env : Env R) (reg : quantum_reg R) (st : List Nat)
    (h : reg.Stored st) (pos : Nat) (value : Int) (hpos : pos < reg.width)
    (hw : reg.width ≤ 64) (hlab : ∀ x ∈ st, x < 2 ^ 64) :
    quantum_state_collapse env pos value reg =
      { width := reg.width - 1
        size := (keptEntries pos value st reg.amplitude).length
        hashw := reg.hashw
        amplitude := (keptEntries pos value st reg.amplitude).map (fun e =>
          ⟨e.2.re / env.toFloat (env.sqrt (((keptEntries pos value st reg.amplitude).map
              (fun e => e.2.prob)).sum)),
            e.2.im / env.toFloat (env.sqrt (((keptEntries pos value st reg.amplitude).map
              (fun e => e.2.prob)).sum))⟩)
        state := some ((keptEntries pos value st reg.amplitude).map (fun e =>
          e.1 % 2 ^ pos + 2 ^ pos * (e.1 / 2 ^ (pos + 1))))
        hash := reg.hash } := by
  obtain ⟨hst, h1, h2⟩ := h
  have hp64 : pos < 64 := by omega
  have hE : (List.zip st reg.amplitude).length = reg.size := by
    rw [List.length_zip, h1, h2, Nat.min_self]
  have hlabel : ∀ i, reg.label i = ((List.zip st reg.amplitude).getD i (0, 0)).1 := by
    intro i
    rw [getD_zip st reg.amplitude (by omega)]
    simp only [quantum_reg.label, hst, Option.getD_some]
  have hamp : ∀ i, reg.amp i = ((List.zip st reg.amplitude).getD i (0, 0)).2 := by
    intro i
    rw [getD_zip st reg.amplitude (by omega)]
    rfl
  have hkept : keptEntries pos value st reg.amplitude =
      (List.zip st reg.amplitude).filter (fun e => collapseKeep pos value e.1) := by
    unfold keptEntries
    congr 1
    funext e
    rw [collapseKeep_iff pos value e.1 hp64]
  unfold quantum_state_collapse
  simp only [hlabel, hamp]
  rw [sum_loop (fun i => collapseKeep pos value ((List.zip st reg.amplitude).getD i (0, 0)).1)
    (fun i => (((List.zip st reg.amplitude).getD i (0, 0)).2).prob) reg.size]
  simp only
  have hcl := collect_loop
    ({ width := reg.width - 1
       size := ((List.range reg.size).filter (fun i =>
          collapseKeep pos value ((List.zip st reg.amplitude).getD i (0, 0)).1)).length
       amplitude := List.replicate ((List.range reg.size).filter (fun i =>
          collapseKeep pos value ((List.zip st reg.amplitude).getD i (0, 0)).1)).length 0
       state := some (List.replicate ((List.range reg.size).filter (fun i =>
          collapseKeep pos value ((List.zip st reg.amplitude).getD i (0, 0)).1)).length 0)
       hashw := reg.hashw
       hash := reg.hash } : quantum_reg R) _ rfl rfl
    (fun i => collapseKeep pos value ((List.zip st reg.amplitude).getD i (0, 0)).1)
    (fun i => ((collapseLmask pos &&& ((List.zip st reg.amplitude).getD i (0, 0)).1) >>> 1)
      ||| (collapseRmask pos &&& ((List.zip st reg.amplitude).getD i (0, 0)).1))
    (fun i => ((((List.zip st reg.amplitude).getD i (0, 0)).2) * 1).divReal
      (env.toFloat (env.sqrt ((((List.range reg.size).filter (fun i =>
          collapseKeep pos value ((List.zip st reg.amplitude).getD i (0, 0)).1)).map
            (fun i => (((List.zip st reg.amplitude).getD i (0, 0)).2).prob)).sum))))
    reg.size (le_refl _)
  rw [hcl]
  simp only [Nat.sub_self, List.replicate_zero, List.append_nil]
  rw [← hE]
  rw [range_filter_map (List.zip st reg.amplitude) (0, 0)
      (fun e => collapseKeep pos value e.1) (fun e => e.2.prob),
    range_filter_map (List.zip st reg.amplitude) (0, 0)
      (fun e => collapseKeep pos value e.1)
      (fun e => ((collapseLmask pos &&& e.1) >>> 1) ||| (collapseRmask pos &&& e.1)),
    range_filter_map (List.zip st reg.amplitude) (0, 0)
      (fun e => collapseKeep pos value e.1)
      (fun e => (e.2 * 1).divReal (env.toFloat (env.sqrt ((((List.zip st reg.amplitude).filter
        (fun e => collapseKeep pos value e.1)).map (fun e => e.2.prob)).sum))))]
  rw [← hkept]
  have hlen : ((List.range (List.zip st reg.amplitude).length).filter (fun i =>
      collapseKeep pos value ((List.zip st reg.amplitude).getD i (0, 0)).1)).length
      = (keptEntries pos value st reg.amplitude).length := by
    have := congrArg List.length (range_filter_map (List.zip st reg.amplitude) (0, 0)
      (fun e => collapseKeep pos value e.1) (fun e => e))
    rw [List.length_map, List.length_map, ← hkept] at this
    exact this
  rw [hlen]
  have hlabels : (keptEntries pos value st reg.amplitude).map (fun e =>
      ((collapseLmask pos &&& e.1) >>> 1) ||| (collapseRmask pos &&& e.1)) =
      (keptEntries pos value st reg.amplitude).map (fun e =>
        e.1 % 2 ^ pos + 2 ^ pos * (e.1 / 2 ^ (pos + 1))) := by
    apply List.map_congr_left
    intro e he
    have he' : e ∈ List.zip st reg.amplitude := (List.mem_filter.1 he).1
    have hm : e.1 ∈ st := (List.of_mem_zip (a := e.1) (b := e.2) he').1
    exact relabel_eq pos e.1 hp64 (hlab _ hm)
  have hamps : (keptEntries pos value st reg.amplitude).map (fun e =>
      (e.2 * 1).divReal (env.toFloat (env.sqrt (((keptEntries pos value st reg.amplitude).map
        (fun e => e.2.prob)).sum)))) =
      (keptEntries pos value st reg.amplitude).map (fun e =>
        (⟨e.2.re / env.toFloat (env.sqrt (((keptEntries pos value st reg.amplitude).map
              (fun e => e.2.prob)).sum)),
            e.2.im / env.toFloat (env.sqrt (((keptEntries pos value st reg.amplitude).map
              (fun e => e.2.prob)).sum))⟩ : Cplx R)) := by
    apply List.map_congr_left
    intro e _
    rw [mul_one]
    rfl
  rw [hlabels, hamps]

end Libquantum

namespace Libquantum

end Libquantum

namespace Libquantum

/-! ## The lead swap -/

/-- C10, the code at a failing input: `quantum_swaptheleads(16)` on the single
entry with label `2^31` stores the label 4294934528, where the label
permutation of the specification gives 32768; the patterns `pat1` and `pat2` are
of type `int` and `2^31` does not fit. -/
theorem claim_C10_swaptheleads_int_patterns :
    (quantum_swaptheleads Env.plainQ 16
      (quantum_new_qureg Env.plainQ (2 ^ 31) 32 [])).reg.state = some [4294934528] ∧
    swapLabelSpec 16 (2 ^ 31) = 32768 := by
  decide!

end Libquantum

namespace Libquantum

variable {R : Type} [LinearOrderedField R]

/-! ## Linear probing -/

theorem nextSlot_mod (n i : Nat) (hn : 0 < n) : nextSlot n (i % n) = (i + 1) % n := by
  unfold nextSlot
  have h1 : i % n < n := Nat.mod_lt _ hn
  by_cases h : i % n + 1 = n
  · rw [if_pos h, Nat.add_mod, ← Nat.add_mod_mod, Nat.add_mod_mod]
    have : (i % n + 1 % n) % n = (i % n + 1) % n := by rw [Nat.add_mod_mod]
    rw [this, h, Nat.mod_self]
  · rw [if_neg h]
    have h2 : i % n + 1 < n := by omega
    rw [Nat.add_mod, ← Nat.add_mod_mod, Nat.add_mod_mod]
    have : (i % n + 1 % n) % n = (i % n + 1) % n := by rw [Nat.add_mod_mod]
    rw [this, Nat.mod_eq_of_lt h2]

theorem hashProbeEmpty_first (T : List Nat) (n : Nat) (hn : 0 < n) :
    ∀ (k i0 fuel : Nat), k < fuel → T.getD ((i0 + k) % n) 0 = 0 →
      (∀ k', k' < k → T.getD ((i0 + k') % n) 0 ≠ 0) →
      hashProbeEmpty T n fuel (i0 % n) = some ((i0 + k) % n) := by
  intro k
  induction k with
  | zero =>
    intro i0 fuel hf h0 _
    obtain ⟨f, rfl⟩ : ∃ f, fuel = f + 1 := ⟨fuel - 1, by omega⟩
    rw [Nat.add_zero] at h0
    simp only [hashProbeEmpty, h0, if_true, Nat.add_zero]
  | succ k ih =>
    intro i0 fuel hf h0 hne
    obtain ⟨f, rfl⟩ : ∃ f, fuel = f + 1 := ⟨fuel - 1, by omega⟩
    have h1 := hne 0 (by omega)
    rw [Nat.add_zero] at h1
    simp only [hashProbeEmpty, h1, if_false]
    rw [nextSlot_mod n i0 hn]
    have e : i0 + (k + 1) = i0 + 1 + k := by omega
    rw [e] at h0 ⊢
    apply ih (i0 + 1) f (by omega) h0
    intro k' hk'
    have := hne (k' + 1) (by omega)
    have e2 : i0 + (k' + 1) = i0 + 1 + k' := by omega
    rw [e2] at this
    exact this

/-- Probing for a label stops at the first slot that is empty or references
the label. -/
theorem hashProbeGet_first (T S : List Nat) (a n : Nat) (hn : 0 < n) (res : Int) :
    ∀ (k i0 fuel : Nat), k < fuel →
      (∀ k', k' ≤ k → T.getD ((i0 + k') % n) 0 ≠ 0 →
        S.getD (T.getD ((i0 + k') % n) 0 - 1) 0 = a →
        ((T.getD ((i0 + k') % n) 0 - 1 : Nat) : Int) = res) →
      (∀ k', k' < k → T.getD ((i0 + k') % n) 0 ≠ 0) →
      ((T.getD ((i0 + k) % n) 0 = 0 ∧ res = -1) ∨
        (T.getD ((i0 + k) % n) 0 ≠ 0 ∧ S.getD (T.getD ((i0 + k) % n) 0 - 1) 0 = a)) →
      hashProbeGet T S a n fuel (i0 % n) = some res := by
  intro k
  induction k with
  | zero =>
    intro i0 fuel hf hres _ hend
    obtain ⟨f, rfl⟩ : ∃ f, fuel = f + 1 := ⟨fuel - 1, by omega⟩
    rw [Nat.add_zero] at hend
    rcases hend with ⟨h0, hr⟩ | ⟨h0, hs⟩
    · simp only [hashProbeGet, h0, if_true, hr]
    · have := hres 0 (le_refl _)
      rw [Nat.add_zero] at this
      simp only [hashProbeGet, h0, if_false, hs, if_true, this h0 hs]
  | succ k ih =>
    intro i0 fuel hf hres hne hend
    obtain ⟨f, rfl⟩ : ∃ f, fuel = f + 1 := ⟨fuel - 1, by omega⟩
    have h1 := hne 0 (by omega)
    rw [Nat.add_zero] at h1
    simp only [hashProbeGet, h1, if_false]
    by_cases hs : S.getD (T.getD (i0 % n) 0 - 1) 0 = a
    · have := hres 0 (by omega)
      rw [Nat.add_zero] at this
      rw [if_pos hs, this h1 hs]
    · rw [if_neg hs, nextSlot_mod n i0 hn]
      have e : i0 + (k + 1) = i0 + 1 + k := by omega
      rw [e] at hend
      apply ih (i0 + 1) f (by omega) ?_ ?_ hend
      · intro k' hk'
        have := hres (k' + 1) (by omega)
        have e2 : i0 + (k' + 1) = i0 + 1 + k' := by omega
        rw [e2] at this
        exact this
      · intro k' hk'
        have := hne (k' + 1) (by omega)
        have e2 : i0 + (k' + 1) = i0 + 1 + k' := by omega
        rw [e2] at this
        exact this

/-- From any start, a probe of `n` steps meets every slot; so it meets a first
empty slot if there is an empty slot at all. -/
theorem exists_first_empty (T : List Nat) (n : Nat) (hn : 0 < n) (s : Nat) (hs : s < n)
    (h0 : T.getD s 0 = 0) (i0 : Nat) :
    ∃ k, k < n ∧ T.getD ((i0 + k) % n) 0 = 0 ∧
      ∀ k', k' < k → T.getD ((i0 + k') % n) 0 ≠ 0 := by
  have hex : ∃ k, k < n ∧ T.getD ((i0 + k) % n) 0 = 0 := by
    refine ⟨(s + n - i0 % n) % n, Nat.mod_lt _ hn, ?_⟩
    have h1 : i0 % n < n := Nat.mod_lt _ hn
    have : (i0 + (s + n - i0 % n) % n) % n = s := by
      have e : i0 % n + (s + n - i0 % n) = s + n := by omega
      rw [Nat.add_mod_mod, ← Nat.mod_add_mod, e, Nat.add_mod_right, Nat.mod_eq_of_lt hs]
    rw [this]; exact h0
  classical
  refine ⟨Nat.find hex, (Nat.find_spec hex).1, (Nat.find_spec hex).2, ?_⟩
  intro k' hk' h
  exact Nat.find_min hex hk' ⟨by have := (Nat.find_spec hex).1; omega, h⟩

theorem count_zero_set (T : List Nat) (s v : Nat) (hs : s < T.length)
    (h0 : T.getD s 0 = 0) (hv : v ≠ 0) :
    (T.set s v).count 0 + 1 = T.count 0 := by
  induction T generalizing s with
  | nil => simp at hs
  | cons x T ih =>
    cases s with
    | zero =>
      simp only [List.getD_cons_zero] at h0
      subst h0
      simp only [List.set_cons_zero, List.count_cons_self]
      rw [List.count_cons_of_ne (Ne.symm hv)]
    | succ s =>
      simp only [List.getD_cons_succ] at h0
      simp only [List.length_cons, Nat.add_lt_add_iff_right] at hs
      simp only [List.set_cons_succ, List.count_cons]
      have := ih s hs h0
      omega

theorem exists_zero_of_count (T : List Nat) (h : 0 < T.count 0) :
    ∃ s, s < T.length ∧ T.getD s 0 = 0 := by
  have hm : (0 : Nat) ∈ T := List.count_pos_iff.1 h
  obtain ⟨s, hs, he⟩ := List.getElem_of_mem hm
  exact ⟨s, hs, by rw [getD_of_lt _ _ _ hs]; exact he⟩

end Libquantum

namespace Libquantum

variable {R : Type} [LinearOrderedField R]

theorem hashInv_init (seed : Nat → Nat) (n : Nat) (S : List Nat) :
    HashInv seed n S (List.replicate n 0) 0 := by
  refine ⟨List.length_replicate _ _, ?_, ?_, ?_⟩
  · intro s hs h
    exfalso; apply h
    rw [List.getD_eq_getElem?_getD, List.getElem?_replicate]
    split <;> rfl
  · intro p hp; omega
  · rw [List.count_replicate_self]; omega

theorem getD_set_ne {α : Type} (l : List α) (i j : Nat) (v d : α) (h : i ≠ j) :
    (l.set i v).getD j d = l.getD j d := by
  rw [List.getD_eq_getElem?_getD, List.getElem?_set_ne h, ← List.getD_eq_getElem?_getD]

theorem getD_set_self {α : Type} (l : List α) (i : Nat) (v d : α) (h : i < l.length) :
    (l.set i v).getD i d = v := by
  rw [getD_of_lt _ _ _ (by rw [List.length_set]; exact h)]
  exact List.getElem_set_self _

theorem hashInv_add (seed : Nat → Nat) (n : Nat) (hn : 0 < n) (S T : List Nat) (m : Nat)
    (hinv : HashInv seed n S T m) (hm : m < n) :
    ∃ s, hashProbeEmpty T n n (seed (S.getD m 0) % n) = some s ∧
      HashInv seed n S (T.set s (m + 1)) (m + 1) := by
  obtain ⟨hlen, hpos, hpath, hcount⟩ := hinv
  obtain ⟨s0, hs0, hz0⟩ := exists_zero_of_count T (by omega)
  rw [hlen] at hs0
  obtain ⟨k, hk, hkz, hkmin⟩ := exists_first_empty T n hn s0 hs0 hz0 (seed (S.getD m 0))
  have hslot : (seed (S.getD m 0) + k) % n < n := Nat.mod_lt _ hn
  refine ⟨_, hashProbeEmpty_first T n hn k _ n hk hkz hkmin, ?_, ?_, ?_, ?_⟩
  · rw [List.length_set]; exact hlen
  · intro s hs h
    by_cases e : (seed (S.getD m 0) + k) % n = s
    · subst e
      rw [getD_set_self _ _ _ _ (by rw [hlen]; exact hslot)]
      omega
    · rw [getD_set_ne _ _ _ _ _ e] at h ⊢
      have := hpos s hs h
      omega
  · intro p hp
    by_cases hpm : p = m
    · subst hpm
      refine ⟨k, hk, getD_set_self _ _ _ _ (by rw [hlen]; exact hslot), ?_⟩
      intro k' hk'
      have hne := hkmin k' hk'
      have e : (seed (S.getD p 0) + k) % n ≠ (seed (S.getD p 0) + k') % n := by
        intro e; rw [← e] at hne; exact hne hkz
      rw [getD_set_ne _ _ _ _ _ e]
      exact hne
    · obtain ⟨kp, hkp, hkpv, hkpmin⟩ := hpath p (by omega)
      refine ⟨kp, hkp, ?_, ?_⟩
      · have e : (seed (S.getD m 0) + k) % n ≠ (seed (S.getD p 0) + kp) % n := by
          intro e; rw [← e, hkz] at hkpv; omega
        rw [getD_set_ne _ _ _ _ _ e]
        exact hkpv
      · intro k' hk'
        by_cases e : (seed (S.getD m 0) + k) % n = (seed (S.getD p 0) + k') % n
        · rw [← e, getD_set_self _ _ _ _ (by rw [hlen]; exact hslot)]
          omega
        · rw [getD_set_ne _ _ _ _ _ e]
          exact hkpmin k' hk'
  · have := count_zero_set T _ (m + 1) (by rw [hlen]; exact hslot) hkz (by omega)
    omega

/-- Looking up a stored label gives its position. -/
theorem hashInv_get_present (seed : Nat → Nat) (n : Nat) (hn : 0 < n) (S T : List Nat)
    (hinv : HashInv seed n S T S.length) (hnd : S.Nodup) (p : Nat) (hp : p < S.length) :
    hashProbeGet T S (S.getD p 0) n n (seed (S.getD p 0) % n) = some (p : Int) := by
  obtain ⟨hlen, hpos, hpath, hcount⟩ := hinv
  obtain ⟨k, hk, hkv, hkmin⟩ := hpath p hp
  apply hashProbeGet_first T S _ n hn _ k _ n hk ?_ hkmin ?_
  · intro k' _ hne hs
    have hq := hpos _ (Nat.mod_lt _ hn) hne
    generalize T.getD ((seed (S.getD p 0) + k') % n) 0 - 1 = q at hq hs ⊢
    rw [getD_of_lt _ _ _ hq, getD_of_lt _ _ _ hp] at hs
    have := (List.Nodup.getElem_inj_iff hnd).1 hs
    rw [this]
  · right
    rw [hkv]
    exact ⟨by omega, rfl⟩

/-- Looking up a label that is not stored gives `-1`. -/
theorem hashInv_get_absent (seed : Nat → Nat) (n : Nat) (hn : 0 < n) (S T : List Nat)
    (hinv : HashInv seed n S T S.length) (hsize : S.length < n) (a : Nat) (ha : a ∉ S) :
    hashProbeGet T S a n n (seed a % n) = some (-1) := by
  obtain ⟨hlen, hpos, hpath, hcount⟩ := hinv
  obtain ⟨s0, hs0, hz0⟩ := exists_zero_of_count T (by omega)
  rw [hlen] at hs0
  obtain ⟨k, hk, hkz, hkmin⟩ := exists_first_empty T n hn s0 hs0 hz0 (seed a)
  apply hashProbeGet_first T S a n hn _ k _ n hk ?_ hkmin (Or.inl ⟨hkz, rfl⟩)
  intro k' _ hne hs
  exfalso
  have hq := hpos _ (Nat.mod_lt _ hn) hne
  generalize T.getD ((seed a + k') % n) 0 - 1 = q at hq hs
  rw [getD_of_lt _ _ _ hq] at hs
  exact ha (hs ▸ List.getElem_mem _)

end Libquantum

namespace Libquantum

variable {R : Type} [LinearOrderedField R]

theorem forLoopM_succ {σ : Type} (n : Nat) (body : Nat → σ → Option σ) (s : σ) :
    forLoopM (n + 1) body s = (forLoopM n body s).bind (body n) := rfl

theorem reconstruct_loop (seed : Nat → Nat) (reg : quantum_reg R) (st : List Nat)
    (hst : reg.state = some st) (k : Nat) (hk : k ≤ 2 ^ reg.hashw) :
    ∃ T, forLoopM k (fun i r => quantum_add_hash seed (r.label i) i r)
        ({ reg with hash := List.replicate (2 ^ reg.hashw) 0 } : quantum_reg R)
        = some { reg with hash := T } ∧
      HashInv seed (2 ^ reg.hashw) st T k := by
  induction k with
  | zero => exact ⟨_, rfl, hashInv_init seed _ st⟩
  | succ k ih =>
    obtain ⟨T, hT, hinv⟩ := ih (by omega)
    have hn : 0 < 2 ^ reg.hashw := Nat.pos_pow_of_pos _ (by decide)
    obtain ⟨s, hs, hinv'⟩ := hashInv_add seed _ hn st T k hinv (by omega)
    refine ⟨T.set s (k + 1), ?_, hinv'⟩
    rw [forLoopM_succ, hT]
    simp only [Option.some_bind, quantum_add_hash, quantum_reg.label, hst, Option.getD_some, hs,
      Option.map_some']

theorem zero_loop (l : List Nat) (k : Nat) (hk : k ≤ l.length) :
    forLoop k (fun i (l : List Nat) => l.set i 0) l = List.replicate k 0 ++ l.drop k := by
  induction k with
  | zero => simp [forLoop]
  | succ k ih =>
    rw [forLoop_succ, ih (by omega), set_take_drop l _ k (by omega) (List.length_replicate _ _),
      List.replicate_succ', List.append_assoc]
    rfl

theorem hash_loop (f : Nat → List Nat → List Nat) (k : Nat) (reg : quantum_reg R) :
    forLoop k (fun i (r : quantum_reg R) => { r with hash := f i r.hash }) reg =
      { reg with hash := forLoop k f reg.hash } := by
  induction k with
  | zero => rfl
  | succ k ih => rw [forLoop_succ, ih]; rfl

theorem gate2_build_hash_eq (seed : Nat → Nat) (reg : quantum_reg R)
    (hlen : reg.hash.length = 2 ^ reg.hashw) :
    gate2_build_hash seed reg = quantum_reconstruct_hash seed reg := by
  unfold gate2_build_hash quantum_reconstruct_hash
  rw [hash_loop (fun i l => l.set i 0), zero_loop _ _ (by omega), ← hlen, List.drop_length,
    List.append_nil]

/-- C5: after the hash table of a register with pairwise distinct labels and
fewer entries than slots has been rebuilt (all slots zeroed, every entry added
in order at the first empty slot of its probe), looking up the label of
position `p` gives `p`, and looking up a label that is not stored gives `-1`.
The rebuild is `quantum_reconstruct_hash`, and equally the loops at the head of
`quantum_gate2`. -/
theorem claim_C5_hash_lookup (seed : Nat → Nat) (reg : quantum_reg R) (st : List Nat)
    (h : reg.Stored st) (hh : 0 < reg.hashw) (hnd : st.Nodup)
    (hsize : reg.size < 2 ^ reg.hashw) :
    ∃ T, quantum_reconstruct_hash seed reg = some { reg with hash := T } ∧
      (reg.hash.length = 2 ^ reg.hashw →
        gate2_build_hash seed reg = some { reg with hash := T }) ∧
      (∀ p, p < reg.size →
        quantum_get_state seed (reg.label p) { reg with hash := T } = some (p : Int)) ∧
      (∀ a, a ∉ st → quantum_get_state seed a { reg with hash := T } = some (-1)) := by
  obtain ⟨hst, h1, h2⟩ := h
  have hn : 0 < 2 ^ reg.hashw := Nat.pos_pow_of_pos _ (by decide)
  obtain ⟨T, hT, hinv⟩ := reconstruct_loop seed reg st hst reg.size (by omega)
  rw [← h1] at hinv
  refine ⟨T, hT, ?_, ?_, ?_⟩
  · intro hlen
    rw [gate2_build_hash_eq seed reg hlen]
    exact hT
  · intro p hp
    simp only [quantum_get_state, quantum_reg.label, hst, Option.getD_some]
    exact hashInv_get_present seed _ hn st T hinv hnd p (by omega)
  · intro a ha
    simp only [quantum_get_state, hst, Option.getD_some]
    exact hashInv_get_absent seed _ hn st T hinv (by omega) a ha

/-- Witness of C5: the register `regQ` with the identity as seed. -/
theorem claim_C5_witness :
    regQ.Stored [0, 3] ∧ [0, 3].Nodup ∧
    ∃ T, quantum_reconstruct_hash (fun x => x) regQ = some { regQ with hash := T } ∧
      quantum_get_state (fun x => x) 3 { regQ with hash := T } = some 1 ∧
      quantum_get_state (fun x => x) 2 { regQ with hash := T } = some (-1) :=
  ⟨⟨rfl, rfl, rfl⟩, by decide,
    (claim_C5_hash_lookup (fun x => x) regQ [0, 3] ⟨rfl, rfl, rfl⟩ (by decide) (by decide)
      (by decide)).imp (fun T hT => ⟨hT.1, hT.2.2.1 1 (by decide), hT.2.2.2 2 (by decide)⟩)⟩

end Libquantum

namespace Libquantum

variable {R : Type} [LinearOrderedField R]

/-! ## The multiplication pass of `quantum_gate1`: shape and termination -/

namespace quantum_reg

theorem Shaped.setAmp {r : quantum_reg R} {w s h : Nat} {T : List Nat} {len : Nat}
    (hr : r.Shaped w s h T len) (i : Nat) (z : Cplx R) : (r.setAmp i z).Shaped w s h T len := by
  obtain ⟨h1, h2, h3, h4, h5, h6⟩ := hr
  exact ⟨h1, h2, h3, h4, h5, by simp only [quantum_reg.setAmp, List.length_set]; exact h6⟩

theorem Shaped.setLabel {r : quantum_reg R} {w s h : Nat} {T : List Nat} {len : Nat}
    (hr : r.Shaped w s h T len) (i x : Nat) : (r.setLabel i x).Shaped w s h T len := by
  obtain ⟨h1, h2, h3, h4, ⟨S, hS, hl⟩, h6⟩ := hr
  refine ⟨h1, h2, h3, h4, ⟨S.set i x, ?_, ?_⟩, h6⟩
  · simp only [quantum_reg.setLabel, hS, Option.map_some']
  · rw [List.length_set]; exact hl

end quantum_reg

/-- A probe for a label returns whenever the table has an empty slot. -/
theorem hashProbeGet_total (T S : List Nat) (a n : Nat) (hn : 0 < n) (s0 : Nat) (hs0 : s0 < n)
    (hz : T.getD s0 0 = 0) (i0 : Nat) :
    ∃ res, hashProbeGet T S a n n (i0 % n) = some res := by
  obtain ⟨k, hk, hkz, hkmin⟩ := exists_first_empty T n hn s0 hs0 hz i0
  -- the first slot on the path that is empty or references the label
  have hex : ∃ k, k < n ∧ (T.getD ((i0 + k) % n) 0 = 0 ∨
      S.getD (T.getD ((i0 + k) % n) 0 - 1) 0 = a) := ⟨k, hk, Or.inl hkz⟩
  classical
  have hsp := Nat.find_spec hex
  have hmin : ∀ k', k' < Nat.find hex → T.getD ((i0 + k') % n) 0 ≠ 0 ∧
      ¬ S.getD (T.getD ((i0 + k') % n) 0 - 1) 0 = a := by
    intro k' hk'
    have := Nat.find_min hex hk'
    constructor
    · intro h0; exact this ⟨by omega, Or.inl h0⟩
    · intro h0; exact this ⟨by omega, Or.inr h0⟩
  by_cases h0 : T.getD ((i0 + Nat.find hex) % n) 0 = 0
  · refine ⟨-1, hashProbeGet_first T S a n hn _ (Nat.find hex) i0 n hsp.1 ?_
      (fun k' hk' => (hmin k' hk').1) (Or.inl ⟨h0, rfl⟩)⟩
    intro k' hk' hne hs
    rcases Nat.lt_or_eq_of_le hk' with hlt | heq
    · exact absurd hs (hmin k' hlt).2
    · rw [heq] at hne; exact absurd h0 hne
  · have hs : S.getD (T.getD ((i0 + Nat.find hex) % n) 0 - 1) 0 = a := by
      rcases hsp.2 with h | h
      · exact absurd h h0
      · exact h
    refine ⟨_, hashProbeGet_first T S a n hn
      ((T.getD ((i0 + Nat.find hex) % n) 0 - 1 : Nat) : Int) (Nat.find hex) i0 n hsp.1 ?_
      (fun k' hk' => (hmin k' hk').1) (Or.inr ⟨h0, hs⟩)⟩
    intro k' hk' hne hs'
    rcases Nat.lt_or_eq_of_le hk' with hlt | heq
    · exact absurd hs' (hmin k' hlt).2
    · rw [heq]

theorem get_state_total (seed : Nat → Nat) (a : Nat) (reg : quantum_reg R) (s0 : Nat)
    (hs0 : s0 < 2 ^ reg.hashw) (hz : reg.hash.getD s0 0 = 0) :
    ∃ res, quantum_get_state seed a reg = some res :=
  hashProbeGet_total _ _ a _ (Nat.pos_pow_of_pos _ (by decide)) s0 hs0 hz (seed a)

/-- One iteration of the multiplication loop keeps the shape of the register
and returns if the table has an empty slot. -/
theorem gate1_step_shaped (seed : Nat → Nat) (target : Nat) (m : quantum_matrix R) (i : Nat)
    (s s' : Gate1State R) (w sz h : Nat) (T : List Nat) (len : Nat)
    (hs : s.reg.Shaped w sz h T len) (hstep : gate1_step seed target m i s = some s') :
    s'.reg.Shaped w sz h T len := by
  unfold gate1_step at hstep
  split at hstep
  · cases hstep; exact hs
  · split at hstep
    · cases hstep; exact hs
    · rw [Option.map_eq_some'] at hstep
      obtain ⟨j, _, hj⟩ := hstep
      subst hj
      simp only
      split_ifs <;>
        first
          | exact hs.setAmp _ _
          | exact (hs.setAmp _ _).setAmp _ _
          | exact ((hs.setAmp _ _).setLabel _ _).setAmp _ _

end Libquantum

namespace Libquantum

variable {R : Type} [LinearOrderedField R]

theorem realloc_grow {α : Type} [Zero α] (l : List α) (a : Nat) :
    realloc l (l.length + a) = l ++ List.replicate a 0 := by
  unfold realloc
  rw [List.take_of_length_le (by omega), Nat.add_sub_cancel_left]

theorem getD_append_replicate {α : Type} (l : List α) (a k : Nat) (d : α) :
    (l ++ List.replicate a d).getD (k + l.length) d = d := by
  rw [List.getD_append_right _ _ _ _ (by omega), Nat.add_sub_cancel,
    List.getD_eq_getElem?_getD, List.getElem?_replicate]
  split <;> rfl

theorem addsize_total (seed : Nat → Nat) (target : Nat) (reg : quantum_reg R) (s0 : Nat)
    (hs0 : s0 < 2 ^ reg.hashw) (hz : reg.hash.getD s0 0 = 0) (k : Nat) :
    ∃ a, forLoopM k (fun i addsize =>
      (quantum_get_state seed (reg.label i ^^^ shl1 target) reg).map (fun j =>
        if j = -1 then addsize + 1 else addsize)) 0 = some a := by
  induction k with
  | zero => exact ⟨0, rfl⟩
  | succ k ih =>
    obtain ⟨a, ha⟩ := ih
    obtain ⟨res, hres⟩ := get_state_total seed (reg.label k ^^^ shl1 target) reg s0 hs0 hz
    rw [forLoopM_succ, ha]
    simp only [Option.some_bind, hres, Option.map_some']
    exact ⟨_, rfl⟩

theorem hashInv_empty_slot (seed : Nat → Nat) (n : Nat) (S T : List Nat) (m : Nat)
    (hinv : HashInv seed n S T m) (hm : m < n) : ∃ s, s < n ∧ T.getD s 0 = 0 := by
  obtain ⟨hlen, _, _, hcount⟩ := hinv
  obtain ⟨s, hs, hz⟩ := exists_zero_of_count T (by omega)
  exact ⟨s, by omega, hz⟩

/-- The head of `quantum_gate1` on a stored register with fewer entries than
slots: the table is rebuilt and both arrays are extended by `addsize` zero
cells. -/
theorem gate1_grow_eq (seed : Nat → Nat) (target : Nat) (reg : quantum_reg R) (st : List Nat)
    (h : reg.Stored st) (hsize : reg.size < 2 ^ reg.hashw) :
    ∃ T a, gate1_grow seed target reg =
        some (({ reg with
          hash := T
          state := some (st ++ List.replicate a 0)
          amplitude := reg.amplitude ++ List.replicate a 0 } : quantum_reg R), a) ∧
      HashInv seed (2 ^ reg.hashw) st T st.length ∧
      gate1_addsize seed target ({ reg with hash := T } : quantum_reg R) = some a := by
  obtain ⟨hst, h1, h2⟩ := h
  obtain ⟨T, hT, hinv⟩ := reconstruct_loop seed reg st hst reg.size (by omega)
  rw [← h1] at hinv
  obtain ⟨s0, hs0, hz⟩ := hashInv_empty_slot seed _ st T _ hinv (by omega)
  obtain ⟨a, ha⟩ := addsize_total seed target ({ reg with hash := T } : quantum_reg R) s0 hs0 hz
    reg.size
  refine ⟨T, a, ?_, hinv, ha⟩
  unfold gate1_grow
  have hT' : quantum_reconstruct_hash seed reg = some { reg with hash := T } := hT
  rw [hT']
  simp only [Option.some_bind]
  have ha' : gate1_addsize seed target ({ reg with hash := T } : quantum_reg R) = some a := ha
  rw [ha']
  simp only [Option.map_some', hst]
  have e1 : realloc st (reg.size + a) = st ++ List.replicate a 0 := by
    rw [← h1]; exact realloc_grow st a
  have e2 : realloc reg.amplitude (reg.size + a) = reg.amplitude ++ List.replicate a 0 := by
    rw [← h2]; exact realloc_grow reg.amplitude a
  rw [e1, e2]
  have hloop : ∀ k, k ≤ a →
      forLoop k (fun i (r : quantum_reg R) => (r.setLabel (i + r.size) 0).setAmp (i + r.size) 0)
        ({ reg with
          hash := T
          state := some (st ++ List.replicate a 0)
          amplitude := reg.amplitude ++ List.replicate a 0 } : quantum_reg R) =
        { reg with
          hash := T
          state := some (st ++ List.replicate a 0)
          amplitude := reg.amplitude ++ List.replicate a 0 } := by
    intro k hka
    induction k with
    | zero => rfl
    | succ k ih =>
      rw [forLoop_succ, ih (by omega)]
      simp only [quantum_reg.setLabel, quantum_reg.setAmp, Option.map_some']
      have e3 : (st ++ List.replicate a 0).set (k + reg.size) 0 = st ++ List.replicate a 0 := by
        have := set_getD_self (st ++ List.replicate a 0) (k + st.length) 0
        rw [getD_append_replicate] at this
        rw [← h1]; exact this
      have e4 : (reg.amplitude ++ List.replicate a (0 : Cplx R)).set (k + reg.size) 0 =
          reg.amplitude ++ List.replicate a 0 := by
        have := set_getD_self (reg.amplitude ++ List.replicate a (0 : Cplx R))
          (k + reg.amplitude.length) 0
        rw [getD_append_replicate] at this
        rw [← h2]; exact this
      rw [e3, e4]
  exact congrArg (fun r => some (r, a)) (hloop a (le_refl _))

end Libquantum

namespace Libquantum

variable {R : Type} [LinearOrderedField R]

/-! ## Compaction -/

theorem getD_zip_lt {α β : Type} (l : List α) (m : List β) (i : Nat) (hl : i < l.length)
    (hm : i < m.length) (a : α) (b : β) :
    (List.zip l m).getD i (a, b) = (l.getD i a, m.getD i b) := by
  rw [getD_of_lt _ _ _ (by rw [List.length_zip]; omega), getD_of_lt _ _ _ hl,
    getD_of_lt _ _ _ hm, List.getElem_zip]

theorem drop_eq_getD_cons {α : Type} (l : List α) (i : Nat) (h : i < l.length) (d : α) :
    l.drop i = l.getD i d :: l.drop (i + 1) := by
  rw [List.drop_eq_getElem_cons h, getD_of_lt l i d h]

theorem set_mid {α : Type} (A : List α) (x : α) (M D : List α) (v : α) (k : Nat)
    (hk : k = A.length) :
    (A ++ x :: M ++ D).set k v = A ++ v :: M ++ D := by
  subst hk
  rw [List.append_assoc, List.set_append_right _ _ (le_refl _), Nat.sub_self]
  simp

theorem take_succ_zip {α β : Type} (l : List α) (m : List β) (i : Nat) (hl : i < l.length)
    (hm : i < m.length) (a : α) (b : β) :
    (List.zip l m).take (i + 1) = (List.zip l m).take i ++ [(l.getD i a, m.getD i b)] := by
  rw [take_succ_snoc _ i (by rw [List.length_zip]; omega) (a, b), getD_zip_lt]
  all_goals omega

theorem compact_loop_inv (limit : R) (reg : quantum_reg R) (st : List Nat) (h : reg.Stored st)
    (i : Nat) (hi : i ≤ reg.size) :
    ∃ (ML : List Nat) (MA : List (Cplx R)) (j : Nat),
      forLoop i (fun i (s : quantum_reg R × Nat × Nat) =>
        if (s.1.amp i).prob < limit then (s.1, s.2.1 + 1, s.2.2 + 1)
        else if s.2.1 ≠ 0 then
          ((s.1.setLabel (i - s.2.1) (s.1.label i)).setAmp (i - s.2.1) (s.1.amp i),
            s.2.1, s.2.2)
        else s) (reg, 0, 0) =
        (({ reg with
            state := some ((((List.zip st reg.amplitude).take i).filter
              (fun e => decide (¬ e.2.prob < limit))).map Prod.fst ++ ML ++ st.drop i)
            amplitude := (((List.zip st reg.amplitude).take i).filter
              (fun e => decide (¬ e.2.prob < limit))).map Prod.snd ++ MA
              ++ reg.amplitude.drop i } : quantum_reg R), j, j) ∧
      ML.length = j ∧ MA.length = j ∧
      (((List.zip st reg.amplitude).take i).filter
        (fun e => decide (¬ e.2.prob < limit))).length + j = i := by
  obtain ⟨hst, h1, h2⟩ := h
  induction i with
  | zero =>
    refine ⟨[], [], 0, ?_, rfl, rfl, rfl⟩
    cases reg
    simp only at hst
    simp [forLoop, hst]
  | succ i ih =>
    obtain ⟨ML, MA, j, hloop, hML, hMA, hK⟩ := ih (by omega)
    rw [forLoop_succ, hloop]
    generalize hKdef : ((List.zip st reg.amplitude).take i).filter
      (fun e => decide (¬ e.2.prob < limit)) = K at hK ⊢
    have hKf : (K.map Prod.fst ++ ML).length = i := by
      rw [List.length_append, List.length_map]; omega
    have hKa : (K.map Prod.snd ++ MA).length = i := by
      rw [List.length_append, List.length_map]; omega
    have hamp : ({ reg with
        state := some (K.map Prod.fst ++ ML ++ st.drop i)
        amplitude := K.map Prod.snd ++ MA ++ reg.amplitude.drop i } : quantum_reg R).amp i
        = reg.amplitude.getD i 0 :=
      getD_take_drop reg.amplitude _ i (by omega) hKa 0
    have hlab : ({ reg with
        state := some (K.map Prod.fst ++ ML ++ st.drop i)
        amplitude := K.map Prod.snd ++ MA ++ reg.amplitude.drop i } : quantum_reg R).label i
        = st.getD i 0 :=
      getD_take_drop st _ i (by omega) hKf 0
    have htake := take_succ_zip st reg.amplitude i (by omega) (by omega) 0 0
    have hdl : st.drop i = st.getD i 0 :: st.drop (i + 1) :=
      drop_eq_getD_cons st i (by omega) 0
    have hda : reg.amplitude.drop i = reg.amplitude.getD i 0 :: reg.amplitude.drop (i + 1) :=
      drop_eq_getD_cons reg.amplitude i (by omega) 0
    simp only [hamp, hlab]
    by_cases hsmall : (reg.amplitude.getD i 0).prob < limit
    · have hfil : ((List.zip st reg.amplitude).take (i + 1)).filter
          (fun e => decide (¬ e.2.prob < limit)) = K := by
        rw [htake, List.filter_append, hKdef]
        have hdec : decide (¬ (reg.amplitude.getD i 0).prob < limit) = false :=
          decide_eq_false (not_not.2 hsmall)
        simp only [List.filter_cons, List.filter_nil, hdec, Bool.false_eq_true, if_false,
          List.append_nil]
      refine ⟨ML ++ [st.getD i 0], MA ++ [reg.amplitude.getD i 0], j + 1, ?_, ?_, ?_, ?_⟩
      · rw [if_pos hsmall, hfil, hdl, hda]
        simp only [List.append_assoc, List.singleton_append]
      · rw [List.length_append, hML]; rfl
      · rw [List.length_append, hMA]; rfl
      · rw [hfil]; omega
    · have hfil : ((List.zip st reg.amplitude).take (i + 1)).filter
          (fun e => decide (¬ e.2.prob < limit)) = K ++ [(st.getD i 0, reg.amplitude.getD i 0)] := by
        rw [htake, List.filter_append, hKdef]
        have hdec : decide (¬ (reg.amplitude.getD i 0).prob < limit) = true :=
          decide_eq_true hsmall
        simp only [List.filter_cons, List.filter_nil, hdec, if_true]
      rw [if_neg hsmall, hfil]
      by_cases hj : j ≠ 0
      · obtain ⟨x, ML', rfl⟩ : ∃ x ML', ML = x :: ML' := by
          cases ML with
          | nil => simp at hML; omega
          | cons x ML' => exact ⟨x, ML', rfl⟩
        obtain ⟨y, MA', rfl⟩ : ∃ y MA', MA = y :: MA' := by
          cases MA with
          | nil => simp at hMA; omega
          | cons y MA' => exact ⟨y, MA', rfl⟩
        refine ⟨ML' ++ [st.getD i 0], MA' ++ [reg.amplitude.getD i 0], j, ?_, ?_, ?_, ?_⟩
        · rw [if_pos hj]
          have hij : i - j = (K.map Prod.fst).length := by rw [List.length_map]; omega
          have hij' : i - j = (K.map Prod.snd).length := by rw [List.length_map]; omega
          simp only [quantum_reg.setLabel, quantum_reg.setAmp, Option.map_some']
          rw [set_mid _ _ _ _ _ _ hij, set_mid _ _ _ _ _ _ hij', hdl, hda]
          simp only [List.map_append, List.map_cons, List.map_nil, List.append_assoc,
            List.singleton_append, List.cons_append, List.nil_append]
        · simp only [List.length_append, List.length_cons, List.length_nil] at hML ⊢; omega
        · simp only [List.length_append, List.length_cons, List.length_nil] at hMA ⊢; omega
        · rw [List.length_append]; simp only [List.length_singleton]; omega
      · have hj0 : j = 0 := by omega
        subst hj0
        have hML0 : ML = [] := List.eq_nil_of_length_eq_zero hML
        have hMA0 : MA = [] := List.eq_nil_of_length_eq_zero hMA
        subst hML0 hMA0
        refine ⟨[], [], 0, ?_, rfl, rfl, ?_⟩
        · rw [if_neg (by simp)]
          rw [hdl, hda]
          simp only [List.map_append, List.map_cons, List.map_nil, List.append_assoc,
            List.singleton_append, List.append_nil, List.nil_append]
        · rw [List.length_append]; simp only [List.length_singleton]; omega

end Libquantum

namespace Libquantum

variable {R : Type} [LinearOrderedField R]

theorem realloc_length {α : Type} [Zero α] (l : List α) (n : Nat) : (realloc l n).length = n := by
  unfold realloc
  rw [List.length_append, List.length_take, List.length_replicate]
  omega

theorem realloc_shrink {α : Type} [Zero α] (A B : List α) : realloc (A ++ B) A.length = A := by
  unfold realloc
  rw [List.take_left, List.length_append]
  have : A.length - (A.length + B.length) = 0 := by omega
  rw [this, List.replicate_zero, List.append_nil]

/-- The compaction of `quantum_gate1` keeps exactly the entries whose squared
modulus is not below the limit, in their order. -/
theorem gate1_compact_eq (limit : R) (reg : quantum_reg R) (st : List Nat)
    (h : reg.Stored st) :
    gate1_compact limit reg =
      { reg with
        size := (compactEntries limit st reg.amplitude).length
        state := some ((compactEntries limit st reg.amplitude).map Prod.fst)
        amplitude := (compactEntries limit st reg.amplitude).map Prod.snd } := by
  obtain ⟨ML, MA, j, hloop, hML, hMA, hK⟩ := compact_loop_inv limit reg st h reg.size (le_refl _)
  obtain ⟨hst, h1, h2⟩ := h
  have hzl : (List.zip st reg.amplitude).length = reg.size := by
    rw [List.length_zip, h1, h2, Nat.min_self]
  have htk : (List.zip st reg.amplitude).take reg.size = List.zip st reg.amplitude := by
    rw [← hzl, List.take_length]
  rw [htk] at hloop hK
  have hd1 : st.drop reg.size = [] := by rw [← h1, List.drop_length]
  have hd2 : reg.amplitude.drop reg.size = [] := by rw [← h2, List.drop_length]
  rw [hd1, hd2, List.append_nil, List.append_nil] at hloop
  unfold gate1_compact gate1_compact_loop
  rw [hloop]
  unfold compactEntries
  simp only
  by_cases hj : j ≠ 0
  · rw [if_pos hj]
    have hsz : reg.size - j = (((List.zip st reg.amplitude).filter
        (fun e => decide (¬ e.2.prob < limit))).map Prod.fst).length := by
      rw [List.length_map]; omega
    have hsz' : reg.size - j = (((List.zip st reg.amplitude).filter
        (fun e => decide (¬ e.2.prob < limit))).map Prod.snd).length := by
      rw [List.length_map]; omega
    simp only [Option.map_some']
    congr 1
    · rw [hsz, List.length_map]
    · rw [hsz', realloc_shrink]
    · rw [hsz, realloc_shrink]
  · rw [if_neg hj]
    have hj0 : j = 0 := by omega
    subst hj0
    have hML0 : ML = [] := List.eq_nil_of_length_eq_zero hML
    have hMA0 : MA = [] := List.eq_nil_of_length_eq_zero hMA
    subst hML0 hMA0
    simp only [List.append_nil]
    congr 1
    omega

theorem reconstruct_some (seed : Nat → Nat) (reg : quantum_reg R) (k : Nat) (r0 r : quantum_reg R)
    (h0 : ∃ T, r0 = { reg with hash := T })
    (h : forLoopM k (fun i r => quantum_add_hash seed (r.label i) i r) r0 = some r) :
    ∃ T, r = { reg with hash := T } := by
  induction k generalizing r with
  | zero =>
    simp only [forLoopM, Option.some.injEq] at h
    subst h; exact h0
  | succ k ih =>
    rw [forLoopM_succ] at h
    obtain ⟨r1, hr1, hr2⟩ := Option.bind_eq_some.1 h
    obtain ⟨T, rfl⟩ := ih r1 hr1
    unfold quantum_add_hash at hr2
    obtain ⟨s, _, hs⟩ := Option.map_eq_some'.1 hr2
    exact ⟨_, hs.symm⟩

/-- The head of `quantum_gate1`, whenever it returns, leaves a register of the
shape of the argument with both arrays of length `size + addsize`. -/
theorem gate1_grow_shaped (seed : Nat → Nat) (target : Nat) (reg : quantum_reg R)
    (st : List Nat) (h : reg.Stored st) (ra : quantum_reg R × Nat)
    (hg : gate1_grow seed target reg = some ra) :
    ∃ T, ra.1.Shaped reg.width reg.size reg.hashw T (reg.size + ra.2) := by
  unfold gate1_grow at hg
  obtain ⟨r, hr, hg2⟩ := Option.bind_eq_some.1 hg
  obtain ⟨T, rfl⟩ := reconstruct_some seed reg reg.size _ r ⟨_, rfl⟩ hr
  obtain ⟨a, _, ha⟩ := Option.map_eq_some'.1 hg2
  subst ha
  refine ⟨T, ?_⟩
  have hbase : ({ ({ reg with hash := T } : quantum_reg R) with
      state := (({ reg with hash := T } : quantum_reg R).state).map
        (fun st => realloc st (reg.size + a))
      amplitude := realloc reg.amplitude (reg.size + a) } : quantum_reg R).Shaped
      reg.width reg.size reg.hashw T (reg.size + a) := by
    refine ⟨rfl, rfl, rfl, rfl, ⟨realloc st (reg.size + a), ?_, realloc_length _ _⟩,
      realloc_length _ _⟩
    simp only [h.1, Option.map_some']
  have hloop : ∀ (k : Nat) (r0 : quantum_reg R),
      r0.Shaped reg.width reg.size reg.hashw T (reg.size + a) →
      (forLoop k (fun i (r : quantum_reg R) =>
        (r.setLabel (i + r.size) 0).setAmp (i + r.size) 0) r0).Shaped
        reg.width reg.size reg.hashw T (reg.size + a) := by
    intro k r0 h0
    induction k with
    | zero => exact h0
    | succ k ih => rw [forLoop_succ]; exact (ih.setLabel _ _).setAmp _ _
  exact hloop a _ hbase

end Libquantum

namespace Libquantum

variable {R : Type} [LinearOrderedField R]

theorem gate1_loop_some_shaped (seed : Nat → Nat) (target : Nat) (m : quantum_matrix R)
    (w sz h : Nat) (T : List Nat) (len : Nat) (s : Gate1State R)
    (hs : s.reg.Shaped w sz h T len) (k : Nat) (s' : Gate1State R)
    (hl : forLoopM k (gate1_step seed target m) s = some s') :
    s'.reg.Shaped w sz h T len := by
  induction k generalizing s' with
  | zero =>
    simp only [forLoopM, Option.some.injEq] at hl
    subst hl; exact hs
  | succ k ih =>
    rw [forLoopM_succ] at hl
    obtain ⟨s1, h1, h2⟩ := Option.bind_eq_some.1 hl
    exact gate1_step_shaped seed target m k s1 s' w sz h T len (ih s1 h1) h2

/-- Whenever the multiplication pass of `quantum_gate1` returns on a stored
register in sparse mode, its result is a stored register with the width, hash
width and a hash table rebuilt from the argument. -/
theorem gate1_pass_stored (seed : Nat → Nat) (target : Nat) (m : quantum_matrix R)
    (reg : quantum_reg R) (st : List Nat) (h : reg.Stored st) (hh : reg.hashw ≠ 0)
    (mid : quantum_reg R) (hp : gate1_pass seed target m reg = some mid) :
    ∃ stM, mid.Stored stM ∧ mid.width = reg.width ∧ mid.hashw = reg.hashw ∧
      quantum_reconstruct_hash seed reg = some { reg with hash := mid.hash } := by
  unfold gate1_pass at hp
  rw [if_pos hh] at hp
  obtain ⟨ra, hra, hp2⟩ := Option.bind_eq_some.1 hp
  obtain ⟨T, hT⟩ := gate1_grow_shaped seed target reg st h ra hra
  obtain ⟨s, hs, hmid⟩ := Option.map_eq_some'.1 hp2
  have hshape := gate1_loop_some_shaped seed target m _ _ _ T _
    ({ reg := ra.1, done := List.replicate (ra.1.size + ra.2) false, k := ra.1.size,
       brk := false } : Gate1State R) hT _ s hs
  obtain ⟨h1, h2, h3, h4, ⟨S, hS, hl⟩, h6⟩ := hshape
  subst hmid
  refine ⟨S, ⟨hS, ?_, ?_⟩, h1, h3, ?_⟩
  · show S.length = s.reg.size + ra.2
    rw [hl, h2]
  · show s.reg.amplitude.length = s.reg.size + ra.2
    rw [h6, h2]
  · show quantum_reconstruct_hash seed reg = some { reg with hash := s.reg.hash }
    rw [h4]
    unfold gate1_grow at hra
    obtain ⟨r, hr, hg2⟩ := Option.bind_eq_some.1 hra
    obtain ⟨T', rfl⟩ := reconstruct_some seed reg reg.size _ r ⟨_, rfl⟩ hr
    obtain ⟨a, _, ha⟩ := Option.map_eq_some'.1 hg2
    subst ha
    -- the table of the grown register is the rebuilt table
    have hloop : ∀ (k : Nat) (r0 : quantum_reg R),
        (forLoop k (fun i (r : quantum_reg R) =>
          (r.setLabel (i + r.size) 0).setAmp (i + r.size) 0) r0).hash = r0.hash := by
      intro k r0
      induction k with
      | zero => rfl
      | succ k ih => rw [forLoop_succ]; exact ih
    have := hT.2.2.2.1
    rw [hloop] at this
    simp only at this
    rw [← this]
    exact hr

end Libquantum

namespace Libquantum

/-- C1, the code at a failing input: on the register with the entries
`|00>: 3/5` and `|11>: 4/5`, `quantum_gate1` with target 0 and the matrix
sigma_z leaves the amplitude `4/5` at `|11>`, where the matrix gives `-4/5`, an
amplitude whose squared modulus is not below the limit of the compaction. The
`break` taken at the entry `|00>`, whose partner is missing and need not be
created, leaves the loop before the entry `|11>` is multiplied. -/
theorem claim_C1_gate1_break :
    (quantum_gate1 Env.plainQ 0 matZ regQ).map (fun r => (r.state, r.amplitude)) =
      some (some [0, 3], [⟨3 / 5, 0⟩, ⟨4 / 5, 0⟩]) ∧
    gateImage matZ 0 regQ.ampAt 3 = ⟨-4 / 5, 0⟩ ∧
    ¬ ((⟨-4 / 5, 0⟩ : Cplx ℚ).prob < gate1_limit Env.plainQ.epsilon 2) := by
  decide!

/-- C7 fails as stated: after `quantum_gate1` with target 0 and the matrix
`matQ` on `new(0,2)` the register has the two entries with labels 0 and 1, and
looking up the label of position 1 in the hash table as the gate left it gives
`-1`, not 1. -/
theorem claim_C7_counterexample :
    (quantum_gate1 Env.plainQ 0 matQ (quantum_new_qureg Env.plainQ 0 2 []).reg).map
      (fun out => (out.state, out.size,
        quantum_get_state Env.plainQ.seed (out.label 1) out)) =
      some (some [0, 1], 2, some (-1)) := by
  decide!

end Libquantum

namespace Libquantum

variable {R : Type} [LinearOrderedField R]

/-! ## The multiplication pass of `quantum_gate1`: what it computes -/

theorem partnerIdx_le (st : List Nat) (b p : Nat) : partnerIdx st b p ≤ st.length :=
  List.indexOf_le_length

theorem getD_partnerIdx (st : List Nat) (b p : Nat) (h : partnerIdx st b p < st.length) :
    st.getD (partnerIdx st b p) 0 = st.getD p 0 ^^^ b := by
  rw [getD_of_lt _ _ _ h]
  exact List.getElem_indexOf h

theorem partnerIdx_symm (st : List Nat) (hnd : st.Nodup) (b p : Nat) (hp : p < st.length)
    (h : partnerIdx st b p < st.length) : partnerIdx st b (partnerIdx st b p) = p := by
  show st.indexOf (st.getD (partnerIdx st b p) 0 ^^^ b) = p
  rw [getD_partnerIdx st b p h, xor_xor_cancel, getD_of_lt _ _ _ hp]
  exact List.indexOf_getElem hnd p hp

theorem xor_ne_self (x b : Nat) (hb : b ≠ 0) : x ^^^ b ≠ x := by
  intro h
  have := congrArg (fun y => x ^^^ y) h
  simp only [← Nat.xor_assoc, Nat.xor_self, Nat.zero_xor] at this
  exact hb this

theorem partnerIdx_ne (st : List Nat) (b p : Nat) (hb : b ≠ 0) (hp : p < st.length) :
    partnerIdx st b p ≠ p := by
  intro h
  have h1 : partnerIdx st b p < st.length := by omega
  have := getD_partnerIdx st b p h1
  rw [h] at this
  exact xor_ne_self _ b hb this.symm

theorem partnerIdx_eq_iff (st : List Nat) (hnd : st.Nodup) (b p q : Nat) (hp : p < st.length)
    (hq : q < st.length) : partnerIdx st b p = q ↔ partnerIdx st b q = p := by
  constructor
  · intro h; rw [← h]; exact partnerIdx_symm st hnd b p hp (by omega)
  · intro h; rw [← h]; exact partnerIdx_symm st hnd b q hq (by omega)

theorem absentIdx_succ (st : List Nat) (b c : Nat) :
    absentIdx st b (c + 1) =
      absentIdx st b c ++ (if st.length ≤ partnerIdx st b c then [c] else []) := by
  unfold absentIdx
  rw [filter_range_succ]
  congr 1
  by_cases h : st.length ≤ partnerIdx st b c <;> simp [h]

theorem absentIdx_length_mono (st : List Nat) (b : Nat) {c c' : Nat} (h : c ≤ c') :
    (absentIdx st b c).length ≤ (absentIdx st b c').length := by
  induction h with
  | refl => exact le_refl _
  | step _ ih =>
    rw [absentIdx_succ, List.length_append]
    omega

theorem getD_map_range {α : Type} (n : Nat) (f : Nat → α) (rest : List α) (i : Nat)
    (hi : i < n) (d : α) : ((List.range n).map f ++ rest).getD i d = f i := by
  rw [List.getD_append _ _ _ _ (by rw [List.length_map, List.length_range]; exact hi),
    getD_of_lt _ _ _ (by rw [List.length_map, List.length_range]; exact hi)]
  simp

theorem set_map_range {α : Type} (n : Nat) (f : Nat → α) (i : Nat) (v : α) :
    ((List.range n).map f).set i v = (List.range n).map (Function.update f i v) := by
  apply List.ext_getElem?
  intro j
  rw [List.getElem?_set]
  by_cases hij : i = j
  · subst hij
    rw [if_pos rfl]
    by_cases hi : i < n
    · rw [if_pos (by rw [List.length_map, List.length_range]; exact hi)]
      rw [List.getElem?_map, List.getElem?_range hi]
      simp
    · rw [if_neg (by rw [List.length_map, List.length_range]; exact hi)]
      rw [List.getElem?_map, List.getElem?_eq_none (by rw [List.length_range]; omega)]
      rfl
  · rw [if_neg hij, List.getElem?_map, List.getElem?_map]
    by_cases hj : j < n
    · rw [List.getElem?_range hj]
      simp [Function.update, Ne.symm hij]
    · rw [List.getElem?_eq_none (by rw [List.length_range]; omega)]
      rfl

/-- Probing does not depend on the cells of the label array that no stored
position references. -/
theorem hashProbeGet_congr (T S S' : List Nat) (a n : Nat)
    (h : ∀ s, T.getD s 0 ≠ 0 → S'.getD (T.getD s 0 - 1) 0 = S.getD (T.getD s 0 - 1) 0) :
    ∀ (fuel i : Nat), hashProbeGet T S' a n fuel i = hashProbeGet T S a n fuel i := by
  intro fuel
  induction fuel with
  | zero => intro i; rfl
  | succ f ih =>
    intro i
    simp only [hashProbeGet]
    by_cases h0 : T.getD i 0 = 0
    · simp only [h0, if_true]
    · simp only [h0, if_false]
      rw [h i h0, ih]

/-- The lookup of a label in the rebuilt table, also when cells have been
appended to the label array: the position of the label, or `-1`. -/
theorem lookup_eq (seed : Nat → Nat) (reg : quantum_reg R) (st rest T : List Nat)
    (hnd : st.Nodup) (hinv : HashInv seed (2 ^ reg.hashw) st T st.length)
    (hsize : st.length < 2 ^ reg.hashw) (amps : List (Cplx R)) (x : Nat) :
    quantum_get_state seed x ({ reg with
        hash := T, state := some (st ++ rest), amplitude := amps } : quantum_reg R) =
      some (if st.indexOf x < st.length then ((st.indexOf x : Nat) : Int) else -1) := by
  have hn : 0 < 2 ^ reg.hashw := Nat.pos_pow_of_pos _ (by decide)
  simp only [quantum_get_state, Option.getD_some]
  rw [hashProbeGet_congr T st (st ++ rest) x _ ?_]
  · by_cases hx : st.indexOf x < st.length
    · rw [if_pos hx]
      have := hashInv_get_present seed _ hn st T hinv hnd (st.indexOf x) hx
      rw [getD_of_lt _ _ _ hx, List.getElem_indexOf hx] at this
      exact this
    · rw [if_neg hx]
      exact hashInv_get_absent seed _ hn st T hinv hsize x
        (fun hm => hx (List.indexOf_lt_length.2 hm))
  · intro s hs
    by_cases hsn : s < 2 ^ reg.hashw
    · have := hinv.2.1 s hsn hs
      rw [List.getD_append _ _ _ _ this]
    · exfalso
      apply hs
      rw [List.getD_eq_default _ _ (by rw [hinv.1]; omega)]

end Libquantum

namespace Libquantum

variable {R : Type} [LinearOrderedField R]

theorem passLabels_eq_append (st : List Nat) (b a c : Nat) :
    passLabels st b a c = st ++ ((absentIdx st b c).map (fun q => st.getD q 0 ^^^ b) ++
      List.replicate (a - (absentIdx st b c).length) 0) := by
  unfold passLabels
  rw [List.append_assoc]

theorem passLabels_getD (st : List Nat) (b a c i : Nat) (hi : i < st.length) :
    (passLabels st b a c).getD i 0 = st.getD i 0 := by
  rw [passLabels_eq_append, List.getD_append _ _ _ _ hi]

theorem passLabels_present (st : List Nat) (b a i : Nat)
    (h : partnerIdx st b i < st.length) : passLabels st b a (i + 1) = passLabels st b a i := by
  unfold passLabels
  rw [absentIdx_succ, if_neg (by omega), List.append_nil]

theorem passLabels_absent (st : List Nat) (b a i : Nat) (hi : i < st.length)
    (h : st.length ≤ partnerIdx st b i) (ha : a = (absentIdx st b st.length).length) :
    (passLabels st b a i).set (st.length + (absentIdx st b i).length) (st.getD i 0 ^^^ b) =
      passLabels st b a (i + 1) := by
  have hmono := absentIdx_length_mono st b (Nat.succ_le_of_lt hi)
  have hsucc := absentIdx_succ st b i
  rw [if_pos h] at hsucc
  rw [hsucc, List.length_append, List.length_singleton] at hmono
  unfold passLabels
  have hlen : (st ++ (absentIdx st b i).map (fun q => st.getD q 0 ^^^ b)).length =
      st.length + (absentIdx st b i).length := by
    rw [List.length_append, List.length_map]
  rw [← hlen, set_append_replicate _ _ _ _ (by omega), hsucc, List.map_append,
    List.length_append, List.length_singleton]
  simp only [List.map_cons, List.map_nil, List.append_assoc, Nat.sub_sub]

theorem passAmps_getD_lt (m : quantum_matrix R) (st : List Nat) (amps : List (Cplx R))
    (b a i p : Nat) (hp : p < st.length) :
    (passAmps m st amps b a i).getD p 0 =
      if p < i ∨ partnerIdx st b p < i then newAmp m st amps b p else amps.getD p 0 := by
  unfold passAmps
  rw [List.append_assoc]
  exact getD_map_range st.length _ _ p hp 0

theorem passDone_getD_lt (st : List Nat) (b a i p : Nat) (hp : p < st.length) :
    (passDone st b a i).getD p false =
      decide (partnerIdx st b p < i ∧ partnerIdx st b p < p) := by
  unfold passDone
  exact getD_map_range st.length _ _ p hp false

/-- An entry that is met after its partner has been multiplied: nothing
changes. -/
theorem passAmps_done (m : quantum_matrix R) (st : List Nat) (hnd : st.Nodup)
    (amps : List (Cplx R)) (b a i : Nat) (hi : i < st.length) (h : partnerIdx st b i < i) :
    passAmps m st amps b a (i + 1) = passAmps m st amps b a i := by
  unfold passAmps
  rw [absentIdx_succ, if_neg (by omega), List.append_nil]
  congr 2
  apply List.map_congr_left
  intro p hp
  have hp' : p < st.length := List.mem_range.1 hp
  have hiff : (p < i + 1 ∨ partnerIdx st b p < i + 1) ↔ (p < i ∨ partnerIdx st b p < i) := by
    constructor
    · rintro (h1 | h1)
      · by_cases e : p = i
        · subst e; exact Or.inr h
        · exact Or.inl (by omega)
      · by_cases e : partnerIdx st b p = i
        · have := (partnerIdx_eq_iff st hnd b p i hp' hi).1 e
          exact Or.inl (by omega)
        · exact Or.inr (by omega)
    · rintro (h1 | h1)
      · exact Or.inl (by omega)
      · exact Or.inr (by omega)
  simp only [hiff]

theorem passDone_same (st : List Nat) (hnd : st.Nodup) (b a i : Nat) (hi : i < st.length)
    (h : partnerIdx st b i < i ∨ st.length ≤ partnerIdx st b i) :
    passDone st b a (i + 1) = passDone st b a i := by
  unfold passDone
  congr 1
  apply List.map_congr_left
  intro p hp
  have hp' : p < st.length := List.mem_range.1 hp
  have hiff : (partnerIdx st b p < i + 1 ∧ partnerIdx st b p < p) ↔
      (partnerIdx st b p < i ∧ partnerIdx st b p < p) := by
    constructor
    · rintro ⟨h1, h2⟩
      refine ⟨?_, h2⟩
      by_cases e : partnerIdx st b p = i
      · have := (partnerIdx_eq_iff st hnd b p i hp' hi).1 e
        omega
      · omega
    · rintro ⟨h1, h2⟩
      exact ⟨by omega, h2⟩
  simp only [hiff]

/-- An entry whose partner is present and not yet multiplied: both
amplitudes are replaced. -/
theorem passAmps_present (m : quantum_matrix R) (st : List Nat) (hnd : st.Nodup)
    (amps : List (Cplx R)) (b a i : Nat) (hi : i < st.length)
    (h1 : i < partnerIdx st b i) (h2 : partnerIdx st b i < st.length) :
    ((passAmps m st amps b a i).set i (newAmp m st amps b i)).set (partnerIdx st b i)
        (newAmp m st amps b (partnerIdx st b i)) =
      passAmps m st amps b a (i + 1) := by
  unfold passAmps
  rw [absentIdx_succ, if_neg (by omega), List.append_nil, List.append_assoc, List.append_assoc,
    List.set_append_left _ _ (by rw [List.length_map, List.length_range]; exact hi),
    List.set_append_left _ _ (by
      rw [List.length_set, List.length_map, List.length_range]; exact h2),
    set_map_range, set_map_range]
  congr 1
  apply List.map_congr_left
  intro p hp
  have hp' : p < st.length := List.mem_range.1 hp
  by_cases e1 : p = partnerIdx st b i
  · subst e1
    rw [Function.update_same, if_pos (Or.inr (by
      rw [partnerIdx_symm st hnd b i hi h2]; omega))]
  · rw [Function.update_noteq e1]
    by_cases e2 : p = i
    · subst e2
      rw [Function.update_same, if_pos (Or.inl (by omega))]
    · rw [Function.update_noteq e2]
      have hiff : (p < i + 1 ∨ partnerIdx st b p < i + 1) ↔
          (p < i ∨ partnerIdx st b p < i) := by
        constructor
        · rintro (h | h)
          · exact Or.inl (by omega)
          · by_cases e : partnerIdx st b p = i
            · exact absurd ((partnerIdx_eq_iff st hnd b p i hp' hi).1 e).symm e1
            · exact Or.inr (by omega)
        · rintro (h | h)
          · exact Or.inl (by omega)
          · exact Or.inr (by omega)
      simp only [hiff]

theorem passDone_present (st : List Nat) (hnd : st.Nodup) (b a i : Nat) (hi : i < st.length)
    (h1 : i < partnerIdx st b i) (h2 : partnerIdx st b i < st.length) :
    (passDone st b a i).set (partnerIdx st b i) true = passDone st b a (i + 1) := by
  unfold passDone
  rw [List.set_append_left _ _ (by rw [List.length_map, List.length_range]; exact h2),
    set_map_range]
  congr 1
  apply List.map_congr_left
  intro p hp
  have hp' : p < st.length := List.mem_range.1 hp
  by_cases e1 : p = partnerIdx st b i
  · subst e1
    rw [Function.update_same, partnerIdx_symm st hnd b i hi h2]
    exact (decide_eq_true (by omega)).symm
  · rw [Function.update_noteq e1]
    have hiff : (partnerIdx st b p < i + 1 ∧ partnerIdx st b p < p) ↔
        (partnerIdx st b p < i ∧ partnerIdx st b p < p) := by
      constructor
      · rintro ⟨h3, h4⟩
        refine ⟨?_, h4⟩
        by_cases e : partnerIdx st b p = i
        · exact absurd ((partnerIdx_eq_iff st hnd b p i hp' hi).1 e).symm e1
        · omega
      · rintro ⟨h3, h4⟩
        exact ⟨by omega, h4⟩
    simp only [hiff]

/-- An entry whose partner is absent: its amplitude is replaced and the
partner is appended. -/
theorem passAmps_absent (m : quantum_matrix R) (st : List Nat) (hnd : st.Nodup)
    (amps : List (Cplx R)) (b a i : Nat) (hi : i < st.length)
    (h : st.length ≤ partnerIdx st b i) (ha : a = (absentIdx st b st.length).length) :
    ((passAmps m st amps b a i).set i (newAmp m st amps b i)).set
        (st.length + (absentIdx st b i).length) (appAmp m st amps b i) =
      passAmps m st amps b a (i + 1) := by
  have hmono := absentIdx_length_mono st b (Nat.succ_le_of_lt hi)
  have hsucc := absentIdx_succ st b i
  rw [if_pos h] at hsucc
  rw [hsucc, List.length_append, List.length_singleton] at hmono
  unfold passAmps
  rw [List.append_assoc, List.set_append_left _ _ (by
      rw [List.length_map, List.length_range]; exact hi), set_map_range, ← List.append_assoc]
  have hlen : ((List.range st.length).map (Function.update (fun p =>
      if p < i ∨ partnerIdx st b p < i then newAmp m st amps b p else amps.getD p 0) i
        (newAmp m st amps b i)) ++ (absentIdx st b i).map (appAmp m st amps b)).length =
      st.length + (absentIdx st b i).length := by
    rw [List.length_append, List.length_map, List.length_map, List.length_range]
  rw [← hlen, set_append_replicate _ _ _ _ (by omega), hsucc, List.map_append,
    List.length_append, List.length_singleton]
  simp only [List.map_cons, List.map_nil, List.append_assoc]
  congr 1
  · apply List.map_congr_left
    intro p hp
    have hp' : p < st.length := List.mem_range.1 hp
    by_cases e2 : p = i
    · subst e2
      rw [Function.update_same, if_pos (Or.inl (by omega))]
    · rw [Function.update_noteq e2]
      have hiff : (p < i + 1 ∨ partnerIdx st b p < i + 1) ↔
          (p < i ∨ partnerIdx st b p < i) := by
        constructor
        · rintro (h' | h')
          · exact Or.inl (by omega)
          · by_cases e : partnerIdx st b p = i
            · have := (partnerIdx_eq_iff st hnd b p i hp' hi).1 e
              omega
            · exact Or.inr (by omega)
        · rintro (h' | h')
          · exact Or.inl (by omega)
          · exact Or.inr (by omega)
      simp only [hiff]

end Libquantum

namespace Libquantum

variable {R : Type} [LinearOrderedField R]

theorem and_two_pow_xor (x t : Nat) :
    ((x ^^^ 2 ^ t) &&& 2 ^ t ≠ 0) ↔ ¬ (x &&& 2 ^ t ≠ 0) := by
  rw [and_two_pow_ne_zero, and_two_pow_ne_zero, testBit_xor_two_pow_self]
  cases x.testBit t <;> simp

/-- For a target below 32 the `int` variable `iset` of `quantum_gate1` is
non-zero exactly when the target bit of the label is set. -/
theorem isetInt_eq_bitSet (reg : quantum_reg R) (i k : Nat) (hk : k < 32) :
    reg.isetInt i k = reg.bitSet i k := by
  unfold quantum_reg.isetInt quantum_reg.bitSet toInt32
  rw [decide_eq_decide, shl1_eq (by omega : k < 64)]
  have h1 : reg.label i &&& 2 ^ k ≤ 2 ^ k := Nat.and_le_right
  have h2 : (2 : Nat) ^ k ≤ 2 ^ 31 := Nat.pow_le_pow_right (by decide) (by omega)
  generalize reg.label i &&& 2 ^ k = v at h1
  generalize (2 : Nat) ^ k = n at h1 h2
  omega

theorem passAmps_getD_ge (m : quantum_matrix R) (st : List Nat) (amps : List (Cplx R))
    (b a i p : Nat) (hp : st.length + (absentIdx st b i).length ≤ p) :
    (passAmps m st amps b a i).getD p 0 = 0 := by
  unfold passAmps
  rw [List.getD_eq_getElem?_getD, List.getElem?_append_right (by simp; omega),
    List.getElem?_replicate]
  split <;> rfl

theorem pad_after_setAmp (m : quantum_matrix R) (reg : quantum_reg R) (st T : List Nat)
    (b a i : Nat) (hi : i < st.length) (r : quantum_reg R) (v : Cplx R)
    (hreg : r = { reg with
      hash := T
      state := some (passLabels st b a i)
      amplitude := passAmps m st reg.amplitude b a i }) (p : Nat)
    (hp : st.length + (absentIdx st b i).length ≤ p) :
    (r.setAmp i v).amplitude.getD p 0 = 0 := by
  rw [hreg]
  simp only [quantum_reg.setAmp]
  rw [List.getD_eq_getElem?_getD, List.getElem?_set_ne (by omega),
    ← List.getD_eq_getElem?_getD]
  exact passAmps_getD_ge m st _ b a i p hp

/-- One iteration of the multiplication loop of `quantum_gate1` on a register
with pairwise distinct labels and a rebuilt table that is not full, for a
target below 32 (where the `int` variable `iset` holds the target bit). -/
theorem gate1_step_inv (seed : Nat → Nat) (target : Nat) (m : quantum_matrix R)
    (reg : quantum_reg R) (st T : List Nat) (a : Nat) (hS : reg.Stored st) (hnd : st.Nodup)
    (hinv : HashInv seed (2 ^ reg.hashw) st T st.length) (hsize : st.length < 2 ^ reg.hashw)
    (ht32 : target < 32) (ha : a = (absentIdx st (shl1 target) st.length).length)
    (i : Nat) (hi : i < st.length) (s : Gate1State R)
    (hJ : Gate1Inv m reg st T (shl1 target) a i s) :
    ∃ s', gate1_step seed target m i s = some s' ∧
      Gate1Inv m reg st T (shl1 target) a (i + 1) s' := by
  have ht : target < 64 := by omega
  rcases hJ with ⟨hbrk, hk, hdone, hreg⟩ | ⟨hbrk, hm, c, hc, hst, hpad⟩
  · have hb : shl1 target ≠ 0 := by
      rw [shl1_eq ht]; exact (Nat.pos_pow_of_pos _ (by decide)).ne'
    have hamplen : reg.amplitude.length = st.length := by rw [hS.2.2, hS.2.1]
    have hlabel : s.reg.label i = st.getD i 0 := by
      rw [hreg]
      simp only [quantum_reg.label, Option.getD_some]
      exact passLabels_getD st _ a i i hi
    have hlook : quantum_get_state seed (s.reg.label i ^^^ shl1 target) s.reg =
        some (if partnerIdx st (shl1 target) i < st.length then
          ((partnerIdx st (shl1 target) i : Nat) : Int) else -1) := by
      rw [hlabel, hreg, passLabels_eq_append]
      exact lookup_eq seed reg st _ T hnd hinv hsize _ _
    have hdn : s.done.getD i false =
        decide (partnerIdx st (shl1 target) i < i ∧ partnerIdx st (shl1 target) i < i) := by
      rw [hdone]; exact passDone_getD_lt st _ a i i hi
    have hset : s.reg.isetInt i target = decide (st.getD i 0 &&& shl1 target ≠ 0) := by
      rw [isetInt_eq_bitSet _ _ _ ht32]
      unfold quantum_reg.bitSet; rw [hlabel]
    unfold gate1_step
    rw [if_neg (by rw [hbrk]; simp), hdn]
    by_cases hd : partnerIdx st (shl1 target) i < i
    · -- the entry was multiplied together with its partner
      rw [if_pos (by simp [hd])]
      refine ⟨s, rfl, Or.inl ⟨hbrk, ?_, ?_, ?_⟩⟩
      · rw [hk, absentIdx_succ, if_neg (by omega), List.append_nil]
      · rw [hdone, passDone_same st hnd _ a i hi (Or.inl hd)]
      · rw [hreg, passLabels_present st _ a i (by omega), passAmps_done m st hnd _ _ a i hi hd]
    · rw [if_neg (by simp [hd]), hlook]
      have hti : s.reg.amp i = reg.amplitude.getD i 0 := by
        rw [hreg]
        simp only [quantum_reg.amp]
        rw [passAmps_getD_lt m st _ _ a i i hi, if_neg (by omega)]
      by_cases hpres : partnerIdx st (shl1 target) i < st.length
      · -- the partner is present and not yet multiplied
        have hq : i < partnerIdx st (shl1 target) i := by
          have := partnerIdx_ne st (shl1 target) i hb hi
          omega
        have hsym := partnerIdx_symm st hnd (shl1 target) i hi hpres
        have htq : s.reg.amp (partnerIdx st (shl1 target) i) =
            reg.amplitude.getD (partnerIdx st (shl1 target) i) 0 := by
          rw [hreg]
          simp only [quantum_reg.amp]
          rw [passAmps_getD_lt m st _ _ a i _ hpres, if_neg (by rw [hsym]; omega)]
        have hqbit : (st.getD (partnerIdx st (shl1 target) i) 0 &&& shl1 target ≠ 0) ↔
            ¬ (st.getD i 0 &&& shl1 target ≠ 0) := by
          rw [getD_partnerIdx st _ i hpres, shl1_eq ht]
          exact and_two_pow_xor _ _
        simp only [if_pos hpres, Option.map_some', Int.ofNat_nonneg, Int.toNat_ofNat, if_true,
          hti, htq, hset]
        refine ⟨_, rfl, Or.inl ⟨hbrk, ?_, ?_, ?_⟩⟩
        · show s.k = _
          rw [hk, absentIdx_succ, if_neg (by omega), List.append_nil]
        · show s.done.set _ true = _
          rw [hdone, passDone_present st hnd _ a i hi hq hpres]
        · rw [passLabels_present st _ a i hpres, ← passAmps_present m st hnd _ _ a i hi hq hpres]
          by_cases hbit : st.getD i 0 &&& shl1 target ≠ 0
          · have hnq : ¬ (st.getD (partnerIdx st (shl1 target) i) 0 &&& shl1 target ≠ 0) :=
              fun h => (hqbit.1 h) hbit
            have hdec : decide (st.getD i 0 &&& shl1 target ≠ 0) = true := decide_eq_true hbit
            simp only [hdec, if_true, hreg, quantum_reg.setAmp]
            unfold newAmp
            rw [if_pos hbit, if_neg hnq, hsym]
          · have hnq : st.getD (partnerIdx st (shl1 target) i) 0 &&& shl1 target ≠ 0 :=
              hqbit.2 hbit
            have hdec : decide (st.getD i 0 &&& shl1 target ≠ 0) = false :=
              decide_eq_false hbit
            simp only [hdec, Bool.false_eq_true, if_false, hreg, quantum_reg.setAmp]
            unfold newAmp
            rw [if_neg hbit, if_pos hnq, hsym]
      · -- the partner is absent
        have habs : st.length ≤ partnerIdx st (shl1 target) i := by omega
        have hzero : reg.amplitude.getD (partnerIdx st (shl1 target) i) 0 = 0 :=
          List.getD_eq_default _ _ (by omega)
        have hneg : ¬ (0 : Int) ≤ -1 := by decide
        simp only [if_neg hpres, Option.map_some', hneg, if_false, hti, hset]
        by_cases hbit : st.getD i 0 &&& shl1 target ≠ 0
        · have hdec : decide (st.getD i 0 &&& shl1 target ≠ 0) = true := decide_eq_true hbit
          simp only [hdec, if_true, and_true, not_true_eq_false, and_false]
          by_cases hm1 : m.t.getD 1 0 = 0
          · rw [if_pos hm1]
            exact ⟨_, rfl, Or.inr ⟨rfl, Or.inl hm1, i, hi, by
              show (s.reg.setAmp i _).state = _
              rw [hreg]; rfl, fun p hp =>
                pad_after_setAmp m reg st T _ a i hi s.reg _ hreg p hp⟩⟩
          · rw [if_neg hm1]
            refine ⟨_, rfl, Or.inl ⟨hbrk, ?_, hdone.trans
              (passDone_same st hnd _ a i hi (Or.inr habs)).symm, ?_⟩⟩
            · show s.k + 1 = _
              rw [hk, absentIdx_succ, if_pos habs, List.length_append, List.length_singleton]
              omega
            · rw [← passLabels_absent st _ a i hi habs ha,
                ← passAmps_absent m st hnd _ _ a i hi habs ha]
              simp only [hreg, quantum_reg.setAmp, quantum_reg.setLabel, quantum_reg.label,
                Option.map_some', Option.getD_some, hk, passLabels_getD st _ a i i hi, if_false]
              unfold newAmp appAmp
              rw [if_pos hbit, if_pos hbit, hzero]
        · have hdec : decide (st.getD i 0 &&& shl1 target ≠ 0) = false :=
            decide_eq_false hbit
          simp only [hdec, Bool.false_eq_true, if_false, and_false, not_false_eq_true, and_true]
          by_cases hm2 : m.t.getD 2 0 = 0
          · rw [if_pos hm2]
            exact ⟨_, rfl, Or.inr ⟨rfl, Or.inr hm2, i, hi, by
              show (s.reg.setAmp i _).state = _
              rw [hreg]; rfl, fun p hp =>
                pad_after_setAmp m reg st T _ a i hi s.reg _ hreg p hp⟩⟩
          · rw [if_neg hm2]
            refine ⟨_, rfl, Or.inl ⟨hbrk, ?_, hdone.trans
              (passDone_same st hnd _ a i hi (Or.inr habs)).symm, ?_⟩⟩
            · show s.k + 1 = _
              rw [hk, absentIdx_succ, if_pos habs, List.length_append, List.length_singleton]
              omega
            · rw [← passLabels_absent st _ a i hi habs ha,
                ← passAmps_absent m st hnd _ _ a i hi habs ha]
              simp only [hreg, quantum_reg.setAmp, quantum_reg.setLabel, quantum_reg.label,
                Option.map_some', Option.getD_some, hk, passLabels_getD st _ a i i hi, if_false]
              unfold newAmp appAmp
              rw [if_neg hbit, if_neg hbit, hzero]
  · -- the loop was left by `break`
    unfold gate1_step
    rw [if_pos hbrk]
    exact ⟨s, rfl, Or.inr ⟨hbrk, hm, c, hc, hst, hpad⟩⟩

end Libquantum

namespace Libquantum

variable {R : Type} [LinearOrderedField R]

theorem addsize_eq (seed : Nat → Nat) (target : Nat) (reg : quantum_reg R) (st T : List Nat)
    (hS : reg.Stored st) (hnd : st.Nodup)
    (hinv : HashInv seed (2 ^ reg.hashw) st T st.length) (hsize : st.length < 2 ^ reg.hashw) :
    gate1_addsize seed target ({ reg with hash := T } : quantum_reg R) =
      some (absentIdx st (shl1 target) st.length).length := by
  have hreg : ({ reg with hash := T } : quantum_reg R) =
      { reg with hash := T, state := some (st ++ []), amplitude := reg.amplitude } := by
    rw [List.append_nil, ← hS.1]
  have hloop : ∀ k, k ≤ st.length →
      forLoopM k (fun i addsize =>
        (quantum_get_state seed
          (({ reg with hash := T } : quantum_reg R).label i ^^^ shl1 target)
          ({ reg with hash := T } : quantum_reg R)).map (fun j =>
            if j = -1 then addsize + 1 else addsize)) 0 =
        some (absentIdx st (shl1 target) k).length := by
    intro k hk
    induction k with
    | zero => rfl
    | succ k ih =>
      rw [forLoopM_succ, ih (by omega)]
      simp only [Option.some_bind]
      have hlab : ({ reg with hash := T } : quantum_reg R).label k = st.getD k 0 := by
        simp only [quantum_reg.label, hS.1, Option.getD_some]
      rw [hlab, hreg, lookup_eq seed reg st [] T hnd hinv hsize reg.amplitude]
      simp only [Option.map_some']
      rw [absentIdx_succ, List.length_append]
      congr 1
      by_cases hp : partnerIdx st (shl1 target) k < st.length
      · have hp' : List.indexOf (st.getD k 0 ^^^ shl1 target) st < st.length := hp
        have hne : ((List.indexOf (st.getD k 0 ^^^ shl1 target) st : Nat) : Int) ≠ -1 := by
          omega
        rw [if_pos hp', if_neg hne, if_neg (by omega)]
        rfl
      · have hp' : ¬ List.indexOf (st.getD k 0 ^^^ shl1 target) st < st.length := hp
        rw [if_neg hp', if_pos rfl, if_pos (by omega)]
        rfl
  have := hloop st.length (le_refl _)
  unfold gate1_addsize
  show forLoopM reg.size _ 0 = _
  rw [← hS.2.1]
  exact this

theorem gate1_inv_init (m : quantum_matrix R) (reg : quantum_reg R) (st T : List Nat)
    (hS : reg.Stored st) (b a : Nat) :
    Gate1Inv m reg st T b a 0
      ({ reg := ({ reg with
            hash := T
            state := some (st ++ List.replicate a 0)
            amplitude := reg.amplitude ++ List.replicate a 0 } : quantum_reg R)
         done := List.replicate (reg.size + a) false
         k := reg.size
         brk := false } : Gate1State R) := by
  refine Or.inl ⟨rfl, ?_, ?_, ?_⟩
  · show reg.size = _
    rw [hS.2.1]; rfl
  · show List.replicate (reg.size + a) false = _
    unfold passDone
    rw [← hS.2.1, List.replicate_add]
    congr 1
    apply List.ext_getElem
    · simp
    · intro i h1 h2
      simp
  · have e1 : passLabels st b a 0 = st ++ List.replicate a 0 := by
      unfold passLabels absentIdx
      simp
    have e2 : passAmps m st reg.amplitude b a 0 = reg.amplitude ++ List.replicate a 0 := by
      unfold passAmps absentIdx
      simp only [List.range_zero, List.filter_nil, List.map_nil, List.append_nil,
        List.length_nil, Nat.sub_zero, Nat.not_lt_zero, or_self, if_false]
      congr 1
      have := range_map_getD reg.amplitude 0
      rw [hS.2.2, ← hS.2.1] at this
      exact this
    rw [e1, e2]

/-- The multiplication pass of `quantum_gate1` on a register in sparse mode with
pairwise distinct labels and fewer entries than slots returns, and its loop
ends in a state described by `Gate1Inv`. -/
theorem gate1_pass_inv (seed : Nat → Nat) (target : Nat) (m : quantum_matrix R)
    (reg : quantum_reg R) (st : List Nat) (hS : reg.Stored st) (hnd : st.Nodup)
    (hh : reg.hashw ≠ 0) (hsize : reg.size < 2 ^ reg.hashw) (ht : target < 32) :
    ∃ T s, HashInv seed (2 ^ reg.hashw) st T st.length ∧
      Gate1Inv m reg st T (shl1 target) (absentIdx st (shl1 target) st.length).length
        st.length s ∧
      s.reg.Shaped reg.width reg.size reg.hashw T
        (reg.size + (absentIdx st (shl1 target) st.length).length) ∧
      gate1_pass seed target m reg = some { s.reg with
        size := s.reg.size + (absentIdx st (shl1 target) st.length).length } := by
  obtain ⟨T, a, hg, hinv, hadd⟩ := gate1_grow_eq seed target reg st hS hsize
  have hsz : st.length < 2 ^ reg.hashw := by rw [hS.2.1]; exact hsize
  rw [addsize_eq seed target reg st T hS hnd hinv hsz] at hadd
  have ha : a = (absentIdx st (shl1 target) st.length).length := (Option.some.inj hadd).symm
  have hloop : ∀ k, k ≤ st.length →
      ∃ s, forLoopM k (gate1_step seed target m)
          ({ reg := ({ reg with
                hash := T
                state := some (st ++ List.replicate a 0)
                amplitude := reg.amplitude ++ List.replicate a 0 } : quantum_reg R)
             done := List.replicate (reg.size + a) false
             k := reg.size
             brk := false } : Gate1State R) = some s ∧
        Gate1Inv m reg st T (shl1 target) a k s := by
    intro k hk
    induction k with
    | zero => exact ⟨_, rfl, gate1_inv_init m reg st T hS _ a⟩
    | succ k ih =>
      obtain ⟨s1, h1, hJ⟩ := ih (by omega)
      obtain ⟨s2, h2, hJ2⟩ := gate1_step_inv seed target m reg st T a hS hnd hinv hsz ht ha k
        (by omega) s1 hJ
      exact ⟨s2, by rw [forLoopM_succ, h1]; exact h2, hJ2⟩
  obtain ⟨s, hs, hJ⟩ := hloop st.length (le_refl _)
  have hshape := gate1_loop_some_shaped seed target m reg.width reg.size reg.hashw T
    (reg.size + a) _ ⟨rfl, rfl, rfl, rfl, ⟨_, rfl, by
      rw [List.length_append, List.length_replicate, hS.2.1]⟩, by
        show (reg.amplitude ++ List.replicate a 0).length = reg.size + a
        rw [List.length_append, List.length_replicate, hS.2.2]⟩ st.length s hs
  subst ha
  refine ⟨T, s, hinv, hJ, hshape, ?_⟩
  unfold gate1_pass
  rw [if_pos hh, hg]
  simp only [Option.some_bind]
  rw [← hS.2.1] at hs
  rw [← hS.2.1, hs]
  rfl

end Libquantum

namespace Libquantum

variable {R : Type} [LinearOrderedField R]

/-! ## The labels under `quantum_gate1`, for every target -/

theorem getD_set_other {α : Type} (l : List α) (i p : Nat) (v d : α) (h : i ≠ p) :
    (l.set i v).getD p d = l.getD p d := by
  rw [List.getD_eq_getElem?_getD, List.getElem?_set_ne h, ← List.getD_eq_getElem?_getD]

/-- One iteration of the multiplication loop of `quantum_gate1` on a register
with pairwise distinct labels and a rebuilt table that is not full, for any
target below 64: what happens to the labels. -/
theorem gate1_step_lab (seed : Nat → Nat) (target : Nat) (m : quantum_matrix R)
    (reg : quantum_reg R) (st T : List Nat) (a : Nat) (hnd : st.Nodup)
    (hinv : HashInv seed (2 ^ reg.hashw) st T st.length) (hsize : st.length < 2 ^ reg.hashw)
    (ht : target < 64) (ha : a = (absentIdx st (shl1 target) st.length).length)
    (i : Nat) (hi : i < st.length) (s : Gate1State R)
    (hJ : Gate1Lab reg st T (shl1 target) a i s) :
    ∃ s', gate1_step seed target m i s = some s' ∧
      Gate1Lab reg st T (shl1 target) a (i + 1) s' := by
  obtain ⟨c, A, hc, hreg, hlen, hpad, hnb⟩ := hJ
  unfold gate1_step
  by_cases hbrk : s.brk = true
  · rw [if_pos hbrk]
    exact ⟨s, rfl, c, A, by omega, hreg, hlen, hpad,
      fun h => by rw [h] at hbrk; exact absurd hbrk (by decide)⟩
  · have hb0 : s.brk = false := by simpa using hbrk
    obtain ⟨hci, hk, hdone⟩ := hnb hb0
    subst hci
    rw [if_neg hbrk]
    have hb : shl1 target ≠ 0 := by
      rw [shl1_eq ht]; exact (Nat.pos_pow_of_pos _ (by decide)).ne'
    have hlabel : s.reg.label c = st.getD c 0 := by
      rw [hreg]
      simp only [quantum_reg.label, Option.getD_some]
      exact passLabels_getD st _ a c c hi
    have hdn : s.done.getD c false =
        decide (partnerIdx st (shl1 target) c < c ∧ partnerIdx st (shl1 target) c < c) := by
      rw [hdone]; exact passDone_getD_lt st _ a c c hi
    rw [hdn]
    by_cases hd : partnerIdx st (shl1 target) c < c
    · rw [if_pos (by simp [hd])]
      refine ⟨s, rfl, c + 1, A, le_refl _, ?_, hlen, ?_, fun _ => ⟨rfl, ?_, ?_⟩⟩
      · rw [hreg, passLabels_present st _ a c (by omega)]
      · intro p hp
        rw [absentIdx_succ, if_neg (by omega), List.append_nil] at hp
        exact hpad p hp
      · rw [hk, absentIdx_succ, if_neg (by omega), List.append_nil]
      · rw [hdone, passDone_same st hnd _ a c hi (Or.inl hd)]
    · rw [if_neg (by simp [hd])]
      have hlook : quantum_get_state seed (s.reg.label c ^^^ shl1 target) s.reg =
          some (if partnerIdx st (shl1 target) c < st.length then
            ((partnerIdx st (shl1 target) c : Nat) : Int) else -1) := by
        rw [hlabel, hreg, passLabels_eq_append]
        exact lookup_eq seed reg st _ T hnd hinv hsize _ _
      rw [hlook]
      by_cases hpres : partnerIdx st (shl1 target) c < st.length
      · have hq : c < partnerIdx st (shl1 target) c := by
          have := partnerIdx_ne st (shl1 target) c hb hi
          omega
        simp only [if_pos hpres, Option.map_some', Int.ofNat_nonneg, Int.toNat_ofNat, if_true]
        cases hiset : s.reg.isetInt c target
        · simp only [Bool.false_eq_true, if_false, hreg, quantum_reg.setAmp]
          refine ⟨_, rfl, c + 1, _, le_refl _,
            (by rw [passLabels_present st _ a c hpres]), ?_, ?_, fun _ => ⟨rfl, ?_, ?_⟩⟩
          · rw [List.length_set, List.length_set]; exact hlen
          · intro p hp
            rw [getD_set_other _ _ _ _ _ (by omega), getD_set_other _ _ _ _ _ (by omega)]
            rw [absentIdx_succ, if_neg (by omega), List.append_nil] at hp
            exact hpad p hp
          · show s.k = _
            rw [hk, absentIdx_succ, if_neg (by omega), List.append_nil]
          · show s.done.set _ true = _
            rw [hdone, passDone_present st hnd _ a c hi hq hpres]
        · simp only [if_true, hreg, quantum_reg.setAmp]
          refine ⟨_, rfl, c + 1, _, le_refl _,
            (by rw [passLabels_present st _ a c hpres]), ?_, ?_, fun _ => ⟨rfl, ?_, ?_⟩⟩
          · rw [List.length_set, List.length_set]; exact hlen
          · intro p hp
            rw [getD_set_other _ _ _ _ _ (by omega), getD_set_other _ _ _ _ _ (by omega)]
            rw [absentIdx_succ, if_neg (by omega), List.append_nil] at hp
            exact hpad p hp
          · show s.k = _
            rw [hk, absentIdx_succ, if_neg (by omega), List.append_nil]
          · show s.done.set _ true = _
            rw [hdone, passDone_present st hnd _ a c hi hq hpres]
      · have habs : st.length ≤ partnerIdx st (shl1 target) c := by omega
        have hneg : ¬ (0 : Int) ≤ -1 := by decide
        have hkle : st.length + (absentIdx st (shl1 target) c).length <
            st.length + (absentIdx st (shl1 target) (c + 1)).length := by
          rw [absentIdx_succ, if_pos habs, List.length_append, List.length_singleton]
          omega
        simp only [if_neg hpres, Option.map_some', hneg, if_false]
        cases hiset : s.reg.isetInt c target
        · simp only [Bool.false_eq_true, if_false, and_false, not_false_eq_true, and_true]
          by_cases hm2 : m.t.getD 2 0 = 0
          · rw [if_pos hm2]
            refine ⟨_, rfl, c, A.set c _, by omega, (by rw [hreg]; rfl), ?_, ?_,
              fun h => by cases h⟩
            · rw [List.length_set]; exact hlen
            · intro p hp
              rw [getD_set_other _ _ _ _ _ (by omega)]
              exact hpad p hp
          · rw [if_neg hm2]
            simp only [hreg, quantum_reg.setAmp, quantum_reg.setLabel, quantum_reg.label,
              Option.map_some', Option.getD_some, hk, passLabels_getD st _ a c c hi]
            refine ⟨_, rfl, c + 1, _, le_refl _,
              (by rw [passLabels_absent st _ a c hi habs ha]), ?_, ?_,
              fun _ => ⟨rfl, ?_, ?_⟩⟩
            · rw [List.length_set, List.length_set]; exact hlen
            · intro p hp
              rw [getD_set_other _ _ _ _ _ (by omega), getD_set_other _ _ _ _ _ (by omega)]
              exact hpad p (by omega)
            · show st.length + (absentIdx st (shl1 target) c).length + 1 = _
              rw [absentIdx_succ, if_pos habs, List.length_append, List.length_singleton]
              omega
            · show s.done = _
              exact hdone.trans (passDone_same st hnd _ a c hi (Or.inr habs)).symm
        · simp only [if_true, and_true, not_true_eq_false, and_false, if_false]
          by_cases hm1 : m.t.getD 1 0 = 0
          · rw [if_pos hm1]
            refine ⟨_, rfl, c, A.set c _, by omega, (by rw [hreg]; rfl), ?_, ?_,
              fun h => by cases h⟩
            · rw [List.length_set]; exact hlen
            · intro p hp
              rw [getD_set_other _ _ _ _ _ (by omega)]
              exact hpad p hp
          · rw [if_neg hm1]
            simp only [hreg, quantum_reg.setAmp, quantum_reg.setLabel, quantum_reg.label,
              Option.map_some', Option.getD_some, hk, passLabels_getD st _ a c c hi]
            refine ⟨_, rfl, c + 1, _, le_refl _,
              (by rw [passLabels_absent st _ a c hi habs ha]), ?_, ?_,
              fun _ => ⟨rfl, ?_, ?_⟩⟩
            · rw [List.length_set, List.length_set]; exact hlen
            · intro p hp
              rw [getD_set_other _ _ _ _ _ (by omega), getD_set_other _ _ _ _ _ (by omega)]
              exact hpad p (by omega)
            · show st.length + (absentIdx st (shl1 target) c).length + 1 = _
              rw [absentIdx_succ, if_pos habs, List.length_append, List.length_singleton]
              omega
            · show s.done = _
              exact hdone.trans (passDone_same st hnd _ a c hi (Or.inr habs)).symm

theorem gate1_lab_init (reg : quantum_reg R) (st T : List Nat) (hS : reg.Stored st)
    (b a : Nat) :
    Gate1Lab reg st T b a 0
      ({ reg := ({ reg with
            hash := T
            state := some (st ++ List.replicate a 0)
            amplitude := reg.amplitude ++ List.replicate a 0 } : quantum_reg R)
         done := List.replicate (reg.size + a) false
         k := reg.size
         brk := false } : Gate1State R) := by
  have e1 : passLabels st b a 0 = st ++ List.replicate a 0 := by
    unfold passLabels absentIdx
    simp
  refine ⟨0, reg.amplitude ++ List.replicate a 0, le_refl _, by rw [e1], ?_, ?_,
    fun _ => ⟨rfl, ?_, ?_⟩⟩
  · rw [List.length_append, List.length_replicate, hS.2.2, hS.2.1]
  · intro p hp
    have hp' : reg.amplitude.length ≤ p := by
      rw [hS.2.2, ← hS.2.1]; omega
    rw [List.getD_eq_getElem?_getD, List.getElem?_append_right hp', List.getElem?_replicate]
    split <;> rfl
  · show reg.size = _
    rw [hS.2.1]; rfl
  · show List.replicate (reg.size + a) false = _
    unfold passDone
    rw [← hS.2.1, List.replicate_add]
    congr 1
    apply List.ext_getElem
    · simp
    · intro i h1 h2
      simp

/-- The multiplication pass of `quantum_gate1` on a register in sparse mode with
pairwise distinct labels and fewer entries than slots returns, for every target
below 64; its labels are the labels at entry, the partners appended up to some
entry `c`, and cells of label 0 and amplitude 0. -/
theorem gate1_pass_lab (seed : Nat → Nat) (target : Nat) (m : quantum_matrix R)
    (reg : quantum_reg R) (st : List Nat) (hS : reg.Stored st) (hnd : st.Nodup)
    (hh : reg.hashw ≠ 0) (hsize : reg.size < 2 ^ reg.hashw) (ht : target < 64) :
    ∃ (T : List Nat) (c : Nat) (A : List (Cplx R)),
      HashInv seed (2 ^ reg.hashw) st T st.length ∧ c ≤ st.length ∧
      A.length = st.length + (absentIdx st (shl1 target) st.length).length ∧
      (∀ p, st.length + (absentIdx st (shl1 target) c).length ≤ p → A.getD p 0 = 0) ∧
      gate1_pass seed target m reg = some { reg with
        hash := T
        size := reg.size + (absentIdx st (shl1 target) st.length).length
        state := some (passLabels st (shl1 target)
          (absentIdx st (shl1 target) st.length).length c)
        amplitude := A } := by
  obtain ⟨T, a, hg, hinv, hadd⟩ := gate1_grow_eq seed target reg st hS hsize
  have hsz : st.length < 2 ^ reg.hashw := by rw [hS.2.1]; exact hsize
  rw [addsize_eq seed target reg st T hS hnd hinv hsz] at hadd
  have ha : a = (absentIdx st (shl1 target) st.length).length := (Option.some.inj hadd).symm
  have hloop : ∀ k, k ≤ st.length →
      ∃ s, forLoopM k (gate1_step seed target m)
          ({ reg := ({ reg with
                hash := T
                state := some (st ++ List.replicate a 0)
                amplitude := reg.amplitude ++ List.replicate a 0 } : quantum_reg R)
             done := List.replicate (reg.size + a) false
             k := reg.size
             brk := false } : Gate1State R) = some s ∧
        Gate1Lab reg st T (shl1 target) a k s := by
    intro k hk
    induction k with
    | zero => exact ⟨_, rfl, gate1_lab_init reg st T hS _ a⟩
    | succ k ih =>
      obtain ⟨s1, h1, hJ⟩ := ih (by omega)
      obtain ⟨s2, h2, hJ2⟩ := gate1_step_lab seed target m reg st T a hnd hinv hsz ht ha k
        (by omega) s1 hJ
      exact ⟨s2, by rw [forLoopM_succ, h1]; exact h2, hJ2⟩
  obtain ⟨s, hs, c, A, hc, hreg, hlen, hpad, _⟩ := hloop st.length (le_refl _)
  subst ha
  refine ⟨T, c, A, hinv, hc, hlen, hpad, ?_⟩
  unfold gate1_pass
  rw [if_pos hh, hg]
  simp only [Option.some_bind]
  rw [← hS.2.1] at hs
  rw [← hS.2.1, hs, Option.map_some', hreg]
  simp only [hS.2.1]

end Libquantum

namespace Libquantum

variable {R : Type} [LinearOrderedField R]

/-! ## Phase gates -/

namespace Cplx

theorem prob_mul (a b : Cplx R) : (a * b).prob = a.prob * b.prob := by
  simp only [prob, mul_re, mul_im]; ring

theorem inv_of_prob_one (z : Cplx R) (h : z.prob = 1) : z⁻¹ = z.conj := by
  show (⟨z.re / z.prob, -z.im / z.prob⟩ : Cplx R) = ⟨z.re, -z.im⟩
  rw [h, div_one, div_one]

theorem prob_conj (z : Cplx R) : z.conj.prob = z.prob := by
  simp only [prob, conj]; ring

theorem div_of_prob_one (a z : Cplx R) (h : z.prob = 1) : a / z = a * z.conj := by
  show a * z⁻¹ = a * z.conj
  rw [inv_of_prob_one z h]

theorem prob_div_of_prob_one (a z : Cplx R) (h : z.prob = 1) : (a / z).prob = a.prob := by
  rw [div_of_prob_one a z h, prob_mul, prob_conj, h, mul_one]

theorem prob_mul_of_prob_one (a z : Cplx R) (h : z.prob = 1) : (a * z).prob = a.prob := by
  rw [prob_mul, h, mul_one]

end Cplx

namespace quantum_reg

/-- An entry loop that rewrites the amplitude of entry `i` only. -/
theorem ampOnly_all (fa : Nat → Cplx R → Cplx R) (body : Nat → quantum_reg R → quantum_reg R)
    (hbody : ∀ i r, body i r = r.setAmp i (fa (r.label i) (r.amp i)))
    (reg : quantum_reg R) (st : List Nat) (h : reg.Stored st) :
    forLoop reg.size body reg = { reg with amplitude := List.zipWith fa st reg.amplitude } := by
  rw [pointwise_all (fun x => x) fa body ?_ reg st h]
  · rw [List.map_id']
    cases hw : reg with
    | mk a b c d e f =>
      have := h.1
      rw [hw] at this
      simp only at this
      simp [this]
  · intro i r l _ _ _
    rw [hbody, pointwise, setLabel_self]

end quantum_reg

theorem r_z_reg (env : Env R) (hp : env.Plain) (tr : Trig R) (t : Nat) (gamma : R)
    (w : World R) (st : List Nat) (h : w.reg.Stored st) :
    (quantum_r_z env tr t gamma w).reg =
      { w.reg with
        amplitude := List.zipWith (fun x z =>
          if x &&& shl1 t ≠ 0 then z * quantum_cexp tr (gamma / 2)
          else z / quantum_cexp tr (gamma / 2)) st w.reg.amplitude } := by
  obtain ⟨hq, hh, hd⟩ := hp
  simp only [quantum_r_z, quantum_objcode_put, hh, hd, Bool.false_eq_true, if_false]
  refine quantum_reg.ampOnly_all _ _ ?_ _ st h
  intro i r
  simp only [quantum_reg.bitSet, decide_eq_true_eq]
  split <;> rfl

theorem phase_scale_reg (env : Env R) (hp : env.Plain) (tr : Trig R) (t : Nat) (gamma : R)
    (w : World R) (st : List Nat) (h : w.reg.Stored st) :
    (quantum_phase_scale env tr t gamma w).reg =
      { w.reg with
        amplitude := List.zipWith (fun _ z => z * quantum_cexp tr gamma) st
          w.reg.amplitude } := by
  obtain ⟨hq, hh, hd⟩ := hp
  simp only [quantum_phase_scale, quantum_objcode_put, hh, hd, Bool.false_eq_true, if_false]
  exact quantum_reg.ampOnly_all (fun _ z => z * quantum_cexp tr gamma) _ (fun _ _ => rfl) _ st h

theorem phase_kick_reg (env : Env R) (hp : env.Plain) (tr : Trig R) (t : Nat) (gamma : R)
    (w : World R) (st : List Nat) (h : w.reg.Stored st) :
    (quantum_phase_kick env tr t gamma w).reg =
      { w.reg with
        amplitude := List.zipWith (fun x z =>
          if x &&& shl1 t ≠ 0 then z * quantum_cexp tr gamma else z) st
          w.reg.amplitude } := by
  obtain ⟨hq, hh, hd⟩ := hp
  simp only [quantum_phase_kick, quantum_objcode_put, hh, hd, Bool.false_eq_true, if_false]
  refine quantum_reg.ampOnly_all _ _ ?_ _ st h
  intro i r
  simp only [quantum_reg.bitSet, decide_eq_true_eq]
  split
  · rfl
  · rw [quantum_reg.setAmp_self]

/-- The loop shared by the conditional phase gates: both bits set. -/
theorem cond_loop_reg (z : Cplx R) (c t : Nat) (reg : quantum_reg R) (st : List Nat)
    (h : reg.Stored st) :
    forLoop reg.size (fun i (r : quantum_reg R) =>
        if r.bitSet i c then
          if r.bitSet i t then r.setAmp i (r.amp i * z) else r
        else r) reg =
      { reg with
        amplitude := List.zipWith (fun x a =>
          if x &&& shl1 c ≠ 0 ∧ x &&& shl1 t ≠ 0 then a * z else a) st reg.amplitude } := by
  refine quantum_reg.ampOnly_all _ _ ?_ _ st h
  intro i r
  simp only [quantum_reg.bitSet, decide_eq_true_eq]
  by_cases h1 : r.label i &&& shl1 c ≠ 0
  · by_cases h2 : r.label i &&& shl1 t ≠ 0
    · rw [if_pos h1, if_pos h2, if_pos ⟨h1, h2⟩]
    · rw [if_pos h1, if_neg h2, if_neg (fun hh => h2 hh.2), quantum_reg.setAmp_self]
  · rw [if_neg h1, if_neg (fun hh => h1 hh.1), quantum_reg.setAmp_self]

theorem cond_phase_reg (env : Env R) (hp : env.Plain) (tr : Trig R) (c t : Nat)
    (w : World R) (st : List Nat) (h : w.reg.Stored st) :
    (quantum_cond_phase env tr c t w).reg =
      { w.reg with
        amplitude := List.zipWith (fun x a =>
          if x &&& shl1 c ≠ 0 ∧ x &&& shl1 t ≠ 0 then
            a * quantum_cexp tr (tr.pi / ((shl1 (c - t) : Nat) : R))
          else a) st w.reg.amplitude } := by
  obtain ⟨hq, hh, hd⟩ := hp
  simp only [quantum_cond_phase, quantum_objcode_put, hh, hd, Bool.false_eq_true, if_false]
  exact cond_loop_reg _ c t _ st h

theorem cond_phase_kick_reg (env : Env R) (hp : env.Plain) (tr : Trig R) (c t : Nat)
    (gamma : R) (w : World R) (st : List Nat) (h : w.reg.Stored st) :
    (quantum_cond_phase_kick env tr c t gamma w).reg =
      { w.reg with
        amplitude := List.zipWith (fun x a =>
          if x &&& shl1 c ≠ 0 ∧ x &&& shl1 t ≠ 0 then a * quantum_cexp tr gamma
          else a) st w.reg.amplitude } := by
  obtain ⟨hq, hh, hd⟩ := hp
  simp only [quantum_cond_phase_kick, quantum_objcode_put, hh, hd, Bool.false_eq_true,
    if_false]
  exact cond_loop_reg _ c t _ st h

theorem cond_phase_shift_reg (env : Env R) (hp : env.Plain) (tr : Trig R) (c t : Nat)
    (gamma : R) (w : World R) (st : List Nat) (h : w.reg.Stored st) :
    (quantum_cond_phase_shift env tr c t gamma w).reg =
      { w.reg with
        amplitude := List.zipWith (fun x a =>
          if x &&& shl1 c ≠ 0 then
            if x &&& shl1 t ≠ 0 then a * quantum_cexp tr (gamma / 2)
            else a / quantum_cexp tr (gamma / 2)
          else a) st w.reg.amplitude } := by
  obtain ⟨hq, hh, hd⟩ := hp
  simp only [quantum_cond_phase_shift, quantum_objcode_put, hh, hd, Bool.false_eq_true,
    if_false]
  refine quantum_reg.ampOnly_all _ _ ?_ _ st h
  intro i r
  simp only [quantum_reg.bitSet, decide_eq_true_eq]
  by_cases h1 : r.label i &&& shl1 c ≠ 0
  · rw [if_pos h1, if_pos h1]
    split <;> rfl
  · rw [if_neg h1, if_neg h1, quantum_reg.setAmp_self]

end Libquantum

namespace Libquantum

variable {R : Type} [LinearOrderedField R]

/-! ## Commutation of diagonal gates and of controlled-nots -/

theorem shl1_ge {k : Nat} (hk : 64 ≤ k) : shl1 k = 0 := by
  unfold shl1
  rw [Nat.one_shiftLeft]
  exact Nat.mod_eq_zero_of_dvd (Nat.pow_dvd_pow 2 hk)

theorem and_shl1_xor_shl1 (x : Nat) {c t : Nat} (hct : c ≠ t) :
    (x ^^^ shl1 t) &&& shl1 c = x &&& shl1 c := by
  by_cases hc : c < 64
  · by_cases ht : t < 64
    · rw [shl1_eq hc, shl1_eq ht]
      apply Nat.eq_of_testBit_eq
      intro i
      rw [Nat.testBit_and, Nat.testBit_and]
      by_cases hci : c = i
      · subst hci
        rw [testBit_xor_two_pow_ne x hct]
      · rw [Nat.testBit_two_pow_of_ne hci, Bool.and_false, Bool.and_false]
    · rw [shl1_ge (by omega : 64 ≤ t), Nat.xor_zero]
  · rw [shl1_ge (by omega : 64 ≤ c), Nat.and_zero, Nat.and_zero]

theorem zipWith_zipWith_comm {α β : Type} (f g : α → β → β)
    (hfg : ∀ x z, f x (g x z) = g x (f x z)) (st : List α) (m : List β) :
    List.zipWith f st (List.zipWith g st m) = List.zipWith g st (List.zipWith f st m) := by
  induction st generalizing m with
  | nil => rfl
  | cons a l ih => cases m with
    | nil => rfl
    | cons b m =>
      simp only [List.zipWith_cons_cons]
      rw [hfg, ih]

theorem stored_zipWith (r : quantum_reg R) (st : List Nat) (h : r.Stored st)
    (fa : Nat → Cplx R → Cplx R) :
    ({ r with amplitude := List.zipWith fa st r.amplitude } : quantum_reg R).Stored st :=
  ⟨h.1, h.2.1, by
    show (List.zipWith fa st r.amplitude).length = r.size
    rw [List.length_zipWith, h.2.1, h.2.2, Nat.min_self]⟩

/-- C17: applying `quantum_sigma_z` on bit `a` and then on bit `b` gives the
same register as applying them in the other order; applying `quantum_cnot`
with the control `c` on the target `t1` and then on the target `t2`, where
`t1`, `t2` and `c` are pairwise different, gives the same register (labels and
amplitudes at every position) as applying them in the other order. -/
theorem claim_C17_commutations (env : Env R) (hp : env.Plain) (w : World R) (st : List Nat)
    (h : w.reg.Stored st) (a b c t1 t2 : Nat) (h12 : t1 ≠ t2) (h1 : t1 ≠ c) (h2 : t2 ≠ c) :
    (quantum_sigma_z env b (quantum_sigma_z env a w)).reg =
      (quantum_sigma_z env a (quantum_sigma_z env b w)).reg ∧
    (quantum_cnot env c t2 (quantum_cnot env c t1 w)).reg =
      (quantum_cnot env c t1 (quantum_cnot env c t2 w)).reg := by
  constructor
  · have ha := sigma_z_reg env hp a w st h
    have hb := sigma_z_reg env hp b w st h
    have hSa : (quantum_sigma_z env a w).reg.Stored st := by
      rw [ha]; exact stored_zipWith _ st h _
    have hSb : (quantum_sigma_z env b w).reg.Stored st := by
      rw [hb]; exact stored_zipWith _ st h _
    rw [sigma_z_reg env hp b _ st hSa, sigma_z_reg env hp a _ st hSb, ha, hb]
    simp only
    rw [zipWith_zipWith_comm]
    intro x z
    split_ifs <;> rfl
  · have hc1 := cnot_reg env hp c t1 w st h
    have hc2 := cnot_reg env hp c t2 w st h
    have hS1 : (quantum_cnot env c t1 w).reg.Stored
        (st.map (fun x => if x &&& shl1 c ≠ 0 then x ^^^ shl1 t1 else x)) := by
      rw [hc1]; exact stored_map _ st h _
    have hS2 : (quantum_cnot env c t2 w).reg.Stored
        (st.map (fun x => if x &&& shl1 c ≠ 0 then x ^^^ shl1 t2 else x)) := by
      rw [hc2]; exact stored_map _ st h _
    rw [cnot_reg env hp c t2 _ _ hS1, cnot_reg env hp c t1 _ _ hS2, hc1, hc2]
    simp only [List.map_map]
    congr 2
    apply List.map_congr_left
    intro x _
    simp only [Function.comp]
    by_cases hx : x &&& shl1 c ≠ 0
    · have e1 : (x ^^^ shl1 t1) &&& shl1 c ≠ 0 := by
        rw [and_shl1_xor_shl1 x (Ne.symm h1)]; exact hx
      have e2 : (x ^^^ shl1 t2) &&& shl1 c ≠ 0 := by
        rw [and_shl1_xor_shl1 x (Ne.symm h2)]; exact hx
      rw [if_pos hx, if_pos hx, if_pos e1, if_pos e2, Nat.xor_assoc, Nat.xor_assoc,
        Nat.xor_comm (shl1 t1)]
    · rw [if_neg hx, if_neg hx, if_neg hx]

/-- Witness of C17: the register `regQ`, the bits 0 and 1 for sigma_z, the
control 0 and the targets 1 and 2 for the controlled-not. -/
theorem claim_C17_witness :
    (quantum_sigma_z Env.plainQ 1 (quantum_sigma_z Env.plainQ 0 ⟨regQ, []⟩)).reg =
      (quantum_sigma_z Env.plainQ 0 (quantum_sigma_z Env.plainQ 1 ⟨regQ, []⟩)).reg ∧
    (quantum_cnot Env.plainQ 0 2 (quantum_cnot Env.plainQ 0 1 ⟨regQ, []⟩)).reg =
      (quantum_cnot Env.plainQ 0 1 (quantum_cnot Env.plainQ 0 2 ⟨regQ, []⟩)).reg :=
  claim_C17_commutations Env.plainQ plainQ_plain ⟨regQ, []⟩ [0, 3] ⟨rfl, rfl, rfl⟩ 0 1 0 1 2
    (by decide) (by decide) (by decide)

end Libquantum

namespace Libquantum

variable {R : Type} [LinearOrderedField R]

/-! ## The phase gates on the entries -/

theorem zipWith_congr_fun {α β γ : Type} (f g : α → β → γ) (hfg : ∀ x z, f x z = g x z)
    (st : List α) (m : List β) : List.zipWith f st m = List.zipWith g st m := by
  have : f = g := by funext x z; exact hfg x z
  rw [this]

theorem new_qureg_amplitude (env : Env R) (v wd : Nat) (log : List (ObjRecord R)) :
    (quantum_new_qureg env v wd log).reg.amplitude = [1] := rfl

end Libquantum

namespace Libquantum

variable {R : Type} [LinearOrderedField R]

/-! ## Norm preservation of the permutation and phase gates -/

theorem map_prob_zipWith (fa : Nat → Cplx R → Cplx R)
    (hfa : ∀ x z, (fa x z).prob = z.prob) (st : List Nat) (m : List (Cplx R))
    (h : st.length = m.length) :
    (List.zipWith fa st m).map Cplx.prob = m.map Cplx.prob := by
  induction st generalizing m with
  | nil => cases m with
    | nil => rfl
    | cons b m => simp at h
  | cons a l ih => cases m with
    | nil => simp at h
    | cons b m =>
      simp only [List.zipWith_cons_cons, List.map_cons, hfa]
      rw [ih m (by simpa using h)]

theorem sameModuli_of_amplitude_eq (r1 r2 : quantum_reg R) (h : r2.amplitude = r1.amplitude) :
    r1.SameModuli r2 := by
  unfold quantum_reg.SameModuli quantum_reg.normSq
  rw [h]
  exact ⟨rfl, rfl⟩

theorem sameModuli_of_zipWith (r1 r2 : quantum_reg R) (st : List Nat) (h : r1.Stored st)
    (fa : Nat → Cplx R → Cplx R) (hfa : ∀ x z, (fa x z).prob = z.prob)
    (h2 : r2.amplitude = List.zipWith fa st r1.amplitude) : r1.SameModuli r2 := by
  unfold quantum_reg.SameModuli quantum_reg.normSq
  rw [h2, map_prob_zipWith fa hfa st _ (by rw [h.2.1, h.2.2])]
  exact ⟨rfl, rfl⟩

theorem prob_I : (Cplx.I : Cplx R).prob = 1 := by
  simp [Cplx.prob, Cplx.I]

theorem prob_neg (z : Cplx R) : (-z).prob = z.prob := by
  simp [Cplx.prob]

/-- C16: with error correction off, the recorder not handling and no
decoherence, and `cos^2 + sin^2 = 1`, each of the gates sigma_x, sigma_y,
sigma_z, cnot, toffoli, unbounded toffoli, phase_scale, phase_kick, r_z,
cond_phase, cond_phase_kick and cond_phase_shift leaves the squared modulus of
the amplitude at every position unchanged, for every angle and every stored
register; hence the sum of the squared moduli after the gate equals the sum
before it. -/
theorem claim_C16_norm_preserved (env : Env R) (hp : env.Plain) (tr : Trig R)
    (hu : tr.Unit) (w : World R) (st : List Nat) (h : w.reg.Stored st)
    (c c2 t : Nat) (controls : List Nat) (gamma : R) :
    w.reg.SameModuli (quantum_sigma_x env t w).reg ∧
    w.reg.SameModuli (quantum_sigma_y env t w).reg ∧
    w.reg.SameModuli (quantum_sigma_z env t w).reg ∧
    w.reg.SameModuli (quantum_cnot env c t w).reg ∧
    w.reg.SameModuli (quantum_toffoli env c c2 t w).reg ∧
    w.reg.SameModuli (quantum_unbounded_toffoli env controls t w).reg ∧
    w.reg.SameModuli (quantum_phase_scale env tr t gamma w).reg ∧
    w.reg.SameModuli (quantum_phase_kick env tr t gamma w).reg ∧
    w.reg.SameModuli (quantum_r_z env tr t gamma w).reg ∧
    w.reg.SameModuli (quantum_cond_phase env tr c t w).reg ∧
    w.reg.SameModuli (quantum_cond_phase_kick env tr c t gamma w).reg ∧
    w.reg.SameModuli (quantum_cond_phase_shift env tr c t gamma w).reg := by
  refine ⟨?_, ?_, ?_, ?_, ?_, ?_, ?_, ?_, ?_, ?_, ?_, ?_⟩
  · exact sameModuli_of_amplitude_eq _ _ (by rw [sigma_x_reg env hp t w st h])
  · refine sameModuli_of_zipWith _ _ st h _ ?_ (by rw [sigma_y_reg env hp t w st h])
    intro x z
    split
    · rw [Cplx.prob_mul, prob_I, mul_one]
    · rw [Cplx.prob_mul, prob_neg, prob_I, mul_one]
  · refine sameModuli_of_zipWith _ _ st h _ ?_ (by rw [sigma_z_reg env hp t w st h])
    intro x z
    split
    · rw [Cplx.prob_mul, prob_neg]
      simp [Cplx.prob]
    · rfl
  · exact sameModuli_of_amplitude_eq _ _ (by rw [cnot_reg env hp c t w st h])
  · exact sameModuli_of_amplitude_eq _ _ (by rw [toffoli_reg env hp c c2 t w st h])
  · exact sameModuli_of_amplitude_eq _ _ (by
      rw [unbounded_toffoli_reg env hp controls t w st h])
  · refine sameModuli_of_zipWith _ _ st h _ ?_ (by rw [phase_scale_reg env hp tr t gamma w st h])
    intro x z
    exact Cplx.prob_mul_of_prob_one _ _ (hu _)
  · refine sameModuli_of_zipWith _ _ st h _ ?_ (by rw [phase_kick_reg env hp tr t gamma w st h])
    intro x z
    split
    · exact Cplx.prob_mul_of_prob_one _ _ (hu _)
    · rfl
  · refine sameModuli_of_zipWith _ _ st h _ ?_ (by rw [r_z_reg env hp tr t gamma w st h])
    intro x z
    split
    · exact Cplx.prob_mul_of_prob_one _ _ (hu _)
    · exact Cplx.prob_div_of_prob_one _ _ (hu _)
  · refine sameModuli_of_zipWith _ _ st h _ ?_ (by rw [cond_phase_reg env hp tr c t w st h])
    intro x z
    split
    · exact Cplx.prob_mul_of_prob_one _ _ (hu _)
    · rfl
  · refine sameModuli_of_zipWith _ _ st h _ ?_
      (by rw [cond_phase_kick_reg env hp tr c t gamma w st h])
    intro x z
    split
    · exact Cplx.prob_mul_of_prob_one _ _ (hu _)
    · rfl
  · refine sameModuli_of_zipWith _ _ st h _ ?_
      (by rw [cond_phase_shift_reg env hp tr c t gamma w st h])
    intro x z
    split
    · split
      · exact Cplx.prob_mul_of_prob_one _ _ (hu _)
      · exact Cplx.prob_div_of_prob_one _ _ (hu _)
    · rfl

/-- Witness of C16 over the reals: the rotation `r_z(0, pi)` on `new(1,1)`
leaves the squared moduli unchanged. -/
theorem claim_C16_witness :
    (quantum_new_qureg (Env.plainOf (1 / 1000000) Real.sqrt) 1 1 []).reg.SameModuli
      (quantum_r_z (Env.plainOf (1 / 1000000) Real.sqrt) ⟨Real.cos, Real.sin, Real.pi⟩ 0
        Real.pi (quantum_new_qureg (Env.plainOf (1 / 1000000) Real.sqrt) 1 1 [])).reg :=
  (claim_C16_norm_preserved (Env.plainOf (1 / 1000000) Real.sqrt) ⟨rfl, rfl, fun _ => rfl⟩
    ⟨Real.cos, Real.sin, Real.pi⟩
    (fun phi => by
      show Real.cos phi * Real.cos phi + Real.sin phi * Real.sin phi = 1
      have := Real.cos_sq_add_sin_sq phi
      nlinarith [this])
    (quantum_new_qureg (Env.plainOf (1 / 1000000) Real.sqrt) 1 1 []) [1] ⟨rfl, rfl, rfl⟩
    0 0 0 [] Real.pi).2.2.2.2.2.2.2.2.1

end Libquantum

namespace Libquantum

variable {R : Type} [LinearOrderedField R]

/-! ## Normalisation after the collapse -/

theorem sum_map_div {α : Type} (l : List α) (f : α → R) (d : R) :
    (l.map (fun e => f e / d)).sum = (l.map f).sum / d := by
  induction l with
  | nil => simp
  | cons a l ih => simp only [List.map_cons, List.sum_cons, ih, add_div]

theorem prob_div_real (z : Cplx R) (f : R) :
    (⟨z.re / f, z.im / f⟩ : Cplx R).prob = z.prob / (f * f) := by
  simp only [Cplx.prob]
  rw [div_mul_div_comm, div_mul_div_comm, ← add_div]

/-- The quotient `d / f^2` is within `2^-21` of 1 when the divisor `f` is
within the relative error `2^-23` of a positive root `s` of `d`. -/
theorem quotient_near_one (s f : R) (hs : 0 < s) (hlo : s - s / 2 ^ 23 ≤ f)
    (hhi : f ≤ s + s / 2 ^ 23) :
    1 - 1 / 2 ^ 21 ≤ s * s / (f * f) ∧ s * s / (f * f) ≤ 1 + 1 / 2 ^ 21 := by
  have hlo0 : 0 < s - s / 2 ^ 23 := by
    have : s / 2 ^ 23 < s := div_lt_self hs (by norm_num)
    linarith
  have hf : 0 < f := lt_of_lt_of_le hlo0 hlo
  have hff : 0 < f * f := mul_pos hf hf
  have h1 : f * f ≤ (s + s / 2 ^ 23) * (s + s / 2 ^ 23) :=
    mul_self_le_mul_self (le_of_lt hf) hhi
  have h2 : (s - s / 2 ^ 23) * (s - s / 2 ^ 23) ≤ f * f :=
    mul_self_le_mul_self (le_of_lt hlo0) hlo
  have hss : 0 ≤ s * s := le_of_lt (mul_pos hs hs)
  constructor
  · rw [le_div_iff₀ hff]
    calc (1 - 1 / 2 ^ 21) * (f * f)
        ≤ (1 - 1 / 2 ^ 21) * ((s + s / 2 ^ 23) * (s + s / 2 ^ 23)) :=
          mul_le_mul_of_nonneg_left h1 (by norm_num)
      _ = s * s * ((1 - 1 / 2 ^ 21) * ((1 + 1 / 2 ^ 23) * (1 + 1 / 2 ^ 23))) := by ring
      _ ≤ s * s * 1 := mul_le_mul_of_nonneg_left (by norm_num) hss
      _ = s * s := mul_one _
  · rw [div_le_iff₀ hff]
    calc s * s = s * s * 1 := (mul_one _).symm
      _ ≤ s * s * ((1 + 1 / 2 ^ 21) * ((1 - 1 / 2 ^ 23) * (1 - 1 / 2 ^ 23))) :=
          mul_le_mul_of_nonneg_left (by norm_num) hss
      _ = (1 + 1 / 2 ^ 21) * ((s - s / 2 ^ 23) * (s - s / 2 ^ 23)) := by ring
      _ ≤ (1 + 1 / 2 ^ 21) * (f * f) := mul_le_mul_of_nonneg_left h2 (by norm_num)

/-- C15, amended: let `d` be the sum of the squared moduli of the entries of a
stored register whose bit `pos` equals `value`, and `f = (float) sqrt d` the
single-precision divisor of `quantum_state_collapse`, not zero. In the register
returned, the squared modulus of each kept entry is its previous squared
modulus divided by `f^2`, and the squared moduli sum to `d / f^2`. If `f` is
within the relative error `2^-23` of the positive root `s` of `d`, that sum is
within `2^-21` of 1. -/
theorem claim_C15_collapse_normalised (env : Env R) (reg : quantum_reg R) (st : List Nat)
    (h : reg.Stored st) (pos : Nat) (value : Int) (hpos : pos < reg.width)
    (hw : reg.width ≤ 64) (hlab : ∀ x ∈ st, x < 2 ^ 64)
    (hf : env.toFloat (env.sqrt (keptProb pos value st reg.amplitude)) ≠ 0) :
    (quantum_state_collapse env pos value reg).amplitude.map Cplx.prob =
      (keptEntries pos value st reg.amplitude).map (fun e =>
        e.2.prob / (env.toFloat (env.sqrt (keptProb pos value st reg.amplitude)) *
          env.toFloat (env.sqrt (keptProb pos value st reg.amplitude)))) ∧
    (quantum_state_collapse env pos value reg).normSq =
      keptProb pos value st reg.amplitude /
        (env.toFloat (env.sqrt (keptProb pos value st reg.amplitude)) *
          env.toFloat (env.sqrt (keptProb pos value st reg.amplitude))) ∧
    ∀ s : R, 0 < s → s * s = keptProb pos value st reg.amplitude →
      s - s / 2 ^ 23 ≤ env.toFloat (env.sqrt (keptProb pos value st reg.amplitude)) →
      env.toFloat (env.sqrt (keptProb pos value st reg.amplitude)) ≤ s + s / 2 ^ 23 →
      1 - 1 / 2 ^ 21 ≤ (quantum_state_collapse env pos value reg).normSq ∧
      (quantum_state_collapse env pos value reg).normSq ≤ 1 + 1 / 2 ^ 21 := by
  have hamp : (quantum_state_collapse env pos value reg).amplitude.map Cplx.prob =
      (keptEntries pos value st reg.amplitude).map (fun e =>
        e.2.prob / (env.toFloat (env.sqrt (keptProb pos value st reg.amplitude)) *
          env.toFloat (env.sqrt (keptProb pos value st reg.amplitude)))) := by
    rw [state_collapse_eq env reg st h pos value hpos hw hlab]
    simp only [List.map_map]
    apply List.map_congr_left
    intro e _
    exact prob_div_real e.2 _
  have hnorm : (quantum_state_collapse env pos value reg).normSq =
      keptProb pos value st reg.amplitude /
        (env.toFloat (env.sqrt (keptProb pos value st reg.amplitude)) *
          env.toFloat (env.sqrt (keptProb pos value st reg.amplitude))) := by
    unfold quantum_reg.normSq
    rw [hamp]
    exact sum_map_div (keptEntries pos value st reg.amplitude) (fun e => e.2.prob) _
  refine ⟨hamp, hnorm, ?_⟩
  intro s hs hss hlo hhi
  have hq := quotient_near_one s _ hs hlo hhi
  rw [hss] at hq
  rw [hnorm]
  exact hq

/-- Witness of C15 (amended): collapsing bit 0 of the register with the single
entry `|00>` of amplitude `1/2` to 0. Here `d = 1/4`, `sqrt d = 1/2` is exact in
both precisions, and the squared norm of the result is within `2^-21` of 1. -/
theorem claim_C15_witness :
    (regOne (1 / 2 : ℚ)).Stored [0] ∧
    (Env.ieeeQ).toFloat ((Env.ieeeQ).sqrt
      (keptProb 0 0 [0] (regOne (1 / 2 : ℚ)).amplitude)) ≠ 0 ∧
    (1 / 2 : ℚ) * (1 / 2) = keptProb 0 0 [0] (regOne (1 / 2 : ℚ)).amplitude ∧
    1 - 1 / 2 ^ 21 ≤ (quantum_state_collapse Env.ieeeQ 0 0 (regOne (1 / 2 : ℚ))).normSq ∧
    (quantum_state_collapse Env.ieeeQ 0 0 (regOne (1 / 2 : ℚ))).normSq ≤ 1 + 1 / 2 ^ 21 :=
  ⟨⟨rfl, rfl, rfl⟩, by decide!, by decide!,
    (claim_C15_collapse_normalised Env.ieeeQ (regOne (1 / 2 : ℚ)) [0] ⟨rfl, rfl, rfl⟩ 0 0
      (by decide) (by decide) (by decide) (by decide!)).2.2 (1 / 2) (by decide!) (by decide!)
      (by decide!) (by decide!)⟩

/-- C15 fails as stated: on the register with the four entries of amplitude
`1/2`, collapsing bit 0 to 0 keeps two entries, `d = 1/2`, and the divisor is
`(float) sqrt(1/2) = 11863283 / 2^24`; the squared moduli of the result sum to
`2^47 / 11863283^2`, about `1.0000000342`, more than `1e-9` above 1. -/
theorem claim_C15_counterexample :
    regHalf.normSq = 1 ∧
    (quantum_state_collapse Env.ieeeQ 0 0 regHalf).normSq =
      140737488355328 / 140737483538089 ∧
    1 + 1 / 1000000000 < (quantum_state_collapse Env.ieeeQ 0 0 regHalf).normSq :=
  ⟨by decide!, by decide!, by decide!⟩

end Libquantum

namespace Libquantum

variable {R : Type} [LinearOrderedField R]

/-! ## The dot product -/

/-- The hash table that `quantum_reconstruct_hash` builds for a stored register
with fewer entries than slots. -/
theorem reconstruct_eq (seed : Nat → Nat) (reg : quantum_reg R) (st : List Nat)
    (h : reg.Stored st) (hsize : reg.size < 2 ^ reg.hashw) :
    ∃ T, quantum_reconstruct_hash seed reg = some { reg with hash := T } ∧
      HashInv seed (2 ^ reg.hashw) st T st.length := by
  obtain ⟨T, hT, hinv⟩ := reconstruct_loop seed reg st h.1 reg.size (by omega)
  rw [← h.2.1] at hinv
  exact ⟨T, hT, hinv⟩

/-- Looking up a label in a stored register with a rebuilt table: the position
of the label, or `-1` if it is not stored. -/
theorem lookup_stored (seed : Nat → Nat) (reg : quantum_reg R) (st T : List Nat)
    (h : reg.Stored st) (hnd : st.Nodup)
    (hinv : HashInv seed (2 ^ reg.hashw) st T st.length)
    (hsize : reg.size < 2 ^ reg.hashw) (x : Nat) :
    quantum_get_state seed x ({ reg with hash := T } : quantum_reg R) =
      some (if st.indexOf x < st.length then ((st.indexOf x : Nat) : Int) else -1) := by
  have e : ({ reg with hash := T } : quantum_reg R) =
      { reg with hash := T, state := some (st ++ []), amplitude := reg.amplitude } := by
    rw [List.append_nil, ← h.1]
  rw [e]
  exact lookup_eq seed reg st [] T hnd hinv (by rw [h.2.1]; exact hsize) reg.amplitude x

theorem indexOf_getD_of_nodup (st : List Nat) (hnd : st.Nodup) (i : Nat) (hi : i < st.length) :
    st.indexOf (st.getD i 0) = i := by
  rw [getD_of_lt _ _ _ hi]
  exact List.indexOf_getElem hnd i hi

theorem conj_mul_self (a : Cplx R) : a.conj * a = ⟨a.prob, 0⟩ := by
  apply Cplx.ext
  · simp only [Cplx.mul_re, Cplx.conj, Cplx.prob]; ring
  · simp only [Cplx.mul_im, Cplx.conj]; ring

theorem sum_take_succ (l : List (Cplx R)) (k : Nat) (hk : k < l.length) :
    ((l.take (k + 1)).map Cplx.prob).sum =
      ((l.take k).map Cplx.prob).sum + (l.getD k 0).prob := by
  rw [take_succ_snoc l k hk 0, List.map_append, List.sum_append]
  simp

/-- C14: for a stored register in sparse mode (hash present, pairwise distinct
labels, fewer entries than slots) `quantum_dot_product(r, r)` returns the sum
over all entries of the squared modulus of the amplitude, with imaginary part
zero. -/
theorem claim_C14_dot_product_self (seed : Nat → Nat) (reg : quantum_reg R) (st : List Nat)
    (h : reg.Stored st) (hh : reg.hashw ≠ 0) (hnd : st.Nodup)
    (hsize : reg.size < 2 ^ reg.hashw) :
    quantum_dot_product seed reg reg = some ⟨reg.normSq, 0⟩ := by
  obtain ⟨T, hT, hinv⟩ := reconstruct_eq seed reg st h hsize
  unfold quantum_dot_product
  rw [if_pos hh, hT]
  simp only [Option.some_bind]
  rw [if_pos (by rw [h.1]; rfl)]
  have hloop : ∀ k, k ≤ reg.size →
      forLoopM k (fun i (f : Cplx R) =>
        (quantum_get_state seed (reg.label i) ({ reg with hash := T } : quantum_reg R)).map
          (fun j => if -1 < j then
            f + (reg.amp i).conj * ({ reg with hash := T } : quantum_reg R).amp j.toNat
            else f)) 0 = some ⟨((reg.amplitude.take k).map Cplx.prob).sum, 0⟩ := by
    intro k hk
    induction k with
    | zero => rfl
    | succ k ih =>
      rw [forLoopM_succ, ih (by omega)]
      simp only [Option.some_bind]
      rw [lookup_stored seed reg st T h hnd hinv hsize]
      have hl : reg.label k = st.getD k 0 := by
        simp only [quantum_reg.label, h.1, Option.getD_some]
      have hk' : k < st.length := by rw [h.2.1]; omega
      rw [hl, indexOf_getD_of_nodup st hnd k hk', if_pos hk']
      simp only [Option.map_some']
      rw [if_pos (by omega), Int.toNat_ofNat]
      have ha : ({ reg with hash := T } : quantum_reg R).amp k = reg.amp k := rfl
      rw [ha, conj_mul_self, sum_take_succ _ _ (by rw [h.2.2]; omega)]
      congr 1
      apply Cplx.ext
      · simp only [Cplx.add_re]; rfl
      · simp only [Cplx.add_im]; rw [add_zero]
  rw [hloop reg.size (le_refl _)]
  unfold quantum_reg.normSq
  rw [← h.2.2, List.take_length]

/-- Witness of C14: the dot product of the register `regQ` with itself is
`(3/5)^2 + (4/5)^2 = 1`. -/
theorem claim_C14_witness :
    regQ.Stored [0, 3] ∧ [0, 3].Nodup ∧
    quantum_dot_product (fun x => x) regQ regQ = some ⟨regQ.normSq, 0⟩ ∧
    regQ.normSq = 1 :=
  ⟨⟨rfl, rfl, rfl⟩, by decide,
    claim_C14_dot_product_self (fun x => x) regQ [0, 3] ⟨rfl, rfl, rfl⟩ (by decide)
      (by decide) (by decide), by decide!⟩

end Libquantum

namespace Libquantum

variable {R : Type} [LinearOrderedField R]

/-! ## Vector addition: the entries -/

theorem lookupAmp_of_not_mem (es : List (Nat × Cplx R)) (x : Nat)
    (h : x ∉ es.map Prod.fst) : lookupAmp es x = 0 := by
  unfold lookupAmp
  have : es.find? (fun e => decide (e.1 = x)) = none := by
    rw [List.find?_eq_none]
    intro e he hx
    exact h (List.mem_map.2 ⟨e, he, of_decide_eq_true hx⟩)
  rw [this]

theorem lookupAmp_snoc_ne (es : List (Nat × Cplx R)) (y x : Nat) (z : Cplx R) (h : y ≠ x) :
    lookupAmp (es ++ [(y, z)]) x = lookupAmp es x := by
  unfold lookupAmp
  rw [List.find?_append]
  cases hf : es.find? (fun e => decide (e.1 = x)) with
  | some e => rfl
  | none =>
    simp only [Option.none_or, List.find?_cons, List.find?_nil]
    rw [decide_eq_false h]

theorem lookupAmp_snoc_new (es : List (Nat × Cplx R)) (x : Nat) (z : Cplx R)
    (h : x ∉ es.map Prod.fst) : lookupAmp (es ++ [(x, z)]) x = z := by
  unfold lookupAmp
  have : es.find? (fun e => decide (e.1 = x)) = none := by
    rw [List.find?_eq_none]
    intro e he hx
    exact h (List.mem_map.2 ⟨e, he, of_decide_eq_true hx⟩)
  rw [List.find?_append, this]
  simp only [Option.none_or, List.find?_cons, decide_True]

theorem absentEntries_snoc_absent (st : List Nat) (es : List (Nat × Cplx R))
    (e : Nat × Cplx R) (h : e.1 ∉ st) :
    absentEntries st (es ++ [e]) = absentEntries st es ++ [e] := by
  unfold absentEntries
  rw [List.filter_append, List.filter_cons_of_pos (by simpa using h), List.filter_nil]

theorem absentEntries_snoc_present (st : List Nat) (es : List (Nat × Cplx R))
    (e : Nat × Cplx R) (h : e.1 ∈ st) :
    absentEntries st (es ++ [e]) = absentEntries st es := by
  unfold absentEntries
  rw [List.filter_append, List.filter_cons_of_neg (by simpa using h), List.filter_nil,
    List.append_nil]

theorem absentEntries_take_le (st : List Nat) (es : List (Nat × Cplx R)) (i : Nat) :
    (absentEntries st (es.take i)).length ≤ (absentEntries st es).length := by
  unfold absentEntries
  exact List.Sublist.length_le (List.Sublist.filter _ (List.take_sublist i es))

theorem take_succ_getD (es : List (Nat × Cplx R)) (i : Nat) (hi : i < es.length) :
    es.take (i + 1) = es.take i ++ [es.getD i (0, 0)] :=
  take_succ_snoc es i hi (0, 0)

/-- A label of a duplicate-free list does not occur among the labels before
its position. -/
theorem not_mem_take_of_nodup (es : List (Nat × Cplx R)) (hnd : (es.map Prod.fst).Nodup)
    (i : Nat) (hi : i < es.length) :
    (es.getD i (0, 0)).1 ∉ (es.take i).map Prod.fst := by
  intro hmem
  rw [List.map_take] at hmem
  obtain ⟨j, hj, hje⟩ := List.getElem_of_mem hmem
  rw [List.length_take, List.length_map] at hj
  have hj' : j < (es.map Prod.fst).length := by rw [List.length_map]; omega
  have hi' : i < (es.map Prod.fst).length := by rw [List.length_map]; omega
  rw [List.getElem_take] at hje
  have h2 : (es.map Prod.fst)[i] = (es.getD i (0, 0)).1 := by
    rw [List.getElem_map, getD_of_lt _ _ _ hi]
  have := (List.Nodup.getElem_inj_iff hnd).1 (hje.trans h2.symm)
  omega

end Libquantum

namespace Libquantum

variable {R : Type} [LinearOrderedField R]

theorem sumHead_congr (st1 : List Nat) (a1 : List (Cplx R)) (l l2 : List (Nat × Cplx R))
    (h : ∀ p, p < st1.length → lookupAmp l2 (st1.getD p 0) = lookupAmp l (st1.getD p 0)) :
    (List.range st1.length).map (fun p => a1.getD p 0 + lookupAmp l2 (st1.getD p 0)) =
      (List.range st1.length).map (fun p => a1.getD p 0 + lookupAmp l (st1.getD p 0)) := by
  apply List.map_congr_left
  intro p hp
  rw [h p (List.mem_range.1 hp)]

/-- The addition loop of `quantum_vectoradd`, one step on the arrays: the label
of entry `i` of the second register is not stored in the first; it is written
to the cell under the cursor. -/
theorem sum_step_absent (st1 : List Nat) (a1 : List (Cplx R)) (es2 : List (Nat × Cplx R))
    (a i : Nat) (hi : i < es2.length) (habs : (es2.getD i (0, 0)).1 ∉ st1)
    (ha : (absentEntries st1 es2).length ≤ a) :
    sumLabels st1 es2 a (i + 1) =
      (sumLabels st1 es2 a i).set (st1.length + (absentEntries st1 (es2.take i)).length)
        (es2.getD i (0, 0)).1 ∧
    sumAmps st1 a1 es2 a (i + 1) =
      (sumAmps st1 a1 es2 a i).set (st1.length + (absentEntries st1 (es2.take i)).length)
        (es2.getD i (0, 0)).2 ∧
    (absentEntries st1 (es2.take (i + 1))).length =
      (absentEntries st1 (es2.take i)).length + 1 := by
  have hle := absentEntries_take_le st1 es2 (i + 1)
  have hs : absentEntries st1 (es2.take (i + 1)) =
      absentEntries st1 (es2.take i) ++ [es2.getD i (0, 0)] := by
    rw [take_succ_getD es2 i hi, absentEntries_snoc_absent _ _ _ habs]
  have hlen : (absentEntries st1 (es2.take (i + 1))).length =
      (absentEntries st1 (es2.take i)).length + 1 := by
    rw [hs, List.length_append]; rfl
  have hpos : 0 < a - (absentEntries st1 (es2.take i)).length := by omega
  refine ⟨?_, ?_, hlen⟩
  · unfold sumLabels
    rw [hlen, hs, List.map_append]
    have := set_append_replicate (st1 ++ (absentEntries st1 (es2.take i)).map Prod.fst)
      (a - (absentEntries st1 (es2.take i)).length) 0 (es2.getD i (0, 0)).1 hpos
    rw [List.length_append, List.length_map] at this
    rw [this, Nat.sub_sub]
    simp only [List.append_assoc, List.map_cons, List.map_nil]
  · unfold sumAmps
    rw [hlen, hs, List.map_append]
    have := set_append_replicate ((List.range st1.length).map (fun p =>
        a1.getD p 0 + lookupAmp (es2.take i) (st1.getD p 0)) ++
        (absentEntries st1 (es2.take i)).map Prod.snd)
      (a - (absentEntries st1 (es2.take i)).length) 0 (es2.getD i (0, 0)).2 hpos
    rw [List.length_append, List.length_map, List.length_map, List.length_range] at this
    rw [this, Nat.sub_sub]
    rw [sumHead_congr st1 a1 (es2.take i) (es2.take (i + 1))]
    · simp only [List.append_assoc, List.map_cons, List.map_nil]
    · intro p hp
      rw [take_succ_getD es2 i hi]
      have hne : (es2.getD i (0, 0)).1 ≠ st1.getD p 0 := by
        intro he
        apply habs
        rw [he, getD_of_lt _ _ _ hp]
        exact List.getElem_mem _
      cases he : es2.getD i (0, 0) with
      | mk y z =>
        rw [he] at hne
        exact lookupAmp_snoc_ne _ y _ z hne

/-- The addition loop of `quantum_vectoradd`, one step on the arrays: the label
of entry `i` of the second register is stored in the first at position `j`; the
amplitude is added there. The hypothesis `hadd` says that the amplitude of that
label in the first `i + 1` entries of the second register is its amplitude in
the first `i` entries plus the amplitude of entry `i`. -/
theorem sum_step_present (st1 : List Nat) (a1 : List (Cplx R)) (es2 : List (Nat × Cplx R))
    (hnd1 : st1.Nodup)
    (a i : Nat) (hi : i < es2.length)
    (hadd : lookupAmp (es2.take (i + 1)) (es2.getD i (0, 0)).1 =
      lookupAmp (es2.take i) (es2.getD i (0, 0)).1 + (es2.getD i (0, 0)).2)
    (hpres : (es2.getD i (0, 0)).1 ∈ st1) :
    sumLabels st1 es2 a (i + 1) = sumLabels st1 es2 a i ∧
    sumAmps st1 a1 es2 a (i + 1) =
      (sumAmps st1 a1 es2 a i).set (st1.indexOf (es2.getD i (0, 0)).1)
        ((sumAmps st1 a1 es2 a i).getD (st1.indexOf (es2.getD i (0, 0)).1) 0 +
          (es2.getD i (0, 0)).2) ∧
    (absentEntries st1 (es2.take (i + 1))).length =
      (absentEntries st1 (es2.take i)).length := by
  have hs : absentEntries st1 (es2.take (i + 1)) = absentEntries st1 (es2.take i) := by
    rw [take_succ_getD es2 i hi, absentEntries_snoc_present _ _ _ hpres]
  have hj : st1.indexOf (es2.getD i (0, 0)).1 < st1.length := List.indexOf_lt_length.2 hpres
  refine ⟨?_, ?_, by rw [hs]⟩
  · unfold sumLabels
    rw [hs]
  · unfold sumAmps
    rw [hs, List.append_assoc, List.append_assoc, getD_map_range _ _ _ _ hj,
      List.set_append, if_pos (by rw [List.length_map, List.length_range]; exact hj),
      set_map_range]
    congr 1
    apply List.map_congr_left
    intro p hp
    have hp' := List.mem_range.1 hp
    by_cases hpj : p = st1.indexOf (es2.getD i (0, 0)).1
    · rw [hpj, Function.update_same]
      have hl : st1.getD (st1.indexOf (es2.getD i (0, 0)).1) 0 = (es2.getD i (0, 0)).1 := by
        rw [getD_of_lt _ _ _ hj]
        exact List.getElem_indexOf hj
      rw [hl, hadd, add_assoc]
    · rw [take_succ_getD es2 i hi]
      rw [Function.update_noteq hpj]
      have hne : (es2.getD i (0, 0)).1 ≠ st1.getD p 0 := by
        intro he
        apply hpj
        rw [he, getD_of_lt _ _ _ hp']
        exact (List.indexOf_getElem hnd1 p hp').symm
      cases he : es2.getD i (0, 0) with
      | mk y z =>
        rw [he] at hne
        rw [lookupAmp_snoc_ne _ y _ z hne]

/-- The amplitude of the label of entry `i` adds up over the entries of a list
with pairwise distinct labels. -/
theorem lookupAmp_take_succ_of_nodup (es2 : List (Nat × Cplx R))
    (hnd2 : (es2.map Prod.fst).Nodup) (i : Nat) (hi : i < es2.length) :
    lookupAmp (es2.take (i + 1)) (es2.getD i (0, 0)).1 =
      lookupAmp (es2.take i) (es2.getD i (0, 0)).1 + (es2.getD i (0, 0)).2 := by
  have hnew := not_mem_take_of_nodup es2 hnd2 i hi
  rw [take_succ_getD es2 i hi, lookupAmp_of_not_mem _ _ hnew, zero_add]
  cases he : es2.getD i (0, 0) with
  | mk y z =>
    rw [he] at hnew
    rw [lookupAmp_snoc_new _ y z hnew]

theorem lookupAmp_of_all_zero (es : List (Nat × Cplx R)) (h : ∀ e ∈ es, e.2 = 0) (x : Nat) :
    lookupAmp es x = 0 := by
  unfold lookupAmp
  cases hf : es.find? (fun e => decide (e.1 = x)) with
  | some e => exact h e (List.mem_of_find?_eq_some hf)
  | none => rfl

/-- The amplitude of the label of entry `i` adds up over the entries of a list
all of whose amplitudes are zero. -/
theorem lookupAmp_take_succ_of_zero (es2 : List (Nat × Cplx R))
    (hz : ∀ e ∈ es2, e.2 = 0) (i : Nat) (hi : i < es2.length) :
    lookupAmp (es2.take (i + 1)) (es2.getD i (0, 0)).1 =
      lookupAmp (es2.take i) (es2.getD i (0, 0)).1 + (es2.getD i (0, 0)).2 := by
  rw [lookupAmp_of_all_zero _ (fun e he => hz e (List.mem_of_mem_take he)),
    lookupAmp_of_all_zero _ (fun e he => hz e (List.mem_of_mem_take he)), zero_add,
    getD_of_lt _ _ _ hi]
  exact (hz _ (List.getElem_mem _)).symm

end Libquantum

namespace Libquantum

variable {R : Type} [LinearOrderedField R]

/-! ## Vector addition: the loops -/

theorem label_eq_zip (reg : quantum_reg R) (st : List Nat) (h : reg.Stored st) (i : Nat) :
    reg.label i = ((List.zip st reg.amplitude).getD i (0, 0)).1 := by
  rw [getD_zip st reg.amplitude (by rw [h.2.1, h.2.2])]
  simp only [quantum_reg.label, h.1, Option.getD_some]

theorem amp_eq_zip (reg : quantum_reg R) (st : List Nat) (h : reg.Stored st) (i : Nat) :
    reg.amp i = ((List.zip st reg.amplitude).getD i (0, 0)).2 := by
  rw [getD_zip st reg.amplitude (by rw [h.2.1, h.2.2])]
  rfl

theorem zip_length_stored (reg : quantum_reg R) (st : List Nat) (h : reg.Stored st) :
    (List.zip st reg.amplitude).length = reg.size := by
  rw [List.length_zip, h.2.1, h.2.2, Nat.min_self]

theorem zip_map_fst_stored (reg : quantum_reg R) (st : List Nat) (h : reg.Stored st) :
    (List.zip st reg.amplitude).map Prod.fst = st :=
  List.map_fst_zip _ _ (by rw [h.2.1, h.2.2])

/-- The amplitudes of a stored register with pairwise distinct labels add up
label by label. -/
theorem additive_of_nodup (reg2 : quantum_reg R) (st2 : List Nat) (h2 : reg2.Stored st2)
    (hnd2 : st2.Nodup) :
    ∀ i, i < (List.zip st2 reg2.amplitude).length →
      lookupAmp ((List.zip st2 reg2.amplitude).take (i + 1))
          ((List.zip st2 reg2.amplitude).getD i (0, 0)).1 =
        lookupAmp ((List.zip st2 reg2.amplitude).take i)
            ((List.zip st2 reg2.amplitude).getD i (0, 0)).1 +
          ((List.zip st2 reg2.amplitude).getD i (0, 0)).2 :=
  fun i hi => lookupAmp_take_succ_of_nodup _
    (by rw [zip_map_fst_stored reg2 st2 h2]; exact hnd2) i hi

/-- The amplitudes of a register all of whose amplitudes are zero add up label
by label, whatever its labels. -/
theorem additive_of_zero (reg2 : quantum_reg R) (st2 : List Nat)
    (hzero : ∀ z ∈ reg2.amplitude, z = 0) :
    ∀ i, i < (List.zip st2 reg2.amplitude).length →
      lookupAmp ((List.zip st2 reg2.amplitude).take (i + 1))
          ((List.zip st2 reg2.amplitude).getD i (0, 0)).1 =
        lookupAmp ((List.zip st2 reg2.amplitude).take i)
            ((List.zip st2 reg2.amplitude).getD i (0, 0)).1 +
          ((List.zip st2 reg2.amplitude).getD i (0, 0)).2 :=
  fun i hi => lookupAmp_take_succ_of_zero _
    (fun e he => hzero e.2 (List.of_mem_zip he).2) i hi

/-- The number of additional basis states that `quantum_vectoradd` counts. -/
theorem vectoradd_addsize_eq (seed : Nat → Nat) (reg1 reg2 : quantum_reg R)
    (st1 st2 T : List Nat) (h1 : reg1.Stored st1) (h2 : reg2.Stored st2) (hnd : st1.Nodup)
    (hinv : HashInv seed (2 ^ reg1.hashw) st1 T st1.length)
    (hsize : reg1.size < 2 ^ reg1.hashw) :
    vectoradd_addsize seed ({ reg1 with hash := T } : quantum_reg R) reg2 =
      some (absentEntries st1 (List.zip st2 reg2.amplitude)).length := by
  have hloop : ∀ k, k ≤ reg2.size →
      forLoopM k (fun i addsize =>
        (quantum_get_state seed (reg2.label i)
          ({ reg1 with hash := T } : quantum_reg R)).map (fun j =>
          if j = -1 then addsize + 1 else addsize)) 0 =
        some (absentEntries st1 ((List.zip st2 reg2.amplitude).take k)).length := by
    intro k hk
    induction k with
    | zero => rfl
    | succ k ih =>
      have hk' : k < (List.zip st2 reg2.amplitude).length := by
        rw [zip_length_stored reg2 st2 h2]; omega
      rw [forLoopM_succ, ih (by omega)]
      simp only [Option.some_bind]
      rw [lookup_stored seed reg1 st1 T h1 hnd hinv hsize, label_eq_zip reg2 st2 h2,
        take_succ_getD _ k hk']
      simp only [Option.map_some']
      by_cases hm : ((List.zip st2 reg2.amplitude).getD k (0, 0)).1 ∈ st1
      · rw [if_pos (List.indexOf_lt_length.2 hm), if_neg (by omega),
          absentEntries_snoc_present _ _ _ hm]
      · rw [if_neg (fun hh => hm (List.indexOf_lt_length.1 hh)), if_pos rfl,
          absentEntries_snoc_absent _ _ _ hm, List.length_append]
        rfl
  unfold vectoradd_addsize
  rw [hloop reg2.size (le_refl _), ← zip_length_stored reg2 st2 h2, List.take_length]

/-- The addition loop of `quantum_vectoradd`: the lookups are made in the
first register, the sums are written to the copy `B`. -/
theorem vectoradd_loop_eq (seed : Nat → Nat) (reg1 reg2 B : quantum_reg R)
    (st1 st2 T : List Nat) (h1 : reg1.Stored st1) (h2 : reg2.Stored st2) (hnd1 : st1.Nodup)
    (hadd : ∀ i, i < (List.zip st2 reg2.amplitude).length →
      lookupAmp ((List.zip st2 reg2.amplitude).take (i + 1))
          ((List.zip st2 reg2.amplitude).getD i (0, 0)).1 =
        lookupAmp ((List.zip st2 reg2.amplitude).take i)
            ((List.zip st2 reg2.amplitude).getD i (0, 0)).1 +
          ((List.zip st2 reg2.amplitude).getD i (0, 0)).2)
    (hinv : HashInv seed (2 ^ reg1.hashw) st1 T st1.length)
    (hsize : reg1.size < 2 ^ reg1.hashw) (a : Nat)
    (ha : (absentEntries st1 (List.zip st2 reg2.amplitude)).length ≤ a)
    (k : Nat) (hk : k ≤ reg2.size) :
    forLoopM k (fun i (rk : quantum_reg R × Nat) =>
        (quantum_get_state seed (reg2.label i)
          ({ reg1 with hash := T } : quantum_reg R)).map (fun j =>
          if 0 ≤ j then (rk.1.setAmp j.toNat (rk.1.amp j.toNat + reg2.amp i), rk.2)
          else
            ((rk.1.setLabel rk.2 (reg2.label i)).setAmp rk.2 (reg2.amp i), rk.2 + 1)))
        (({ B with
            state := some (sumLabels st1 (List.zip st2 reg2.amplitude) a 0)
            amplitude := sumAmps st1 reg1.amplitude (List.zip st2 reg2.amplitude) a 0 } :
            quantum_reg R), st1.length) =
      some (({ B with
            state := some (sumLabels st1 (List.zip st2 reg2.amplitude) a k)
            amplitude := sumAmps st1 reg1.amplitude (List.zip st2 reg2.amplitude) a k } :
            quantum_reg R),
          st1.length + (absentEntries st1 ((List.zip st2 reg2.amplitude).take k)).length) := by
  induction k with
  | zero => rfl
  | succ k ih =>
    have hk' : k < (List.zip st2 reg2.amplitude).length := by
      rw [zip_length_stored reg2 st2 h2]; omega
    rw [forLoopM_succ, ih (by omega)]
    simp only [Option.some_bind]
    rw [lookup_stored seed reg1 st1 T h1 hnd1 hinv hsize, label_eq_zip reg2 st2 h2,
      amp_eq_zip reg2 st2 h2]
    simp only [Option.map_some']
    by_cases hm : ((List.zip st2 reg2.amplitude).getD k (0, 0)).1 ∈ st1
    · obtain ⟨e1, e2, e3⟩ := sum_step_present st1 reg1.amplitude _ hnd1 a k hk'
        (hadd k hk') hm
      rw [if_pos (List.indexOf_lt_length.2 hm), if_pos (by omega), Int.toNat_ofNat, e1, e2, e3]
      rfl
    · obtain ⟨e1, e2, e3⟩ := sum_step_absent st1 reg1.amplitude _ a k hk' hm ha
      rw [if_neg (fun hh => hm (List.indexOf_lt_length.1 hh)), if_neg (by omega), e1, e2, e3]
      rfl

/-- The addition loop of `quantum_vectoradd_inplace`: the lookups are made in
the register that the sums are written to. -/
theorem vectoradd_inplace_loop_eq (seed : Nat → Nat) (reg1 reg2 : quantum_reg R)
    (st1 st2 T : List Nat) (h1 : reg1.Stored st1) (h2 : reg2.Stored st2) (hnd1 : st1.Nodup)
    (hadd : ∀ i, i < (List.zip st2 reg2.amplitude).length →
      lookupAmp ((List.zip st2 reg2.amplitude).take (i + 1))
          ((List.zip st2 reg2.amplitude).getD i (0, 0)).1 =
        lookupAmp ((List.zip st2 reg2.amplitude).take i)
            ((List.zip st2 reg2.amplitude).getD i (0, 0)).1 +
          ((List.zip st2 reg2.amplitude).getD i (0, 0)).2)
    (hinv : HashInv seed (2 ^ reg1.hashw) st1 T st1.length)
    (hsize : reg1.size < 2 ^ reg1.hashw) (a : Nat)
    (ha : (absentEntries st1 (List.zip st2 reg2.amplitude)).length ≤ a)
    (k : Nat) (hk : k ≤ reg2.size) :
    forLoopM k (fun i (rk : quantum_reg R × Nat) =>
        (quantum_get_state seed (reg2.label i) rk.1).map (fun j =>
          if 0 ≤ j then (rk.1.setAmp j.toNat (rk.1.amp j.toNat + reg2.amp i), rk.2)
          else
            ((rk.1.setLabel rk.2 (reg2.label i)).setAmp rk.2 (reg2.amp i), rk.2 + 1)))
        (({ reg1 with
            hash := T
            state := some (sumLabels st1 (List.zip st2 reg2.amplitude) a 0)
            amplitude := sumAmps st1 reg1.amplitude (List.zip st2 reg2.amplitude) a 0 } :
            quantum_reg R), st1.length) =
      some (({ reg1 with
            hash := T
            state := some (sumLabels st1 (List.zip st2 reg2.amplitude) a k)
            amplitude := sumAmps st1 reg1.amplitude (List.zip st2 reg2.amplitude) a k } :
            quantum_reg R),
          st1.length + (absentEntries st1 ((List.zip st2 reg2.amplitude).take k)).length) := by
  induction k with
  | zero => rfl
  | succ k ih =>
    have hk' : k < (List.zip st2 reg2.amplitude).length := by
      rw [zip_length_stored reg2 st2 h2]; omega
    rw [forLoopM_succ, ih (by omega)]
    simp only [Option.some_bind]
    have hlook := lookup_eq seed reg1 st1
      ((absentEntries st1 ((List.zip st2 reg2.amplitude).take k)).map Prod.fst ++
        List.replicate (a - (absentEntries st1 ((List.zip st2 reg2.amplitude).take k)).length) 0)
      T hnd1 hinv (by rw [h1.2.1]; exact hsize)
      (sumAmps st1 reg1.amplitude (List.zip st2 reg2.amplitude) a k) (reg2.label k)
    rw [← List.append_assoc] at hlook
    have hlook2 : quantum_get_state seed (reg2.label k) ({ reg1 with
          hash := T
          state := some (sumLabels st1 (List.zip st2 reg2.amplitude) a k)
          amplitude := sumAmps st1 reg1.amplitude (List.zip st2 reg2.amplitude) a k } :
          quantum_reg R) = _ := hlook
    rw [hlook2, label_eq_zip reg2 st2 h2, amp_eq_zip reg2 st2 h2]
    simp only [Option.map_some']
    by_cases hm : ((List.zip st2 reg2.amplitude).getD k (0, 0)).1 ∈ st1
    · obtain ⟨e1, e2, e3⟩ := sum_step_present st1 reg1.amplitude _ hnd1 a k hk'
        (hadd k hk') hm
      rw [if_pos (List.indexOf_lt_length.2 hm), if_pos (by omega), Int.toNat_ofNat, e1, e2, e3]
      rfl
    · obtain ⟨e1, e2, e3⟩ := sum_step_absent st1 reg1.amplitude _ a k hk' hm ha
      rw [if_neg (fun hh => hm (List.indexOf_lt_length.1 hh)), if_neg (by omega), e1, e2, e3]
      rfl

end Libquantum

namespace Libquantum

variable {R : Type} [LinearOrderedField R]

/-! ## Vector addition: the result -/

theorem range_map_zipWith {α β γ : Type} (f : α → β → γ) (l : List α) (m : List β)
    (da : α) (db : β) (h : l.length = m.length) :
    (List.range l.length).map (fun p => f (l.getD p da) (m.getD p db)) =
      List.zipWith f l m := by
  apply List.ext_getElem
  · rw [List.length_map, List.length_range, List.length_zipWith, h, Nat.min_self]
  · intro n h1 h2
    rw [List.length_map, List.length_range] at h1
    rw [List.getElem_map, List.getElem_range, List.getElem_zipWith, getD_of_lt _ _ _ h1,
      getD_of_lt _ _ _ (by omega)]

theorem realloc_self {α : Type} [Zero α] (l : List α) : realloc l l.length = l := by
  have := realloc_grow l 0
  rw [Nat.add_zero] at this
  rw [this]
  simp

theorem lookupAmp_nil (x : Nat) : lookupAmp ([] : List (Nat × Cplx R)) x = 0 := rfl

theorem sumLabels_zero (st1 : List Nat) (es2 : List (Nat × Cplx R)) (a : Nat) :
    sumLabels st1 es2 a 0 = st1 ++ List.replicate a 0 := by
  simp [sumLabels, absentEntries]

theorem sumAmps_zero (st1 : List Nat) (a1 : List (Cplx R)) (es2 : List (Nat × Cplx R))
    (a : Nat) (h : st1.length = a1.length) :
    sumAmps st1 a1 es2 a 0 = a1 ++ List.replicate a 0 := by
  unfold sumAmps
  rw [List.take_zero]
  have : (List.range st1.length).map (fun p =>
      a1.getD p 0 + lookupAmp ([] : List (Nat × Cplx R)) (st1.getD p 0)) = a1 := by
    rw [h]
    conv_rhs => rw [← range_map_getD a1 0]
    apply List.map_congr_left
    intro p _
    rw [lookupAmp_nil, add_zero]
  rw [this]
  simp [absentEntries]

theorem sumLabels_final (st1 : List Nat) (es2 : List (Nat × Cplx R)) :
    sumLabels st1 es2 (absentEntries st1 es2).length es2.length =
      st1 ++ (absentEntries st1 es2).map Prod.fst := by
  unfold sumLabels
  rw [List.take_length, Nat.sub_self, List.replicate_zero, List.append_nil]

theorem sumAmps_final (st1 : List Nat) (a1 : List (Cplx R)) (es2 : List (Nat × Cplx R))
    (h : st1.length = a1.length) :
    sumAmps st1 a1 es2 (absentEntries st1 es2).length es2.length =
      List.zipWith (fun x c => c + lookupAmp es2 x) st1 a1 ++
        (absentEntries st1 es2).map Prod.snd := by
  unfold sumAmps
  rw [List.take_length, Nat.sub_self, List.replicate_zero, List.append_nil]
  congr 1
  exact range_map_zipWith (fun x c => c + lookupAmp es2 x) st1 a1 0 0 h

theorem ampAt_eq_lookupAmp (reg : quantum_reg R) (st : List Nat) (h : reg.state = some st)
    (x : Nat) : reg.ampAt x = lookupAmp (List.zip st reg.amplitude) x := by
  unfold quantum_reg.ampAt lookupAmp
  rw [h]
  rfl

/-- The registers after `quantum_vectoradd` in closed form: the first register
with its hash reconstructed, and the sum. -/
theorem vectoradd_eq (seed : Nat → Nat) (reg1 reg2 : quantum_reg R) (st1 st2 : List Nat)
    (h1 : reg1.Stored st1) (h2 : reg2.Stored st2) (hh : reg1.hashw ≠ 0) (hnd1 : st1.Nodup)
    (hadd : ∀ i, i < (List.zip st2 reg2.amplitude).length →
      lookupAmp ((List.zip st2 reg2.amplitude).take (i + 1))
          ((List.zip st2 reg2.amplitude).getD i (0, 0)).1 =
        lookupAmp ((List.zip st2 reg2.amplitude).take i)
            ((List.zip st2 reg2.amplitude).getD i (0, 0)).1 +
          ((List.zip st2 reg2.amplitude).getD i (0, 0)).2)
    (hsize : reg1.size < 2 ^ reg1.hashw) :
    ∃ T, quantum_reconstruct_hash seed reg1 = some { reg1 with hash := T } ∧
      quantum_vectoradd seed reg1 reg2 = some ({ reg1 with hash := T },
        { reg1 with
          size := reg1.size + (absentEntries st1 (List.zip st2 reg2.amplitude)).length
          hash := List.replicate (2 ^ reg1.hashw) 0
          state := some (st1 ++ (absentEntries st1 (List.zip st2 reg2.amplitude)).map Prod.fst)
          amplitude := List.zipWith (fun x c => c + reg2.ampAt x) st1 reg1.amplitude ++
            (absentEntries st1 (List.zip st2 reg2.amplitude)).map Prod.snd }) := by
  obtain ⟨T, hT, hinv⟩ := reconstruct_eq seed reg1 st1 h1 hsize
  refine ⟨T, hT, ?_⟩
  have hl : st1.length = reg1.amplitude.length := by rw [h1.2.1, h1.2.2]
  unfold quantum_vectoradd
  rw [if_pos (Or.inl hh), hT]
  simp only [Option.some_bind]
  rw [vectoradd_addsize_eq seed reg1 reg2 st1 st2 T h1 h2 hnd1 hinv hsize]
  simp only [Option.map_some', Option.some_bind]
  rw [if_neg (by rw [h2.1]; simp)]
  have hinit : (if (absentEntries st1 (List.zip st2 reg2.amplitude)).length ≠ 0 then
        ({ quantum_copy_qureg ({ reg1 with hash := T } : quantum_reg R) with
          size := (quantum_copy_qureg ({ reg1 with hash := T } : quantum_reg R)).size +
            (absentEntries st1 (List.zip st2 reg2.amplitude)).length
          amplitude := realloc
            (quantum_copy_qureg ({ reg1 with hash := T } : quantum_reg R)).amplitude
            ((quantum_copy_qureg ({ reg1 with hash := T } : quantum_reg R)).size +
              (absentEntries st1 (List.zip st2 reg2.amplitude)).length)
          state := (quantum_copy_qureg ({ reg1 with hash := T } : quantum_reg R)).state.map
            (fun st => realloc st
              ((quantum_copy_qureg ({ reg1 with hash := T } : quantum_reg R)).size +
                (absentEntries st1 (List.zip st2 reg2.amplitude)).length)) } : quantum_reg R)
      else quantum_copy_qureg ({ reg1 with hash := T } : quantum_reg R)) =
      ({ ({ reg1 with
            size := reg1.size + (absentEntries st1 (List.zip st2 reg2.amplitude)).length
            hash := List.replicate (2 ^ reg1.hashw) 0 } : quantum_reg R) with
          state := some (sumLabels st1 (List.zip st2 reg2.amplitude)
            (absentEntries st1 (List.zip st2 reg2.amplitude)).length 0)
          amplitude := sumAmps st1 reg1.amplitude (List.zip st2 reg2.amplitude)
            (absentEntries st1 (List.zip st2 reg2.amplitude)).length 0 } : quantum_reg R) := by
    rw [sumLabels_zero, sumAmps_zero _ _ _ _ hl]
    unfold quantum_copy_qureg
    simp only [h1.1, Option.map_some', if_pos hh]
    rw [← h1.2.1, realloc_self, hl, realloc_self]
    split
    · rw [← hl, realloc_grow, hl, realloc_grow]
    · rename_i hz
      have hz0 : (absentEntries st1 (List.zip st2 reg2.amplitude)).length = 0 := by omega
      rw [hz0]
      simp
  rw [hinit]
  have hloop := vectoradd_loop_eq seed reg1 reg2
    ({ reg1 with
      size := reg1.size + (absentEntries st1 (List.zip st2 reg2.amplitude)).length
      hash := List.replicate (2 ^ reg1.hashw) 0 } : quantum_reg R)
    st1 st2 T h1 h2 hnd1 hadd hinv hsize _ (le_refl _) reg2.size (le_refl _)
  rw [← h1.2.1]
  rw [← h1.2.1] at hloop
  simp only at hloop ⊢
  rw [hloop]
  simp only [Option.map_some']
  have hz : reg2.size = (List.zip st2 reg2.amplitude).length :=
    (zip_length_stored reg2 st2 h2).symm
  rw [hz, sumLabels_final, sumAmps_final _ _ _ hl]
  have hamp : (fun (x : Nat) (c : Cplx R) => c + lookupAmp (List.zip st2 reg2.amplitude) x) =
      (fun x c => c + reg2.ampAt x) := by
    funext x c
    rw [ampAt_eq_lookupAmp reg2 st2 h2.1]
  rw [hamp]

end Libquantum

namespace Libquantum

variable {R : Type} [LinearOrderedField R]

/-- The first register after `quantum_vectoradd_inplace` in closed form. -/
theorem vectoradd_inplace_eq (seed : Nat → Nat) (reg1 reg2 : quantum_reg R)
    (st1 st2 : List Nat) (h1 : reg1.Stored st1) (h2 : reg2.Stored st2) (hh : reg1.hashw ≠ 0)
    (hnd1 : st1.Nodup)
    (hadd : ∀ i, i < (List.zip st2 reg2.amplitude).length →
      lookupAmp ((List.zip st2 reg2.amplitude).take (i + 1))
          ((List.zip st2 reg2.amplitude).getD i (0, 0)).1 =
        lookupAmp ((List.zip st2 reg2.amplitude).take i)
            ((List.zip st2 reg2.amplitude).getD i (0, 0)).1 +
          ((List.zip st2 reg2.amplitude).getD i (0, 0)).2)
    (hsize : reg1.size < 2 ^ reg1.hashw) :
    ∃ T, quantum_reconstruct_hash seed reg1 = some { reg1 with hash := T } ∧
      quantum_vectoradd_inplace seed reg1 reg2 = some
        { reg1 with
          size := reg1.size + (absentEntries st1 (List.zip st2 reg2.amplitude)).length
          hash := T
          state := some (st1 ++ (absentEntries st1 (List.zip st2 reg2.amplitude)).map Prod.fst)
          amplitude := List.zipWith (fun x c => c + reg2.ampAt x) st1 reg1.amplitude ++
            (absentEntries st1 (List.zip st2 reg2.amplitude)).map Prod.snd } := by
  obtain ⟨T, hT, hinv⟩ := reconstruct_eq seed reg1 st1 h1 hsize
  refine ⟨T, hT, ?_⟩
  have hl : st1.length = reg1.amplitude.length := by rw [h1.2.1, h1.2.2]
  unfold quantum_vectoradd_inplace
  rw [if_pos (Or.inl hh), hT]
  simp only [Option.some_bind]
  rw [vectoradd_addsize_eq seed reg1 reg2 st1 st2 T h1 h2 hnd1 hinv hsize]
  simp only [Option.map_some', Option.some_bind]
  rw [if_neg (by rw [h2.1]; simp)]
  have hinit : (if (absentEntries st1 (List.zip st2 reg2.amplitude)).length ≠ 0 then
        ({ ({ reg1 with hash := T } : quantum_reg R) with
          amplitude := realloc ({ reg1 with hash := T } : quantum_reg R).amplitude
            (({ reg1 with hash := T } : quantum_reg R).size +
              (absentEntries st1 (List.zip st2 reg2.amplitude)).length)
          state := ({ reg1 with hash := T } : quantum_reg R).state.map
            (fun st => realloc st
              (({ reg1 with hash := T } : quantum_reg R).size +
                (absentEntries st1 (List.zip st2 reg2.amplitude)).length)) } : quantum_reg R)
      else ({ reg1 with hash := T } : quantum_reg R)) =
      ({ reg1 with
          hash := T
          state := some (sumLabels st1 (List.zip st2 reg2.amplitude)
            (absentEntries st1 (List.zip st2 reg2.amplitude)).length 0)
          amplitude := sumAmps st1 reg1.amplitude (List.zip st2 reg2.amplitude)
            (absentEntries st1 (List.zip st2 reg2.amplitude)).length 0 } : quantum_reg R) := by
    rw [sumLabels_zero, sumAmps_zero _ _ _ _ hl]
    simp only [h1.1, Option.map_some']
    split
    · rw [← h1.2.1, realloc_grow, hl, realloc_grow]
    · rename_i hz
      have hz0 : (absentEntries st1 (List.zip st2 reg2.amplitude)).length = 0 := by omega
      rw [hz0]
      simp only [List.replicate_zero, List.append_nil]
  rw [hinit]
  have hloop := vectoradd_inplace_loop_eq seed reg1 reg2 st1 st2 T h1 h2 hnd1 hadd hinv hsize
    _ (le_refl _) reg2.size (le_refl _)
  rw [← h1.2.1]
  rw [← h1.2.1] at hloop
  rw [hloop]
  simp only [Option.map_some']
  have hz : reg2.size = (List.zip st2 reg2.amplitude).length :=
    (zip_length_stored reg2 st2 h2).symm
  rw [hz, sumLabels_final, sumAmps_final _ _ _ hl]
  have hamp : (fun (x : Nat) (c : Cplx R) => c + lookupAmp (List.zip st2 reg2.amplitude) x) =
      (fun x c => c + reg2.ampAt x) := by
    funext x c
    rw [ampAt_eq_lookupAmp reg2 st2 h2.1]
  rw [hamp]

/-! ## Vector addition: the amplitude of a basis state -/

theorem lookupAmp_append_left (l1 l2 : List (Nat × Cplx R)) (x : Nat)
    (h : x ∈ l1.map Prod.fst) : lookupAmp (l1 ++ l2) x = lookupAmp l1 x := by
  unfold lookupAmp
  rw [List.find?_append]
  obtain ⟨e, he, hx⟩ := List.mem_map.1 h
  cases hf : l1.find? (fun e => decide (e.1 = x)) with
  | some e2 => rfl
  | none =>
    exfalso
    rw [List.find?_eq_none] at hf
    exact hf e he (decide_eq_true hx)

theorem lookupAmp_append_right (l1 l2 : List (Nat × Cplx R)) (x : Nat)
    (h : x ∉ l1.map Prod.fst) : lookupAmp (l1 ++ l2) x = lookupAmp l2 x := by
  unfold lookupAmp
  have : l1.find? (fun e => decide (e.1 = x)) = none := by
    rw [List.find?_eq_none]
    intro e he hx
    exact h (List.mem_map.2 ⟨e, he, of_decide_eq_true hx⟩)
  rw [List.find?_append, this, Option.none_or]

theorem lookupAmp_absentEntries (st : List Nat) (es : List (Nat × Cplx R)) (x : Nat)
    (h : x ∉ st) : lookupAmp (absentEntries st es) x = lookupAmp es x := by
  unfold lookupAmp absentEntries
  rw [List.find?_filter]
  have : ∀ a : Nat × Cplx R,
      decide (decide (a.1 ∉ st) = true ∧ decide (a.1 = x) = true) = decide (a.1 = x) := by
    intro a
    by_cases hax : a.1 = x
    · simp [hax, h]
    · simp [hax]
  simp only [this]

theorem lookupAmp_zipWith_add (g : Nat → Cplx R) (st : List Nat) (a : List (Cplx R))
    (hl : st.length = a.length) (x : Nat) (hx : x ∈ st) :
    lookupAmp (List.zip st (List.zipWith (fun y c => c + g y) st a)) x =
      lookupAmp (List.zip st a) x + g x := by
  induction st generalizing a with
  | nil => simp at hx
  | cons y l ih => cases a with
    | nil => simp at hl
    | cons c a =>
      by_cases hyx : y = x
      · subst hyx
        simp [lookupAmp, List.find?_cons]
      · have hx' : x ∈ l := by
          rcases List.mem_cons.1 hx with h | h
          · exact absurd h.symm hyx
          · exact h
        have := ih a (by simpa using hl) hx'
        simp only [lookupAmp, List.zipWith_cons_cons, List.zip_cons_cons, List.find?_cons,
          decide_eq_false hyx] at this ⊢
        exact this

/-- The amplitude of every basis state in the sum register is the sum of the
amplitudes in the two registers. -/
theorem ampAt_sum (reg1 reg2 out : quantum_reg R) (st1 st2 : List Nat)
    (h1 : reg1.Stored st1) (h2 : reg2.Stored st2)
    (hs : out.state =
      some (st1 ++ (absentEntries st1 (List.zip st2 reg2.amplitude)).map Prod.fst))
    (ha : out.amplitude = List.zipWith (fun x c => c + reg2.ampAt x) st1 reg1.amplitude ++
      (absentEntries st1 (List.zip st2 reg2.amplitude)).map Prod.snd) (x : Nat) :
    out.ampAt x = reg1.ampAt x + reg2.ampAt x := by
  have hl : st1.length = reg1.amplitude.length := by rw [h1.2.1, h1.2.2]
  have hN : ((absentEntries st1 (List.zip st2 reg2.amplitude)).map Prod.fst).zip
      ((absentEntries st1 (List.zip st2 reg2.amplitude)).map Prod.snd) =
      absentEntries st1 (List.zip st2 reg2.amplitude) := (List.zip_of_prod rfl rfl).symm
  rw [ampAt_eq_lookupAmp out _ hs, ha, List.zip_append (by
    rw [List.length_zipWith, hl, Nat.min_self]), hN]
  have hfst : (List.zip st1 (List.zipWith (fun x c => c + reg2.ampAt x) st1
      reg1.amplitude)).map Prod.fst = st1 :=
    List.map_fst_zip _ _ (by rw [List.length_zipWith, hl, Nat.min_self])
  by_cases hx : x ∈ st1
  · rw [lookupAmp_append_left _ _ _ (by rw [hfst]; exact hx),
      lookupAmp_zipWith_add _ st1 _ hl x hx, ampAt_eq_lookupAmp reg1 st1 h1.1]
  · rw [lookupAmp_append_right _ _ _ (by rw [hfst]; exact hx),
      lookupAmp_absentEntries _ _ _ hx, ampAt_eq_lookupAmp reg1 st1 h1.1,
      lookupAmp_of_not_mem (List.zip st1 reg1.amplitude) x (by
        rw [List.map_fst_zip _ _ (by omega)]; exact hx),
      zero_add, ampAt_eq_lookupAmp reg2 st2 h2.1]

end Libquantum

namespace Libquantum

variable {R : Type} [LinearOrderedField R]

/-! ## Vector addition: the claims -/

theorem absentEntries_map_fst (st1 st2 : List Nat) (a2 : List (Cplx R))
    (hl : st2.length = a2.length) :
    (absentEntries st1 (List.zip st2 a2)).map Prod.fst =
      st2.filter (fun x => decide (x ∉ st1)) := by
  unfold absentEntries
  have := List.filter_map (f := (Prod.fst : Nat × Cplx R → Nat))
    (p := fun x => decide (x ∉ st1)) (l := List.zip st2 a2)
  rw [List.map_fst_zip _ _ (by omega)] at this
  rw [this]
  rfl

/-- C11: for stored registers `r1`, `r2` with pairwise distinct labels, `r1`
with a hash table that is not full, `quantum_vectoradd` returns (and
`quantum_vectoradd_inplace` leaves in `r1`) the register whose first
`size(r1)` entries are the entries of `r1` with the amplitude of the matching
entry of `r2` added, followed by the entries of `r2` whose label is absent from
`r1`, in the order of `r2`; its size is `size(r1)` plus the number of such
labels, and its amplitude at every basis state is the sum of the amplitudes in
`r1` and `r2`. `quantum_vectoradd` changes nothing of `r1` but its hash
table. -/
theorem claim_C11_vectoradd (seed : Nat → Nat) (reg1 reg2 : quantum_reg R)
    (st1 st2 : List Nat) (h1 : reg1.Stored st1) (h2 : reg2.Stored st2) (hh : reg1.hashw ≠ 0)
    (hnd1 : st1.Nodup) (hnd2 : st2.Nodup) (hsize : reg1.size < 2 ^ reg1.hashw) :
    ∃ T out, quantum_vectoradd seed reg1 reg2 = some ({ reg1 with hash := T }, out) ∧
      quantum_vectoradd_inplace seed reg1 reg2 = some { out with hash := T } ∧
      out.width = reg1.width ∧
      out.size = reg1.size + (st2.filter (fun x => decide (x ∉ st1))).length ∧
      out.state = some (st1 ++ st2.filter (fun x => decide (x ∉ st1))) ∧
      out.amplitude = List.zipWith (fun x c => c + reg2.ampAt x) st1 reg1.amplitude ++
        (absentEntries st1 (List.zip st2 reg2.amplitude)).map Prod.snd ∧
      ∀ x, out.ampAt x = reg1.ampAt x + reg2.ampAt x := by
  obtain ⟨T, hT, hadd⟩ := vectoradd_eq seed reg1 reg2 st1 st2 h1 h2 hh hnd1
    (additive_of_nodup reg2 st2 h2 hnd2) hsize
  obtain ⟨T2, hT2, hin⟩ := vectoradd_inplace_eq seed reg1 reg2 st1 st2 h1 h2 hh hnd1
    (additive_of_nodup reg2 st2 h2 hnd2) hsize
  have hTT : T2 = T := by
    have := hT2.symm.trans hT
    exact congrArg quantum_reg.hash (Option.some.inj this)
  subst hTT
  have hf := absentEntries_map_fst st1 st2 reg2.amplitude (by rw [h2.2.1, h2.2.2])
  refine ⟨T2, _, hadd, hin, rfl, ?_, ?_, rfl, ?_⟩
  · show reg1.size + _ = _
    rw [← hf, List.length_map]
  · show some _ = _
    rw [hf]
  · exact ampAt_sum reg1 reg2 _ st1 st2 h1 h2 rfl rfl

/-- Witness of C11: the register `new(3,2)` added to the register `regQ`; the
amplitude 1 is added to the entry with label 3. -/
theorem claim_C11_witness :
    ∃ T out, quantum_vectoradd (fun x => x) regQ (quantum_new_qureg Env.plainQ 3 2 []).reg =
        some ({ regQ with hash := T }, out) ∧
      out.size = 2 ∧ out.state = some [0, 3] ∧ out.amplitude = [⟨3 / 5, 0⟩, ⟨9 / 5, 0⟩] := by
  obtain ⟨T, out, hadd, _, _, hsz, hst, hamp, _⟩ :=
    claim_C11_vectoradd (fun x => x) regQ (quantum_new_qureg Env.plainQ 3 2 []).reg [0, 3] [3]
      ⟨rfl, rfl, rfl⟩ ⟨rfl, rfl, rfl⟩ (by decide) (by decide) (by decide) (by decide)
  exact ⟨T, out, hadd, by rw [hsz]; decide, by rw [hst]; decide, by rw [hamp]; decide!⟩

/-- C12, amended: adding a stored register `zero_reg` all of whose amplitudes
are zero (whatever its labels, repeated labels included) to a register `r` in
sparse mode gives the entries of `r`, unchanged and in their order, followed by
one entry of amplitude zero for every entry of `zero_reg` whose label is absent
from `r`; the amplitude of every basis state is that of `r`, and the result has
the size and the entries of `r` exactly when every label of `zero_reg` occurs
in `r`. -/
theorem claim_C12_vectoradd_zero (seed : Nat → Nat) (reg zero_reg : quantum_reg R)
    (st stz : List Nat) (h : reg.Stored st) (hz : zero_reg.Stored stz) (hh : reg.hashw ≠ 0)
    (hnd : st.Nodup) (hsize : reg.size < 2 ^ reg.hashw)
    (hzero : ∀ z ∈ zero_reg.amplitude, z = 0) :
    ∃ T out, quantum_vectoradd seed reg zero_reg = some ({ reg with hash := T }, out) ∧
      out.width = reg.width ∧
      out.size = reg.size + (stz.filter (fun x => decide (x ∉ st))).length ∧
      out.state = some (st ++ stz.filter (fun x => decide (x ∉ st))) ∧
      out.amplitude = reg.amplitude ++
        List.replicate (stz.filter (fun x => decide (x ∉ st))).length 0 ∧
      (∀ x, out.ampAt x = reg.ampAt x) ∧
      ((∀ x ∈ stz, x ∈ st) ↔
        (out.size = reg.size ∧ out.state = reg.state ∧ out.amplitude = reg.amplitude)) := by
  obtain ⟨T, hT, hadd⟩ := vectoradd_eq seed reg zero_reg st stz h hz hh hnd
    (additive_of_zero zero_reg stz hzero) hsize
  have hf := absentEntries_map_fst st stz zero_reg.amplitude (by rw [hz.2.1, hz.2.2])
  have hall : ∀ e ∈ List.zip stz zero_reg.amplitude, e.2 = 0 := by
    intro e he
    exact hzero e.2 (List.of_mem_zip he).2
  have hz0 : ∀ x, zero_reg.ampAt x = 0 := by
    intro x
    rw [ampAt_eq_lookupAmp zero_reg stz hz.1]
    exact lookupAmp_of_all_zero _ hall x
  have hlen : (absentEntries st (List.zip stz zero_reg.amplitude)).length =
      (stz.filter (fun x => decide (x ∉ st))).length := by
    rw [← hf, List.length_map]
  have hhead : List.zipWith (fun x c => c + zero_reg.ampAt x) st reg.amplitude =
      reg.amplitude := by
    rw [zipWith_congr_fun _ (fun _ c => c) (fun x c => by rw [hz0, add_zero])]
    exact zipWith_snd_eq st reg.amplitude (by rw [h.2.1, h.2.2])
  have htail : (absentEntries st (List.zip stz zero_reg.amplitude)).map Prod.snd =
      List.replicate (stz.filter (fun x => decide (x ∉ st))).length 0 := by
    rw [List.eq_replicate_iff]
    refine ⟨by rw [List.length_map, hlen], ?_⟩
    intro b hb
    obtain ⟨e, he, rfl⟩ := List.mem_map.1 hb
    exact hall e (List.mem_of_mem_filter he)
  refine ⟨T, _, hadd, rfl, ?_, ?_, ?_, ?_, ?_⟩
  · show reg.size + _ = _
    rw [hlen]
  · show some _ = _
    rw [hf]
  · show _ ++ _ = _
    rw [hhead, htail]
  · intro x
    rw [ampAt_sum reg zero_reg _ st stz h hz rfl rfl x, hz0, add_zero]
  · show _ ↔ (reg.size + _ = reg.size ∧ some _ = reg.state ∧ _ ++ _ = reg.amplitude)
    rw [hlen, hf, hhead, htail, h.1]
    constructor
    · intro hsub
      have : stz.filter (fun x => decide (x ∉ st)) = [] := by
        rw [List.filter_eq_nil_iff]
        intro x hx
        simpa using hsub x hx
      rw [this]
      simp
    · intro hres x hx
      have h0 : (stz.filter (fun x => decide (x ∉ st))).length = 0 := by
        have := hres.1
        omega
      have hnil := List.eq_nil_of_length_eq_zero h0
      rw [List.filter_eq_nil_iff] at hnil
      simpa using hnil x hx

/-- Witness of C12 (amended): `quantum_new_qureg_sparse(2, 2)` has two entries
of amplitude zero, both with the label 0. Added to the register `regQ`, whose
labels are 0 and 3, it gives the entries of `regQ`; added to `new(3,2)`, which
has no label 0, it gives the entry of `new(3,2)` followed by two entries
`|00>: 0`. -/
theorem claim_C12_witness :
    (quantum_new_qureg_sparse 2 2 : quantum_reg ℚ).Stored [0, 0] ∧
    (∀ z ∈ (quantum_new_qureg_sparse 2 2 : quantum_reg ℚ).amplitude, z = 0) ∧
    (∃ T out, quantum_vectoradd (fun x => x) regQ (quantum_new_qureg_sparse 2 2) =
        some ({ regQ with hash := T }, out) ∧
      out.size = regQ.size ∧ out.state = regQ.state ∧ out.amplitude = regQ.amplitude) ∧
    (∃ T out, quantum_vectoradd (fun x => x) (quantum_new_qureg Env.plainQ 3 2 []).reg
        (quantum_new_qureg_sparse 2 2) =
        some ({ (quantum_new_qureg Env.plainQ 3 2 []).reg with hash := T }, out) ∧
      out.size = 3 ∧ out.state = some [3, 0, 0] ∧ out.amplitude = [1, 0, 0]) := by
  have hz : ∀ z ∈ (quantum_new_qureg_sparse 2 2 : quantum_reg ℚ).amplitude, z = 0 := by
    intro z hz
    simp only [quantum_new_qureg_sparse, List.mem_replicate] at hz
    exact hz.2
  refine ⟨⟨rfl, rfl, rfl⟩, hz, ?_, ?_⟩
  · obtain ⟨T, out, hadd, _, _, _, _, _, hiff⟩ :=
      claim_C12_vectoradd_zero (fun x => x) regQ (quantum_new_qureg_sparse 2 2) [0, 3] [0, 0]
        ⟨rfl, rfl, rfl⟩ ⟨rfl, rfl, rfl⟩ (by decide) (by decide) (by decide) hz
    exact ⟨T, out, hadd, hiff.1 (by decide)⟩
  · obtain ⟨T, out, hadd, _, hsz, hst, hamp, _, _⟩ :=
      claim_C12_vectoradd_zero (fun x => x) (quantum_new_qureg Env.plainQ 3 2 []).reg
        (quantum_new_qureg_sparse 2 2) [3] [0, 0]
        ⟨rfl, rfl, rfl⟩ ⟨rfl, rfl, rfl⟩ (by decide) (by decide) (by decide) hz
    exact ⟨T, out, hadd, by rw [hsz]; rfl, by rw [hst]; rfl, by rw [hamp]; rfl⟩

/-- C12 fails as stated: `quantum_new_qureg_sparse(1, 1)` is a register of
width 1 whose only amplitude is zero (its label is 0); adding it to `new(1,1)`
gives a register of size 2 with the entries `|1>: 1` and `|0>: 0`, not the
register `new(1,1)` of size 1. -/
theorem claim_C12_counterexample :
    (quantum_new_qureg_sparse 1 1 : quantum_reg ℚ).amplitude = [0] ∧
    (quantum_new_qureg Env.plainQ 1 1 []).reg.size = 1 ∧
    (quantum_vectoradd (fun x => x) (quantum_new_qureg Env.plainQ 1 1 []).reg
      (quantum_new_qureg_sparse 1 1)).map (fun p => (p.2.size, p.2.state, p.2.amplitude)) =
      some (2, some [1, 0], [1, 0]) := by
  decide!

end Libquantum

namespace Libquantum

variable {R : Type} [LinearOrderedField R]

/-! ## Vector addition is commutative up to the order of the entries -/

theorem lookupAmp_cons (y : Nat) (c : Cplx R) (es : List (Nat × Cplx R)) (x : Nat) :
    lookupAmp ((y, c) :: es) x = if y = x then c else lookupAmp es x := by
  unfold lookupAmp
  rw [List.find?_cons]
  by_cases h : y = x
  · rw [if_pos h, decide_eq_true h]
  · rw [if_neg h, decide_eq_false h]

/-- An entry list with pairwise distinct labels holds exactly the pairs of a
stored label and the amplitude found for it. -/
theorem mem_zip_iff_lookupAmp (L : List Nat) (A : List (Cplx R)) (hnd : L.Nodup)
    (hl : L.length = A.length) (e : Nat × Cplx R) :
    e ∈ List.zip L A ↔ e.1 ∈ L ∧ e.2 = lookupAmp (List.zip L A) e.1 := by
  induction L generalizing A with
  | nil => simp
  | cons y L ih => cases A with
    | nil => simp at hl
    | cons c A =>
      have hy : y ∉ L := (List.nodup_cons.1 hnd).1
      have ih := ih A (List.nodup_cons.1 hnd).2 (by simpa using hl)
      rw [List.zip_cons_cons, List.mem_cons, lookupAmp_cons, List.mem_cons]
      constructor
      · rintro (h | h)
        · subst h
          exact ⟨Or.inl rfl, by rw [if_pos rfl]⟩
        · have h2 := ih.1 h
          have hne : y ≠ e.1 := fun hh => hy (hh ▸ h2.1)
          exact ⟨Or.inr h2.1, by rw [if_neg hne]; exact h2.2⟩
      · rintro ⟨h1, h2⟩
        by_cases hye : y = e.1
        · rw [if_pos hye] at h2
          left
          exact Prod.ext hye.symm h2
        · rw [if_neg hye] at h2
          right
          rcases h1 with h1 | h1
          · exact absurd h1.symm hye
          · exact ih.2 ⟨h1, h2⟩

theorem sum_labels_nodup (st1 st2 : List Nat) (hnd1 : st1.Nodup) (hnd2 : st2.Nodup) :
    (st1 ++ st2.filter (fun x => decide (x ∉ st1))).Nodup := by
  rw [List.nodup_append]
  refine ⟨hnd1, hnd2.filter _, ?_⟩
  intro x hx1 hx2
  have := (List.mem_filter.1 hx2).2
  exact (of_decide_eq_true this) hx1

theorem mem_sum_labels (st1 st2 : List Nat) (x : Nat) :
    x ∈ st1 ++ st2.filter (fun x => decide (x ∉ st1)) ↔ x ∈ st1 ∨ x ∈ st2 := by
  rw [List.mem_append, List.mem_filter]
  constructor
  · rintro (h | h)
    · exact Or.inl h
    · exact Or.inr h.1
  · rintro (h | h)
    · exact Or.inl h
    · by_cases hx : x ∈ st1
      · exact Or.inl hx
      · exact Or.inr ⟨h, decide_eq_true hx⟩

/-- C13: for stored registers `r1`, `r2` in sparse mode with pairwise distinct
labels, `quantum_vectoradd(r1, r2)` and `quantum_vectoradd(r2, r1)` return
registers of the same size whose lists of (label, amplitude) entries are
permutations of each other. -/
theorem claim_C13_vectoradd_comm (seed : Nat → Nat) (reg1 reg2 : quantum_reg R)
    (st1 st2 : List Nat) (h1 : reg1.Stored st1) (h2 : reg2.Stored st2)
    (hh1 : reg1.hashw ≠ 0) (hh2 : reg2.hashw ≠ 0) (hnd1 : st1.Nodup) (hnd2 : st2.Nodup)
    (hs1 : reg1.size < 2 ^ reg1.hashw) (hs2 : reg2.size < 2 ^ reg2.hashw) :
    ∃ p q, quantum_vectoradd seed reg1 reg2 = some p ∧
      quantum_vectoradd seed reg2 reg1 = some q ∧
      p.2.size = q.2.size ∧
      (List.zip (p.2.state.getD []) p.2.amplitude).Perm
        (List.zip (q.2.state.getD []) q.2.amplitude) := by
  obtain ⟨T, _, hadd⟩ := vectoradd_eq seed reg1 reg2 st1 st2 h1 h2 hh1 hnd1
    (additive_of_nodup reg2 st2 h2 hnd2) hs1
  obtain ⟨T2, _, hadd2⟩ := vectoradd_eq seed reg2 reg1 st2 st1 h2 h1 hh2 hnd2
    (additive_of_nodup reg1 st1 h1 hnd1) hs2
  have hf12 := absentEntries_map_fst st1 st2 reg2.amplitude (by rw [h2.2.1, h2.2.2])
  have hf21 := absentEntries_map_fst st2 st1 reg1.amplitude (by rw [h1.2.1, h1.2.2])
  have hl1 : st1.length = reg1.amplitude.length := by rw [h1.2.1, h1.2.2]
  have hl2 : st2.length = reg2.amplitude.length := by rw [h2.2.1, h2.2.2]
  -- the two entry lists
  have hlen12 : (st1 ++ st2.filter (fun x => decide (x ∉ st1))).length =
      (List.zipWith (fun x c => c + reg2.ampAt x) st1 reg1.amplitude ++
        (absentEntries st1 (List.zip st2 reg2.amplitude)).map Prod.snd).length := by
    rw [List.length_append, List.length_append, List.length_zipWith, ← hl1, Nat.min_self,
      List.length_map, ← hf12, List.length_map]
  have hlen21 : (st2 ++ st1.filter (fun x => decide (x ∉ st2))).length =
      (List.zipWith (fun x c => c + reg1.ampAt x) st2 reg2.amplitude ++
        (absentEntries st2 (List.zip st1 reg1.amplitude)).map Prod.snd).length := by
    rw [List.length_append, List.length_append, List.length_zipWith, ← hl2, Nat.min_self,
      List.length_map, ← hf21, List.length_map]
  have hperm : (List.zip (st1 ++ st2.filter (fun x => decide (x ∉ st1)))
        (List.zipWith (fun x c => c + reg2.ampAt x) st1 reg1.amplitude ++
          (absentEntries st1 (List.zip st2 reg2.amplitude)).map Prod.snd)).Perm
      (List.zip (st2 ++ st1.filter (fun x => decide (x ∉ st2)))
        (List.zipWith (fun x c => c + reg1.ampAt x) st2 reg2.amplitude ++
          (absentEntries st2 (List.zip st1 reg1.amplitude)).map Prod.snd)) := by
    have n12 := sum_labels_nodup st1 st2 hnd1 hnd2
    have n21 := sum_labels_nodup st2 st1 hnd2 hnd1
    rw [List.perm_ext_iff_of_nodup
      (List.Nodup.of_map Prod.fst (by rw [List.map_fst_zip _ _ (by omega)]; exact n12))
      (List.Nodup.of_map Prod.fst (by rw [List.map_fst_zip _ _ (by omega)]; exact n21))]
    intro e
    rw [mem_zip_iff_lookupAmp _ _ n12 hlen12, mem_zip_iff_lookupAmp _ _ n21 hlen21,
      mem_sum_labels, mem_sum_labels]
    have e12 := ampAt_sum reg1 reg2
      ({ reg1 with
        state := some (st1 ++ (absentEntries st1 (List.zip st2 reg2.amplitude)).map Prod.fst)
        amplitude := List.zipWith (fun x c => c + reg2.ampAt x) st1 reg1.amplitude ++
          (absentEntries st1 (List.zip st2 reg2.amplitude)).map Prod.snd } : quantum_reg R)
      st1 st2 h1 h2 rfl rfl e.1
    have e21 := ampAt_sum reg2 reg1
      ({ reg2 with
        state := some (st2 ++ (absentEntries st2 (List.zip st1 reg1.amplitude)).map Prod.fst)
        amplitude := List.zipWith (fun x c => c + reg1.ampAt x) st2 reg2.amplitude ++
          (absentEntries st2 (List.zip st1 reg1.amplitude)).map Prod.snd } : quantum_reg R)
      st2 st1 h2 h1 rfl rfl e.1
    rw [ampAt_eq_lookupAmp _ _ rfl, hf12] at e12
    rw [ampAt_eq_lookupAmp _ _ rfl, hf21] at e21
    simp only at e12 e21
    rw [e12, e21, add_comm (reg2.ampAt e.1), or_comm]
  refine ⟨_, _, hadd, hadd2, ?_, ?_⟩
  · show reg1.size + (absentEntries st1 (List.zip st2 reg2.amplitude)).length =
      reg2.size + (absentEntries st2 (List.zip st1 reg1.amplitude)).length
    have := hperm.length_eq
    rw [List.length_zip, List.length_zip, ← hlen12, ← hlen21, Nat.min_self, Nat.min_self,
      List.length_append, List.length_append, ← hf12, ← hf21, List.length_map,
      List.length_map, h1.2.1, h2.2.1] at this
    exact this
  · show (List.zip ((some (st1 ++ (absentEntries st1 (List.zip st2 reg2.amplitude)).map
        Prod.fst)).getD []) _).Perm (List.zip ((some (st2 ++ (absentEntries st2
        (List.zip st1 reg1.amplitude)).map Prod.fst)).getD []) _)
    rw [Option.getD_some, Option.getD_some, hf12, hf21]
    exact hperm

/-- Witness of C13: the registers `regQ` and `new(1,2)` added in both
orders. -/
theorem claim_C13_witness :
    ∃ p q, quantum_vectoradd (fun x => x) regQ (quantum_new_qureg Env.plainQ 1 2 []).reg =
        some p ∧
      quantum_vectoradd (fun x => x) (quantum_new_qureg Env.plainQ 1 2 []).reg regQ = some q ∧
      p.2.size = q.2.size ∧
      (List.zip (p.2.state.getD []) p.2.amplitude).Perm
        (List.zip (q.2.state.getD []) q.2.amplitude) :=
  claim_C13_vectoradd_comm (fun x => x) regQ (quantum_new_qureg Env.plainQ 1 2 []).reg
    [0, 3] [1] ⟨rfl, rfl, rfl⟩ ⟨rfl, rfl, rfl⟩ (by decide) (by decide) (by decide) (by decide)
    (by decide) (by decide)

end Libquantum

namespace Libquantum

variable {R : Type} [LinearOrderedField R]

/-! ## The multiplication pass of `quantum_gate1` without `break` -/

theorem passLabels_full (st : List Nat) (b : Nat) :
    passLabels st b (absentIdx st b st.length).length st.length =
      st ++ (absentIdx st b st.length).map (fun q => st.getD q 0 ^^^ b) := by
  unfold passLabels
  rw [Nat.sub_self, List.replicate_zero, List.append_nil]

theorem passAmps_full (m : quantum_matrix R) (st : List Nat) (amps : List (Cplx R)) (b : Nat) :
    passAmps m st amps b (absentIdx st b st.length).length st.length =
      (List.range st.length).map (newAmp m st amps b) ++
        (absentIdx st b st.length).map (appAmp m st amps b) := by
  unfold passAmps
  rw [Nat.sub_self, List.replicate_zero, List.append_nil]
  congr 1
  apply List.map_congr_left
  intro p hp
  rw [if_pos (Or.inl (List.mem_range.1 hp))]

/-- The multiplication pass of `quantum_gate1` for a matrix whose off-diagonal
entries are not zero (no `break`): every entry gets the row of the matrix that
its bit selects, applied to its amplitude and that of its partner, and the
missing partners are appended in the order of their entries. -/
theorem gate1_pass_nobreak (seed : Nat → Nat) (target : Nat) (m : quantum_matrix R)
    (reg : quantum_reg R) (st : List Nat) (hS : reg.Stored st) (hnd : st.Nodup)
    (hh : reg.hashw ≠ 0) (hsize : reg.size < 2 ^ reg.hashw) (ht : target < 32)
    (hm1 : m.t.getD 1 0 ≠ 0) (hm2 : m.t.getD 2 0 ≠ 0) :
    ∃ T, gate1_pass seed target m reg = some
      { reg with
        hash := T
        size := reg.size + (absentIdx st (shl1 target) st.length).length
        state := some (st ++ (absentIdx st (shl1 target) st.length).map
          (fun q => st.getD q 0 ^^^ shl1 target))
        amplitude := (List.range st.length).map (newAmp m st reg.amplitude (shl1 target)) ++
          (absentIdx st (shl1 target) st.length).map
            (appAmp m st reg.amplitude (shl1 target)) } := by
  obtain ⟨T, s, _, hinv, _, hpass⟩ :=
    gate1_pass_inv seed target m reg st hS hnd hh hsize ht
  refine ⟨T, ?_⟩
  rcases hinv with ⟨_, _, _, hreg⟩ | ⟨_, hz, _⟩
  · rw [hpass, hreg, passLabels_full, passAmps_full]
  · rcases hz with hz | hz
    · exact absurd hz hm1
    · exact absurd hz hm2

end Libquantum

namespace Libquantum

variable {R : Type} [LinearOrderedField R]

/-! ## The amplitudes after the multiplication pass -/

theorem lookupAmp_zip_getD (L : List Nat) (A : List (Cplx R)) (hnd : L.Nodup)
    (hl : L.length = A.length) (p : Nat) (hp : p < L.length) :
    lookupAmp (List.zip L A) (L.getD p 0) = A.getD p 0 := by
  have hmem : (L.getD p 0, A.getD p 0) ∈ List.zip L A := by
    rw [← getD_zip_lt L A p hp (by omega) 0 0]
    rw [getD_of_lt _ _ _ (by rw [List.length_zip]; omega)]
    exact List.getElem_mem _
  exact ((mem_zip_iff_lookupAmp L A hnd hl _).1 hmem).2.symm

theorem lookupAmp_map_of_mem (l : List Nat) (fl : Nat → Nat) (fa : Nat → Cplx R)
    (hinj : ∀ q ∈ l, ∀ q2 ∈ l, fl q = fl q2 → q = q2) (q : Nat) (hq : q ∈ l) :
    lookupAmp (l.map (fun q => (fl q, fa q))) (fl q) = fa q := by
  induction l with
  | nil => simp at hq
  | cons a l ih =>
    rw [List.map_cons, lookupAmp_cons]
    by_cases h : fl a = fl q
    · rw [if_pos h, hinj a (List.mem_cons_self _ _) q hq h]
    · rw [if_neg h]
      rcases List.mem_cons.1 hq with h2 | h2
      · exact absurd (h2 ▸ rfl) h
      · exact ih (fun x hx y hy => hinj x (List.mem_cons_of_mem _ hx) y
          (List.mem_cons_of_mem _ hy)) h2

theorem mem_absentIdx (st : List Nat) (b c q : Nat) :
    q ∈ absentIdx st b c ↔ q < c ∧ st.getD q 0 ^^^ b ∉ st := by
  unfold absentIdx partnerIdx
  rw [List.mem_filter, List.mem_range, decide_eq_true_eq]
  constructor
  · rintro ⟨h1, h2⟩
    refine ⟨h1, fun hm => ?_⟩
    have := List.indexOf_lt_length.2 hm
    omega
  · rintro ⟨h1, h2⟩
    refine ⟨h1, ?_⟩
    by_contra hlt
    exact h2 (List.indexOf_lt_length.1 (by omega))

theorem xor_eq_iff (x y b : Nat) : x ^^^ b = y ↔ y ^^^ b = x := by
  constructor
  · intro h; rw [← h, xor_xor_cancel]
  · intro h; rw [← h, xor_xor_cancel]

/-- The labels appended by the multiplication pass are the partners, absent
from the register, of stored labels. -/
theorem mem_appended (st : List Nat) (b x : Nat) :
    x ∈ (absentIdx st b st.length).map (fun q => st.getD q 0 ^^^ b) ↔
      x ∉ st ∧ x ^^^ b ∈ st := by
  rw [List.mem_map]
  constructor
  · rintro ⟨q, hq, rfl⟩
    obtain ⟨h1, h2⟩ := (mem_absentIdx st b _ q).1 hq
    refine ⟨h2, ?_⟩
    rw [xor_xor_cancel, getD_of_lt _ _ _ h1]
    exact List.getElem_mem _
  · rintro ⟨h1, h2⟩
    obtain ⟨q, hq, hqe⟩ := List.getElem_of_mem h2
    refine ⟨q, (mem_absentIdx st b _ q).2 ⟨hq, ?_⟩, ?_⟩
    · rw [getD_of_lt _ _ _ hq, hqe, xor_xor_cancel]
      exact h1
    · rw [getD_of_lt _ _ _ hq, hqe, xor_xor_cancel]

theorem getD_inj_of_nodup (st : List Nat) (hnd : st.Nodup) (p q : Nat) (hp : p < st.length)
    (hq : q < st.length) (h : st.getD p 0 = st.getD q 0) : p = q := by
  rw [getD_of_lt _ _ _ hp, getD_of_lt _ _ _ hq] at h
  exact (List.Nodup.getElem_inj_iff hnd).1 h

theorem appended_nodup (st : List Nat) (hnd : st.Nodup) (b : Nat) :
    ((absentIdx st b st.length).map (fun q => st.getD q 0 ^^^ b)).Nodup := by
  apply List.Nodup.map_on
  · intro q hq q2 hq2 h
    have h1 := ((mem_absentIdx st b _ q).1 hq).1
    have h2 := ((mem_absentIdx st b _ q2).1 hq2).1
    have : st.getD q 0 = st.getD q2 0 := by
      have := congrArg (fun y => y ^^^ b) h
      simp only [xor_xor_cancel] at this
      exact this
    exact getD_inj_of_nodup st hnd q q2 h1 h2 this
  · unfold absentIdx
    exact (List.nodup_range _).filter _

theorem pass_labels_nodup (st : List Nat) (hnd : st.Nodup) (b : Nat) :
    (st ++ (absentIdx st b st.length).map (fun q => st.getD q 0 ^^^ b)).Nodup := by
  rw [List.nodup_append]
  refine ⟨hnd, appended_nodup st hnd b, ?_⟩
  intro x hx1 hx2
  exact ((mem_appended st b x).1 hx2).1 hx1

/-- The old amplitude that the pass reads for the partner of entry `p` is the
amplitude of the partner label in the register. -/
theorem partner_amp (st : List Nat) (amps : List (Cplx R)) (hnd : st.Nodup)
    (hl : st.length = amps.length) (b p : Nat) :
    amps.getD (partnerIdx st b p) 0 = lookupAmp (List.zip st amps) (st.getD p 0 ^^^ b) := by
  by_cases h : partnerIdx st b p < st.length
  · rw [← getD_partnerIdx st b p h, lookupAmp_zip_getD st amps hnd hl _ h]
  · have hnm : st.getD p 0 ^^^ b ∉ st := by
      intro hm
      exact h (List.indexOf_lt_length.2 hm)
    rw [List.getD_eq_default _ _ (by omega), lookupAmp_of_not_mem _ _ (by
      rw [List.map_fst_zip _ _ (by omega)]; exact hnm)]

theorem newAmp_eq_gateImage (m : quantum_matrix R) (st : List Nat) (amps : List (Cplx R))
    (hnd : st.Nodup) (hl : st.length = amps.length) (t p : Nat) (hp : p < st.length) :
    newAmp m st amps (2 ^ t) p =
      gateImage m t (lookupAmp (List.zip st amps)) (st.getD p 0) := by
  unfold newAmp gateImage
  rw [partner_amp st amps hnd hl, lookupAmp_zip_getD st amps hnd hl p hp]
  by_cases hb : (st.getD p 0).testBit t = true
  · rw [if_pos ((and_two_pow_ne_zero _ t).2 hb), if_pos hb]
  · rw [if_neg (fun hh => hb ((and_two_pow_ne_zero _ t).1 hh)), if_neg hb]

theorem appAmp_eq_gateImage (m : quantum_matrix R) (st : List Nat) (amps : List (Cplx R))
    (hnd : st.Nodup) (hl : st.length = amps.length) (t q : Nat) (hq : q < st.length)
    (habs : st.getD q 0 ^^^ 2 ^ t ∉ st) :
    appAmp m st amps (2 ^ t) q =
      gateImage m t (lookupAmp (List.zip st amps)) (st.getD q 0 ^^^ 2 ^ t) := by
  unfold appAmp gateImage
  have h0 : lookupAmp (List.zip st amps) (st.getD q 0 ^^^ 2 ^ t) = 0 :=
    lookupAmp_of_not_mem _ _ (by rw [List.map_fst_zip _ _ (by omega)]; exact habs)
  rw [xor_xor_cancel, h0, lookupAmp_zip_getD st amps hnd hl q hq, testBit_xor_two_pow_self]
  by_cases hb : (st.getD q 0).testBit t = true
  · rw [if_pos ((and_two_pow_ne_zero _ t).2 hb), hb]
    simp
  · rw [if_neg (fun hh => hb ((and_two_pow_ne_zero _ t).1 hh))]
    have : (st.getD q 0).testBit t = false := by simpa using hb
    rw [this]
    simp

end Libquantum

namespace Libquantum

variable {R : Type} [LinearOrderedField R]

theorem zip_map_pair (l : List Nat) (fl : Nat → Nat) (fa : Nat → Cplx R) :
    List.zip (l.map fl) (l.map fa) = l.map (fun q => (fl q, fa q)) := by
  induction l with
  | nil => rfl
  | cons a l ih => simp only [List.map_cons, List.zip_cons_cons, ih]

theorem gateImage_zero (m : quantum_matrix R) (t : Nat) (ψ : Nat → Cplx R) (x : Nat)
    (h1 : ψ x = 0) (h2 : ψ (x ^^^ 2 ^ t) = 0) : gateImage m t ψ x = 0 := by
  unfold gateImage
  rw [h1, h2]
  split <;> simp

/-- After the multiplication pass without `break` the amplitude of every basis
state is the image of the amplitude vector under the matrix acting on bit
`t`. -/
theorem pass_lookupAmp (m : quantum_matrix R) (st : List Nat) (amps : List (Cplx R))
    (hnd : st.Nodup) (hl : st.length = amps.length) (t x : Nat) :
    lookupAmp (List.zip
        (st ++ (absentIdx st (2 ^ t) st.length).map (fun q => st.getD q 0 ^^^ 2 ^ t))
        ((List.range st.length).map (newAmp m st amps (2 ^ t)) ++
          (absentIdx st (2 ^ t) st.length).map (appAmp m st amps (2 ^ t)))) x =
      gateImage m t (lookupAmp (List.zip st amps)) x := by
  have hlen : st.length = ((List.range st.length).map (newAmp m st amps (2 ^ t))).length := by
    rw [List.length_map, List.length_range]
  rw [List.zip_append hlen]
  have hfst : (List.zip st ((List.range st.length).map (newAmp m st amps (2 ^ t)))).map
      Prod.fst = st := List.map_fst_zip _ _ (by omega)
  by_cases hx : x ∈ st
  · obtain ⟨p, hp, hpe⟩ := List.getElem_of_mem hx
    have hxp : x = st.getD p 0 := by rw [getD_of_lt _ _ _ hp, hpe]
    rw [lookupAmp_append_left _ _ _ (by rw [hfst]; exact hx), hxp,
      lookupAmp_zip_getD st _ hnd hlen p hp,
      getD_of_lt _ _ _ (by rw [List.length_map, List.length_range]; exact hp),
      List.getElem_map, List.getElem_range]
    exact newAmp_eq_gateImage m st amps hnd hl t p hp
  · rw [lookupAmp_append_right _ _ _ (by rw [hfst]; exact hx), zip_map_pair]
    by_cases hx2 : x ^^^ 2 ^ t ∈ st
    · obtain ⟨q, hq, hqe⟩ := List.getElem_of_mem hx2
      have hxq : x = st.getD q 0 ^^^ 2 ^ t := by
        rw [getD_of_lt _ _ _ hq, hqe, xor_xor_cancel]
      have hqa : q ∈ absentIdx st (2 ^ t) st.length :=
        (mem_absentIdx st _ _ q).2 ⟨hq, by rw [← hxq]; exact hx⟩
      rw [hxq, lookupAmp_map_of_mem _ (fun q => st.getD q 0 ^^^ 2 ^ t) _ ?_ q hqa]
      · exact appAmp_eq_gateImage m st amps hnd hl t q hq (by rw [← hxq]; exact hx)
      · intro a ha a2 ha2 h
        have h1 := ((mem_absentIdx st _ _ a).1 ha).1
        have h2 := ((mem_absentIdx st _ _ a2).1 ha2).1
        have : st.getD a 0 = st.getD a2 0 := by
          have := congrArg (fun y => y ^^^ 2 ^ t) h
          simp only [xor_xor_cancel] at this
          exact this
        exact getD_inj_of_nodup st hnd a a2 h1 h2 this
    · rw [lookupAmp_of_not_mem _ _ (by
        rw [List.map_map]
        intro hm
        have : x ∈ (absentIdx st (2 ^ t) st.length).map (fun q => st.getD q 0 ^^^ 2 ^ t) := hm
        exact hx2 ((mem_appended st _ x).1 this).2)]
      symm
      apply gateImage_zero
      · exact lookupAmp_of_not_mem _ _ (by rw [List.map_fst_zip _ _ (by omega)]; exact hx)
      · exact lookupAmp_of_not_mem _ _ (by rw [List.map_fst_zip _ _ (by omega)]; exact hx2)

/-! ## The amplitudes after the compaction -/

theorem truncAmp_zero (limit : R) : truncAmp limit (0 : Cplx R) = 0 := by
  unfold truncAmp
  split <;> rfl

theorem lookupAmp_compact (limit : R) (es : List (Nat × Cplx R))
    (hnd : (es.map Prod.fst).Nodup) (x : Nat) :
    lookupAmp (es.filter (fun e => decide (¬ e.2.prob < limit))) x =
      truncAmp limit (lookupAmp es x) := by
  induction es with
  | nil => rw [List.filter_nil, lookupAmp_nil, truncAmp_zero]
  | cons e es ih =>
    obtain ⟨y, c⟩ := e
    rw [List.map_cons, List.nodup_cons] at hnd
    have ih := ih hnd.2
    rw [lookupAmp_cons]
    by_cases hk : ¬ c.prob < limit
    · rw [List.filter_cons_of_pos (by simpa using hk), lookupAmp_cons]
      by_cases hyx : y = x
      · rw [if_pos hyx, if_pos hyx]
        unfold truncAmp
        rw [if_neg hk]
      · rw [if_neg hyx, if_neg hyx, ih]
    · rw [List.filter_cons_of_neg (by simpa using hk)]
      by_cases hyx : y = x
      · rw [if_pos hyx, ih, lookupAmp_of_not_mem es x (by rw [← hyx]; exact hnd.1)]
        unfold truncAmp
        rw [if_pos (not_not.1 hk)]
        split <;> rfl
      · rw [if_neg hyx, ih]

end Libquantum

namespace Libquantum

variable {R : Type} [LinearOrderedField R]

/-! ## The action of `quantum_gate1` on the amplitude vector -/

theorem zip_fst_snd (es : List (Nat × Cplx R)) :
    List.zip (es.map Prod.fst) (es.map Prod.snd) = es := (List.zip_of_prod rfl rfl).symm

theorem mem_entries_iff (es : List (Nat × Cplx R)) (hnd : (es.map Prod.fst).Nodup)
    (e : Nat × Cplx R) : e ∈ es ↔ e.1 ∈ es.map Prod.fst ∧ e.2 = lookupAmp es e.1 := by
  have := mem_zip_iff_lookupAmp (es.map Prod.fst) (es.map Prod.snd) hnd
    (by rw [List.length_map, List.length_map]) e
  rw [zip_fst_snd] at this
  exact this

/-- The register that `quantum_gate1` returns for a matrix whose off-diagonal
entries are not zero, on a stored register in sparse mode with pairwise
distinct labels and fewer entries than slots: the amplitude of every basis
state is the image under the matrix acting on bit `t`, set to zero if its
squared modulus is below the limit; the labels are pairwise distinct and are
exactly the stored labels and their partners whose new amplitude is not below
the limit. -/
theorem gate1_semantics (env : Env R) (hd : ∀ r, env.decohere r = r) (t : Nat) (ht : t < 32)
    (m : quantum_matrix R) (hc : m.cols = 2) (hr : m.rows = 2)
    (hm1 : m.t.getD 1 0 ≠ 0) (hm2 : m.t.getD 2 0 ≠ 0)
    (reg : quantum_reg R) (st : List Nat) (hS : reg.Stored st) (hnd : st.Nodup)
    (hh : reg.hashw ≠ 0) (hsize : reg.size < 2 ^ reg.hashw) :
    ∃ out L, quantum_gate1 env t m reg = some out ∧ out.Stored L ∧ L.Nodup ∧
      out.width = reg.width ∧ out.hashw = reg.hashw ∧
      (∀ x, out.ampAt x =
        truncAmp (gate1_limit env.epsilon reg.width) (gateImage m t reg.ampAt x)) ∧
      (∀ x, x ∈ L ↔ (x ∈ st ∨ x ^^^ 2 ^ t ∈ st) ∧
        ¬ (gateImage m t reg.ampAt x).prob < gate1_limit env.epsilon reg.width) ∧
      out.amplitude = L.map out.ampAt := by
  obtain ⟨T, hpass⟩ := gate1_pass_nobreak env.seed t m reg st hS hnd hh hsize ht hm1 hm2
  rw [shl1_eq (by omega : t < 64)] at hpass
  have hl : st.length = reg.amplitude.length := by rw [hS.2.1, hS.2.2]
  have hψ : reg.ampAt = lookupAmp (List.zip st reg.amplitude) := by
    funext x; exact ampAt_eq_lookupAmp reg st hS.1 x
  have hLn := pass_labels_nodup st hnd (2 ^ t)
  have hlen : (st ++ (absentIdx st (2 ^ t) st.length).map
      (fun q => st.getD q 0 ^^^ 2 ^ t)).length =
      ((List.range st.length).map (newAmp m st reg.amplitude (2 ^ t)) ++
        (absentIdx st (2 ^ t) st.length).map (appAmp m st reg.amplitude (2 ^ t))).length := by
    simp only [List.length_append, List.length_map, List.length_range]
  have hmidS : ({ reg with
        hash := T
        size := reg.size + (absentIdx st (2 ^ t) st.length).length
        state := some (st ++ (absentIdx st (2 ^ t) st.length).map
          (fun q => st.getD q 0 ^^^ 2 ^ t))
        amplitude := (List.range st.length).map (newAmp m st reg.amplitude (2 ^ t)) ++
          (absentIdx st (2 ^ t) st.length).map
            (appAmp m st reg.amplitude (2 ^ t)) } : quantum_reg R).Stored
      (st ++ (absentIdx st (2 ^ t) st.length).map (fun q => st.getD q 0 ^^^ 2 ^ t)) := by
    refine ⟨rfl, ?_, ?_⟩
    · show _ = reg.size + _
      rw [List.length_append, List.length_map, hS.2.1]
    · show _ = reg.size + _
      rw [List.length_append, List.length_map, List.length_map, List.length_range, hS.2.1]
  have hout := gate1_compact_eq (gate1_limit env.epsilon reg.width) _ _ hmidS
  have hfstzip : (List.zip (st ++ (absentIdx st (2 ^ t) st.length).map
      (fun q => st.getD q 0 ^^^ 2 ^ t))
      ((List.range st.length).map (newAmp m st reg.amplitude (2 ^ t)) ++
        (absentIdx st (2 ^ t) st.length).map (appAmp m st reg.amplitude (2 ^ t)))).map
      Prod.fst = st ++ (absentIdx st (2 ^ t) st.length).map
        (fun q => st.getD q 0 ^^^ 2 ^ t) := List.map_fst_zip _ _ (by omega)
  have hCEn : ((compactEntries (gate1_limit env.epsilon reg.width)
      (st ++ (absentIdx st (2 ^ t) st.length).map (fun q => st.getD q 0 ^^^ 2 ^ t))
      ((List.range st.length).map (newAmp m st reg.amplitude (2 ^ t)) ++
        (absentIdx st (2 ^ t) st.length).map (appAmp m st reg.amplitude (2 ^ t)))).map
      Prod.fst).Nodup := by
    unfold compactEntries
    refine List.Nodup.sublist (List.Sublist.map _ (List.filter_sublist _)) ?_
    rw [hfstzip]
    exact hLn
  have hlook : ∀ x, lookupAmp (compactEntries (gate1_limit env.epsilon reg.width)
      (st ++ (absentIdx st (2 ^ t) st.length).map (fun q => st.getD q 0 ^^^ 2 ^ t))
      ((List.range st.length).map (newAmp m st reg.amplitude (2 ^ t)) ++
        (absentIdx st (2 ^ t) st.length).map (appAmp m st reg.amplitude (2 ^ t)))) x =
      truncAmp (gate1_limit env.epsilon reg.width) (gateImage m t reg.ampAt x) := by
    intro x
    unfold compactEntries
    rw [lookupAmp_compact _ _ (by rw [hfstzip]; exact hLn),
      pass_lookupAmp m st reg.amplitude hnd hl t x, hψ]
  have hamp : ∀ x, (gate1_compact (gate1_limit env.epsilon reg.width)
      ({ reg with
        hash := T
        size := reg.size + (absentIdx st (2 ^ t) st.length).length
        state := some (st ++ (absentIdx st (2 ^ t) st.length).map
          (fun q => st.getD q 0 ^^^ 2 ^ t))
        amplitude := (List.range st.length).map (newAmp m st reg.amplitude (2 ^ t)) ++
          (absentIdx st (2 ^ t) st.length).map
            (appAmp m st reg.amplitude (2 ^ t)) } : quantum_reg R)).ampAt x =
      truncAmp (gate1_limit env.epsilon reg.width) (gateImage m t reg.ampAt x) := by
    intro x
    rw [hout, ampAt_eq_lookupAmp _ _ rfl]
    simp only
    rw [zip_fst_snd]
    exact hlook x
  refine ⟨_, _, ?_, ?_, hCEn, ?_, ?_, hamp, ?_, ?_⟩
  · unfold quantum_gate1
    rw [if_neg (by simp [hc, hr]), hpass]
    simp only [Option.map_some', hd, if_pos hh]
  · rw [hout]
    exact ⟨rfl, by rw [List.length_map], by
      show (List.map Prod.snd _).length = _
      rw [List.length_map]⟩
  · rw [hout]
  · rw [hout]
  · intro x
    rw [List.mem_map]
    constructor
    · rintro ⟨e, he, rfl⟩
      have hk := he
      unfold compactEntries at hk
      obtain ⟨hz, hkeep⟩ := List.mem_filter.1 hk
      obtain ⟨hmemL, hval⟩ := (mem_zip_iff_lookupAmp _ _ hLn hlen e).1 hz
      rw [pass_lookupAmp m st reg.amplitude hnd hl t e.1, ← hψ] at hval
      refine ⟨?_, by rw [← hval]; exact of_decide_eq_true hkeep⟩
      rcases List.mem_append.1 hmemL with h1 | h1
      · exact Or.inl h1
      · exact Or.inr ((mem_appended st _ e.1).1 h1).2
    · rintro ⟨hmem, hkeep⟩
      refine ⟨(x, gateImage m t reg.ampAt x), ?_, rfl⟩
      unfold compactEntries
      rw [List.mem_filter]
      refine ⟨(mem_zip_iff_lookupAmp _ _ hLn hlen _).2 ⟨?_, ?_⟩, decide_eq_true hkeep⟩
      · rw [List.mem_append]
        by_cases hx : x ∈ st
        · exact Or.inl hx
        · right
          rcases hmem with h1 | h1
          · exact absurd h1 hx
          · exact (mem_appended st _ x).2 ⟨hx, h1⟩
      · show _ = lookupAmp _ x
        rw [pass_lookupAmp m st reg.amplitude hnd hl t x, hψ]
  · rw [hout]
    simp only
    rw [List.map_map]
    apply List.map_congr_left
    intro e he
    have := ((mem_entries_iff _ hCEn e).1 he).2
    rw [this]
    simp only [Function.comp]
    rw [← hout, hamp, ← hlook]

end Libquantum

namespace Libquantum

variable {R : Type} [LinearOrderedField R]

/-! ## The Hadamard gate on the amplitude vector -/

theorem hadamard_matrix_t (env : Env R) :
    (hadamard_matrix env).t =
      [Cplx.ofReal (env.sqrt (1 / 2)), Cplx.ofReal (env.sqrt (1 / 2)),
        Cplx.ofReal (env.sqrt (1 / 2)), Cplx.ofReal (-env.sqrt (1 / 2))] := rfl

theorem gateImage_hadamard (env : Env R) (t : Nat) (ψ : Nat → Cplx R) (x : Nat) :
    gateImage (hadamard_matrix env) t ψ x =
      if x.testBit t = true then
        Cplx.ofReal (env.sqrt (1 / 2)) * ψ (x ^^^ 2 ^ t) +
          Cplx.ofReal (-env.sqrt (1 / 2)) * ψ x
      else
        Cplx.ofReal (env.sqrt (1 / 2)) * ψ x +
          Cplx.ofReal (env.sqrt (1 / 2)) * ψ (x ^^^ 2 ^ t) := by
  unfold gateImage
  rw [hadamard_matrix_t]
  rfl

theorem ofReal_ne_zero (r : R) (h : r ≠ 0) : Cplx.ofReal r ≠ 0 := by
  intro hz
  exact h (congrArg Cplx.re hz)

theorem sqrt_half_ne_zero (env : Env R) (hs : env.sqrt (1 / 2) * env.sqrt (1 / 2) = 1 / 2) :
    env.sqrt (1 / 2) ≠ 0 := by
  intro h
  rw [h, mul_zero] at hs
  norm_num at hs

/-- The register that `quantum_hadamard` returns, on the amplitude vector. -/
theorem hadamard_semantics (env : Env R) (hp : env.Plain)
    (hs : env.sqrt (1 / 2) * env.sqrt (1 / 2) = 1 / 2) (t : Nat) (ht : t < 32)
    (w : World R) (st : List Nat) (hS : w.reg.Stored st) (hnd : st.Nodup)
    (hh : w.reg.hashw ≠ 0) (hsize : w.reg.size < 2 ^ w.reg.hashw) :
    ∃ out L, quantum_hadamard env t w = some out ∧ out.reg.Stored L ∧ L.Nodup ∧
      out.reg.width = w.reg.width ∧ out.reg.hashw = w.reg.hashw ∧
      (∀ x, out.reg.ampAt x = truncAmp (gate1_limit env.epsilon w.reg.width)
        (gateImage (hadamard_matrix env) t w.reg.ampAt x)) ∧
      (∀ x, x ∈ L ↔ (x ∈ st ∨ x ^^^ 2 ^ t ∈ st) ∧
        ¬ (gateImage (hadamard_matrix env) t w.reg.ampAt x).prob <
          gate1_limit env.epsilon w.reg.width) ∧
      out.reg.amplitude = L.map out.reg.ampAt := by
  obtain ⟨hq, hhd, hd⟩ := hp
  have hne := sqrt_half_ne_zero env hs
  obtain ⟨out, L, hg, h1, h2, h3, h4, h5, h6, h7⟩ :=
    gate1_semantics env hd t ht (hadamard_matrix env) rfl rfl
      (by rw [hadamard_matrix_t]; exact ofReal_ne_zero _ hne)
      (by rw [hadamard_matrix_t]; exact ofReal_ne_zero _ hne)
      w.reg st hS hnd hh hsize
  refine ⟨{ (quantum_objcode_put env Opcode.HADAMARD [t] [] w).2 with reg := out }, L,
    ?_, h1, h2, h3, h4, h5, h6, h7⟩
  unfold quantum_hadamard
  simp only [quantum_objcode_put, hhd, Bool.false_eq_true, if_false]
  rw [hg]
  rfl

/-! ## Bits below and above a power of two -/

theorem xor_two_pow_lt_of_testBit {x k : Nat} (hx : x < 2 ^ (k + 1))
    (hb : x.testBit k = true) : x ^^^ 2 ^ k < 2 ^ k := by
  apply Nat.lt_pow_two_of_testBit
  intro i hi
  by_cases hik : i = k
  · rw [hik, testBit_xor_two_pow_self, hb]
    rfl
  · rw [testBit_xor_two_pow_ne x hik]
    exact testBit_of_lt_two_pow hx (by omega)

theorem lt_two_pow_of_not_testBit {x k : Nat} (hx : x < 2 ^ (k + 1))
    (hb : x.testBit k = false) : x < 2 ^ k := by
  apply Nat.lt_pow_two_of_testBit
  intro i hi
  by_cases hik : i = k
  · rw [hik, hb]
  · exact testBit_of_lt_two_pow hx (by omega)

theorem xor_two_pow_lt_succ {x k : Nat} (hx : x < 2 ^ k) : x ^^^ 2 ^ k < 2 ^ (k + 1) := by
  apply Nat.lt_pow_two_of_testBit
  intro i hi
  rw [testBit_xor_two_pow_ne x (by omega : i ≠ k)]
  exact testBit_of_lt_two_pow hx (by omega)

theorem xor_two_pow_ge {x k : Nat} (hx : x < 2 ^ k) : ¬ x ^^^ 2 ^ k < 2 ^ k := by
  intro h
  have h1 := testBit_of_lt_two_pow h (le_refl k)
  rw [testBit_xor_two_pow_self, testBit_of_lt_two_pow hx (le_refl k)] at h1
  exact absurd h1 (by decide)

/-- The labels below `2^(k+1)` are those below `2^k` and their partners in bit
`k`. -/
theorem lt_two_pow_succ_iff (x k : Nat) :
    x < 2 ^ (k + 1) ↔ (x < 2 ^ k ∨ x ^^^ 2 ^ k < 2 ^ k) := by
  constructor
  · intro hx
    by_cases hb : x.testBit k = true
    · exact Or.inr (xor_two_pow_lt_of_testBit hx hb)
    · exact Or.inl (lt_two_pow_of_not_testBit hx (by simpa using hb))
  · rintro (h | h)
    · exact lt_trans h (Nat.pow_lt_pow_right (by decide) (Nat.lt_succ_self k))
    · have := xor_two_pow_lt_succ h
      rw [xor_xor_cancel] at this
      exact this

end Libquantum

namespace Libquantum

variable {R : Type} [LinearOrderedField R]

/-! ## The Walsh-Hadamard transform of `|0>` -/

theorem prob_ofReal (r : R) : (Cplx.ofReal r).prob = r * r := by
  simp [Cplx.prob, Cplx.ofReal]

theorem prob_ofReal_pow (r : R) (n : Nat) : (Cplx.ofReal r ^ n).prob = (r * r) ^ n := by
  induction n with
  | zero => simp [Cplx.prob]
  | succ n ih => rw [pow_succ, Cplx.prob_mul, ih, prob_ofReal, pow_succ]

theorem perm_range_of_mem_iff (L : List Nat) (hnd : L.Nodup) (n : Nat)
    (hmem : ∀ x, x ∈ L ↔ x < n) : L.Perm (List.range n) := by
  rw [List.perm_ext_iff_of_nodup hnd (List.nodup_range n)]
  intro x
  rw [hmem, List.mem_range]

/-- No amplitude `(sqrt (1/2))^j` with `j <= w` is below the limit of the
compaction when `epsilon <= 1`. -/
theorem walsh_amp_kept (env : Env R) (hs : env.sqrt (1 / 2) * env.sqrt (1 / 2) = 1 / 2)
    (he : env.epsilon ≤ 1) (w j : Nat) (hj : j ≤ w) :
    ¬ (Cplx.ofReal (env.sqrt (1 / 2)) ^ j).prob < gate1_limit env.epsilon w := by
  rw [prob_ofReal_pow, hs, not_lt]
  unfold gate1_limit
  have h1 : (1 / (2 : R) ^ w) * env.epsilon ≤ (1 / (2 : R) ^ w) * 1 :=
    mul_le_mul_of_nonneg_left he (by positivity)
  have h2 : (1 / (2 : R) ^ w) * 1 = (1 / 2 : R) ^ w := by
    rw [mul_one, one_div, one_div, inv_pow]
  have h3 : (1 / 2 : R) ^ w ≤ (1 / 2 : R) ^ j :=
    pow_le_pow_of_le_one (by norm_num) (by norm_num) hj
  linarith

theorem walsh_image (env : Env R) (k : Nat) (ψ : Nat → Cplx R)
    (hψ : ∀ x, ψ x = if x < 2 ^ k then Cplx.ofReal (env.sqrt (1 / 2)) ^ k else 0) (x : Nat) :
    gateImage (hadamard_matrix env) k ψ x =
      if x < 2 ^ (k + 1) then Cplx.ofReal (env.sqrt (1 / 2)) ^ (k + 1) else 0 := by
  rw [gateImage_hadamard, hψ x, hψ (x ^^^ 2 ^ k)]
  by_cases hb : x.testBit k = true
  · have hx : ¬ x < 2 ^ k := fun h => by
      rw [testBit_of_lt_two_pow h (le_refl k)] at hb
      exact absurd hb (by decide)
    rw [if_pos hb, if_neg hx]
    by_cases hlt : x < 2 ^ (k + 1)
    · rw [if_pos (xor_two_pow_lt_of_testBit hlt hb), if_pos hlt, mul_zero, add_zero, pow_succ,
        mul_comm]
    · have : ¬ x ^^^ 2 ^ k < 2 ^ k := fun h =>
        hlt ((lt_two_pow_succ_iff x k).2 (Or.inr h))
      rw [if_neg this, if_neg hlt, mul_zero, mul_zero, add_zero]
  · rw [if_neg hb]
    by_cases hlt : x < 2 ^ (k + 1)
    · have hx := lt_two_pow_of_not_testBit hlt (by simpa using hb)
      rw [if_pos hx, if_neg (xor_two_pow_ge hx), if_pos hlt, mul_zero, add_zero, pow_succ,
        mul_comm]
    · have h1 : ¬ x < 2 ^ k := fun h => hlt ((lt_two_pow_succ_iff x k).2 (Or.inl h))
      have h2 : ¬ x ^^^ 2 ^ k < 2 ^ k := fun h =>
        hlt ((lt_two_pow_succ_iff x k).2 (Or.inr h))
      rw [if_neg h1, if_neg h2, if_neg hlt, mul_zero, add_zero]

theorem new_qureg_ampAt (env : Env R) (v wd : Nat) (log : List (ObjRecord R)) (x : Nat) :
    (quantum_new_qureg env v wd log).reg.ampAt x = if x = v then 1 else 0 := by
  show lookupAmp [(v, 1)] x = _
  rw [lookupAmp_cons, lookupAmp_nil]
  by_cases h : v = x
  · rw [if_pos h, if_pos h.symm]
  · rw [if_neg h, if_neg (fun hh => h hh.symm)]

/-- The state of the register after the first `k` Hadamard gates of
`quantum_walsh` on `new(0, w)`. -/
theorem walsh_loop (env : Env R) (hp : env.Plain)
    (hs : env.sqrt (1 / 2) * env.sqrt (1 / 2) = 1 / 2) (he : env.epsilon ≤ 1)
    (w : Nat) (hw : w ≤ 32) (log : List (ObjRecord R)) (k : Nat) (hk : k ≤ w) :
    ∃ out L, forLoopM k (fun i x => quantum_hadamard env i x)
        (quantum_new_qureg env 0 w log) = some out ∧
      out.reg.Stored L ∧ L.Nodup ∧ (∀ x, x ∈ L ↔ x < 2 ^ k) ∧
      out.reg.width = w ∧ out.reg.hashw = w + 2 ∧
      (∀ x, out.reg.ampAt x =
        if x < 2 ^ k then Cplx.ofReal (env.sqrt (1 / 2)) ^ k else 0) ∧
      out.reg.amplitude = L.map out.reg.ampAt := by
  induction k with
  | zero =>
    refine ⟨_, [0], rfl, ⟨rfl, rfl, rfl⟩, by simp, by intro x; simp, rfl, rfl, ?_, ?_⟩
    · intro x
      rw [new_qureg_ampAt]
      by_cases hx : x = 0
      · rw [if_pos hx, if_pos (by rw [hx]; decide), pow_zero]
      · rw [if_neg hx, if_neg (by simpa using hx)]
    · rw [new_qureg_amplitude, List.map_cons, List.map_nil, new_qureg_ampAt, if_pos rfl]
  | succ k ih =>
    obtain ⟨outk, L, hloop, hS, hnd, hmem, hwd, hhw, hamp, hlist⟩ := ih (by omega)
    have hlen : L.length = 2 ^ k := by
      rw [(perm_range_of_mem_iff L hnd _ hmem).length_eq, List.length_range]
    have hsize : outk.reg.size < 2 ^ outk.reg.hashw := by
      rw [← hS.2.1, hlen, hhw]
      exact Nat.pow_lt_pow_right (by decide) (by omega)
    obtain ⟨out, L2, hg, h1, h2, h3, h4, h5, h6, h7⟩ :=
      hadamard_semantics env hp hs k (by omega) outk L hS hnd (by rw [hhw]; omega) hsize
    have himg := walsh_image env k outk.reg.ampAt hamp
    have hkeep : ∀ x, truncAmp (gate1_limit env.epsilon outk.reg.width)
        (gateImage (hadamard_matrix env) k outk.reg.ampAt x) =
        gateImage (hadamard_matrix env) k outk.reg.ampAt x := by
      intro x
      rw [himg]
      by_cases hx : x < 2 ^ (k + 1)
      · rw [if_pos hx]
        unfold truncAmp
        rw [if_neg (by rw [hwd]; exact walsh_amp_kept env hs he w (k + 1) hk)]
      · rw [if_neg hx, truncAmp_zero]
    refine ⟨out, L2, ?_, h1, h2, ?_, by rw [h3, hwd], by rw [h4, hhw], ?_, h7⟩
    · rw [forLoopM_succ, hloop]
      exact hg
    · intro x
      rw [h6, hmem, hmem, ← lt_two_pow_succ_iff, himg]
      constructor
      · intro h; exact h.1
      · intro h
        refine ⟨h, ?_⟩
        rw [if_pos h, hwd]
        exact walsh_amp_kept env hs he w (k + 1) hk
    · intro x
      rw [h5, hkeep, himg]

/-- C18: for `w <= 28`, over exact arithmetic with `sqrt(1/2)^2 = 1/2` (and
`epsilon <= 1`, no decoherence, recorder not handling), `quantum_walsh(w)` on
`quantum_new_qureg(0, w)` returns a register of exactly `2^w` entries whose
labels are a permutation of `0 .. 2^w - 1` (every label occurs exactly once)
and in which every amplitude equals `sqrt(1/2)^w`. -/
theorem claim_C18_walsh (env : Env R) (hp : env.Plain)
    (hs : env.sqrt (1 / 2) * env.sqrt (1 / 2) = 1 / 2) (he : env.epsilon ≤ 1)
    (w : Nat) (hw : w ≤ 28) (log : List (ObjRecord R)) :
    ∃ out L, quantum_walsh env w (quantum_new_qureg env 0 w log) = some out ∧
      out.reg.Stored L ∧ out.reg.size = 2 ^ w ∧ L.Perm (List.range (2 ^ w)) ∧
      out.reg.amplitude = List.replicate (2 ^ w) (Cplx.ofReal (env.sqrt (1 / 2)) ^ w) := by
  obtain ⟨out, L, hloop, hS, hnd, hmem, _, _, hamp, hlist⟩ :=
    walsh_loop env hp hs he w (by omega) log w (le_refl _)
  have hperm := perm_range_of_mem_iff L hnd _ hmem
  have hlen : L.length = 2 ^ w := by rw [hperm.length_eq, List.length_range]
  refine ⟨out, L, hloop, hS, by rw [← hS.2.1, hlen], hperm, ?_⟩
  rw [hlist, List.eq_replicate_iff]
  refine ⟨by rw [List.length_map, hlen], ?_⟩
  intro z hz
  obtain ⟨x, hx, rfl⟩ := List.mem_map.1 hz
  rw [hamp, if_pos ((hmem x).1 hx)]

end Libquantum

namespace Libquantum

variable {R : Type} [LinearOrderedField R]

/-! ## Two Hadamard gates in a row -/

theorem gateImage_add (m : quantum_matrix R) (t : Nat) (f g : Nat → Cplx R) (x : Nat) :
    gateImage m t (fun y => f y + g y) x = gateImage m t f x + gateImage m t g x := by
  unfold gateImage
  split <;> ring

theorem ofReal_neg (r : R) : Cplx.ofReal (-r) = -Cplx.ofReal r := by
  apply Cplx.ext <;> simp [Cplx.ofReal]

theorem ofReal_sqrt_half_sq (env : Env R) (hs : env.sqrt (1 / 2) * env.sqrt (1 / 2) = 1 / 2) :
    Cplx.ofReal (env.sqrt (1 / 2)) * Cplx.ofReal (env.sqrt (1 / 2)) +
      Cplx.ofReal (env.sqrt (1 / 2)) * Cplx.ofReal (env.sqrt (1 / 2)) = 1 := by
  apply Cplx.ext
  · simp only [Cplx.add_re, Cplx.mul_re, Cplx.ofReal, Cplx.one_re]
    rw [hs]; norm_num
  · simp only [Cplx.add_im, Cplx.mul_im, Cplx.ofReal, Cplx.one_im]
    ring

/-- In exact arithmetic the Hadamard matrix applied twice to bit `t` of an
amplitude vector gives the vector back. -/
theorem gateImage_hadamard_twice (env : Env R)
    (hs : env.sqrt (1 / 2) * env.sqrt (1 / 2) = 1 / 2) (t : Nat) (ψ : Nat → Cplx R) (x : Nat) :
    gateImage (hadamard_matrix env) t (gateImage (hadamard_matrix env) t ψ) x = ψ x := by
  have h2 := ofReal_sqrt_half_sq env hs
  rw [gateImage_hadamard, gateImage_hadamard, gateImage_hadamard, xor_xor_cancel,
    testBit_xor_two_pow_self, ofReal_neg]
  by_cases hb : x.testBit t = true
  · rw [if_pos hb, hb]
    simp only [Bool.not_true, Bool.false_eq_true, if_false, if_true]
    linear_combination (ψ x) * h2
  · rw [if_neg hb]
    have : x.testBit t = false := by simpa using hb
    rw [this]
    simp only [Bool.not_false, if_true, Bool.false_eq_true, if_false]
    linear_combination (ψ x) * h2

theorem prob_nonneg (z : Cplx R) : 0 ≤ z.prob := by
  unfold Cplx.prob
  nlinarith [mul_self_nonneg z.re, mul_self_nonneg z.im]

theorem prob_add_le (u v : Cplx R) : (u + v).prob ≤ 2 * (u.prob + v.prob) := by
  simp only [Cplx.prob, Cplx.add_re, Cplx.add_im]
  nlinarith [mul_self_nonneg (u.re - v.re), mul_self_nonneg (u.im - v.im)]

theorem prob_sub_le (u v : Cplx R) : (u - v).prob ≤ 2 * (u.prob + v.prob) := by
  simp only [Cplx.prob, Cplx.sub_re, Cplx.sub_im]
  nlinarith [mul_self_nonneg (u.re + v.re), mul_self_nonneg (u.im + v.im)]

theorem prob_zero : (0 : Cplx R).prob = 0 := by
  simp [Cplx.prob]

/-- The Hadamard matrix does not enlarge errors: the squared modulus of a
component of the image is at most the sum of the squared moduli of the two
components it is computed from. -/
theorem prob_gateImage_hadamard_le (env : Env R)
    (hs : env.sqrt (1 / 2) * env.sqrt (1 / 2) = 1 / 2) (t : Nat) (δ : Nat → Cplx R) (x : Nat) :
    (gateImage (hadamard_matrix env) t δ x).prob ≤ (δ x).prob + (δ (x ^^^ 2 ^ t)).prob := by
  rw [gateImage_hadamard, ofReal_neg]
  have key : ∀ u v : Cplx R,
      (Cplx.ofReal (env.sqrt (1 / 2)) * u + Cplx.ofReal (env.sqrt (1 / 2)) * v).prob ≤
        u.prob + v.prob := by
    intro u v
    have e : (Cplx.ofReal (env.sqrt (1 / 2)) * u + Cplx.ofReal (env.sqrt (1 / 2)) * v).prob =
        (env.sqrt (1 / 2) * env.sqrt (1 / 2)) *
          ((u.re + v.re) * (u.re + v.re) + (u.im + v.im) * (u.im + v.im)) := by
      simp only [Cplx.prob, Cplx.add_re, Cplx.add_im, Cplx.mul_re, Cplx.mul_im, Cplx.ofReal]
      ring
    rw [e, hs]
    simp only [Cplx.prob]
    nlinarith [mul_self_nonneg (u.re - v.re), mul_self_nonneg (u.im - v.im)]
  split
  · have := key (δ (x ^^^ 2 ^ t)) (-δ x)
    rw [prob_neg, mul_neg, ← neg_mul] at this
    linarith
  · exact key (δ x) (δ (x ^^^ 2 ^ t))

theorem prob_truncAmp_sub_le (limit : R) (hl : 0 ≤ limit) (z : Cplx R) :
    (truncAmp limit z - z).prob ≤ limit := by
  unfold truncAmp
  split
  · rename_i h
    rw [zero_sub, prob_neg]
    exact le_of_lt h
  · rw [sub_self, prob_zero]
    exact hl

/-- The error of two Hadamard gates with compaction, component by component:
if `φ1` is the compacted image of `ψ` and `ψ2` the compacted image of `φ1`, the
squared modulus of `ψ2 x - ψ x` is at most six times the limit. -/
theorem hadamard_twice_error (env : Env R)
    (hs : env.sqrt (1 / 2) * env.sqrt (1 / 2) = 1 / 2) (limit : R) (hl : 0 ≤ limit)
    (t : Nat) (ψ φ1 ψ2 : Nat → Cplx R)
    (h1 : ∀ x, φ1 x = truncAmp limit (gateImage (hadamard_matrix env) t ψ x))
    (h2 : ∀ x, ψ2 x = truncAmp limit (gateImage (hadamard_matrix env) t φ1 x)) (x : Nat) :
    (ψ2 x - ψ x).prob ≤ 6 * limit := by
  have hφ : φ1 = fun y => gateImage (hadamard_matrix env) t ψ y +
      (φ1 y - gateImage (hadamard_matrix env) t ψ y) := by
    funext y; ring
  have hδ : ∀ y, (φ1 y - gateImage (hadamard_matrix env) t ψ y).prob ≤ limit := by
    intro y
    rw [h1 y]
    exact prob_truncAmp_sub_le limit hl _
  have himg : gateImage (hadamard_matrix env) t φ1 x = ψ x +
      gateImage (hadamard_matrix env) t
        (fun y => φ1 y - gateImage (hadamard_matrix env) t ψ y) x := by
    conv_lhs => rw [hφ]
    rw [gateImage_add, gateImage_hadamard_twice env hs]
  have he := prob_gateImage_hadamard_le env hs t
    (fun y => φ1 y - gateImage (hadamard_matrix env) t ψ y) x
  simp only at he
  have he2 : (gateImage (hadamard_matrix env) t
      (fun y => φ1 y - gateImage (hadamard_matrix env) t ψ y) x).prob ≤ 2 * limit := by
    have a := hδ x
    have b := hδ (x ^^^ 2 ^ t)
    linarith
  rw [h2 x]
  unfold truncAmp
  split
  · rename_i hlt
    have hψ : (0 : Cplx R) - ψ x = gateImage (hadamard_matrix env) t
        (fun y => φ1 y - gateImage (hadamard_matrix env) t ψ y) x -
        gateImage (hadamard_matrix env) t φ1 x := by
      rw [himg]; ring
    rw [hψ]
    have := prob_sub_le (gateImage (hadamard_matrix env) t
        (fun y => φ1 y - gateImage (hadamard_matrix env) t ψ y) x)
      (gateImage (hadamard_matrix env) t φ1 x)
    linarith
  · rw [himg, add_sub_cancel_left]
    linarith

end Libquantum

namespace Libquantum

variable {R : Type} [LinearOrderedField R]

theorem nodup_length_le (L : List Nat) (hnd : L.Nodup) (n : Nat) (h : ∀ x ∈ L, x < n) :
    L.length ≤ n := by
  have hsub : L ⊆ List.range n := fun x hx => List.mem_range.2 (h x hx)
  have := (List.subperm_of_subset hnd hsub).length_le
  rw [List.length_range] at this
  exact this

theorem gate1_limit_nonneg (epsilon : R) (he : 0 ≤ epsilon) (w : Nat) :
    0 ≤ gate1_limit epsilon w := by
  unfold gate1_limit
  exact mul_nonneg (by positivity) he

theorem truncAmp_eq_self (limit : R) (z : Cplx R) (h : z.prob < limit → z = 0) :
    truncAmp limit z = z := by
  unfold truncAmp
  split
  · rename_i hz
    exact (h hz).symm
  · rfl

/-- C9, amended: on a register in sparse mode (pairwise distinct labels below
`2^width`, `width < hash_bits`) and a target `t < width` below 32 (the target
bit is read into an `int`), two calls of `quantum_hadamard(t)` return, and the
result differs from the initial amplitude vector, in every component, by an
amplitude whose squared modulus is at most `6 * epsilon / 2^width` (exact
arithmetic, `sqrt(1/2)^2 = 1/2`, `epsilon >= 0`): the components that the
compaction sets to zero are lost. If no non-zero component is below the limit
`epsilon / 2^width`, neither in the image of the initial vector under the
Hadamard matrix nor in the initial vector itself, the result is the initial
amplitude vector. -/
theorem claim_C9_hadamard_twice (env : Env R) (hp : env.Plain)
    (hs : env.sqrt (1 / 2) * env.sqrt (1 / 2) = 1 / 2) (he : 0 ≤ env.epsilon)
    (w : World R) (st : List Nat) (hS : w.reg.Stored st) (hnd : st.Nodup)
    (hlab : ∀ x ∈ st, x < 2 ^ w.reg.width) (t : Nat) (ht : t < w.reg.width)
    (ht32 : t < 32) (hh : w.reg.width < w.reg.hashw) :
    ∃ out, (quantum_hadamard env t w).bind (quantum_hadamard env t) = some out ∧
      (∀ x, (out.reg.ampAt x - w.reg.ampAt x).prob ≤
        6 * gate1_limit env.epsilon w.reg.width) ∧
      ((∀ x, (gateImage (hadamard_matrix env) t w.reg.ampAt x).prob <
            gate1_limit env.epsilon w.reg.width →
          gateImage (hadamard_matrix env) t w.reg.ampAt x = 0) →
        (∀ x, (w.reg.ampAt x).prob < gate1_limit env.epsilon w.reg.width →
          w.reg.ampAt x = 0) →
        ∀ x, out.reg.ampAt x = w.reg.ampAt x) := by
  have hpow : 2 ^ w.reg.width < 2 ^ w.reg.hashw := Nat.pow_lt_pow_right (by decide) hh
  have hsize : w.reg.size < 2 ^ w.reg.hashw := by
    have := nodup_length_le st hnd _ hlab
    rw [hS.2.1] at this
    omega
  obtain ⟨out1, L1, hg1, a1, a2, a3, a4, a5, a6, _⟩ :=
    hadamard_semantics env hp hs t ht32 w st hS hnd (by omega) hsize
  have hlab1 : ∀ x ∈ L1, x < 2 ^ w.reg.width := by
    intro x hx
    rcases ((a6 x).1 hx).1 with h | h
    · exact hlab x h
    · have := Nat.xor_lt_two_pow (hlab _ h) (Nat.pow_lt_pow_right (by decide) ht)
      rw [xor_xor_cancel] at this
      exact this
  have hsize1 : out1.reg.size < 2 ^ out1.reg.hashw := by
    have := nodup_length_le L1 a2 _ hlab1
    rw [a1.2.1] at this
    rw [a4]
    omega
  obtain ⟨out2, L2, hg2, _, _, _, _, b5, _, _⟩ :=
    hadamard_semantics env hp hs t ht32 out1 L1 a1 a2 (by rw [a4]; omega) hsize1
  rw [a3] at b5
  refine ⟨out2, by rw [hg1]; exact hg2, ?_, ?_⟩
  · intro x
    exact hadamard_twice_error env hs _ (gate1_limit_nonneg _ he _) t w.reg.ampAt
      out1.reg.ampAt out2.reg.ampAt a5 b5 x
  · intro hA hB x
    have h1 : out1.reg.ampAt = gateImage (hadamard_matrix env) t w.reg.ampAt := by
      funext y
      rw [a5 y]
      exact truncAmp_eq_self _ _ (hA y)
    rw [b5 x, h1, gateImage_hadamard_twice env hs]
    exact truncAmp_eq_self _ _ (hB x)

theorem regOne_ampAt (a : R) (x : Nat) :
    (regOne a).ampAt x = if x = 0 then ⟨a, 0⟩ else 0 := by
  show lookupAmp [(0, ⟨a, 0⟩)] x = _
  rw [lookupAmp_cons, lookupAmp_nil]
  by_cases h : 0 = x
  · rw [if_pos h, if_pos h.symm]
  · rw [if_neg h, if_neg (fun hh => h hh.symm)]

/-- C9 fails as stated: over the reals, with `epsilon = 1e-6`, the register of
width 2 with the single entry `|00>` of amplitude `4e-4`. After the first
Hadamard gate on bit 0 both entries have the squared modulus `8e-8`, below the
limit `2.5e-7` of the compaction, and are removed; after the second the
register is still empty. The component `|00>` has gone from `4e-4` to `0`, a
difference far above `1e-9`. -/
theorem claim_C9_counterexample :
    ∃ out, (quantum_hadamard (Env.plainOf (1 / 1000000) Real.sqrt) 0
        ⟨regOne (4 / 10000), []⟩).bind
        (quantum_hadamard (Env.plainOf (1 / 1000000) Real.sqrt) 0) = some out ∧
      (regOne (4 / 10000 : ℝ)).ampAt 0 = ⟨4 / 10000, 0⟩ ∧ out.reg.ampAt 0 = 0 ∧
      (1 / 1000000000 : ℝ) * (1 / 1000000000) <
        ((regOne (4 / 10000 : ℝ)).ampAt 0 - out.reg.ampAt 0).prob := by
  have hp : (Env.plainOf (1 / 1000000) Real.sqrt).Plain := ⟨rfl, rfl, fun _ => rfl⟩
  have hs : (Env.plainOf (1 / 1000000) Real.sqrt).sqrt (1 / 2) *
      (Env.plainOf (1 / 1000000) Real.sqrt).sqrt (1 / 2) = 1 / 2 :=
    Real.mul_self_sqrt (by norm_num)
  have hlim : gate1_limit (Env.plainOf (1 / 1000000) Real.sqrt).epsilon 2 =
      (25 / 100000000 : ℝ) := by
    show (1 / (2 : ℝ) ^ 2) * (1 / 1000000) = _
    norm_num
  obtain ⟨out1, L1, hg1, a1, a2, a3, a4, a5, a6, _⟩ :=
    hadamard_semantics (Env.plainOf (1 / 1000000) Real.sqrt) hp hs 0 (by decide)
      ⟨regOne (4 / 10000), []⟩ [0] ⟨rfl, rfl, rfl⟩ (by decide) (by decide) (by decide)
  have hw2 : (⟨regOne (4 / 10000 : ℝ), []⟩ : World ℝ).reg.width = 2 := rfl
  rw [hw2, hlim] at a5 a6
  have hsmall : ∀ x, (gateImage (hadamard_matrix (Env.plainOf (1 / 1000000) Real.sqrt)) 0
      (regOne (4 / 10000 : ℝ)).ampAt x).prob < (25 / 100000000 : ℝ) := by
    intro x
    have h := prob_gateImage_hadamard_le (Env.plainOf (1 / 1000000) Real.sqrt) hs 0
      (regOne (4 / 10000 : ℝ)).ampAt x
    refine lt_of_le_of_lt h ?_
    rw [regOne_ampAt, regOne_ampAt]
    by_cases hx : x = 0
    · subst hx
      rw [if_pos rfl, if_neg (by decide)]
      simp only [Cplx.prob, Cplx.zero_re, Cplx.zero_im]
      norm_num
    · rw [if_neg hx]
      split
      · simp only [Cplx.prob, Cplx.zero_re, Cplx.zero_im]
        norm_num
      · simp only [Cplx.prob, Cplx.zero_re, Cplx.zero_im]
        norm_num
  have hz1 : ∀ x, out1.reg.ampAt x = 0 := by
    intro x
    rw [a5 x]
    unfold truncAmp
    rw [if_pos (hsmall x)]
  have hL1 : L1 = [] := by
    rw [List.eq_nil_iff_forall_not_mem]
    intro x hx
    exact ((a6 x).1 hx).2 (hsmall x)
  have hsize1 : out1.reg.size < 2 ^ out1.reg.hashw := by
    rw [← a1.2.1, hL1, a4]
    decide
  obtain ⟨out2, L2, hg2, _, _, _, _, b5, _, _⟩ :=
    hadamard_semantics (Env.plainOf (1 / 1000000) Real.sqrt) hp hs 0 (by decide)
      out1 L1 a1 a2 (by rw [a4]; decide) hsize1
  have hz2 : out2.reg.ampAt 0 = 0 := by
    rw [b5 0, gateImage_zero _ _ _ _ (hz1 _) (hz1 _), truncAmp_zero]
  refine ⟨out2, by rw [hg1]; exact hg2, by rw [regOne_ampAt, if_pos rfl], hz2, ?_⟩
  rw [hz2, regOne_ampAt, if_pos rfl, sub_zero]
  simp only [Cplx.prob]
  norm_num

end Libquantum

namespace Libquantum

variable {R : Type} [LinearOrderedField R]

/-! ## The scenarios E1 and E2 -/

/-- E1 in general form: one Hadamard gate on bit 0 of `new(0, w)`. -/
theorem hadamard_new (env : Env R) (hp : env.Plain)
    (hs : env.sqrt (1 / 2) * env.sqrt (1 / 2) = 1 / 2) (he : env.epsilon ≤ 1)
    (w : Nat) (hw1 : 1 ≤ w) (hw : w ≤ 32) (log : List (ObjRecord R)) :
    ∃ out L, quantum_hadamard env 0 (quantum_new_qureg env 0 w log) = some out ∧
      out.reg.Stored L ∧ L.Nodup ∧ (∀ x, x ∈ L ↔ x < 2) ∧
      out.reg.width = w ∧ out.reg.hashw = w + 2 ∧
      (∀ x, out.reg.ampAt x = if x < 2 then Cplx.ofReal (env.sqrt (1 / 2)) else 0) ∧
      out.reg.amplitude = L.map out.reg.ampAt := by
  obtain ⟨out, L, hloop, h1, h2, h3, h4, h5, h6, h7⟩ :=
    walsh_loop env hp hs he w hw log 1 hw1
  refine ⟨out, L, hloop, h1, h2, h3, h4, h5, ?_, h7⟩
  intro x
  rw [h6 x]
  simp only [pow_one]

theorem eq_singleton_of_mem_iff (L : List Nat) (hnd : L.Nodup) (a : Nat)
    (h : ∀ x, x ∈ L ↔ x = a) : L = [a] := by
  have : L.Perm [a] := by
    rw [List.perm_ext_iff_of_nodup hnd (List.nodup_singleton a)]
    intro x
    rw [h, List.mem_singleton]
  exact List.perm_singleton.1 this

/-- E2 in general form: two Hadamard gates on bit 0 of `new(0, w)` give the
single entry `|0>` with amplitude 1. -/
theorem hadamard_twice_new (env : Env R) (hp : env.Plain)
    (hs : env.sqrt (1 / 2) * env.sqrt (1 / 2) = 1 / 2) (he0 : 0 < env.epsilon)
    (he : env.epsilon ≤ 1) (w : Nat) (hw1 : 1 ≤ w) (hw : w ≤ 32) (log : List (ObjRecord R)) :
    ∃ out, (quantum_hadamard env 0 (quantum_new_qureg env 0 w log)).bind
        (quantum_hadamard env 0) = some out ∧
      out.reg.size = 1 ∧ out.reg.state = some [0] ∧ out.reg.amplitude = [1] := by
  obtain ⟨out1, L1, hg1, a1, a2, a3, a4, a5, a6, _⟩ := hadamard_new env hp hs he w hw1 hw log
  have hlen : L1.length = 2 := by
    rw [(perm_range_of_mem_iff L1 a2 2 a3).length_eq, List.length_range]
  have hsize1 : out1.reg.size < 2 ^ out1.reg.hashw := by
    rw [← a1.2.1, hlen, a5]
    calc 2 < 2 ^ 2 := by decide
      _ ≤ 2 ^ (w + 2) := Nat.pow_le_pow_right (by decide) (by omega)
  obtain ⟨out2, L2, hg2, b1, b2, _, _, b5, b6, b7⟩ :=
    hadamard_semantics env hp hs 0 (by decide) out1 L1 a1 a2 (by rw [a5]; omega) hsize1
  rw [a4] at b5 b6
  have h2 := ofReal_sqrt_half_sq env hs
  have himg : ∀ x, gateImage (hadamard_matrix env) 0 out1.reg.ampAt x =
      if x = 0 then 1 else 0 := by
    intro x
    rw [gateImage_hadamard, a6 x, a6 (x ^^^ 2 ^ 0), ofReal_neg]
    by_cases hx0 : x = 0
    · subst hx0
      rw [if_neg (by decide), if_pos (by decide), if_pos (by decide), if_pos rfl]
      exact h2
    · by_cases hx1 : x = 1
      · subst hx1
        rw [if_pos (by decide), if_pos (by decide), if_pos (by decide), if_neg (by decide)]
        ring
      · have hx : ¬ x < 2 := by omega
        have hx2 : ¬ x ^^^ 2 ^ 0 < 2 := by
          intro h
          have := Nat.xor_lt_two_pow (n := 1) h (by decide : 2 ^ 0 < 2 ^ 1)
          rw [xor_xor_cancel] at this
          exact hx this
        rw [if_neg hx, if_neg hx2, if_neg hx0]
        split <;> simp
  have hlimpos : 0 < gate1_limit env.epsilon w := by
    unfold gate1_limit
    exact mul_pos (by positivity) he0
  have hlim1 : ¬ (1 : Cplx R).prob < gate1_limit env.epsilon w := by
    have := walsh_amp_kept env hs he w 0 (by omega)
    rw [pow_zero] at this
    exact this
  have hmem : ∀ x, x ∈ L2 ↔ x = 0 := by
    intro x
    rw [b6 x, himg x]
    constructor
    · rintro ⟨_, hk⟩
      by_contra hx
      rw [if_neg hx, prob_zero] at hk
      exact hk hlimpos
    · intro hx
      subst hx
      refine ⟨Or.inl ((a3 0).2 (by decide)), ?_⟩
      rw [if_pos rfl]
      exact hlim1
  have hL2 := eq_singleton_of_mem_iff L2 b2 0 hmem
  refine ⟨out2, by rw [hg1]; exact hg2, by rw [← b1.2.1, hL2]; rfl, by rw [b1.1, hL2], ?_⟩
  rw [b7, hL2, List.map_cons, List.map_nil, b5 0, himg 0, if_pos rfl]
  unfold truncAmp
  rw [if_neg hlim1]

/-- Witness of C18 over the reals: `new(0,3); hadamard(0); hadamard(1);
hadamard(2)` gives eight entries, each label once, each of amplitude
`sqrt(1/2)^3`; and one Hadamard gate on `new(0,2)` gives the two entries `|00>`
and `|01>`, each of amplitude `sqrt(1/2)`. -/
theorem claim_C18_witness :
    (∃ out L, quantum_walsh (Env.plainOf (1 / 1000000) Real.sqrt) 3
        (quantum_new_qureg (Env.plainOf (1 / 1000000) Real.sqrt) 0 3 []) = some out ∧
      out.reg.Stored L ∧ out.reg.size = 2 ^ 3 ∧ L.Perm (List.range (2 ^ 3)) ∧
      out.reg.amplitude = List.replicate (2 ^ 3) (Cplx.ofReal (Real.sqrt (1 / 2)) ^ 3)) ∧
    (∃ out L, quantum_hadamard (Env.plainOf (1 / 1000000) Real.sqrt) 0
        (quantum_new_qureg (Env.plainOf (1 / 1000000) Real.sqrt) 0 2 []) = some out ∧
      out.reg.Stored L ∧ L.Perm [0, 1] ∧
      out.reg.amplitude =
        [Cplx.ofReal (Real.sqrt (1 / 2)), Cplx.ofReal (Real.sqrt (1 / 2))]) := by
  have he : (Env.plainOf (1 / 1000000) Real.sqrt).epsilon ≤ 1 := by
    show (1 / 1000000 : ℝ) ≤ 1
    norm_num
  refine ⟨claim_C18_walsh (Env.plainOf (1 / 1000000) Real.sqrt) ⟨rfl, rfl, fun _ => rfl⟩
    (Real.mul_self_sqrt (by norm_num)) he 3 (by decide) [], ?_⟩
  obtain ⟨out, L, hg, h1, h2, h3, _, _, h6, h7⟩ :=
    hadamard_new (Env.plainOf (1 / 1000000) Real.sqrt) ⟨rfl, rfl, fun _ => rfl⟩
      (Real.mul_self_sqrt (by norm_num)) he 2 (by decide) (by decide) []
  have hperm := perm_range_of_mem_iff L h2 2 h3
  refine ⟨out, L, hg, h1, hperm, ?_⟩
  have hrep : out.reg.amplitude =
      List.replicate 2 (Cplx.ofReal (Real.sqrt (1 / 2))) := by
    rw [h7, List.eq_replicate_iff]
    refine ⟨by rw [List.length_map, hperm.length_eq, List.length_range], ?_⟩
    intro z hz
    obtain ⟨x, hx, rfl⟩ := List.mem_map.1 hz
    rw [h6 x, if_pos ((h3 x).1 hx)]
    rfl
  rw [hrep]
  rfl

/-- Witness of C9 (amended) over the reals: two Hadamard gates on bit 0 of the
register `new(0,2)` return a register within the bound of the initial one; it
is the single entry `|00>` with amplitude 1. -/
theorem claim_C9_witness :
    (∃ out, (quantum_hadamard (Env.plainOf (1 / 1000000) Real.sqrt) 0
        (quantum_new_qureg (Env.plainOf (1 / 1000000) Real.sqrt) 0 2 [])).bind
        (quantum_hadamard (Env.plainOf (1 / 1000000) Real.sqrt) 0) = some out ∧
      ∀ x, (out.reg.ampAt x -
          (quantum_new_qureg (Env.plainOf (1 / 1000000) Real.sqrt) 0 2 []).reg.ampAt x).prob ≤
        6 * gate1_limit (1 / 1000000) 2) ∧
    (∃ out, (quantum_hadamard (Env.plainOf (1 / 1000000) Real.sqrt) 0
        (quantum_new_qureg (Env.plainOf (1 / 1000000) Real.sqrt) 0 2 [])).bind
        (quantum_hadamard (Env.plainOf (1 / 1000000) Real.sqrt) 0) = some out ∧
      out.reg.size = 1 ∧ out.reg.state = some [0] ∧ out.reg.amplitude = [1]) :=
  ⟨(claim_C9_hadamard_twice (Env.plainOf (1 / 1000000) Real.sqrt) ⟨rfl, rfl, fun _ => rfl⟩
    (Real.mul_self_sqrt (by norm_num)) (by
      show (0 : ℝ) ≤ 1 / 1000000
      norm_num)
    (quantum_new_qureg (Env.plainOf (1 / 1000000) Real.sqrt) 0 2 []) [0] ⟨rfl, rfl, rfl⟩
    (by decide) (by decide) 0 (by decide) (by decide) (by decide)).imp
      (fun _ h => ⟨h.1, h.2.1⟩),
   hadamard_twice_new (Env.plainOf (1 / 1000000) Real.sqrt) ⟨rfl, rfl, fun _ => rfl⟩
    (Real.mul_self_sqrt (by norm_num)) (by
      show (0 : ℝ) < 1 / 1000000
      norm_num) (by
      show (1 / 1000000 : ℝ) ≤ 1
      norm_num) 2 (by decide) (by decide) []⟩

end Libquantum

namespace Libquantum

variable {R : Type} [LinearOrderedField R]

/-! ## The general two-qubit gate -/

/-- C21, the code at failing inputs. (1) On `regThree` (entries `|00>: 1/2`,
`|01>: 1/3`, `|10>: 1/5`) with the targets 0 and 1 and the matrix that
exchanges the components 0 and 3, the amplitude `1/2` belongs to the missing
basis state `|11>`; `quantum_gate2` stores it under the label 0, the label of
the new entry never being written, and no entry has the label 3. (2) `regFour`
and `regFourSwapped` hold the same amplitude vector; with the matrix that
exchanges the components 0 and 1 the gate exchanges the amplitudes of `|00>`
and `|10>` on the first and those of `|01>` and `|11>` on the second, so the
map applied depends on the order of the entries. -/
theorem claim_C21_gate2_slips :
    (quantum_gate2 Env.plainQ 0 1 matSwap03 regThree).map
        (fun r => (r.size, r.state, r.amplitude)) =
      some (3, some [1, 2, 0], [⟨1 / 3, 0⟩, ⟨1 / 5, 0⟩, ⟨1 / 2, 0⟩]) ∧
    (List.range 4).map regFour.ampAt = (List.range 4).map regFourSwapped.ampAt ∧
    (quantum_gate2 Env.plainQ 0 1 matSwap01 regFour).map
        (fun r => (r.ampAt 0, r.ampAt 1, r.ampAt 2, r.ampAt 3)) =
      some (⟨1 / 5, 0⟩, ⟨1 / 3, 0⟩, ⟨1 / 2, 0⟩, ⟨1 / 7, 0⟩) ∧
    (quantum_gate2 Env.plainQ 0 1 matSwap01 regFourSwapped).map
        (fun r => (r.ampAt 0, r.ampAt 1, r.ampAt 2, r.ampAt 3)) =
      some (⟨1 / 2, 0⟩, ⟨1 / 7, 0⟩, ⟨1 / 5, 0⟩, ⟨1 / 3, 0⟩) :=
  ⟨by decide!, by decide!, by decide!, by decide!⟩

/-! ## The gate counter -/

theorem toInt32_of_range (x : Int) (h1 : -2 ^ 31 ≤ x) (h2 : x < 2 ^ 31) : toInt32 x = x := by
  unfold toInt32
  rw [Int.emod_eq_of_lt (by omega) (by omega)]
  omega

/-- C25: the gate counter starts at 0; absent `int` overflow,
`quantum_gate_counter(inc)` with `inc > 0` sets the counter to `old + inc` and
returns it, with `inc < 0` sets it to 0 and returns 0, with `inc = 0` leaves it
and returns it. Hence a counter that is not negative stays so, it decreases
only at a reset, and after any sequence of calls from the initial value the
counter is not negative. -/
theorem claim_C25_gate_counter (inc counter : Int) (h0 : 0 ≤ counter)
    (hov : counter + inc < 2 ^ 31) :
    gateCounterRun [] = 0 ∧
    (0 < inc → quantum_gate_counter inc counter = (counter + inc, counter + inc)) ∧
    (inc < 0 → quantum_gate_counter inc counter = (0, 0)) ∧
    (inc = 0 → quantum_gate_counter inc counter = (counter, counter)) ∧
    0 ≤ (quantum_gate_counter inc counter).1 ∧
    (0 ≤ inc → counter ≤ (quantum_gate_counter inc counter).1) ∧
    (quantum_gate_counter inc counter).2 = (quantum_gate_counter inc counter).1 := by
  refine ⟨rfl, ?_, ?_, ?_, ?_, ?_, rfl⟩
  · intro h
    unfold quantum_gate_counter
    simp only [gt_iff_lt, h, if_true]
    rw [toInt32_of_range _ (by omega) hov]
  · intro h
    unfold quantum_gate_counter
    simp only [gt_iff_lt, if_neg (by omega : ¬ 0 < inc), if_pos h]
  · intro h
    unfold quantum_gate_counter
    simp only [gt_iff_lt, if_neg (by omega : ¬ 0 < inc), if_neg (by omega : ¬ inc < 0)]
  · unfold quantum_gate_counter
    simp only [gt_iff_lt]
    split
    · rw [toInt32_of_range _ (by omega) hov]; omega
    · split
      · exact le_refl _
      · exact h0
  · intro h
    unfold quantum_gate_counter
    simp only [gt_iff_lt]
    split
    · rw [toInt32_of_range _ (by omega) hov]; omega
    · rw [if_neg (by omega)]

/-- Witness of C25: adding 3 to the counter 4 gives 7; the counter after the
calls with 2, 5, -1, 3 is 3. -/
theorem claim_C25_witness :
    quantum_gate_counter 3 4 = (7, 7) ∧ gateCounterRun [2, 5, -1, 3] = 3 :=
  ⟨(claim_C25_gate_counter 3 4 (by decide) (by decide)).2.1 (by decide), by decide⟩

end Libquantum

namespace Libquantum

variable {R : Type} [LinearOrderedField R]

/-! ## The object-code recorder -/

theorem swaptheleads_handled_loop (env : Env R) (hh : env.handled = true) (width : Nat)
    (w : World R) (k : Nat) (s : World R × Bool) (hs : s.1.reg = w.reg) :
    (forLoop k (fun i (s : World R × Bool) =>
      if s.2 then s
      else
        let p := quantum_objcode_put env Opcode.SWAPLEADS [width] [] s.1
        if p.1 then (p.2, true)
        else
          ({ p.2 with reg := p.2.reg.setLabel i (swapLabel width (p.2.reg.label i)) },
            false)) s).1.reg = w.reg := by
  induction k with
  | zero => exact hs
  | succ k ih =>
    rw [forLoop_succ]
    generalize forLoop k _ s = s1 at ih ⊢
    simp only [quantum_objcode_put, hh, if_true]
    split
    · exact ih
    · exact ih

/-- C23: with QEC off, if `quantum_objcode_put` answers "handled", each of the
gates sigma_x, sigma_y, sigma_z, cnot, toffoli, swaptheleads, hadamard, r_x,
r_y, r_z, phase_scale, phase_kick, cond_phase, cond_phase_kick and
cond_phase_shift returns with the register unchanged: the same width, size,
labels, amplitudes and hash as before the call. -/
theorem claim_C23_handled (env : Env R) (hq : env.qec = false) (hh : env.handled = true)
    (tr : Trig R) (w : World R) (c c2 t : Nat) (gamma : R) :
    (quantum_sigma_x env t w).reg = w.reg ∧
    (quantum_sigma_y env t w).reg = w.reg ∧
    (quantum_sigma_z env t w).reg = w.reg ∧
    (quantum_cnot env c t w).reg = w.reg ∧
    (quantum_toffoli env c c2 t w).reg = w.reg ∧
    (quantum_swaptheleads env t w).reg = w.reg ∧
    (quantum_hadamard env t w).map (fun o => o.reg) = some w.reg ∧
    (quantum_r_x env tr t gamma w).map (fun o => o.reg) = some w.reg ∧
    (quantum_r_y env tr t gamma w).map (fun o => o.reg) = some w.reg ∧
    (quantum_r_z env tr t gamma w).reg = w.reg ∧
    (quantum_phase_scale env tr t gamma w).reg = w.reg ∧
    (quantum_phase_kick env tr t gamma w).reg = w.reg ∧
    (quantum_cond_phase env tr c t w).reg = w.reg ∧
    (quantum_cond_phase_kick env tr c t gamma w).reg = w.reg ∧
    (quantum_cond_phase_shift env tr c t gamma w).reg = w.reg := by
  refine ⟨?_, ?_, ?_, ?_, ?_, ?_, ?_, ?_, ?_, ?_, ?_, ?_, ?_, ?_, ?_⟩
  · simp only [quantum_sigma_x, quantum_objcode_put, hq, hh, Bool.false_eq_true, if_false,
      if_true]
  · simp only [quantum_sigma_y, quantum_objcode_put, hh, if_true]
  · simp only [quantum_sigma_z, quantum_objcode_put, hh, if_true]
  · simp only [quantum_cnot, quantum_objcode_put, hq, hh, Bool.false_eq_true, if_false,
      if_true]
  · simp only [quantum_toffoli, quantum_objcode_put, hq, hh, Bool.false_eq_true, if_false,
      if_true]
  · unfold quantum_swaptheleads
    rw [if_neg (by rw [hq]; decide)]
    exact swaptheleads_handled_loop env hh t w w.reg.size (w, false) rfl
  · simp only [quantum_hadamard, quantum_objcode_put, hh, if_true, Option.map_some']
  · simp only [quantum_r_x, quantum_objcode_put, hh, if_true, Option.map_some']
  · simp only [quantum_r_y, quantum_objcode_put, hh, if_true, Option.map_some']
  · simp only [quantum_r_z, quantum_objcode_put, hh, if_true]
  · simp only [quantum_phase_scale, quantum_objcode_put, hh, if_true]
  · simp only [quantum_phase_kick, quantum_objcode_put, hh, if_true]
  · simp only [quantum_cond_phase, quantum_objcode_put, hh, if_true]
  · simp only [quantum_cond_phase_kick, quantum_objcode_put, hh, if_true]
  · simp only [quantum_cond_phase_shift, quantum_objcode_put, hh, if_true]

/-- Witness of C23: the gates on the register `regQ` with a recorder that
handles every call. -/
theorem claim_C23_witness :
    (quantum_swaptheleads { Env.plainQ with handled := true } 1 ⟨regQ, []⟩).reg = regQ ∧
    (quantum_hadamard { Env.plainQ with handled := true } 0 ⟨regQ, []⟩).map (fun o => o.reg) =
      some regQ :=
  ⟨(claim_C23_handled { Env.plainQ with handled := true } rfl rfl ⟨fun _ => 1, fun _ => 0, 3⟩
      ⟨regQ, []⟩ 0 0 1 0).2.2.2.2.2.1,
    (claim_C23_handled { Env.plainQ with handled := true } rfl rfl ⟨fun _ => 1, fun _ => 0, 3⟩
      ⟨regQ, []⟩ 0 0 0 0).2.2.2.2.2.2.1⟩

/-- C24, the code at a failing input: `quantum_swaptheleads` calls
`quantum_objcode_put` inside its loop over the entries. On the register
`regThree` of three entries (recorder not handling, QEC off) the call
`quantum_swaptheleads(1)` appends three records, the second and third after the
label of the second entry has been changed from 1 to 2; on an empty register it
appends none. `quantum_cnot` on the same register appends one record. -/
theorem claim_C24_swaptheleads_records :
    (quantum_swaptheleads Env.plainQ 1 ⟨regThree, []⟩).objcode.length = 3 ∧
    (quantum_swaptheleads Env.plainQ 1 ⟨regThree, []⟩).reg.state = some [0, 2, 1] ∧
    (quantum_swaptheleads Env.plainQ 1
      ⟨(quantum_new_qureg_sparse 0 2 : quantum_reg ℚ), []⟩).objcode.length = 0 ∧
    (quantum_cnot Env.plainQ 0 1 ⟨regThree, []⟩).objcode.length = 1 :=
  ⟨by decide!, by decide!, by decide!, by decide!⟩

end Libquantum

namespace Libquantum

variable {R : Type} [LinearOrderedField R]

/-! ## The dense conversion -/

theorem count_loop (P : Nat → Bool) (k : Nat) :
    forLoop k (fun i (size : Nat) => if P i then size + 1 else size) 0 =
      ((List.range k).filter P).length := by
  induction k with
  | zero => rfl
  | succ k ih =>
    rw [forLoop_succ, ih, filter_range_succ]
    split <;> simp

/-- The register that `quantum_matrix2qureg` builds, in closed form: the
indices of the non-zero components in increasing order, with their
components. -/
theorem matrix2qureg_eq (m : quantum_matrix R) (width : Nat) (hc : m.cols = 1) :
    quantum_matrix2qureg m width = some
      { width := width,
        size := ((List.range m.rows).filter (fun i => decide (m.t.getD i 0 ≠ 0))).length,
        hashw := width + 2,
        amplitude := ((List.range m.rows).filter (fun i => decide (m.t.getD i 0 ≠ 0))).map
          (fun i => m.t.getD i 0),
        state := some ((List.range m.rows).filter (fun i => decide (m.t.getD i 0 ≠ 0))),
        hash := List.replicate (shlInt (width + 2)) 0 } := by
  unfold quantum_matrix2qureg
  rw [if_neg (by rw [hc]; decide)]
  have hcount := count_loop (fun i => decide (m.t.getD i 0 ≠ 0)) m.rows
  simp only [decide_eq_true_eq] at hcount
  simp only [hcount]
  have hcol := collect_loop
    ({ width := width,
       size := ((List.range m.rows).filter (fun i => decide (m.t.getD i 0 ≠ 0))).length,
       hashw := width + 2,
       amplitude := List.replicate
         ((List.range m.rows).filter (fun i => decide (m.t.getD i 0 ≠ 0))).length 0,
       state := some (List.replicate
         ((List.range m.rows).filter (fun i => decide (m.t.getD i 0 ≠ 0))).length 0),
       hash := List.replicate (shlInt (width + 2)) 0 } : quantum_reg R)
    _ rfl rfl (fun i => decide (m.t.getD i 0 ≠ 0)) (fun i => i) (fun i => m.t.getD i 0)
    m.rows (le_refl _)
  simp only [decide_eq_true_eq] at hcol
  rw [hcol]
  simp

end Libquantum

namespace Libquantum

variable {R : Type} [LinearOrderedField R]

theorem four_mul_le_hash (size width : Nat) (h : size ≤ 2 ^ width) :
    4 * size ≤ 2 ^ (width + 2) := by
  rw [pow_succ, pow_succ]
  omega

/-- C22: every freshly constructed register has `hashw = width + 2` and at
most `2^width` entries, hence `4 * size <= 2^hashw`. `quantum_new_qureg`
returns the single entry with label `v` and amplitude 1; `quantum_matrix2qureg`
returns on a column vector, and whenever it returns on a matrix of at most
`2^w` rows its result has width `w`; `quantum_kronecker` is taken on registers
whose labels are pairwise distinct and below `2^width`. -/
theorem claim_C22_fresh_registers (env : Env R) (v w : Nat) (log : List (ObjRecord R))
    (m : quantum_matrix R) (hrows : m.rows ≤ 2 ^ w)
    (r1 r2 : quantum_reg R) (st1 st2 : List Nat) (h1 : r1.Stored st1) (h2 : r2.Stored st2)
    (hnd1 : st1.Nodup) (hnd2 : st2.Nodup)
    (hl1 : ∀ x ∈ st1, x < 2 ^ r1.width) (hl2 : ∀ x ∈ st2, x < 2 ^ r2.width) :
    ((quantum_new_qureg env v w log).reg.width = w ∧
      (quantum_new_qureg env v w log).reg.hashw = w + 2 ∧
      (quantum_new_qureg env v w log).reg.size = 1 ∧
      (quantum_new_qureg env v w log).reg.state = some [v] ∧
      (quantum_new_qureg env v w log).reg.amplitude = [1] ∧
      4 * (quantum_new_qureg env v w log).reg.size ≤
        2 ^ (quantum_new_qureg env v w log).reg.hashw) ∧
    ((m.cols = 1 → ∃ r, quantum_matrix2qureg m w = some r) ∧
      ∀ r, quantum_matrix2qureg m w = some r →
        r.width = w ∧ r.hashw = r.width + 2 ∧ r.size ≤ 2 ^ r.width ∧
        4 * r.size ≤ 2 ^ r.hashw) ∧
    ((quantum_kronecker r1 r2).hashw = (quantum_kronecker r1 r2).width + 2 ∧
      (quantum_kronecker r1 r2).size ≤ 2 ^ (quantum_kronecker r1 r2).width ∧
      4 * (quantum_kronecker r1 r2).size ≤ 2 ^ (quantum_kronecker r1 r2).hashw) := by
  refine ⟨⟨rfl, rfl, rfl, rfl, rfl, ?_⟩, ⟨fun hc => ⟨_, matrix2qureg_eq m w hc⟩, ?_⟩, ?_⟩
  · show 4 * 1 ≤ 2 ^ (w + 2)
    exact four_mul_le_hash 1 w Nat.one_le_two_pow
  · intro r hr
    by_cases hc : m.cols = 1
    · rw [matrix2qureg_eq m w hc] at hr
      have hr2 := (Option.some.inj hr).symm
      have hsz : r.size ≤ 2 ^ w := by
        rw [hr2]
        show (List.filter _ _).length ≤ _
        refine le_trans (List.length_filter_le _ _) ?_
        rw [List.length_range]
        exact hrows
      have hw : r.width = w := by rw [hr2]
      have hh : r.hashw = w + 2 := by rw [hr2]
      refine ⟨hw, by rw [hh, hw], by rw [hw]; exact hsz, ?_⟩
      rw [hh]
      exact four_mul_le_hash _ _ hsz
    · unfold quantum_matrix2qureg at hr
      rw [if_pos (by simpa using hc)] at hr
      exact absurd hr (by simp)
  · obtain ⟨k1, k2, k3⟩ := kronecker_width_size r1 r2
    have hs1 : r1.size ≤ 2 ^ r1.width := by
      rw [← h1.2.1]; exact nodup_length_le st1 hnd1 _ hl1
    have hs2 : r2.size ≤ 2 ^ r2.width := by
      rw [← h2.2.1]; exact nodup_length_le st2 hnd2 _ hl2
    have hsz : r1.size * r2.size ≤ 2 ^ (r1.width + r2.width) := by
      rw [pow_add]
      exact Nat.mul_le_mul hs1 hs2
    rw [k1, k2, k3]
    exact ⟨rfl, hsz, four_mul_le_hash _ _ hsz⟩

/-- C22 at a concrete input: the column vector `(0, 1/2)` at width 1 and the
Kronecker product of the three-entry register of width 2 with itself. -/
theorem claim_C22_witness :
    (2 : Nat) ≤ 2 ^ 1 ∧ regThree.Stored [0, 1, 2] ∧ [0, 1, 2].Nodup ∧
    (∀ x ∈ [0, 1, 2], x < 2 ^ regThree.width) ∧
    (∃ r, quantum_matrix2qureg (⟨2, 1, [0, ⟨1 / 2, 0⟩]⟩ : quantum_matrix ℚ) 1 = some r) ∧
    4 * (quantum_kronecker regThree regThree).size ≤
      2 ^ (quantum_kronecker regThree regThree).hashw :=
  ⟨by decide, ⟨rfl, rfl, rfl⟩, by decide, by decide,
    (claim_C22_fresh_registers Env.plainQ 0 1 [] (⟨2, 1, [0, ⟨1 / 2, 0⟩]⟩ : quantum_matrix ℚ)
      (by decide) regThree regThree [0, 1, 2] [0, 1, 2] ⟨rfl, rfl, rfl⟩ ⟨rfl, rfl, rfl⟩
      (by decide) (by decide) (by decide) (by decide)).2.1.1 rfl,
    (claim_C22_fresh_registers Env.plainQ 0 1 [] (⟨2, 1, [0, ⟨1 / 2, 0⟩]⟩ : quantum_matrix ℚ)
      (by decide) regThree regThree [0, 1, 2] [0, 1, 2] ⟨rfl, rfl, rfl⟩ ⟨rfl, rfl, rfl⟩
      (by decide) (by decide) (by decide) (by decide)).2.2.2.2⟩

end Libquantum

namespace Libquantum

variable {R : Type} [LinearOrderedField R]

/-! ## The label invariants under the label-permuting gates -/

theorem shl1_lt_two_pow {t width : Nat} (ht : t < width) : shl1 t < 2 ^ width := by
  by_cases h : t < 64
  · rw [shl1_eq h]
    exact Nat.pow_lt_pow_right (by decide) ht
  · rw [shl1_ge (by omega)]
    exact Nat.two_pow_pos _

/-- A conditional flip of a bit whose condition does not look at that bit is
an involution. -/
theorem condXor_twice (P : Nat → Prop) [DecidablePred P] (s : Nat)
    (hP : ∀ x, P (x ^^^ s) ↔ P x) (x : Nat) :
    (fun x => if P x then x ^^^ s else x) ((fun x => if P x then x ^^^ s else x) x) = x := by
  by_cases h : P x
  · simp only [h, if_true, (hP x).2 h, Nat.xor_assoc, Nat.xor_self, Nat.xor_zero]
  · simp only [h, if_false]

theorem condXor_labelsOk (P : Nat → Prop) [DecidablePred P] (t : Nat)
    (hP : ∀ x, P (x ^^^ shl1 t) ↔ P x) (reg : quantum_reg R) (amps : List (Cplx R))
    (st : List Nat) (h : reg.Stored st) (hnd : st.Nodup) (hlt : ∀ x ∈ st, x < 2 ^ reg.width)
    (ht : t < reg.width) (ha : amps.length = reg.size) :
    ({ reg with state := some (st.map (fun x => if P x then x ^^^ shl1 t else x)),
                amplitude := amps } : quantum_reg R).LabelsOk := by
  refine ⟨_, ⟨rfl, by rw [List.length_map]; exact h.2.1, ha⟩, ?_, ?_⟩
  · exact hnd.map (Function.Involutive.injective
      (f := fun x => if P x then x ^^^ shl1 t else x) (condXor_twice P (shl1 t) hP))
  · intro y hy
    obtain ⟨x, hx, rfl⟩ := List.mem_map.1 hy
    show _ < 2 ^ reg.width
    by_cases hp : P x
    · simp only [hp, if_true]
      exact Nat.xor_lt_two_pow (hlt x hx) (shl1_lt_two_pow ht)
    · simp only [hp, if_false]
      exact hlt x hx

theorem reg_with_amplitude_self (reg : quantum_reg R) (l : List Nat) :
    ({ reg with state := some l } : quantum_reg R) =
      { reg with state := some l, amplitude := reg.amplitude } := rfl

/-- C26: with QEC off and the recorder not handling the call, sigma_x,
sigma_y, cnot with control different from the target, toffoli with both
controls different from the target and the unbounded toffoli with the target
not among the controls (bit indices below the width) keep the invariant on the
labels: they are distinct and below `2^width` after the gate when they were
before. -/
theorem claim_C26_label_gates_invariant (env : Env R) (hp : env.Plain) (w : World R)
    (hok : w.reg.LabelsOk) (t c c1 c2 : Nat) (controls : List Nat)
    (ht : t < w.reg.width) (hc : c < w.reg.width) (hc1 : c1 < w.reg.width)
    (hc2 : c2 < w.reg.width) (hcs : ∀ k ∈ controls, k < w.reg.width)
    (hct : c ≠ t) (hc1t : c1 ≠ t) (hc2t : c2 ≠ t) (htc : t ∉ controls) :
    (quantum_sigma_x env t w).reg.LabelsOk ∧
    (quantum_sigma_y env t w).reg.LabelsOk ∧
    (quantum_cnot env c t w).reg.LabelsOk ∧
    (quantum_toffoli env c1 c2 t w).reg.LabelsOk ∧
    (quantum_unbounded_toffoli env controls t w).reg.LabelsOk := by
  obtain ⟨st, h, hnd, hlt⟩ := hok
  refine ⟨?_, ?_, ?_, ?_, ?_⟩
  · rw [sigma_x_reg env hp t w st h]
    have := condXor_labelsOk (fun _ => True) t (fun _ => Iff.rfl) w.reg w.reg.amplitude st h
      hnd hlt ht h.2.2
    simpa using this
  · rw [sigma_y_reg env hp t w st h]
    have := condXor_labelsOk (fun _ => True) t (fun _ => Iff.rfl) w.reg
      (List.zipWith (fun x z =>
          if (x ^^^ shl1 t) &&& shl1 t ≠ 0 then z * Cplx.I else z * -Cplx.I)
          st w.reg.amplitude) st h hnd hlt ht
      (by rw [List.length_zipWith, h.2.1, h.2.2, Nat.min_self])
    simpa using this
  · rw [cnot_reg env hp c t w st h]
    exact condXor_labelsOk (fun x => x &&& shl1 c ≠ 0) t
      (fun x => by simp only [and_shl1_xor_shl1 x hct]) w.reg w.reg.amplitude st h hnd hlt ht h.2.2
  · rw [toffoli_reg env hp c1 c2 t w st h]
    exact condXor_labelsOk (fun x => x &&& shl1 c1 ≠ 0 ∧ x &&& shl1 c2 ≠ 0) t
      (fun x => by simp only [and_shl1_xor_shl1 x hc1t, and_shl1_xor_shl1 x hc2t])
      w.reg w.reg.amplitude st h hnd hlt ht h.2.2
  · rw [unbounded_toffoli_reg env hp controls t w st h]
    refine condXor_labelsOk (fun x => ∀ k ∈ controls, x &&& shl1 k ≠ 0) t
      (fun x => ?_) w.reg w.reg.amplitude st h hnd hlt ht h.2.2
    constructor
    · intro hx k hk
      rw [← and_shl1_xor_shl1 x (fun e => htc (e ▸ hk) : k ≠ t)]
      exact hx k hk
    · intro hx k hk
      rw [and_shl1_xor_shl1 x (fun e => htc (e ▸ hk) : k ≠ t)]
      exact hx k hk

/-- C26 at a concrete input: the three-entry register of width 2 under cnot
with control 0 and target 1. -/
theorem claim_C26_witness :
    (Env.plainQ).Plain ∧ regThree.LabelsOk ∧
    (quantum_cnot Env.plainQ 0 1 ⟨regThree, []⟩).reg.LabelsOk :=
  ⟨plainQ_plain, ⟨[0, 1, 2], ⟨rfl, rfl, rfl⟩, by decide, by decide⟩,
    (claim_C26_label_gates_invariant Env.plainQ plainQ_plain ⟨regThree, []⟩
      ⟨[0, 1, 2], ⟨rfl, rfl, rfl⟩, by decide, by decide⟩ 1 0 0 0 [0]
      (by decide) (by decide) (by decide) (by decide) (by decide) (by decide) (by decide)
      (by decide) (by decide)).2.2.1⟩

end Libquantum

namespace Libquantum

variable {R : Type} [LinearOrderedField R]

/-! ## The label invariants under `quantum_state_collapse` -/

theorem split_at_bit (x pos : Nat) :
    x = x % 2 ^ pos + 2 ^ pos * (x / 2 ^ pos % 2) + 2 ^ (pos + 1) * (x / 2 ^ (pos + 1)) := by
  have h1 := Nat.mod_add_div x (2 ^ pos)
  have h2 := Nat.mod_add_div (x / 2 ^ pos) 2
  have h3 : x / 2 ^ pos / 2 = x / 2 ^ (pos + 1) := by
    rw [Nat.div_div_eq_div_mul, pow_succ]
  rw [h3] at h2
  have h4 : 2 ^ pos * (x / 2 ^ pos) =
      2 ^ pos * (x / 2 ^ pos % 2) + 2 ^ (pos + 1) * (x / 2 ^ (pos + 1)) := by
    conv_lhs => rw [← h2]
    rw [pow_succ, Nat.mul_add, Nat.mul_assoc]
  omega

/-- The relabelling of `quantum_state_collapse` is injective on the labels that
share the bit `pos`. -/
theorem collapse_relabel_inj (pos x y : Nat) (hb : x.testBit pos = y.testBit pos)
    (he : x % 2 ^ pos + 2 ^ pos * (x / 2 ^ (pos + 1)) =
      y % 2 ^ pos + 2 ^ pos * (y / 2 ^ (pos + 1))) : x = y := by
  have hpos : 0 < 2 ^ pos := Nat.two_pow_pos _
  have hm : x % 2 ^ pos = y % 2 ^ pos := by
    have := congrArg (fun n => n % 2 ^ pos) he
    simp only [Nat.add_mul_mod_self_left, Nat.mod_mod] at this
    exact this
  have hq : x / 2 ^ (pos + 1) = y / 2 ^ (pos + 1) := by
    rw [hm] at he
    exact Nat.eq_of_mul_eq_mul_left hpos (Nat.add_left_cancel he)
  have hbit : x / 2 ^ pos % 2 = y / 2 ^ pos % 2 := by
    rw [Nat.testBit_to_div_mod, Nat.testBit_to_div_mod] at hb
    have hx := Nat.mod_two_eq_zero_or_one (x / 2 ^ pos)
    have hy := Nat.mod_two_eq_zero_or_one (y / 2 ^ pos)
    rcases hx with hx | hx <;> rcases hy with hy | hy <;> simp [hx, hy] at hb ⊢
  rw [split_at_bit x pos, split_at_bit y pos, hm, hq, hbit]

theorem collapse_relabel_lt (pos w x : Nat) (hpos : pos < w) (hx : x < 2 ^ w) :
    x % 2 ^ pos + 2 ^ pos * (x / 2 ^ (pos + 1)) < 2 ^ (w - 1) := by
  obtain ⟨d, rfl⟩ : ∃ d, w = pos + 1 + d := ⟨w - (pos + 1), by omega⟩
  have h2 : 0 < 2 ^ pos := Nat.two_pow_pos _
  have ha : x % 2 ^ pos < 2 ^ pos := Nat.mod_lt _ h2
  have hq : x / 2 ^ (pos + 1) < 2 ^ d := by
    apply Nat.div_lt_of_lt_mul
    rw [← pow_add]
    exact hx
  have e : pos + 1 + d - 1 = pos + d := by omega
  rw [e, pow_add 2 pos d]
  calc x % 2 ^ pos + 2 ^ pos * (x / 2 ^ (pos + 1))
      < 2 ^ pos + 2 ^ pos * (x / 2 ^ (pos + 1)) := by omega
    _ = 2 ^ pos * (x / 2 ^ (pos + 1) + 1) := by rw [Nat.mul_add, Nat.mul_one, Nat.add_comm]
    _ ≤ 2 ^ pos * 2 ^ d := Nat.mul_le_mul_left _ hq

theorem kept_labels (pos : Nat) (value : Int) (st : List Nat) (amps : List (Cplx R))
    (hlen : st.length = amps.length) (hnd : st.Nodup) :
    ((keptEntries pos value st amps).map Prod.fst).Nodup ∧
    ∀ y ∈ (keptEntries pos value st amps).map Prod.fst,
      y ∈ st ∧ (y.testBit pos = true ↔ value ≠ 0) := by
  have hsub : ((keptEntries pos value st amps).map Prod.fst).Sublist st := by
    have h1 : (keptEntries pos value st amps).Sublist (List.zip st amps) :=
      List.filter_sublist _
    have h2 := h1.map Prod.fst
    rw [List.map_fst_zip _ _ (by omega)] at h2
    exact h2
  refine ⟨hnd.sublist hsub, ?_⟩
  intro y hy
  refine ⟨hsub.subset hy, ?_⟩
  obtain ⟨e, he, rfl⟩ := List.mem_map.1 hy
  unfold keptEntries at he
  exact of_decide_eq_true (List.mem_filter.1 he).2

/-- C28: `quantum_state_collapse` keeps the invariant on the labels. For a
register of width at most 64 whose labels are pairwise distinct and below
`2^width`, and a position below the width, the result has width `width - 1`
and its labels are pairwise distinct and below `2^(width - 1)`; the relabelling
is injective on the labels that share the bit `pos`. -/
theorem claim_C28_collapse_labels (env : Env R) (reg : quantum_reg R) (hok : reg.LabelsOk)
    (pos : Nat) (value : Int) (hpos : pos < reg.width) (hw : reg.width ≤ 64) :
    (quantum_state_collapse env pos value reg).width = reg.width - 1 ∧
    (quantum_state_collapse env pos value reg).LabelsOk ∧
    ∀ x y : Nat, x.testBit pos = y.testBit pos →
      x % 2 ^ pos + 2 ^ pos * (x / 2 ^ (pos + 1)) =
        y % 2 ^ pos + 2 ^ pos * (y / 2 ^ (pos + 1)) → x = y := by
  obtain ⟨st, h, hnd, hlt⟩ := hok
  have hlab : ∀ x ∈ st, x < 2 ^ 64 := fun x hx =>
    lt_of_lt_of_le (hlt x hx) (Nat.pow_le_pow_right (by decide) hw)
  obtain ⟨k1, k2⟩ := kept_labels pos value st reg.amplitude (by rw [h.2.1, h.2.2]) hnd
  rw [state_collapse_eq env reg st h pos value hpos hw hlab]
  refine ⟨rfl, ⟨_, ⟨rfl, by rw [List.length_map], by
      show (List.map _ _).length = _
      rw [List.length_map]⟩, ?_, ?_⟩, collapse_relabel_inj pos⟩
  · have e : (keptEntries pos value st reg.amplitude).map (fun e =>
        e.1 % 2 ^ pos + 2 ^ pos * (e.1 / 2 ^ (pos + 1))) =
        ((keptEntries pos value st reg.amplitude).map Prod.fst).map (fun x =>
          x % 2 ^ pos + 2 ^ pos * (x / 2 ^ (pos + 1))) := by
      rw [List.map_map]; rfl
    rw [e]
    refine List.Nodup.map_on ?_ k1
    intro x hx y hy hxy
    refine collapse_relabel_inj pos x y ?_ hxy
    have bx := (k2 x hx).2
    have by1 := (k2 y hy).2
    cases hbx : x.testBit pos <;> cases hby : y.testBit pos <;> simp_all
  · intro y hy
    obtain ⟨e, he, rfl⟩ := List.mem_map.1 hy
    exact collapse_relabel_lt pos reg.width e.1 hpos
      (hlt _ (k2 _ (List.mem_map_of_mem Prod.fst he)).1)

/-- C28 at a concrete input: the three-entry register of width 2 collapsed at
position 0 with value 0 keeps the labels `0` and `1`. -/
theorem claim_C28_witness :
    regThree.LabelsOk ∧ (0 : Nat) < regThree.width ∧ regThree.width ≤ 64 ∧
    (quantum_state_collapse Env.plainQ 0 0 regThree).LabelsOk :=
  ⟨⟨[0, 1, 2], ⟨rfl, rfl, rfl⟩, by decide, by decide⟩, by decide, by decide,
    (claim_C28_collapse_labels Env.plainQ regThree
      ⟨[0, 1, 2], ⟨rfl, rfl, rfl⟩, by decide, by decide⟩ 0 0 (by decide) (by decide)).2.1⟩

end Libquantum

namespace Libquantum

variable {R : Type} [LinearOrderedField R]

/-! ## The label invariants under `quantum_gate1` -/

theorem gate1_limit_pos (epsilon : R) (he : 0 < epsilon) (w : Nat) :
    0 < gate1_limit epsilon w := by
  unfold gate1_limit
  exact mul_pos (by positivity) he

theorem absentIdx_length_le (st : List Nat) (b c : Nat) : (absentIdx st b c).length ≤ c := by
  unfold absentIdx
  refine le_trans (List.length_filter_le _ _) ?_
  rw [List.length_range]

theorem absentIdx_sublist (st : List Nat) (b : Nat) {c n : Nat} (h : c ≤ n) :
    (absentIdx st b c).Sublist (absentIdx st b n) := by
  unfold absentIdx
  exact (List.range_sublist.2 h).filter _

/-- The compaction with a positive limit removes the cells that were added and
not filled: the labels it keeps are a sublist of the labels before them. -/
theorem compact_sublist (limit : R) (hl : 0 < limit) (L1 : List Nat) (z : Nat)
    (A : List (Cplx R)) (hA : A.length = L1.length + z)
    (hpad : ∀ p, L1.length ≤ p → A.getD p 0 = 0) :
    ((compactEntries limit (L1 ++ List.replicate z 0) A).map Prod.fst).Sublist L1 := by
  unfold compactEntries
  have hlen : (L1 ++ List.replicate z (0 : Nat)).length = A.length := by
    rw [List.length_append, List.length_replicate, hA]
  rw [← List.take_append_drop L1.length (List.zip (L1 ++ List.replicate z 0) A),
    List.filter_append]
  have hdrop : ((List.zip (L1 ++ List.replicate z 0) A).drop L1.length).filter
      (fun e => decide (¬ e.2.prob < limit)) = [] := by
    rw [List.filter_eq_nil_iff]
    intro e he
    obtain ⟨j, hj, hje⟩ := List.getElem_of_mem he
    rw [List.getElem_drop, List.getElem_zip] at hje
    have hjlt : L1.length + j < A.length := by
      rw [List.length_drop, List.length_zip] at hj
      omega
    have h0 : e.2 = 0 := by
      have h3 := hpad (L1.length + j) (by omega)
      rw [getD_of_lt A _ 0 hjlt] at h3
      rw [← hje]
      exact h3
    rw [h0, prob_zero]
    simpa using hl
  rw [hdrop, List.append_nil]
  have h1 := (List.filter_sublist (p := fun e : Nat × Cplx R => decide (¬ e.2.prob < limit))
    ((List.zip (L1 ++ List.replicate z 0) A).take L1.length)).map Prod.fst
  have h2 : ((List.zip (L1 ++ List.replicate z 0) A).take L1.length).map Prod.fst = L1 := by
    rw [List.map_take, List.map_fst_zip _ _ (by omega), List.take_left]
  rw [h2] at h1
  exact h1

theorem pass_labels_lt (st : List Nat) (b w : Nat) (hb : b < 2 ^ w)
    (hlt : ∀ x ∈ st, x < 2 ^ w) :
    ∀ x ∈ st ++ (absentIdx st b st.length).map (fun q => st.getD q 0 ^^^ b), x < 2 ^ w := by
  intro x hx
  rcases List.mem_append.1 hx with h | h
  · exact hlt x h
  · have h2 := ((mem_appended st b x).1 h).2
    have := Nat.xor_lt_two_pow (hlt _ h2) hb
    rw [xor_xor_cancel] at this
    exact this

/-- The register that `quantum_gate1` returns, for every target below 64, on a
register in sparse mode with pairwise distinct labels and a table that is not
full (`epsilon > 0`, no decoherence): its table is the table rebuilt from the
labels at entry, and its labels are a sublist of the labels at entry followed
by the partners that were missing. -/
theorem gate1_out (env : Env R) (hd : ∀ r, env.decohere r = r) (he : 0 < env.epsilon)
    (target : Nat) (m : quantum_matrix R) (hc : m.cols = 2) (hr : m.rows = 2)
    (reg : quantum_reg R) (st : List Nat) (hS : reg.Stored st) (hnd : st.Nodup)
    (hh : reg.hashw ≠ 0) (hsize : reg.size < 2 ^ reg.hashw) (ht : target < 64) :
    ∃ (T : List Nat) (out : quantum_reg R) (L : List Nat),
      HashInv env.seed (2 ^ reg.hashw) st T st.length ∧
      quantum_reconstruct_hash env.seed reg = some { reg with hash := T } ∧
      quantum_gate1 env target m reg = some out ∧ out.Stored L ∧ out.hash = T ∧
      out.width = reg.width ∧ out.hashw = reg.hashw ∧
      L.Sublist (st ++ (absentIdx st (shl1 target) st.length).map
        (fun q => st.getD q 0 ^^^ shl1 target)) := by
  obtain ⟨T, c, A, hinv, hcn, hlen, hpad, hpass⟩ :=
    gate1_pass_lab env.seed target m reg st hS hnd hh hsize ht
  obtain ⟨_, _, _, _, hrec⟩ := gate1_pass_stored env.seed target m reg st hS hh _ hpass
  have hmid : ({ reg with
      hash := T
      size := reg.size + (absentIdx st (shl1 target) st.length).length
      state := some (passLabels st (shl1 target)
        (absentIdx st (shl1 target) st.length).length c)
      amplitude := A } : quantum_reg R).Stored
      (passLabels st (shl1 target) (absentIdx st (shl1 target) st.length).length c) := by
    have hsubc := (absentIdx_sublist st (shl1 target) hcn).length_le
    refine ⟨rfl, ?_, ?_⟩
    · show (passLabels _ _ _ _).length = reg.size + _
      unfold passLabels
      rw [List.length_append, List.length_append, List.length_map, List.length_replicate]
      have h4 := hS.2.1
      omega
    · show A.length = reg.size + _
      have h4 := hS.2.1
      omega
  have hout : quantum_gate1 env target m reg = some
      (gate1_compact (gate1_limit env.epsilon reg.width) { reg with
        hash := T
        size := reg.size + (absentIdx st (shl1 target) st.length).length
        state := some (passLabels st (shl1 target)
          (absentIdx st (shl1 target) st.length).length c)
        amplitude := A }) := by
    unfold quantum_gate1
    rw [if_neg (by rw [hc, hr]; simp), hpass]
    simp only [Option.map_some', if_pos hh, hd]
  have hlen1 : (st ++ (absentIdx st (shl1 target) c).map
      (fun q => st.getD q 0 ^^^ shl1 target)).length =
      st.length + (absentIdx st (shl1 target) c).length := by
    rw [List.length_append, List.length_map]
  have hsubc := absentIdx_sublist st (shl1 target) hcn
  have hsub := compact_sublist (gate1_limit env.epsilon reg.width)
    (gate1_limit_pos _ he _)
    (st ++ (absentIdx st (shl1 target) c).map (fun q => st.getD q 0 ^^^ shl1 target))
    ((absentIdx st (shl1 target) st.length).length - (absentIdx st (shl1 target) c).length)
    A (by
      rw [hlen, hlen1]
      have h3 := hsubc.length_le
      omega)
    (fun p hp => hpad p (by rw [hlen1] at hp; exact hp))
  have hfull : (st ++ (absentIdx st (shl1 target) c).map
      (fun q => st.getD q 0 ^^^ shl1 target)).Sublist
      (st ++ (absentIdx st (shl1 target) st.length).map
        (fun q => st.getD q 0 ^^^ shl1 target)) :=
    (List.Sublist.refl st).append (hsubc.map _)
  rw [gate1_compact_eq _ _ _ hmid] at hout
  refine ⟨T, _, _, hinv, ?_, hout, ⟨rfl, by rw [List.length_map], by
      show (List.map _ _).length = _
      rw [List.length_map]⟩, rfl, rfl, rfl, hsub.trans hfull⟩
  exact hrec

/-- C27: `quantum_gate1` keeps the invariant on the labels. On a register in
sparse mode with a hash table that is not full (pairwise distinct labels below
`2^width`, width at most 64), for a target below the width and any 2x2 matrix,
with a positive `epsilon` and no decoherence, the gate returns a register of the
same width whose labels are pairwise distinct and below `2^width`, and whose
size is at most twice the size before the call. -/
theorem claim_C27_gate1_invariant (env : Env R) (hd : ∀ r, env.decohere r = r)
    (he : 0 < env.epsilon) (target : Nat) (m : quantum_matrix R) (hc : m.cols = 2)
    (hr : m.rows = 2) (reg : quantum_reg R) (hok : reg.LabelsOk) (hh : reg.hashw ≠ 0)
    (hsize : reg.size < 2 ^ reg.hashw) (ht : target < reg.width) (hw : reg.width ≤ 64) :
    ∃ out, quantum_gate1 env target m reg = some out ∧ out.LabelsOk ∧
      out.width = reg.width ∧ out.size ≤ 2 * reg.size := by
  obtain ⟨st, hS, hnd, hlt⟩ := hok
  obtain ⟨T, out, L, _, _, hout, hSL, _, hwd, _, hsub⟩ :=
    gate1_out env hd he target m hc hr reg st hS hnd hh hsize (by omega)
  refine ⟨out, hout, ⟨L, hSL, ?_, ?_⟩, hwd, ?_⟩
  · exact (pass_labels_nodup st hnd (shl1 target)).sublist hsub
  · intro x hx
    rw [hwd]
    exact pass_labels_lt st (shl1 target) reg.width (shl1_lt_two_pow ht) hlt x
      (hsub.subset hx)
  · have h1 := hsub.length_le
    rw [List.length_append, List.length_map] at h1
    have h2 := absentIdx_length_le st (shl1 target) st.length
    have h4 := hS.2.1
    have h5 := hSL.2.1
    omega

/-- C27 at a concrete input: the register with the entries `|00>` and `|11>`
under the matrix with rows `1 1` and `1 -1` on target 0. -/
theorem claim_C27_witness :
    (∀ r, (Env.plainQ).decohere r = r) ∧ 0 < (Env.plainQ).epsilon ∧
    matQ.cols = 2 ∧ matQ.rows = 2 ∧ regQ.LabelsOk ∧ regQ.hashw ≠ 0 ∧
    regQ.size < 2 ^ regQ.hashw ∧ 0 < regQ.width ∧ regQ.width ≤ 64 ∧
    ∃ out, quantum_gate1 Env.plainQ 0 matQ regQ = some out ∧ out.LabelsOk ∧
      out.width = regQ.width ∧ out.size ≤ 2 * regQ.size :=
  ⟨fun _ => rfl, by decide!, rfl, rfl, ⟨[0, 3], ⟨rfl, rfl, rfl⟩, by decide, by decide⟩,
    by decide, by decide, by decide, by decide,
    claim_C27_gate1_invariant Env.plainQ (fun _ => rfl) (by decide!) 0 matQ rfl rfl regQ
      ⟨[0, 3], ⟨rfl, rfl, rfl⟩, by decide, by decide⟩ (by decide) (by decide) (by decide)
      (by decide)⟩

end Libquantum

namespace Libquantum

variable {R : Type} [LinearOrderedField R]

/-! ## The hash table after `quantum_gate1` -/

/-- Probing a table built from the labels `st` over another label array `L`
with pairwise distinct labels and at least as many cells: a position whose label
is the same in both arrays is found. -/
theorem probe_kept (seed : Nat → Nat) (n : Nat) (hn : 0 < n) (st T : List Nat)
    (hinv : HashInv seed n st T st.length) (L : List Nat) (hLnd : L.Nodup)
    (hLn : st.length ≤ L.length) (p : Nat) (hp : p < st.length)
    (hsame : L.getD p 0 = st.getD p 0) :
    hashProbeGet T L (st.getD p 0) n n (seed (st.getD p 0) % n) = some (p : Int) := by
  obtain ⟨hlen, hpos, hpath, hcount⟩ := hinv
  obtain ⟨k, hk, hkv, hkmin⟩ := hpath p hp
  apply hashProbeGet_first T L _ n hn _ k _ n hk ?_ hkmin ?_
  · intro k' _ hne hs
    have hq := hpos _ (Nat.mod_lt _ hn) hne
    generalize T.getD ((seed (st.getD p 0) + k') % n) 0 - 1 = q at hq hs ⊢
    rw [← hsame, getD_of_lt L q 0 (by omega), getD_of_lt L p 0 (by omega)] at hs
    have := (List.Nodup.getElem_inj_iff hLnd).1 hs
    rw [this]
  · right
    rw [hkv]
    exact ⟨by omega, hsame⟩

theorem get_state_congr (seed : Nat → Nat) (x : Nat) (r1 r2 : quantum_reg R)
    (h1 : r1.hash = r2.hash) (h2 : r1.state = r2.state) (h3 : r1.hashw = r2.hashw) :
    quantum_get_state seed x r1 = quantum_get_state seed x r2 := by
  unfold quantum_get_state
  rw [h1, h2, h3]

/-- C7, amended: `quantum_gate1` rebuilds the hash table at entry and does not
touch it afterwards. On a register in sparse mode with pairwise distinct labels
and fewer entries than slots (target below 64, `epsilon > 0`, no decoherence)
the gate returns a register with pairwise distinct labels whose table is the
table rebuilt from the labels at entry. In the returned register, as the gate
left it: if the size did not fall below the old size, looking up the label of a
position `p` below the old size whose label is the one it had at entry gives
`p`; if the label array is the one at entry (nothing appended, nothing
removed), looking up the label of every position `p` gives `p`; and if the old
entries all kept their places, looking up the label of an appended entry gives
`-1`. -/
theorem claim_C7_hash_of_entry_labels (env : Env R) (hd : ∀ r, env.decohere r = r)
    (he : 0 < env.epsilon) (target : Nat) (ht : target < 64) (m : quantum_matrix R)
    (hc : m.cols = 2) (hr : m.rows = 2)
    (reg : quantum_reg R) (st : List Nat) (h : reg.Stored st) (hh : reg.hashw ≠ 0)
    (hnd : st.Nodup) (hsize : reg.size < 2 ^ reg.hashw) :
    ∃ out L, quantum_gate1 env target m reg = some out ∧ out.Stored L ∧ L.Nodup ∧
      out.hashw = reg.hashw ∧
      quantum_reconstruct_hash env.seed reg = some { reg with hash := out.hash } ∧
      (reg.size ≤ out.size → ∀ p, p < reg.size → out.label p = reg.label p →
        quantum_get_state env.seed (out.label p) out = some (p : Int)) ∧
      (out.state = reg.state → ∀ p, p < out.size →
        quantum_get_state env.seed (out.label p) out = some (p : Int)) ∧
      (∀ ext, L = st ++ ext → ∀ p, reg.size ≤ p → p < out.size →
        quantum_get_state env.seed (out.label p) out = some (-1)) := by
  obtain ⟨T, out, L, hinv, hrec, hout, hSL, hT, hwd, hhw, hsub⟩ :=
    gate1_out env hd he target m hc hr reg st h hnd hh hsize ht
  have hLnd : L.Nodup := (pass_labels_nodup st hnd (shl1 target)).sublist hsub
  have hn : 0 < 2 ^ reg.hashw := Nat.pos_pow_of_pos _ (by decide)
  have hkept : reg.size ≤ out.size → ∀ p, p < reg.size → out.label p = reg.label p →
      quantum_get_state env.seed (out.label p) out = some (p : Int) := by
    intro hle p hp hlab
    have hp' : p < st.length := by rw [h.2.1]; exact hp
    have hrl : reg.label p = st.getD p 0 := by
      simp only [quantum_reg.label, h.1, Option.getD_some]
    have hol : out.label p = L.getD p 0 := by
      simp only [quantum_reg.label, hSL.1, Option.getD_some]
    rw [hlab, hrl]
    unfold quantum_get_state
    rw [hT, hSL.1, hhw, Option.getD_some]
    exact probe_kept env.seed _ hn st T hinv L hLnd (by rw [h.2.1, hSL.2.1]; exact hle) p hp'
      (by rw [← hol, hlab, hrl])
  refine ⟨out, L, hout, hSL, hLnd, hhw, by rw [hT]; exact hrec, hkept, ?_, ?_⟩
  · intro hst p hp
    have hL : L = st := by
      rw [hSL.1, h.1] at hst
      exact Option.some.inj hst
    have hsz : out.size = reg.size := by rw [← hSL.2.1, ← h.2.1, hL]
    exact hkept (by omega) p (by omega) (by simp only [quantum_reg.label, hst])
  · intro ext hL p hp1 hp2
    have hol : out.label p = L.getD p 0 := by
      simp only [quantum_reg.label, hSL.1, Option.getD_some]
    have hpL : p < L.length := by rw [hSL.2.1]; exact hp2
    have hnot : out.label p ∉ st := by
      intro hmem
      obtain ⟨q, hq, hqe⟩ := List.getElem_of_mem hmem
      have hqL : q < L.length := by rw [hL, List.length_append]; omega
      have e1 : L[q] = L[p] := by
        rw [← getD_of_lt L p 0 hpL, ← hol, ← hqe]
        simp only [hL]
        exact List.getElem_append_left hq
      have := (List.Nodup.getElem_inj_iff hLnd).1 e1
      rw [h.2.1] at hq
      omega
    rw [get_state_congr env.seed (out.label p) out
      ({ reg with hash := T, state := some (st ++ ext), amplitude := out.amplitude })
      hT (by rw [hSL.1, hL]) hhw,
      lookup_eq env.seed reg st ext T hnd hinv (by rw [h.2.1]; exact hsize) _ _,
      if_neg (fun hlt => hnot (List.indexOf_lt_length.1 hlt))]

/-- Witness of C7 (amended). The gate with the matrix `matQ` on bit 0 of the
register `regFour`, which stores all four basis states, appends and removes
nothing, and in the register it returns the label of every position `p` is
looked up as `p`. On the register `regQ` (labels 0 and 3) the partners 1 and 2
are appended: the label of position 1 is still looked up as 1, the label of
position 2 as `-1`. -/
theorem claim_C7_witness :
    regFour.Stored [0, 1, 2, 3] ∧ regQ.Stored [0, 3] ∧
    (∃ out, quantum_gate1 Env.plainQ 0 matQ regFour = some out ∧
      ∀ p, p < out.size → quantum_get_state Env.plainQ.seed (out.label p) out =
        some (p : Int)) ∧
    (∃ out, quantum_gate1 Env.plainQ 0 matQ regQ = some out ∧
      quantum_get_state Env.plainQ.seed (out.label 1) out = some 1 ∧
      quantum_get_state Env.plainQ.seed (out.label 2) out = some (-1)) := by
  refine ⟨⟨rfl, rfl, rfl⟩, ⟨rfl, rfl, rfl⟩, ?_, ?_⟩
  · obtain ⟨out, L, hout, _, _, _, _, _, hall, _⟩ :=
      claim_C7_hash_of_entry_labels Env.plainQ (fun _ => rfl) (by decide!) 0 (by decide) matQ
        rfl rfl regFour [0, 1, 2, 3] ⟨rfl, rfl, rfl⟩ (by decide) (by decide) (by decide)
    have hres : (quantum_gate1 Env.plainQ 0 matQ regFour).map (fun r => r.state) =
        some regFour.state := by decide!
    rw [hout] at hres
    exact ⟨out, hout, hall (Option.some.inj hres)⟩
  · obtain ⟨out, L, hout, hSL, _, _, _, hkept, _, happ⟩ :=
      claim_C7_hash_of_entry_labels Env.plainQ (fun _ => rfl) (by decide!) 0 (by decide) matQ
        rfl rfl regQ [0, 3] ⟨rfl, rfl, rfl⟩ (by decide) (by decide) (by decide)
    have hres : (quantum_gate1 Env.plainQ 0 matQ regQ).map (fun r => (r.state, r.size)) =
        some (some [0, 3, 1, 2], 4) := by decide!
    rw [hout] at hres
    have hres2 := Option.some.inj hres
    have hst : out.state = some [0, 3, 1, 2] := congrArg Prod.fst hres2
    have hsz : out.size = 4 := congrArg Prod.snd hres2
    have hL : L = [0, 3] ++ [1, 2] := by
      rw [hSL.1] at hst
      exact Option.some.inj hst
    refine ⟨out, hout, ?_, ?_⟩
    · exact hkept (by rw [hsz]; decide) 1 (by decide)
        (by simp only [quantum_reg.label, hst]; rfl)
    · exact happ [1, 2] hL 2 (by decide) (by rw [hsz]; decide)

end Libquantum
